import Mathlib

/-!
# Red-black tree (`red_black_tree.hpp`): a shallow embedding

The C++ class `RedBlackTree<Key, T>` is a pointer structure: nodes carry `parent`, `left`
and `right` pointers, and one sentinel node `nil_` stands for every absent child and for the
parent of the root.  The embedding keeps that structure: a state is a store of nodes addressed
by natural numbers together with the two members `root_` and `nil_`.  Every method of the class
is a function on states that performs the reads and writes of the C++ body in the same order.

* Address `0` is the null pointer; `new` hands out the address `brk` and increments it.
* `delete p` appends `p` to the log `freed`.
* A `while` loop is a recursive function with a fuel argument; running out of fuel is `none`.
  The public methods start their loops with `brk` units of fuel, which is more than the
  number of allocated nodes.
* `Key` is any linear order (`==` and `<` of the C++ code are `=` and `<`).
-/

namespace RBT

/-- The enum `Node::color`. -/
inductive Color where
  | BLACK
  | RED
deriving DecidableEq

/-- The struct `Node`: three pointers, the key/value pair and the colour. -/
structure Node (K V : Type) where
  parent : Nat
  left : Nat
  right : Nat
  value : K × V
  color : Color

/-- The class state: the members `root_` and `nil_`, and the store the pointers refer to.
`brk` is the first address never returned by `new`; `freed` logs the arguments of `delete`,
most recent first. -/
structure RedBlackTree (K V : Type) where
  root_ : Nat
  nil_ : Nat
  heap : Nat → Node K V
  brk : Nat
  freed : List Nat

/-- The null pointer. -/
def nullptr : Nat := 0

/-- A `Node**` as used by `Insert` and `operator[]`: the address of `root_`, of some node's
`left` member or of some node's `right` member. -/
inductive Slot where
  | root
  | left (a : Nat)
  | right (a : Nat)

/-- What `At` produces: a reference to the mapped value (modelled by the value), or the
exception `std::out_of_range`. -/
inductive AtResult (V : Type) where
  | value (v : V)
  | out_of_range

namespace RedBlackTree

variable {K V : Type}

/-- The write `a->parent = p`. -/
def setParent (s : RedBlackTree K V) (a p : Nat) : RedBlackTree K V :=
  { s with heap := Function.update s.heap a { s.heap a with parent := p } }

/-- The write `a->left = p`. -/
def setLeft (s : RedBlackTree K V) (a p : Nat) : RedBlackTree K V :=
  { s with heap := Function.update s.heap a { s.heap a with left := p } }

/-- The write `a->right = p`. -/
def setRight (s : RedBlackTree K V) (a p : Nat) : RedBlackTree K V :=
  { s with heap := Function.update s.heap a { s.heap a with right := p } }

/-- The write `a->color = c`. -/
def setColor (s : RedBlackTree K V) (a : Nat) (c : Color) : RedBlackTree K V :=
  { s with heap := Function.update s.heap a { s.heap a with color := c } }

/-- The write `root_ = p`. -/
def setRoot (s : RedBlackTree K V) (p : Nat) : RedBlackTree K V :=
  { s with root_ := p }

/-- The read `*now_ptr`. -/
def readSlot (s : RedBlackTree K V) : Slot → Nat
  | .root => s.root_
  | .left a => (s.heap a).left
  | .right a => (s.heap a).right

/-- The write `*now_ptr = p`. -/
def writeSlot (s : RedBlackTree K V) : Slot → Nat → RedBlackTree K V
  | .root, p => s.setRoot p
  | .left a, p => s.setLeft a p
  | .right a, p => s.setRight a p

/-- The constructor `RedBlackTree()`: `nil_ = new Node(); nil_->color = BLACK; root_ = nil_`.
`Node()` initialises no pointer member, so the sentinel keeps in `parent`, `left` and `right`
whatever the fresh memory `mem` held; its `value` is default-constructed. -/
def new [Inhabited K] [Inhabited V] (mem : Nat → Node K V) : RedBlackTree K V :=
  let nil_ := 1
  let heap := Function.update mem nil_ { mem nil_ with value := (default, default) }
  let heap := Function.update heap nil_ { heap nil_ with color := Color.BLACK }
  { root_ := nil_, nil_ := nil_, heap := heap, brk := 2, freed := [] }

/-- The method `LeftRotate(subtree_root_node)`. -/
def LeftRotate (s : RedBlackTree K V) (subtree_root_node : Nat) : RedBlackTree K V :=
  let new_root := (s.heap subtree_root_node).right
  let s := s.setRight subtree_root_node (s.heap new_root).left
  let s :=
    if (s.heap subtree_root_node).right ≠ s.nil_ then
      s.setParent (s.heap subtree_root_node).right subtree_root_node
    else s
  let s := s.setParent new_root (s.heap subtree_root_node).parent
  let s :=
    if (s.heap subtree_root_node).parent = s.nil_ then
      s.setRoot new_root
    else if (s.heap (s.heap subtree_root_node).parent).left = subtree_root_node then
      s.setLeft (s.heap subtree_root_node).parent new_root
    else
      s.setRight (s.heap subtree_root_node).parent new_root
  let s := s.setLeft new_root subtree_root_node
  s.setParent subtree_root_node new_root

/-- The method `RightRotate(subtree_root_node)`. -/
def RightRotate (s : RedBlackTree K V) (subtree_root_node : Nat) : RedBlackTree K V :=
  let new_root := (s.heap subtree_root_node).left
  let s := s.setLeft subtree_root_node (s.heap new_root).right
  let s :=
    if (s.heap subtree_root_node).left ≠ s.nil_ then
      s.setParent (s.heap subtree_root_node).left subtree_root_node
    else s
  let s := s.setParent new_root (s.heap subtree_root_node).parent
  let s :=
    if (s.heap subtree_root_node).parent = s.nil_ then
      s.setRoot new_root
    else if (s.heap (s.heap subtree_root_node).parent).left = subtree_root_node then
      s.setLeft (s.heap subtree_root_node).parent new_root
    else
      s.setRight (s.heap subtree_root_node).parent new_root
  let s := s.setRight new_root subtree_root_node
  s.setParent subtree_root_node new_root

/-- The loop of `Find`, started at `now`; the result is the final value of `now`. -/
def FindLoop [LinearOrder K] (s : RedBlackTree K V) (key : K) : Nat → Nat → Option Nat
  | 0, _ => none
  | fuel + 1, now =>
    if now ≠ s.nil_ then
      if (s.heap now).value.1 = key then some now
      else if (s.heap now).value.1 < key then FindLoop s key fuel (s.heap now).right
      else FindLoop s key fuel (s.heap now).left
    else some now

/-- The method `Find(key)`; an iterator is modelled by the node it holds. -/
def Find [LinearOrder K] (s : RedBlackTree K V) (key : K) : Option Nat :=
  FindLoop s key s.brk s.root_

/-- The method `End()`. -/
def End (s : RedBlackTree K V) : Nat := s.nil_

/-- The loop of `At`, started at `now`. -/
def AtLoop [LinearOrder K] (s : RedBlackTree K V) (key : K) : Nat → Nat → Option (AtResult V)
  | 0, _ => none
  | fuel + 1, now =>
    if now ≠ s.nil_ then
      if (s.heap now).value.1 = key then some (.value (s.heap now).value.2)
      else if (s.heap now).value.1 < key then AtLoop s key fuel (s.heap now).right
      else AtLoop s key fuel (s.heap now).left
    else some .out_of_range

/-- The method `At(key)`: the outcome and the state it leaves (the body has no write). -/
def At [LinearOrder K] (s : RedBlackTree K V) (key : K) :
    Option (AtResult V × RedBlackTree K V) :=
  (AtLoop s key s.brk s.root_).map fun r => (r, s)

/-- The descent loop shared in shape by `Insert` and `operator[]`, with the loop variables
`now_ptr` and `parent`.  `Sum.inl a`: the `return` inside the loop at the node `a` with an equal
key.  `Sum.inr (now_ptr, parent)`: the loop ended with `*now_ptr == nil_`. -/
def DescendLoop [LinearOrder K] (s : RedBlackTree K V) (key : K) :
    Nat → Slot → Nat → Option (Nat ⊕ (Slot × Nat))
  | 0, _, _ => none
  | fuel + 1, now_ptr, parent =>
    if s.readSlot now_ptr ≠ s.nil_ then
      let parent := s.readSlot now_ptr
      if key = (s.heap (s.readSlot now_ptr)).value.1 then some (.inl (s.readSlot now_ptr))
      else if key < (s.heap (s.readSlot now_ptr)).value.1 then
        DescendLoop s key fuel (.left (s.readSlot now_ptr)) parent
      else
        DescendLoop s key fuel (.right (s.readSlot now_ptr)) parent
    else some (.inr (now_ptr, parent))

/-- The loop of `InsertFixup` with loop variable `node`; the result is the state at loop
exit. -/
def InsertFixupLoop : Nat → RedBlackTree K V → Nat → Option (RedBlackTree K V)
  | 0, _, _ => none
  | fuel + 1, s, node =>
    if (s.heap (s.heap node).parent).color = Color.RED then
      let grandparent := (s.heap (s.heap node).parent).parent
      if (s.heap node).parent = (s.heap grandparent).left then
        let uncle := (s.heap grandparent).right
        if (s.heap uncle).color = Color.RED then
          let s := s.setColor (s.heap node).parent Color.BLACK
          let s := s.setColor uncle Color.BLACK
          let s := s.setColor grandparent Color.RED
          InsertFixupLoop fuel s grandparent
        else
          let r :=
            if node = (s.heap (s.heap node).parent).right then
              ((s.heap node).parent, LeftRotate s (s.heap node).parent)
            else (node, s)
          let node := r.1
          let s := r.2
          let s := s.setColor (s.heap node).parent Color.BLACK
          let s := s.setColor grandparent Color.RED
          let s := RightRotate s grandparent
          InsertFixupLoop fuel s node
      else
        let uncle := (s.heap grandparent).left
        if (s.heap uncle).color = Color.RED then
          let s := s.setColor (s.heap node).parent Color.BLACK
          let s := s.setColor uncle Color.BLACK
          let s := s.setColor grandparent Color.RED
          InsertFixupLoop fuel s grandparent
        else
          let r :=
            if node = (s.heap (s.heap node).parent).left then
              ((s.heap node).parent, RightRotate s (s.heap node).parent)
            else (node, s)
          let node := r.1
          let s := r.2
          let s := s.setColor (s.heap node).parent Color.BLACK
          let s := s.setColor grandparent Color.RED
          let s := LeftRotate s grandparent
          InsertFixupLoop fuel s node
    else some s

/-- The method `InsertFixup(node)`: the loop, then `root_->color = BLACK`. -/
def InsertFixup (s : RedBlackTree K V) (node : Nat) : Option (RedBlackTree K V) :=
  (InsertFixupLoop s.brk s node).map fun s => s.setColor s.root_ Color.BLACK

/-- The expression `new Node(value)`: the cell at `brk` becomes allocated and its `value` is
initialised; the constructor `Node(const ValueType&)` leaves the pointers and the colour as
they were.  The new node is the old `brk`. -/
def allocNode (s : RedBlackTree K V) (value : K × V) : RedBlackTree K V :=
  { s with brk := s.brk + 1,
           heap := Function.update s.heap s.brk { s.heap s.brk with value := value } }

/-- The tail of `Insert` and of `operator[]` after the descent loop: allocate the node for
`value`, link it at `*now_ptr` under `parent` as a RED leaf and run `InsertFixup`.  The result
is the new state and the new node. -/
def linkNew (s : RedBlackTree K V) (now_ptr : Slot) (parent : Nat) (value : K × V) :
    Option (RedBlackTree K V × Nat) :=
  let node := s.brk
  let s := s.allocNode value
  let s := s.writeSlot now_ptr node
  let s := s.setParent node parent
  let s := s.setLeft node s.nil_
  let s := s.setRight node s.nil_
  let s := s.setColor node Color.RED
  (InsertFixup s node).map fun s => (s, node)

/-- The method `Insert(value)`: the new state, the node of the returned iterator and the
returned flag. -/
def Insert [LinearOrder K] (s : RedBlackTree K V) (value : K × V) :
    Option (RedBlackTree K V × Nat × Bool) :=
  match DescendLoop s value.1 s.brk .root s.nil_ with
  | none => none
  | some (.inl found) => some (s, found, false)
  | some (.inr (now_ptr, parent)) =>
    (linkNew s now_ptr parent value).map fun r => (r.1, r.2, true)

/-- The method `operator[](key)`: the new state, the node whose mapped value the returned
reference designates, and that value. -/
def index [LinearOrder K] [Inhabited V] (s : RedBlackTree K V) (key : K) :
    Option (RedBlackTree K V × Nat × V) :=
  match DescendLoop s key s.brk .root s.nil_ with
  | none => none
  | some (.inl found) => some (s, found, (s.heap found).value.2)
  | some (.inr (now_ptr, parent)) =>
    (linkNew s now_ptr parent (key, default)).map fun r => (r.1, r.2, (r.1.heap r.2).value.2)

/-- The method `Transplant(old_node, new_node)`. -/
def Transplant (s : RedBlackTree K V) (old_node new_node : Nat) : RedBlackTree K V :=
  let s :=
    if (s.heap old_node).parent = s.nil_ then
      s.setRoot new_node
    else if old_node = (s.heap (s.heap old_node).parent).left then
      s.setLeft (s.heap old_node).parent new_node
    else
      s.setRight (s.heap old_node).parent new_node
  s.setParent new_node (s.heap old_node).parent

/-- The method `TreeMinimum(sub_tree_root)`, with the fuel of its loop. -/
def TreeMinimum (s : RedBlackTree K V) : Nat → Nat → Option Nat
  | 0, _ => none
  | fuel + 1, sub_tree_root =>
    if (s.heap sub_tree_root).left ≠ s.nil_ then TreeMinimum s fuel (s.heap sub_tree_root).left
    else some sub_tree_root

/-- The method `TreeMaximum(sub_tree_root)`, with the fuel of its loop. -/
def TreeMaximum (s : RedBlackTree K V) : Nat → Nat → Option Nat
  | 0, _ => none
  | fuel + 1, sub_tree_root =>
    if (s.heap sub_tree_root).right ≠ s.nil_ then TreeMaximum s fuel (s.heap sub_tree_root).right
    else some sub_tree_root

/-- The ascent loop of `TreeSuccessor` with loop variables `node` and `parent`. -/
def TreeSuccessorLoop (s : RedBlackTree K V) : Nat → Nat → Nat → Option Nat
  | 0, _, _ => none
  | fuel + 1, node, parent =>
    if parent ≠ s.nil_ ∧ (s.heap parent).right = node then
      TreeSuccessorLoop s fuel parent (s.heap parent).parent
    else some parent

/-- The method `TreeSuccessor(node)`, which is `operator++` of the iterator. -/
def TreeSuccessor (s : RedBlackTree K V) (node : Nat) : Option Nat :=
  if (s.heap node).right ≠ s.nil_ then TreeMinimum s s.brk (s.heap node).right
  else TreeSuccessorLoop s s.brk node (s.heap node).parent

/-- The ascent loop of `TreePredecessor`; its test `parent && ...` compares with the null
pointer. -/
def TreePredecessorLoop (s : RedBlackTree K V) : Nat → Nat → Nat → Option Nat
  | 0, _, _ => none
  | fuel + 1, node, parent =>
    if parent ≠ nullptr ∧ (s.heap parent).left = node then
      TreePredecessorLoop s fuel parent (s.heap parent).parent
    else some parent

/-- The method `TreePredecessor(node)`, which is `operator--` of the iterator; its test
`if (node->left)` compares with the null pointer. -/
def TreePredecessor (s : RedBlackTree K V) (node : Nat) : Option Nat :=
  if (s.heap node).left ≠ nullptr then TreeMaximum s s.brk (s.heap node).left
  else TreePredecessorLoop s s.brk node (s.heap node).parent

/-- The method `Begin()`. -/
def Begin (s : RedBlackTree K V) : Option Nat := TreeMinimum s s.brk s.root_

/-- The loop of `DeleteFixup` with loop variable `node`; the result is the state and `node`
at loop exit. -/
def DeleteFixupLoop : Nat → RedBlackTree K V → Nat → Option (RedBlackTree K V × Nat)
  | 0, _, _ => none
  | fuel + 1, s, node =>
    if node ≠ s.root_ ∧ (s.heap node).color = Color.BLACK then
      if node = (s.heap (s.heap node).parent).left then
        let sibling := (s.heap (s.heap node).parent).right
        let r :=
          if (s.heap sibling).color = Color.RED then
            let s := s.setColor sibling Color.BLACK
            let s := s.setColor (s.heap node).parent Color.RED
            let s := LeftRotate s (s.heap node).parent
            ((s.heap (s.heap node).parent).right, s)
          else (sibling, s)
        let sibling := r.1
        let s := r.2
        if (s.heap (s.heap sibling).left).color = Color.BLACK
            ∧ (s.heap (s.heap sibling).right).color = Color.BLACK then
          let s := s.setColor sibling Color.RED
          DeleteFixupLoop fuel s (s.heap node).parent
        else
          let r :=
            if (s.heap (s.heap sibling).right).color = Color.BLACK then
              let s := s.setColor (s.heap sibling).left Color.BLACK
              let s := s.setColor sibling Color.RED
              let s := RightRotate s sibling
              ((s.heap (s.heap node).parent).right, s)
            else (sibling, s)
          let sibling := r.1
          let s := r.2
          let s := s.setColor sibling (s.heap (s.heap node).parent).color
          let s := s.setColor (s.heap node).parent Color.BLACK
          let s := s.setColor (s.heap sibling).right Color.BLACK
          let s := LeftRotate s (s.heap node).parent
          DeleteFixupLoop fuel s s.root_
      else
        let sibling := (s.heap (s.heap node).parent).left
        let r :=
          if (s.heap sibling).color = Color.RED then
            let s := s.setColor sibling Color.BLACK
            let s := s.setColor (s.heap node).parent Color.RED
            let s := RightRotate s (s.heap node).parent
            ((s.heap (s.heap node).parent).left, s)
          else (sibling, s)
        let sibling := r.1
        let s := r.2
        if (s.heap (s.heap sibling).left).color = Color.BLACK
            ∧ (s.heap (s.heap sibling).right).color = Color.BLACK then
          let s := s.setColor sibling Color.RED
          DeleteFixupLoop fuel s (s.heap node).parent
        else
          let r :=
            if (s.heap (s.heap sibling).left).color = Color.BLACK then
              let s := s.setColor (s.heap sibling).right Color.BLACK
              let s := s.setColor sibling Color.RED
              let s := LeftRotate s sibling
              ((s.heap (s.heap node).parent).left, s)
            else (sibling, s)
          let sibling := r.1
          let s := r.2
          let s := s.setColor sibling (s.heap (s.heap node).parent).color
          let s := s.setColor (s.heap node).parent Color.BLACK
          let s := s.setColor (s.heap sibling).left Color.BLACK
          let s := RightRotate s (s.heap node).parent
          DeleteFixupLoop fuel s s.root_
    else some (s, node)

/-- The sibling-RED case of the loop of `DeleteFixup` for a left child: the variable `sibling`
and the state after it. -/
def DeleteFixupSiblingL (s : RedBlackTree K V) (node : Nat) : Nat × RedBlackTree K V :=
  let sibling := (s.heap (s.heap node).parent).right
  if (s.heap sibling).color = Color.RED then
    let s := s.setColor sibling Color.BLACK
    let s := s.setColor (s.heap node).parent Color.RED
    let s := LeftRotate s (s.heap node).parent
    ((s.heap (s.heap node).parent).right, s)
  else (sibling, s)

/-- The sibling-RED case of the loop of `DeleteFixup` for a right child. -/
def DeleteFixupSiblingR (s : RedBlackTree K V) (node : Nat) : Nat × RedBlackTree K V :=
  let sibling := (s.heap (s.heap node).parent).left
  if (s.heap sibling).color = Color.RED then
    let s := s.setColor sibling Color.BLACK
    let s := s.setColor (s.heap node).parent Color.RED
    let s := RightRotate s (s.heap node).parent
    ((s.heap (s.heap node).parent).left, s)
  else (sibling, s)

/-- The body of the loop of `DeleteFixup` for a left child, from the test of the sibling's
children on; `sibling` and `s` are as the sibling-RED case left them and `loop` is the rest
of the loop. -/
def DeleteFixupRestL (loop : RedBlackTree K V → Nat → Option (RedBlackTree K V × Nat))
    (s : RedBlackTree K V) (node sibling : Nat) : Option (RedBlackTree K V × Nat) :=
  if (s.heap (s.heap sibling).left).color = Color.BLACK
      ∧ (s.heap (s.heap sibling).right).color = Color.BLACK then
    let s := s.setColor sibling Color.RED
    loop s (s.heap node).parent
  else
    let r :=
      if (s.heap (s.heap sibling).right).color = Color.BLACK then
        let s := s.setColor (s.heap sibling).left Color.BLACK
        let s := s.setColor sibling Color.RED
        let s := RightRotate s sibling
        ((s.heap (s.heap node).parent).right, s)
      else (sibling, s)
    let sibling := r.1
    let s := r.2
    let s := s.setColor sibling (s.heap (s.heap node).parent).color
    let s := s.setColor (s.heap node).parent Color.BLACK
    let s := s.setColor (s.heap sibling).right Color.BLACK
    let s := LeftRotate s (s.heap node).parent
    loop s s.root_

/-- The body of the loop of `DeleteFixup` for a right child, from the test of the sibling's
children on. -/
def DeleteFixupRestR (loop : RedBlackTree K V → Nat → Option (RedBlackTree K V × Nat))
    (s : RedBlackTree K V) (node sibling : Nat) : Option (RedBlackTree K V × Nat) :=
  if (s.heap (s.heap sibling).left).color = Color.BLACK
      ∧ (s.heap (s.heap sibling).right).color = Color.BLACK then
    let s := s.setColor sibling Color.RED
    loop s (s.heap node).parent
  else
    let r :=
      if (s.heap (s.heap sibling).left).color = Color.BLACK then
        let s := s.setColor (s.heap sibling).right Color.BLACK
        let s := s.setColor sibling Color.RED
        let s := LeftRotate s sibling
        ((s.heap (s.heap node).parent).left, s)
      else (sibling, s)
    let sibling := r.1
    let s := r.2
    let s := s.setColor sibling (s.heap (s.heap node).parent).color
    let s := s.setColor (s.heap node).parent Color.BLACK
    let s := s.setColor (s.heap sibling).left Color.BLACK
    let s := RightRotate s (s.heap node).parent
    loop s s.root_

/-- The method `DeleteFixup(node)`: the loop, then `node->color = BLACK`. -/
def DeleteFixup (s : RedBlackTree K V) (node : Nat) : Option (RedBlackTree K V) :=
  (DeleteFixupLoop s.brk s node).map fun r => r.1.setColor r.2 Color.BLACK

/-- The end of `Delete`: `if (is_black_deleted) DeleteFixup(replaced_replaced); delete old`. -/
def finishDelete (s : RedBlackTree K V) (is_black_deleted : Bool) (replaced_replaced old : Nat) :
    Option (RedBlackTree K V) :=
  (if is_black_deleted then DeleteFixup s replaced_replaced else some s).map
    fun s => { s with freed := old :: s.freed }

/-- The two-children branch of `Delete` from `replaced_replaced = replaced->right` to
`replaced->color = old->color`: the node `replaced` is unlinked and put in the place of
`old`. -/
def relinkSuccessor (s : RedBlackTree K V) (old replaced : Nat) : RedBlackTree K V :=
  let replaced_replaced := (s.heap replaced).right
  let s :=
    if (s.heap replaced).parent = old then
      s.setParent replaced_replaced replaced
    else
      let s := Transplant s replaced replaced_replaced
      let s := s.setRight replaced (s.heap old).right
      s.setParent (s.heap replaced).right replaced
  let s := Transplant s old replaced
  let s := s.setLeft replaced (s.heap old).left
  let s := s.setParent (s.heap replaced).left replaced
  s.setColor replaced (s.heap old).color

/-- The last statements of the two-children branch of `Delete`, from `Transplant(old,
replaced)` to `replaced->color = old->color`. -/
def takeOver (s : RedBlackTree K V) (old replaced : Nat) : RedBlackTree K V :=
  let s := Transplant s old replaced
  let s := s.setLeft replaced (s.heap old).left
  let s := s.setParent (s.heap replaced).left replaced
  s.setColor replaced (s.heap old).color

/-- The method `Delete(pos)`, where `pos` is the node held by the iterator. -/
def Delete (s : RedBlackTree K V) (pos : Nat) : Option (RedBlackTree K V) :=
  let old := pos
  let replaced := old
  let is_black_deleted : Bool := (s.heap replaced).color = Color.BLACK
  if (s.heap replaced).left = s.nil_ then
    let replaced_replaced := (s.heap replaced).right
    let s := Transplant s replaced replaced_replaced
    finishDelete s is_black_deleted replaced_replaced old
  else if (s.heap replaced).right = s.nil_ then
    let replaced_replaced := (s.heap replaced).left
    let s := Transplant s replaced replaced_replaced
    finishDelete s is_black_deleted replaced_replaced old
  else
    match TreeMinimum s s.brk (s.heap old).right with
    | none => none
    | some replaced =>
      let is_black_deleted : Bool := (s.heap replaced).color = Color.BLACK
      let replaced_replaced := (s.heap replaced).right
      let s :=
        if (s.heap replaced).parent = old then
          s.setParent replaced_replaced replaced
        else
          let s := Transplant s replaced replaced_replaced
          let s := s.setRight replaced (s.heap old).right
          s.setParent (s.heap replaced).right replaced
      let s := Transplant s old replaced
      let s := s.setLeft replaced (s.heap old).left
      let s := s.setParent (s.heap replaced).left replaced
      let s := s.setColor replaced (s.heap old).color
      finishDelete s is_black_deleted replaced_replaced old

end RedBlackTree

/-! ## Shapes

The store of a state is read as a binary tree: `Tree` is the shape, with the address, the
key/value pair and the colour of every node.  `Path` is a tree with one hole (the way from a
node up to the root), used to speak about the neighbourhood of a node. -/

/-- A binary tree of nodes, each with its colour, address and key/value pair. -/
inductive Tree (K V : Type) where
  | leaf
  | node (c : Color) (l : Tree K V) (a : Nat) (kv : K × V) (r : Tree K V)

/-- The way from a hole up to the root: `left c a kv r up` says the hole is the left child of
the node `a` (colour `c`, pair `kv`, right subtree `r`), whose own position is `up`. -/
inductive Path (K V : Type) where
  | top
  | left (c : Color) (a : Nat) (kv : K × V) (r : Tree K V) (up : Path K V)
  | right (c : Color) (l : Tree K V) (a : Nat) (kv : K × V) (up : Path K V)

namespace Tree

variable {K V : Type}

/-- The pointer that designates the tree: its root node, or the sentinel `nl` for a leaf. -/
def rootAddr (nl : Nat) : Tree K V → Nat
  | leaf => nl
  | node _ _ a _ _ => a

/-- The colour read through the pointer to the tree: a leaf is the BLACK sentinel. -/
def rootColor : Tree K V → Color
  | leaf => Color.BLACK
  | node c _ _ _ _ => c

/-- The nodes of the tree in in-order: address, key and value. -/
def toList : Tree K V → List (Nat × K × V)
  | leaf => []
  | node _ l a kv r => l.toList ++ (a, kv.1, kv.2) :: r.toList

/-- The addresses of the nodes, in in-order. -/
def addrs : Tree K V → List Nat
  | leaf => []
  | node _ l a _ r => l.addrs ++ a :: r.addrs

/-- The keys of the nodes, in in-order. -/
def keys : Tree K V → List K
  | leaf => []
  | node _ l _ kv r => l.keys ++ kv.1 :: r.keys

/-- The number of nodes. -/
def size : Tree K V → Nat
  | leaf => 0
  | node _ l _ _ r => l.size + 1 + r.size

/-- The number of nodes on the longest path from the root down to a leaf. -/
def height : Tree K V → Nat
  | leaf => 0
  | node _ l _ _ r => max l.height r.height + 1

/-- The store `h` holds the tree below a node `p`: every node of the tree is a cell other than
the sentinel `nl`, its `parent` is the node above it (`p` for the root), its `left` and `right`
designate its subtrees, and its pair and colour are the ones of the tree. -/
def Rep (h : Nat → Node K V) (nl : Nat) : Nat → Tree K V → Prop
  | _, leaf => True
  | p, node c l a kv r =>
    a ≠ nl ∧ h a = ⟨p, l.rootAddr nl, r.rootAddr nl, kv, c⟩ ∧ Rep h nl a l ∧ Rep h nl a r

/-- Invariant 3 on a tree: no RED node has a RED child. -/
def NoRedRed : Tree K V → Prop
  | leaf => True
  | node c l _ _ r =>
    (c = Color.RED → l.rootColor = Color.BLACK ∧ r.rootColor = Color.BLACK)
      ∧ l.NoRedRed ∧ r.NoRedRed

/-- For every path from the root down to a leaf, the number of BLACK nodes on it. -/
def blackCounts : Tree K V → List Nat
  | leaf => [0]
  | node c l _ _ r =>
    (l.blackCounts ++ r.blackCounts).map fun n => n + (if c = Color.BLACK then 1 else 0)

/-- Invariant 4 on a tree: every path from the root to a leaf has the same number of BLACK
nodes. -/
def BlackBalanced (t : Tree K V) : Prop :=
  ∀ m ∈ t.blackCounts, ∀ n ∈ t.blackCounts, m = n

/-- Invariant 5 on a tree: at every node the keys of the left subtree are less than the key of
the node and the keys of the right subtree are greater. -/
def Ordered [LinearOrder K] : Tree K V → Prop
  | leaf => True
  | node _ l _ kv r =>
    (∀ k ∈ l.keys, k < kv.1) ∧ (∀ k ∈ r.keys, kv.1 < k) ∧ l.Ordered ∧ r.Ordered

/-- The number of BLACK nodes on the leftmost path. -/
def bh : Tree K V → Nat
  | leaf => 0
  | node c l _ _ _ => l.bh + (if c = Color.BLACK then 1 else 0)

/-- Black-balance stated node by node: both subtrees have the same black height. -/
def Bal : Tree K V → Prop
  | leaf => True
  | node _ l _ _ r => l.bh = r.bh ∧ l.Bal ∧ r.Bal

/-- The tree with its root coloured `c`. -/
def paint (c : Color) : Tree K V → Tree K V
  | leaf => leaf
  | node _ l a kv r => node c l a kv r

end Tree

namespace Path

variable {K V : Type}

/-- The tree obtained by putting `t` in the hole. -/
def plug : Path K V → Tree K V → Tree K V
  | top, t => t
  | left c a kv r up, t => up.plug (Tree.node c t a kv r)
  | right c l a kv up, t => up.plug (Tree.node c l a kv t)

/-- The node above the hole, the sentinel `nl` when the hole is the root. -/
def parentAddr (nl : Nat) : Path K V → Nat
  | top => nl
  | left _ a _ _ _ => a
  | right _ _ a _ _ => a

/-- The colour of the node above the hole (BLACK for the sentinel). -/
def parentColor : Path K V → Color
  | top => Color.BLACK
  | left c _ _ _ _ => c
  | right c _ _ _ _ => c

/-- The addresses of all nodes outside the hole. -/
def addrs : Path K V → List Nat
  | top => []
  | left _ a _ r up => a :: (r.addrs ++ up.addrs)
  | right _ l a _ up => a :: (l.addrs ++ up.addrs)

/-- The number of nodes between the hole and the root. -/
def depth : Path K V → Nat
  | top => 0
  | left _ _ _ _ up => up.depth + 1
  | right _ _ _ _ up => up.depth + 1

/-- The pointer variable that designates the hole. -/
def slot : Path K V → Slot
  | top => Slot.root
  | left _ a _ _ _ => Slot.left a
  | right _ _ a _ _ => Slot.right a

/-- The store `h` with root pointer `root` holds the nodes outside the hole, and the pointer
variable of the hole holds `a`. -/
def Rep (h : Nat → Node K V) (nl root : Nat) : Path K V → Nat → Prop
  | top, a => root = a
  | left c p kv r up, a =>
    p ≠ nl ∧ h p = ⟨up.parentAddr nl, a, r.rootAddr nl, kv, c⟩ ∧ r.Rep h nl p
      ∧ Rep h nl root up p
  | right c l p kv up, a =>
    p ≠ nl ∧ h p = ⟨up.parentAddr nl, l.rootAddr nl, a, kv, c⟩ ∧ l.Rep h nl p
      ∧ Rep h nl root up p

/-- The path `inner` continued by `outer`: the hole of `inner` inside the hole of `outer`. -/
def append : Path K V → Path K V → Path K V
  | top, outer => outer
  | left c a kv r up, outer => left c a kv r (up.append outer)
  | right c l a kv up, outer => right c l a kv (up.append outer)

end Path

/-- The pointer structure of the state `s` is the tree `t`: `root_` designates `t`, the store
holds `t` below the sentinel, no node occurs twice, and every node and the sentinel are
allocated cells other than the null pointer. -/
structure Shape {K V : Type} (s : RedBlackTree K V) (t : Tree K V) : Prop where
  root : s.root_ = t.rootAddr s.nil_
  rep : t.Rep s.heap s.nil_ s.nil_
  nodup : t.addrs.Nodup
  alloc : ∀ a ∈ t.addrs, nullptr < a ∧ a < s.brk
  nil_alloc : nullptr < s.nil_ ∧ s.nil_ < s.brk

/-- Invariant 1: the sentinel is BLACK. -/
def SentinelBlack {K V : Type} (s : RedBlackTree K V) : Prop :=
  (s.heap s.nil_).color = Color.BLACK

/-- Invariant 2: the root, if the tree is non-empty, is BLACK. -/
def RootBlack {K V : Type} (s : RedBlackTree K V) : Prop :=
  s.root_ ≠ s.nil_ → (s.heap s.root_).color = Color.BLACK

/-- Invariants 1 to 4 of a state whose pointer structure is the tree `t`. -/
structure ColourInvariants {K V : Type} (s : RedBlackTree K V) (t : Tree K V) : Prop where
  shape : Shape s t
  sentinel : SentinelBlack s
  rootBlack : RootBlack s
  noRedRed : t.NoRedRed
  balanced : t.BlackBalanced

/-- Invariants 1 to 5 of a state whose pointer structure is the tree `t`. -/
structure Invariants {K V : Type} [LinearOrder K] (s : RedBlackTree K V) (t : Tree K V)
    extends ColourInvariants s t : Prop where
  ordered : t.Ordered

namespace Path

variable {K V : Type}

/-- The nodes that come before the hole in in-order. -/
def before : Path K V → List (Nat × K × V)
  | top => []
  | left _ _ _ _ up => up.before
  | right _ l a kv up => up.before ++ l.toList ++ [(a, kv.1, kv.2)]

/-- The nodes that come after the hole in in-order. -/
def after : Path K V → List (Nat × K × V)
  | top => []
  | left _ a kv r up => (a, kv.1, kv.2) :: r.toList ++ up.after
  | right _ _ _ _ up => up.after

/-- Invariant 3 on the nodes outside the hole, the hole counted as BLACK. -/
def NoRedRed : Path K V → Prop
  | top => True
  | left c _ _ r up =>
    (c = Color.RED → r.rootColor = Color.BLACK ∧ up.parentColor = Color.BLACK)
      ∧ r.NoRedRed ∧ up.NoRedRed
  | right c l _ _ up =>
    (c = Color.RED → l.rootColor = Color.BLACK ∧ up.parentColor = Color.BLACK)
      ∧ l.NoRedRed ∧ up.NoRedRed

/-- Black-balance of the nodes outside the hole, for a hole of black height `n`. -/
def Bal : Path K V → Nat → Prop
  | top, _ => True
  | left c _ _ r up, n => r.bh = n ∧ r.Bal ∧ up.Bal (n + (if c = Color.BLACK then 1 else 0))
  | right c l _ _ up, n => l.bh = n ∧ l.Bal ∧ up.Bal (n + (if c = Color.BLACK then 1 else 0))

end Path

/-- The descent of `Insert`, `operator[]`, `Find` and `At` from the root of `t`, which is in the
hole of `path`: it stops at a node with the key or at a leaf. -/
def zoom {K V : Type} [LinearOrder K] (key : K) : Tree K V → Path K V → Path K V × Tree K V
  | .leaf, path => (path, .leaf)
  | .node c l a kv r, path =>
    if key = kv.1 then (path, .node c l a kv r)
    else if key < kv.1 then zoom key l (.left c a kv r path)
    else zoom key r (.right c l a kv path)

/-- What the descent loop of `Insert` and `operator[]` returns for the outcome of `zoom`. -/
def descendOutcome {K V : Type} (nl : Nat) : Path K V × Tree K V → Nat ⊕ (Slot × Nat)
  | (path, .leaf) => .inr (path.slot, path.parentAddr nl)
  | (_, .node _ _ a _ _) => .inl a

/-- What the loop of `At` returns for the outcome of `zoom`. -/
def atOutcome {K V : Type} : Tree K V → AtResult V
  | .leaf => .out_of_range
  | .node _ _ _ kv _ => .value kv.2

/-- The descent of `TreeMinimum` from the root of `t`, which is in the hole of `path`: it stops
at the node without left child. -/
def zoomMin {K V : Type} : Tree K V → Path K V → Path K V × Tree K V
  | .leaf, path => (path, .leaf)
  | .node c .leaf a kv r, path => (path, .node c .leaf a kv r)
  | .node c (.node cl ll la kl lr) a kv r, path =>
    zoomMin (.node cl ll la kl lr) (.left c a kv r path)

/-! ## The loops as functions on shapes -/

/-- The tree at the exit of the loop of `InsertFixup` when `node` is the root of `t`, the
subtree in the hole of the path: the uncle-RED case recolours and continues at the grandparent,
the uncle-BLACK cases rotate and stop. -/
def insFix {K V : Type} : Path K V → Tree K V → Tree K V
  | .top, t => t
  | .left Color.BLACK p kp r up, t => (Path.left Color.BLACK p kp r up).plug t
  | .right Color.BLACK l p kp up, t => (Path.right Color.BLACK l p kp up).plug t
  | .left Color.RED p kp r .top, t => (Path.left Color.RED p kp r .top).plug t
  | .right Color.RED l p kp .top, t => (Path.right Color.RED l p kp .top).plug t
  | .left Color.RED p kp r (.left _ g kg u upg), t =>
    if u.rootColor = Color.RED then
      insFix upg (.node .RED (.node .BLACK t p kp r) g kg (u.paint .BLACK))
    else
      upg.plug (.node .BLACK t p kp (.node .RED r g kg u))
  | .right Color.RED l p kp (.left _ g kg u upg), t =>
    if u.rootColor = Color.RED then
      insFix upg (.node .RED (.node .BLACK l p kp t) g kg (u.paint .BLACK))
    else
      match t with
      | .leaf => upg.plug (.node .RED (.node .RED l p kp t) g kg u)
      | .node _ tl z kz tr =>
        upg.plug (.node .BLACK (.node .RED l p kp tl) z kz (.node .RED tr g kg u))
  | .left Color.RED p kp r (.right _ u g kg upg), t =>
    if u.rootColor = Color.RED then
      insFix upg (.node .RED (u.paint .BLACK) g kg (.node .BLACK t p kp r))
    else
      match t with
      | .leaf => upg.plug (.node .RED u g kg (.node .RED t p kp r))
      | .node _ tl z kz tr =>
        upg.plug (.node .BLACK (.node .RED u g kg tl) z kz (.node .RED tr p kp r))
  | .right Color.RED l p kp (.right _ u g kg upg), t =>
    if u.rootColor = Color.RED then
      insFix upg (.node .RED (u.paint .BLACK) g kg (.node .BLACK l p kp t))
    else
      upg.plug (.node .BLACK (.node .RED u g kg l) p kp t)

/-- The cases of `DeleteFixup` after the sibling-RED case, for the subtree `t` that is the left
child of `p` with sibling `w`.  `Sum.inl t'`: the sibling was made RED and the loop continues at
`p`, the root of `t'`.  `Sum.inr T`: the rotations ended the loop and `T` is the whole tree.
`none`: the sibling, or the nephew the code rotates up, is the sentinel. -/
def delSibL {K V : Type} (up : Path K V) (cp : Color) (t : Tree K V) (p : Nat) (kp : K × V) :
    Tree K V → Option (Tree K V ⊕ Tree K V)
  | .leaf => none
  | .node _ wl wa kw wr =>
    if wl.rootColor = .BLACK ∧ wr.rootColor = .BLACK then
      some (.inl (.node cp t p kp (.node .RED wl wa kw wr)))
    else if wr.rootColor = .BLACK then
      match wl with
      | .leaf => none
      | .node _ wll wla kwl wlr =>
        some (.inr (up.plug
          (.node cp (.node .BLACK t p kp wll) wla kwl (.node .BLACK wlr wa kw wr))))
    else
      some (.inr (up.plug (.node cp (.node .BLACK t p kp wl) wa kw (wr.paint .BLACK))))

/-- The mirror image of `delSibL`: `t` is the right child of `p` and `w` its left sibling. -/
def delSibR {K V : Type} (up : Path K V) (cp : Color) (t : Tree K V) (p : Nat) (kp : K × V) :
    Tree K V → Option (Tree K V ⊕ Tree K V)
  | .leaf => none
  | .node _ wl wa kw wr =>
    if wl.rootColor = .BLACK ∧ wr.rootColor = .BLACK then
      some (.inl (.node cp (.node .RED wl wa kw wr) p kp t))
    else if wl.rootColor = .BLACK then
      match wr with
      | .leaf => none
      | .node _ wrl wra kwr wrr =>
        some (.inr (up.plug
          (.node cp (.node .BLACK wl wa kw wrl) wra kwr (.node .BLACK wrr p kp t))))
    else
      some (.inr (up.plug (.node cp (wl.paint .BLACK) wa kw (.node .BLACK wr p kp t))))

/-- The tree after `DeleteFixup(node)` when `node` designates `t`, the subtree in the hole of
the path (the sentinel when `t` is a leaf).  `none` when the code would read a child of the
sentinel. -/
def delFix {K V : Type} : Path K V → Tree K V → Option (Tree K V)
  | .top, t => some (t.paint .BLACK)
  | .left cp p kp w up, t =>
    if t.rootColor = .RED then some ((Path.left cp p kp w up).plug (t.paint .BLACK))
    else if w.rootColor = .RED then
      match w with
      | .leaf => none
      | .node _ wl wa kw wr =>
        match delSibL (.left .BLACK wa kw wr up) .RED t p kp wl with
        | none => none
        | some (.inl t') => some ((Path.left .BLACK wa kw wr up).plug (t'.paint .BLACK))
        | some (.inr T) => some (T.paint .BLACK)
    else
      match delSibL up cp t p kp w with
      | none => none
      | some (.inl t') => delFix up t'
      | some (.inr T) => some (T.paint .BLACK)
  | .right cp w p kp up, t =>
    if t.rootColor = .RED then some ((Path.right cp w p kp up).plug (t.paint .BLACK))
    else if w.rootColor = .RED then
      match w with
      | .leaf => none
      | .node _ wl wa kw wr =>
        match delSibR (.right .BLACK wl wa kw up) .RED t p kp wr with
        | none => none
        | some (.inl t') => some ((Path.right .BLACK wl wa kw up).plug (t'.paint .BLACK))
        | some (.inr T) => some (T.paint .BLACK)
    else
      match delSibR up cp t p kp w with
      | none => none
      | some (.inl t') => delFix up t'
      | some (.inr T) => some (T.paint .BLACK)

/-- The pointer structure of `s` is `path.plug t`, and the `parent` member of the cell that
designates `t` is the node above the hole, also when `t` is a leaf and that cell is the
sentinel. -/
def FocusShape {K V : Type} (s : RedBlackTree K V) (path : Path K V) (t : Tree K V) : Prop :=
  Shape s (path.plug t) ∧ (s.heap (t.rootAddr s.nil_)).parent = path.parentAddr s.nil_

/-- What a step leaves alone: the sentinel's address and cell, the allocation mark and the
log of deallocations. -/
structure Frame {K V : Type} (s s' : RedBlackTree K V) : Prop where
  nil_ : s'.nil_ = s.nil_
  brk : s'.brk = s.brk
  freed : s'.freed = s.freed
  sentinel : s'.heap s.nil_ = s.heap s.nil_

end RBT

namespace RBT

/-! ## Iteration and reachable states -/

namespace RedBlackTree

variable {K V : Type}

/-- The iterator after `n` applications of `operator++`, started at the node `pos`. -/
def advance (s : RedBlackTree K V) : Nat → Nat → Option Nat
  | 0, pos => some pos
  | n + 1, pos => (TreeSuccessor s pos).bind (advance s n)

/-- The state after the call `Insert(value)`; the state itself should the call not return. -/
def afterInsert [LinearOrder K] (s : RedBlackTree K V) (value : K × V) : RedBlackTree K V :=
  match Insert s value with
  | some r => r.1
  | none => s

end RedBlackTree

/-- The node `pos` is a live node of the state: a node of the tree its pointers form. -/
def Live {K V : Type} (s : RedBlackTree K V) (pos : Nat) : Prop :=
  ∃ t, Shape s t ∧ pos ∈ t.addrs

/-- The states reached from the empty tree by `Insert` and by `Delete` at live nodes. -/
inductive Reachable {K V : Type} [LinearOrder K] [Inhabited K] [Inhabited V] :
    RedBlackTree K V → Prop where
  | new (mem : Nat → Node K V) : Reachable (RedBlackTree.new mem)
  | insert {s s' : RedBlackTree K V} {value : K × V} {pos : Nat} {inserted : Bool} :
    Reachable s → RedBlackTree.Insert s value = some (s', pos, inserted) → Reachable s'
  | delete {s s' : RedBlackTree K V} {pos : Nat} :
    Reachable s → Live s pos → RedBlackTree.Delete s pos = some s' → Reachable s'

/-- The address of the first entry of an in-order sequence, `nl` when there is none. -/
def firstAddr {K V : Type} (nl : Nat) : List (Nat × K × V) → Nat
  | [] => nl
  | e :: _ => e.1

/-- Each node of the list is followed, under `operator++`, by the next one, and the last
one by `fin`. -/
def SuccChain {K V : Type} (s : RedBlackTree K V) : List Nat → Nat → Prop
  | [], _ => True
  | a :: rest, fin => s.TreeSuccessor a = some (rest.headD fin) ∧ SuccChain s rest fin

/-! ## Sample states -/

/-- A fresh memory: every cell zeroed. -/
def mem0 : Nat → Node Nat Nat := fun _ => ⟨0, 0, 0, (0, 0), Color.BLACK⟩

/-- The tree with the keys 3, 5, 8: a BLACK root with two RED children. -/
def tree3 : Tree Nat Nat :=
  .node .BLACK (.node .RED .leaf 3 (3, 30) .leaf) 2 (5, 50) (.node .RED .leaf 4 (8, 80) .leaf)

/-- A state whose pointers form `tree3`; the sentinel is the cell 1. -/
def state3 : RedBlackTree Nat Nat where
  root_ := 2
  nil_ := 1
  heap := fun a =>
    if a = 2 then ⟨1, 3, 4, (5, 50), Color.BLACK⟩
    else if a = 3 then ⟨2, 1, 1, (3, 30), Color.RED⟩
    else if a = 4 then ⟨2, 1, 1, (8, 80), Color.RED⟩
    else ⟨0, 0, 0, (0, 0), Color.BLACK⟩
  brk := 5
  freed := []

end RBT

namespace RBT

/-! ## States reached with `operator[]` as well -/

/-- The states reached from the empty tree by `Insert`, `operator[]` and `Delete` at live
nodes. -/
inductive ReachableIdx {K V : Type} [LinearOrder K] [Inhabited K] [Inhabited V] :
    RedBlackTree K V → Prop where
  | new (mem : Nat → Node K V) : ReachableIdx (RedBlackTree.new mem)
  | insert {s s' : RedBlackTree K V} {value : K × V} {pos : Nat} {inserted : Bool} :
    ReachableIdx s → RedBlackTree.Insert s value = some (s', pos, inserted) → ReachableIdx s'
  | index {s s' : RedBlackTree K V} {key : K} {pos : Nat} {v : V} :
    ReachableIdx s → RedBlackTree.index s key = some (s', pos, v) → ReachableIdx s'
  | delete {s s' : RedBlackTree K V} {pos : Nat} :
    ReachableIdx s → Live s pos → RedBlackTree.Delete s pos = some s' → ReachableIdx s'

/-! ## Sequences of calls and the in-order walk -/

namespace RedBlackTree

variable {K V : Type}

/-- The calls `Insert(v)` for the pairs of a list, in order. -/
def insertAll [LinearOrder K] : RedBlackTree K V → List (K × V) → Option (RedBlackTree K V)
  | s, [] => some s
  | s, v :: vs =>
    match Insert s v with
    | none => none
    | some r => insertAll r.1 vs

/-- The call `Delete(Find(key))`. -/
def erase [LinearOrder K] (s : RedBlackTree K V) (key : K) : Option (RedBlackTree K V) :=
  (Find s key).bind (Delete s)

/-- The calls `Delete(Find(k))` for the keys of a list, in order. -/
def eraseAll [LinearOrder K] : RedBlackTree K V → List K → Option (RedBlackTree K V)
  | s, [] => some s
  | s, k :: ks =>
    match erase s k with
    | none => none
    | some s' => eraseAll s' ks

/-- The state after the call `operator[](key)`; the state itself should the call not
return. -/
def afterIndex [LinearOrder K] [Inhabited V] (s : RedBlackTree K V) (key : K) :
    RedBlackTree K V :=
  match index s key with
  | some r => r.1
  | none => s

/-- The state after the call `Delete(Find(key))`; the state itself should the calls not
return. -/
def afterErase [LinearOrder K] (s : RedBlackTree K V) (key : K) : RedBlackTree K V :=
  match erase s key with
  | some s' => s'
  | none => s

/-- The loop `for (; it != End(); ++it)` started with the iterator at `pos`, collecting the
keys `it->first`. -/
def walkFrom (s : RedBlackTree K V) : Nat → Nat → Option (List K)
  | 0, _ => none
  | fuel + 1, pos =>
    if pos = End s then some []
    else
      match TreeSuccessor s pos with
      | none => none
      | some next => (walkFrom s fuel next).map fun ks => (s.heap pos).value.1 :: ks

/-- The in-order traversal `for (it = Begin(); it != End(); ++it)`: the keys visited. -/
def inorder (s : RedBlackTree K V) : Option (List K) :=
  (Begin s).bind (walkFrom s s.brk)

/-- The statement `delete p`. -/
def free (s : RedBlackTree K V) (p : Nat) : RedBlackTree K V :=
  { s with freed := p :: s.freed }

/-- The loop `while (now->right != nil_) now = TreeMinimum(now->right);` of `Clear`; the
result is the final value of `now`. -/
def ClearDescend (s : RedBlackTree K V) : Nat → Nat → Option Nat
  | 0, _ => none
  | fuel + 1, now =>
    if (s.heap now).right ≠ s.nil_ then
      match TreeMinimum s s.brk (s.heap now).right with
      | none => none
      | some now => ClearDescend s fuel now
    else some now

/-- The loop `while (parent != nil_ && parent->right == now)` of `Clear` with the loop
variables `now` and `parent`; the result is the state and the two variables at loop exit. -/
def ClearAscend : Nat → RedBlackTree K V → Nat → Nat → Option (RedBlackTree K V × Nat × Nat)
  | 0, _, _, _ => none
  | fuel + 1, s, now, parent =>
    if parent ≠ s.nil_ ∧ (s.heap parent).right = now then
      let s := s.free now
      let now := parent
      let parent := (s.heap now).parent
      ClearAscend fuel s now parent
    else some (s, now, parent)

/-- The loop `while (now != nil_)` of `Clear` with the loop variable `now`. -/
def ClearLoop : Nat → RedBlackTree K V → Nat → Option (RedBlackTree K V)
  | 0, _, _ => none
  | fuel + 1, s, now =>
    if now ≠ s.nil_ then
      match ClearDescend s s.brk now with
      | none => none
      | some now =>
        match ClearAscend s.brk s now (s.heap now).parent with
        | none => none
        | some r =>
          let s := r.1
          let now := r.2.1
          let parent := r.2.2
          let s := s.free now
          ClearLoop fuel s parent
    else some s

/-- The method `Clear()`. -/
def Clear (s : RedBlackTree K V) : Option (RedBlackTree K V) :=
  if s.root_ = s.nil_ then some s
  else
    match TreeMinimum s s.brk s.root_ with
    | none => none
    | some now => (ClearLoop s.brk s now).map fun s => s.setRoot s.nil_

/-- The test of the loop of `InsertFixup`: `node->parent->color == RED`. -/
def InsertFixupCond (s : RedBlackTree K V) (node : Nat) : Prop :=
  (s.heap (s.heap node).parent).color = Color.RED

/-- The variable `grandparent` of the loop of `InsertFixup`, read at the top of the body:
`node->parent->parent`. -/
def InsertFixupGrandparent (s : RedBlackTree K V) (node : Nat) : Nat :=
  (s.heap (s.heap node).parent).parent

/-- One pass through the body of the loop of `InsertFixup`: the state and the variable `node`
at the end of the body. -/
def InsertFixupBody (s : RedBlackTree K V) (node : Nat) : RedBlackTree K V × Nat :=
  let grandparent := (s.heap (s.heap node).parent).parent
  if (s.heap node).parent = (s.heap grandparent).left then
    let uncle := (s.heap grandparent).right
    if (s.heap uncle).color = Color.RED then
      let s := s.setColor (s.heap node).parent Color.BLACK
      let s := s.setColor uncle Color.BLACK
      let s := s.setColor grandparent Color.RED
      (s, grandparent)
    else
      let r :=
        if node = (s.heap (s.heap node).parent).right then
          ((s.heap node).parent, LeftRotate s (s.heap node).parent)
        else (node, s)
      let node := r.1
      let s := r.2
      let s := s.setColor (s.heap node).parent Color.BLACK
      let s := s.setColor grandparent Color.RED
      let s := RightRotate s grandparent
      (s, node)
  else
    let uncle := (s.heap grandparent).left
    if (s.heap uncle).color = Color.RED then
      let s := s.setColor (s.heap node).parent Color.BLACK
      let s := s.setColor uncle Color.BLACK
      let s := s.setColor grandparent Color.RED
      (s, grandparent)
    else
      let r :=
        if node = (s.heap (s.heap node).parent).left then
          ((s.heap node).parent, RightRotate s (s.heap node).parent)
        else (node, s)
      let node := r.1
      let s := r.2
      let s := s.setColor (s.heap node).parent Color.BLACK
      let s := s.setColor grandparent Color.RED
      let s := LeftRotate s grandparent
      (s, node)

/-- The states in which the loop of `InsertFixup`, started in `s0` on `node0`, evaluates its
test: the start, and the end of every pass through the body. -/
inductive InsertFixupIter (s0 : RedBlackTree K V) (node0 : Nat) :
    RedBlackTree K V → Nat → Prop where
  | start : InsertFixupIter s0 node0 s0 node0
  | pass {s : RedBlackTree K V} {node : Nat} :
    InsertFixupIter s0 node0 s node → InsertFixupCond s node →
    InsertFixupIter s0 node0 (InsertFixupBody s node).1 (InsertFixupBody s node).2

/-- The statements of the tail of `Insert` and of `operator[]` between the descent loop and the
call `InsertFixup(node)`: the new node `brk` is allocated and linked at `*now_ptr` under
`parent` as a RED leaf. -/
def linkNode (s : RedBlackTree K V) (now_ptr : Slot) (parent : Nat) (value : K × V) :
    RedBlackTree K V :=
  let node := s.brk
  let s := s.allocNode value
  let s := s.writeSlot now_ptr node
  let s := s.setParent node parent
  let s := s.setLeft node s.nil_
  let s := s.setRight node s.nil_
  s.setColor node Color.RED

/-- The number of parent links from `node` up to the root. -/
def stepsToRoot (s : RedBlackTree K V) : Nat → Nat → Option Nat
  | 0, _ => none
  | fuel + 1, node =>
    if node = s.root_ then some 0
    else (stepsToRoot s fuel (s.heap node).parent).map fun d => d + 1

/-- The test of the loop of `DeleteFixup`: `node != root_ && node->color == BLACK`. -/
def DeleteFixupCond (s : RedBlackTree K V) (node : Nat) : Prop :=
  node ≠ s.root_ ∧ (s.heap node).color = Color.BLACK

/-- One pass through the body of the loop of `DeleteFixup`: the state and the variable `node`
at the end of the body. -/
def DeleteFixupBody (s : RedBlackTree K V) (node : Nat) : Option (RedBlackTree K V × Nat) :=
  if node = (s.heap (s.heap node).parent).left then
    DeleteFixupRestL (fun s node => some (s, node)) (DeleteFixupSiblingL s node).2 node
      (DeleteFixupSiblingL s node).1
  else
    DeleteFixupRestR (fun s node => some (s, node)) (DeleteFixupSiblingR s node).2 node
      (DeleteFixupSiblingR s node).1

/-- The variable `sibling` of the body for a left child after the near-nephew-RED case, in
which the sibling is rotated and `sibling = node->parent->right` is read again; in the other
cases the variable keeps its value. -/
def DeleteFixupSiblingL3 (s : RedBlackTree K V) (node sibling : Nat) : Nat :=
  if (s.heap (s.heap sibling).left).color = Color.BLACK
      ∧ (s.heap (s.heap sibling).right).color = Color.BLACK then sibling
  else
    let r :=
      if (s.heap (s.heap sibling).right).color = Color.BLACK then
        let s := s.setColor (s.heap sibling).left Color.BLACK
        let s := s.setColor sibling Color.RED
        let s := RightRotate s sibling
        ((s.heap (s.heap node).parent).right, s)
      else (sibling, s)
    r.1

/-- The mirror image of `DeleteFixupSiblingL3` for a right child. -/
def DeleteFixupSiblingR3 (s : RedBlackTree K V) (node sibling : Nat) : Nat :=
  if (s.heap (s.heap sibling).left).color = Color.BLACK
      ∧ (s.heap (s.heap sibling).right).color = Color.BLACK then sibling
  else
    let r :=
      if (s.heap (s.heap sibling).left).color = Color.BLACK then
        let s := s.setColor (s.heap sibling).right Color.BLACK
        let s := s.setColor sibling Color.RED
        let s := LeftRotate s sibling
        ((s.heap (s.heap node).parent).left, s)
      else (sibling, s)
    r.1

/-- The values that the variable `sibling` takes in one pass through the body of the loop of
`DeleteFixup`: at its declaration, after the sibling-RED case and after the near-nephew-RED
case. -/
def DeleteFixupSiblings (s : RedBlackTree K V) (node : Nat) : List Nat :=
  if node = (s.heap (s.heap node).parent).left then
    [(s.heap (s.heap node).parent).right, (DeleteFixupSiblingL s node).1,
      DeleteFixupSiblingL3 (DeleteFixupSiblingL s node).2 node (DeleteFixupSiblingL s node).1]
  else
    [(s.heap (s.heap node).parent).left, (DeleteFixupSiblingR s node).1,
      DeleteFixupSiblingR3 (DeleteFixupSiblingR s node).2 node (DeleteFixupSiblingR s node).1]

/-- The states in which the loop of `DeleteFixup`, started in `s0` on `node0`, evaluates its
test: the start, and the end of every pass through the body. -/
inductive DeleteFixupIter (s0 : RedBlackTree K V) (node0 : Nat) :
    RedBlackTree K V → Nat → Prop where
  | start : DeleteFixupIter s0 node0 s0 node0
  | pass {s s' : RedBlackTree K V} {node node' : Nat} :
    DeleteFixupIter s0 node0 s node → DeleteFixupCond s node →
    DeleteFixupBody s node = some (s', node') → DeleteFixupIter s0 node0 s' node'

/-- The statements of `Delete(pos)` before `if (is_black_deleted) DeleteFixup(replaced_replaced)`:
the state, `replaced_replaced` and `is_black_deleted` at that point. -/
def DeleteUnlink (s : RedBlackTree K V) (pos : Nat) : Option (RedBlackTree K V × Nat × Bool) :=
  let old := pos
  let replaced := old
  let is_black_deleted : Bool := (s.heap replaced).color = Color.BLACK
  if (s.heap replaced).left = s.nil_ then
    let replaced_replaced := (s.heap replaced).right
    let s := Transplant s replaced replaced_replaced
    some (s, replaced_replaced, is_black_deleted)
  else if (s.heap replaced).right = s.nil_ then
    let replaced_replaced := (s.heap replaced).left
    let s := Transplant s replaced replaced_replaced
    some (s, replaced_replaced, is_black_deleted)
  else
    match TreeMinimum s s.brk (s.heap old).right with
    | none => none
    | some replaced =>
      let is_black_deleted : Bool := (s.heap replaced).color = Color.BLACK
      let replaced_replaced := (s.heap replaced).right
      let s := relinkSuccessor s old replaced
      some (s, replaced_replaced, is_black_deleted)

end RedBlackTree

/-- The tree with the keys 3, 5, 8, 9: a BLACK root with two BLACK children and a RED
grandchild. -/
def tree4 : Tree Nat Nat :=
  .node .BLACK (.node .BLACK .leaf 3 (3, 30) .leaf) 2 (5, 50)
    (.node .BLACK .leaf 4 (8, 80) (.node .RED .leaf 5 (9, 90) .leaf))

/-- A state whose pointers form `tree4`; the sentinel is the cell 1. -/
def state4 : RedBlackTree Nat Nat where
  root_ := 2
  nil_ := 1
  heap := fun a =>
    if a = 2 then ⟨1, 3, 4, (5, 50), Color.BLACK⟩
    else if a = 3 then ⟨2, 1, 1, (3, 30), Color.BLACK⟩
    else if a = 4 then ⟨2, 1, 5, (8, 80), Color.BLACK⟩
    else if a = 5 then ⟨4, 1, 1, (9, 90), Color.RED⟩
    else ⟨0, 0, 0, (0, 0), Color.BLACK⟩
  brk := 6
  freed := []

/-- The state after `Insert` of the keys 5, 3, 8, 9, 10 into the empty tree in zeroed memory and
`Delete(Find(3))`: the keys 5, 8, 9, 10 in the nodes 2, 4, 5, 6. -/
def stateWalk : RedBlackTree Nat Nat :=
  (((((((RedBlackTree.new mem0).afterInsert (5, 50)).afterInsert (3, 30)).afterInsert
    (8, 80)).afterInsert (9, 90)).afterInsert (10, 100)).afterErase 3)

/-- The state after `Insert` of the keys 5, 3, 8, `operator[](9)`, `Insert` of the key 10 and
`Delete(Find(3))`, from the empty tree in zeroed memory. -/
def stateIdx : RedBlackTree Nat Nat :=
  (((((((RedBlackTree.new mem0).afterInsert (5, 50)).afterInsert (3, 30)).afterInsert
    (8, 80)).afterIndex 9).afterInsert (10, 100)).afterErase 3)

/-- The nodes of a tree in post-order. -/
def Tree.postorder {K V : Type} : Tree K V → List Nat
  | .leaf => []
  | .node _ l a _ r => l.postorder ++ r.postorder ++ [a]

/-- The nodes that follow, in post-order, the subtree in the hole of a path. -/
def Path.rest {K V : Type} : Path K V → List Nat
  | .top => []
  | .left _ a _ r up => r.postorder ++ a :: up.rest
  | .right _ _ a _ up => a :: up.rest

end RBT

namespace RBT

variable {K V : Type}

namespace Tree

@[simp] theorem rootAddr_leaf (nl : Nat) : (leaf : Tree K V).rootAddr nl = nl := rfl
@[simp] theorem rootAddr_node (nl : Nat) (c l a kv r) :
    (node c l a kv r : Tree K V).rootAddr nl = a := rfl
@[simp] theorem rootColor_leaf : (leaf : Tree K V).rootColor = Color.BLACK := rfl
@[simp] theorem rootColor_node (c l a kv r) : (node c l a kv r : Tree K V).rootColor = c := rfl
@[simp] theorem addrs_leaf : (leaf : Tree K V).addrs = [] := rfl
@[simp] theorem addrs_node (c l a kv r) :
    (node c l a kv r : Tree K V).addrs = l.addrs ++ a :: r.addrs := rfl
@[simp] theorem toList_leaf : (leaf : Tree K V).toList = [] := rfl
@[simp] theorem toList_node (c l a kv r) :
    (node c l a kv r : Tree K V).toList = l.toList ++ (a, kv.1, kv.2) :: r.toList := rfl
@[simp] theorem keys_leaf : (leaf : Tree K V).keys = [] := rfl
@[simp] theorem keys_node (c l a kv r) :
    (node c l a kv r : Tree K V).keys = l.keys ++ kv.1 :: r.keys := rfl
@[simp] theorem rep_leaf (h : Nat → Node K V) (nl p : Nat) : (leaf : Tree K V).Rep h nl p := trivial
theorem rep_node (h : Nat → Node K V) (nl p : Nat) (c l a kv r) :
    (node c l a kv r : Tree K V).Rep h nl p ↔
      a ≠ nl ∧ h a = ⟨p, l.rootAddr nl, r.rootAddr nl, kv, c⟩ ∧ l.Rep h nl a ∧ r.Rep h nl a :=
  Iff.rfl

theorem addrs_eq_map_toList (t : Tree K V) : t.addrs = t.toList.map Prod.fst := by
  induction t with
  | leaf => rfl
  | node c l a kv r ihl ihr => simp [ihl, ihr]

theorem keys_eq_map_toList (t : Tree K V) : t.keys = t.toList.map fun e => e.2.1 := by
  induction t with
  | leaf => rfl
  | node c l a kv r ihl ihr => simp [ihl, ihr]

theorem length_addrs (t : Tree K V) : t.addrs.length = t.size := by
  induction t with
  | leaf => rfl
  | node c l a kv r ihl ihr => simp [size, ihl, ihr]; omega

theorem Rep.nil_not_mem {h : Nat → Node K V} {nl : Nat} :
    ∀ {t : Tree K V} {p : Nat}, t.Rep h nl p → nl ∉ t.addrs
  | leaf, _, _ => by simp
  | node c l a kv r, p, hr => by
    obtain ⟨ha, _, hl, hr⟩ := hr
    simp only [addrs_node, List.mem_append, List.mem_cons, not_or]
    exact ⟨hl.nil_not_mem, fun e => ha e.symm, hr.nil_not_mem⟩

theorem rootAddr_mem_or (nl : Nat) (t : Tree K V) : t = leaf ∨ t.rootAddr nl ∈ t.addrs := by
  cases t <;> simp

theorem Rep.rootAddr_eq_nil {h : Nat → Node K V} {nl p : Nat} {t : Tree K V}
    (hr : t.Rep h nl p) : t.rootAddr nl = nl ↔ t = leaf := by
  cases t with
  | leaf => simp
  | node c l a kv r => simpa using hr.1

/-- Frame rule: a store that agrees with `h` on the nodes of `t` also holds `t`. -/
theorem Rep.congr {h h' : Nat → Node K V} {nl : Nat} :
    ∀ {t : Tree K V} {p : Nat}, t.Rep h nl p → (∀ a ∈ t.addrs, h' a = h a) → t.Rep h' nl p
  | leaf, _, _, _ => trivial
  | node c l a kv r, p, hr, hh => by
    obtain ⟨ha, hrec, hl, hr⟩ := hr
    refine ⟨ha, ?_, hl.congr fun b hb => hh b ?_, hr.congr fun b hb => hh b ?_⟩
    · rw [hh a (by simp), hrec]
    · simp [hb]
    · simp [hb]

/-- Frame rule with a new parent: only the `parent` member of the root changes. -/
theorem Rep.reparent {h h' : Nat → Node K V} {nl p p' : Nat} {t : Tree K V}
    (hr : t.Rep h nl p) (hnd : t.addrs.Nodup)
    (hroot : t ≠ leaf → h' (t.rootAddr nl) = { h (t.rootAddr nl) with parent := p' })
    (hh : ∀ a ∈ t.addrs, a ≠ t.rootAddr nl → h' a = h a) : t.Rep h' nl p' := by
  cases t with
  | leaf => trivial
  | node c l a kv r =>
    obtain ⟨ha, hrec, hl, hr⟩ := hr
    simp only [addrs_node] at hnd hh
    have hnd' := List.nodup_append.1 hnd
    have hal : a ∉ l.addrs := fun hm => hnd'.2.2 hm (List.mem_cons_self _ _) 
    have har : a ∉ r.addrs := (List.nodup_cons.1 hnd'.2.1).1
    refine ⟨ha, ?_, hl.congr fun b hb => hh b (by simp [hb]) ?_,
      hr.congr fun b hb => hh b (by simp [hb]) ?_⟩
    · have := hroot (by simp)
      simp only [rootAddr_node] at this
      rw [this, hrec]
    · rintro rfl; exact hal hb
    · rintro rfl; exact har hb

end Tree

namespace Path

@[simp] theorem plug_top (t : Tree K V) : (top : Path K V).plug t = t := rfl
@[simp] theorem plug_left (c a kv r) (up : Path K V) (t : Tree K V) :
    (left c a kv r up).plug t = up.plug (Tree.node c t a kv r) := rfl
@[simp] theorem plug_right (c l a kv) (up : Path K V) (t : Tree K V) :
    (right c l a kv up).plug t = up.plug (Tree.node c l a kv t) := rfl
@[simp] theorem parentAddr_top (nl : Nat) : (top : Path K V).parentAddr nl = nl := rfl
@[simp] theorem parentAddr_left (nl : Nat) (c a kv r) (up : Path K V) :
    (left c a kv r up).parentAddr nl = a := rfl
@[simp] theorem parentAddr_right (nl : Nat) (c l a kv) (up : Path K V) :
    (right c l a kv up).parentAddr nl = a := rfl
@[simp] theorem addrs_top : (top : Path K V).addrs = [] := rfl
@[simp] theorem addrs_left (c a kv r) (up : Path K V) :
    (left c a kv r up).addrs = a :: (r.addrs ++ up.addrs) := rfl
@[simp] theorem addrs_right (c l a kv) (up : Path K V) :
    (right c l a kv up).addrs = a :: (l.addrs ++ up.addrs) := rfl

theorem addrs_plug_perm : ∀ (P : Path K V) (t : Tree K V),
    (P.plug t).addrs.Perm (t.addrs ++ P.addrs)
  | top, t => by simp
  | left c a kv r up, t => by
    refine (addrs_plug_perm up _).trans ?_
    simp [List.append_assoc]
  | right c l a kv up, t => by
    refine (addrs_plug_perm up _).trans ?_
    simp only [Tree.addrs_node, addrs_right, List.append_assoc, List.cons_append]
    have h1 : (l.addrs ++ a :: (t.addrs ++ up.addrs)).Perm (a :: (l.addrs ++ (t.addrs ++ up.addrs))) :=
      List.perm_middle
    refine h1.trans ?_
    have h2 : (t.addrs ++ a :: (l.addrs ++ up.addrs)).Perm (a :: (t.addrs ++ (l.addrs ++ up.addrs))) :=
      List.perm_middle
    refine List.Perm.trans ?_ h2.symm
    refine List.Perm.cons _ ?_
    rw [← List.append_assoc, ← List.append_assoc]
    exact List.Perm.append_right _ List.perm_append_comm

theorem mem_addrs_plug (P : Path K V) (t : Tree K V) (a : Nat) :
    a ∈ (P.plug t).addrs ↔ a ∈ t.addrs ∨ a ∈ P.addrs := by
  rw [(addrs_plug_perm P t).mem_iff, List.mem_append]

theorem nodup_plug (P : Path K V) (t : Tree K V) :
    (P.plug t).addrs.Nodup ↔
      t.addrs.Nodup ∧ P.addrs.Nodup ∧ ∀ a ∈ t.addrs, a ∉ P.addrs := by
  rw [(addrs_plug_perm P t).nodup_iff, List.nodup_append]
  constructor
  · rintro ⟨h1, h2, h3⟩; exact ⟨h1, h2, fun a ha hb => h3 ha hb⟩
  · rintro ⟨h1, h2, h3⟩; exact ⟨h1, h2, fun a ha hb => h3 a ha hb⟩

/-- A tree in a hole is held by the store iff the store holds the path and the tree. -/
theorem rep_plug {h : Nat → Node K V} {nl root : Nat} :
    ∀ (P : Path K V) (t : Tree K V),
      (root = (P.plug t).rootAddr nl ∧ (P.plug t).Rep h nl nl) ↔
        (P.Rep h nl root (t.rootAddr nl) ∧ t.Rep h nl (P.parentAddr nl))
  | top, t => by simp [Path.Rep]
  | left c a kv r up, t => by
    rw [plug_left, rep_plug up]
    simp only [Path.Rep, Tree.rep_node, Tree.rootAddr_node, parentAddr_left]
    tauto
  | right c l a kv up, t => by
    rw [plug_right, rep_plug up]
    simp only [Path.Rep, Tree.rep_node, Tree.rootAddr_node, parentAddr_right]
    tauto

theorem Rep.nil_not_mem_path {h : Nat → Node K V} {nl root : Nat} :
    ∀ {P : Path K V} {a : Nat}, P.Rep h nl root a → nl ∉ P.addrs
  | top, _, _ => by simp
  | left c p kv r up, a, hr => by
    obtain ⟨hp, _, hr, hup⟩ := hr
    simp only [addrs_left, List.mem_cons, List.mem_append, not_or]
    exact ⟨fun e => hp e.symm, hr.nil_not_mem, hup.nil_not_mem_path⟩
  | right c l p kv up, a, hr => by
    obtain ⟨hp, _, hr, hup⟩ := hr
    simp only [addrs_right, List.mem_cons, List.mem_append, not_or]
    exact ⟨fun e => hp e.symm, hr.nil_not_mem, hup.nil_not_mem_path⟩

/-- Frame rule for paths. -/
theorem Rep.congr_path {h h' : Nat → Node K V} {nl root : Nat} :
    ∀ {P : Path K V} {a : Nat}, P.Rep h nl root a → (∀ b ∈ P.addrs, h' b = h b) →
      P.Rep h' nl root a
  | top, _, hr, _ => hr
  | left c p kv r up, a, hr, hh => by
    obtain ⟨hp, hrec, hr, hup⟩ := hr
    refine ⟨hp, ?_, hr.congr fun b hb => hh b (by simp [hb]), hup.congr_path fun b hb => hh b (by simp [hb])⟩
    rw [hh p (by simp), hrec]
  | right c l p kv up, a, hr, hh => by
    obtain ⟨hp, hrec, hr, hup⟩ := hr
    refine ⟨hp, ?_, hr.congr fun b hb => hh b (by simp [hb]), hup.congr_path fun b hb => hh b (by simp [hb])⟩
    rw [hh p (by simp), hrec]

end Path

end RBT

namespace RBT

variable {K V : Type}

open Tree

namespace Tree

@[simp] theorem noRedRed_leaf : (leaf : Tree K V).NoRedRed := trivial
@[simp] theorem noRedRed_node (c l a kv r) :
    (node c l a kv r : Tree K V).NoRedRed ↔
      (c = Color.RED → l.rootColor = Color.BLACK ∧ r.rootColor = Color.BLACK)
        ∧ l.NoRedRed ∧ r.NoRedRed := Iff.rfl
@[simp] theorem bal_leaf : (leaf : Tree K V).Bal := trivial
@[simp] theorem bal_node (c l a kv r) :
    (node c l a kv r : Tree K V).Bal ↔ l.bh = r.bh ∧ l.Bal ∧ r.Bal := Iff.rfl
@[simp] theorem bh_leaf : (leaf : Tree K V).bh = 0 := rfl
@[simp] theorem bh_node (c l a kv r) :
    (node c l a kv r : Tree K V).bh = l.bh + (if c = Color.BLACK then 1 else 0) := rfl
@[simp] theorem paint_leaf (c : Color) : (leaf : Tree K V).paint c = leaf := rfl
@[simp] theorem paint_node (c c' l a kv r) :
    (node c' l a kv r : Tree K V).paint c = node c l a kv r := rfl

@[simp] theorem toList_paint (c : Color) (t : Tree K V) : (t.paint c).toList = t.toList := by
  cases t <;> rfl

@[simp] theorem addrs_paint (c : Color) (t : Tree K V) : (t.paint c).addrs = t.addrs := by
  cases t <;> rfl

@[simp] theorem bal_paint (c : Color) (t : Tree K V) : (t.paint c).Bal ↔ t.Bal := by
  cases t <;> simp

theorem NoRedRed.paint_black {t : Tree K V} (h : t.NoRedRed) : (t.paint Color.BLACK).NoRedRed := by
  cases t with
  | leaf => trivial
  | node c l a kv r => simp only [paint_node, noRedRed_node] at h ⊢; exact ⟨by simp, h.2⟩

theorem color_cases (c : Color) : c = Color.BLACK ∨ c = Color.RED := by
  cases c <;> simp

theorem ne_red_iff {c : Color} : ¬ c = Color.RED ↔ c = Color.BLACK := by
  cases c <;> simp

theorem ne_black_iff {c : Color} : ¬ c = Color.BLACK ↔ c = Color.RED := by
  cases c <;> simp

end Tree

namespace Path

@[simp] theorem before_top : (top : Path K V).before = [] := rfl
@[simp] theorem after_top : (top : Path K V).after = [] := rfl
@[simp] theorem before_left (c a kv r) (up : Path K V) :
    (left c a kv r up).before = up.before := rfl
@[simp] theorem before_right (c l a kv) (up : Path K V) :
    (right c l a kv up).before = up.before ++ l.toList ++ [(a, kv.1, kv.2)] := rfl
@[simp] theorem after_left (c a kv r) (up : Path K V) :
    (left c a kv r up).after = (a, kv.1, kv.2) :: r.toList ++ up.after := rfl
@[simp] theorem after_right (c l a kv) (up : Path K V) :
    (right c l a kv up).after = up.after := rfl
@[simp] theorem parentColor_top : (top : Path K V).parentColor = Color.BLACK := rfl
@[simp] theorem parentColor_left (c a kv r) (up : Path K V) :
    (left c a kv r up).parentColor = c := rfl
@[simp] theorem parentColor_right (c l a kv) (up : Path K V) :
    (right c l a kv up).parentColor = c := rfl
@[simp] theorem noRedRed_top : (top : Path K V).NoRedRed := trivial
@[simp] theorem noRedRed_left (c a kv r) (up : Path K V) :
    (left c a kv r up).NoRedRed ↔
      (c = Color.RED → r.rootColor = Color.BLACK ∧ up.parentColor = Color.BLACK)
        ∧ r.NoRedRed ∧ up.NoRedRed := Iff.rfl
@[simp] theorem noRedRed_right (c l a kv) (up : Path K V) :
    (right c l a kv up).NoRedRed ↔
      (c = Color.RED → l.rootColor = Color.BLACK ∧ up.parentColor = Color.BLACK)
        ∧ l.NoRedRed ∧ up.NoRedRed := Iff.rfl
@[simp] theorem bal_top (n : Nat) : (top : Path K V).Bal n := trivial
@[simp] theorem bal_left (c a kv r) (up : Path K V) (n : Nat) :
    (left c a kv r up).Bal n ↔
      r.bh = n ∧ r.Bal ∧ up.Bal (n + (if c = Color.BLACK then 1 else 0)) := Iff.rfl
@[simp] theorem bal_right (c l a kv) (up : Path K V) (n : Nat) :
    (right c l a kv up).Bal n ↔
      l.bh = n ∧ l.Bal ∧ up.Bal (n + (if c = Color.BLACK then 1 else 0)) := Iff.rfl

theorem toList_plug : ∀ (P : Path K V) (t : Tree K V),
    (P.plug t).toList = P.before ++ t.toList ++ P.after
  | top, t => by simp
  | left c a kv r up, t => by simp [toList_plug up, List.append_assoc]
  | right c l a kv up, t => by simp [toList_plug up, List.append_assoc]

theorem noRedRed_plug : ∀ (P : Path K V) (t : Tree K V),
    (P.plug t).NoRedRed ↔
      P.NoRedRed ∧ t.NoRedRed ∧ (P.parentColor = Color.RED → t.rootColor = Color.BLACK)
  | top, t => by simp
  | left c a kv r up, t => by
    simp only [plug_left, noRedRed_plug up, noRedRed_node, noRedRed_left, rootColor_node,
      parentColor_left]
    constructor
    · rintro ⟨h1, ⟨h2, h3, h4⟩, h5⟩
      exact ⟨⟨fun hc => ⟨(h2 hc).2, by
        rcases color_cases up.parentColor with h | h
        · exact h
        · rw [h5 h] at hc; cases hc⟩, h4, h1⟩, h3, fun hc => (h2 hc).1⟩
    · rintro ⟨⟨h1, h2, h3⟩, h4, h5⟩
      exact ⟨h3, ⟨fun hc => ⟨h5 hc, (h1 hc).1⟩, h4, h2⟩, fun hp => by
        rcases color_cases c with h | h
        · exact h
        · rw [(h1 h).2] at hp; cases hp⟩
  | right c l a kv up, t => by
    simp only [plug_right, noRedRed_plug up, noRedRed_node, noRedRed_right, rootColor_node,
      parentColor_right]
    constructor
    · rintro ⟨h1, ⟨h2, h3, h4⟩, h5⟩
      exact ⟨⟨fun hc => ⟨(h2 hc).1, by
        rcases color_cases up.parentColor with h | h
        · exact h
        · rw [h5 h] at hc; cases hc⟩, h3, h1⟩, h4, fun hc => (h2 hc).2⟩
    · rintro ⟨⟨h1, h2, h3⟩, h4, h5⟩
      exact ⟨h3, ⟨fun hc => ⟨(h1 hc).1, h5 hc⟩, h2, h4⟩, fun hp => by
        rcases color_cases c with h | h
        · exact h
        · rw [(h1 h).2] at hp; cases hp⟩

theorem bal_plug : ∀ (P : Path K V) (t : Tree K V),
    (P.plug t).Bal ↔ t.Bal ∧ P.Bal t.bh
  | top, t => by simp
  | left c a kv r up, t => by
    simp only [plug_left, bal_plug up, bal_node, bal_left, bh_node]
    constructor
    · rintro ⟨⟨h1, h2, h3⟩, h4⟩; exact ⟨h2, h1.symm, h3, h4⟩
    · rintro ⟨h1, h2, h3, h4⟩; exact ⟨⟨h2.symm, h1, h3⟩, h4⟩
  | right c l a kv up, t => by
    simp only [plug_right, bal_plug up, bal_node, bal_right, bh_node]
    constructor
    · rintro ⟨⟨h1, h2, h3⟩, h4⟩; exact ⟨h3, h1, h2, by rw [← h1]; exact h4⟩
    · rintro ⟨h1, h2, h3, h4⟩; exact ⟨⟨h2, h3, h1⟩, by rw [h2]; exact h4⟩

end Path

/-- The root colour of a plugged tree does not depend on what is below the top node. -/
theorem rootColor_plug_node (up : Path K V) (c : Color) (l r l' r' : Tree K V) (a a' : Nat)
    (kv kv' : K × V) :
    (up.plug (node c l a kv r)).rootColor = (up.plug (node c l' a' kv' r')).rootColor := by
  induction up generalizing c l r l' r' a a' kv kv' with
  | top => rfl
  | left c2 p kp r2 up2 ih => simp only [Path.plug_left]; exact ih ..
  | right c2 l2 p kp up2 ih => simp only [Path.plug_right]; exact ih ..

theorem rootColor_plug_up (up : Path K V) (c : Color) (l r : Tree K V) (a : Nat) (kv : K × V)
    (h : (up.plug (node c l a kv r)).rootColor = Color.BLACK) :
    (up.plug leaf).rootColor = Color.BLACK := by
  cases up with
  | top => rfl
  | left c2 p kp r2 up2 =>
    simp only [Path.plug_left] at h ⊢
    rw [← h]; exact rootColor_plug_node ..
  | right c2 l2 p kp up2 =>
    simp only [Path.plug_right] at h ⊢
    rw [← h]; exact rootColor_plug_node ..

end RBT

namespace RBT

variable {K V : Type}

open Tree

namespace Tree

theorem bh_mem_blackCounts : ∀ t : Tree K V, t.bh ∈ t.blackCounts
  | leaf => by simp [blackCounts]
  | node c l a kv r => by
    simp only [blackCounts, bh_node, List.map_append, List.mem_append, List.mem_map]
    exact Or.inl ⟨l.bh, bh_mem_blackCounts l, rfl⟩

theorem Bal.blackCounts_eq : ∀ {t : Tree K V}, t.Bal → ∀ n ∈ t.blackCounts, n = t.bh
  | leaf, _, n, hn => by simpa [blackCounts] using hn
  | node c l a kv r, h, n, hn => by
    obtain ⟨e, hl, hr⟩ := h
    simp only [blackCounts, List.map_append, List.mem_append, List.mem_map] at hn
    rcases hn with ⟨m, hm, rfl⟩ | ⟨m, hm, rfl⟩
    · rw [hl.blackCounts_eq m hm]; rfl
    · rw [hr.blackCounts_eq m hm, ← e]; rfl

theorem BlackBalanced.bal : ∀ {t : Tree K V}, t.BlackBalanced → t.Bal
  | leaf, _ => trivial
  | node c l a kv r, h => by
    have key : ∀ m ∈ l.blackCounts ++ r.blackCounts, ∀ n ∈ l.blackCounts ++ r.blackCounts,
        m = n := by
      intro m hm n hn
      have := h (m + (if c = Color.BLACK then 1 else 0))
        (by simp only [blackCounts]; exact List.mem_map_of_mem _ hm)
        (n + (if c = Color.BLACK then 1 else 0))
        (by simp only [blackCounts]; exact List.mem_map_of_mem _ hn)
      omega
    refine ⟨key _ (List.mem_append_left _ (bh_mem_blackCounts l)) _
      (List.mem_append_right _ (bh_mem_blackCounts r)), ?_, ?_⟩
    · exact BlackBalanced.bal fun m hm n hn =>
        key m (List.mem_append_left _ hm) n (List.mem_append_left _ hn)
    · exact BlackBalanced.bal fun m hm n hn =>
        key m (List.mem_append_right _ hm) n (List.mem_append_right _ hn)

/-- Invariant 4 stated on paths is the node-by-node balance. -/
theorem blackBalanced_iff_bal (t : Tree K V) : t.BlackBalanced ↔ t.Bal :=
  ⟨BlackBalanced.bal, fun h m hm n hn => by
    rw [h.blackCounts_eq m hm, h.blackCounts_eq n hn]⟩

/-- Invariant 5 is the strict sortedness of the in-order key sequence. -/
theorem ordered_iff_pairwise [LinearOrder K] :
    ∀ t : Tree K V, t.Ordered ↔ t.keys.Pairwise (· < ·)
  | leaf => by simp [Ordered]
  | node c l a kv r => by
    simp only [Ordered, keys_node, List.pairwise_append, List.pairwise_cons, List.mem_cons,
      ordered_iff_pairwise l, ordered_iff_pairwise r]
    constructor
    · rintro ⟨h1, h2, h3, h4⟩
      refine ⟨h3, ⟨h2, h4⟩, ?_⟩
      rintro x hx y (rfl | hy)
      · exact h1 x hx
      · exact lt_trans (h1 x hx) (h2 y hy)
    · rintro ⟨h1, ⟨h2, h3⟩, h4⟩
      exact ⟨fun k hk => h4 k hk kv.1 (Or.inl rfl), h2, h1, h3⟩

theorem ordered_of_toList_eq [LinearOrder K] {t t' : Tree K V} (h : t'.toList = t.toList)
    (ho : t.Ordered) : t'.Ordered := by
  rw [ordered_iff_pairwise] at ho ⊢
  rwa [keys_eq_map_toList, h, ← keys_eq_map_toList]

end Tree

end RBT

namespace RBT

variable {K V : Type}

open Tree

section
variable [LinearOrder K]

theorem zoom_plug (key : K) : ∀ (t : Tree K V) (P : Path K V),
    (zoom key t P).1.plug (zoom key t P).2 = P.plug t
  | leaf, P => rfl
  | node c l a kv r, P => by
    unfold zoom
    split_ifs
    · rfl
    · rw [zoom_plug key l]; rfl
    · rw [zoom_plug key r]; rfl

theorem zoom_root (key : K) : ∀ (t : Tree K V) (P : Path K V),
    (zoom key t P).2 = leaf ∨
      ∃ c l a v r, (zoom key t P).2 = node c l a (key, v) r
  | leaf, P => Or.inl rfl
  | node c l a kv r, P => by
    unfold zoom
    split_ifs with h1 h2
    · right; exact ⟨c, l, a, kv.2, r, by rw [h1]⟩
    · exact zoom_root key l _
    · exact zoom_root key r _

theorem zoom_leaf_of_not_mem (key : K) : ∀ (t : Tree K V) (P : Path K V),
    key ∉ t.keys → (zoom key t P).2 = leaf
  | leaf, P, _ => rfl
  | node c l a kv r, P, h => by
    simp only [keys_node, List.mem_append, List.mem_cons, not_or] at h
    unfold zoom
    rw [if_neg h.2.1]
    split_ifs
    · exact zoom_leaf_of_not_mem key l _ h.1
    · exact zoom_leaf_of_not_mem key r _ h.2.2

theorem zoom_found (key : K) : ∀ (t : Tree K V) (P : Path K V), t.Ordered →
    ∀ a v, (a, key, v) ∈ t.toList →
      ∃ c l r, (zoom key t P).2 = node c l a (key, v) r
  | leaf, P, _, a, v, h => by simp at h
  | node c l a' kv r, P, ho, a, v, h => by
    obtain ⟨h1, h2, hl, hr⟩ := ho
    simp only [toList_node, List.mem_append, List.mem_cons, Prod.mk.injEq] at h
    unfold zoom
    rcases h with h | ⟨rfl, rfl, rfl⟩ | h
    · have hk : key ∈ l.keys := by
        rw [keys_eq_map_toList]; exact List.mem_map.2 ⟨_, h, rfl⟩
      have := h1 key hk
      rw [if_neg (ne_of_lt this), if_pos this]
      exact zoom_found key l _ hl a v h
    · rw [if_pos rfl]; exact ⟨c, l, r, rfl⟩
    · have hk : key ∈ r.keys := by
        rw [keys_eq_map_toList]; exact List.mem_map.2 ⟨_, h, rfl⟩
      have := h2 key hk
      rw [if_neg (ne_of_gt this), if_neg (not_lt_of_gt this)]
      exact zoom_found key r _ hr a v h

theorem zoom_bounds (key : K) : ∀ (t : Tree K V) (P : Path K V), t.Ordered →
    (∀ e ∈ P.before, e.2.1 < key) → (∀ e ∈ P.after, key < e.2.1) →
    (∀ e ∈ (zoom key t P).1.before, e.2.1 < key)
      ∧ (∀ e ∈ (zoom key t P).1.after, key < e.2.1)
  | leaf, P, _, hb, ha => ⟨hb, ha⟩
  | node c l a kv r, P, ho, hb, ha => by
    obtain ⟨h1, h2, hl, hr⟩ := ho
    unfold zoom
    split_ifs with e1 e2
    · exact ⟨hb, ha⟩
    · refine zoom_bounds key l _ hl (by simpa using hb) ?_
      intro e he
      simp only [Path.after_left, List.cons_append, List.mem_cons, List.mem_append] at he
      rcases he with rfl | he | he
      · exact e2
      · refine lt_trans e2 (h2 _ ?_)
        rw [keys_eq_map_toList]; exact List.mem_map.2 ⟨_, he, rfl⟩
      · exact ha e he
    · have e3 : kv.1 < key := lt_of_le_of_ne (not_lt.1 e2) (Ne.symm e1)
      refine zoom_bounds key r _ hr ?_ (by simpa using ha)
      intro e he
      simp only [Path.before_right, List.mem_append, List.mem_singleton] at he
      rcases he with (he | he) | rfl
      · exact hb e he
      · refine lt_trans (h1 _ ?_) e3
        rw [keys_eq_map_toList]; exact List.mem_map.2 ⟨_, he, rfl⟩
      · exact e3

end

end RBT

namespace RBT

variable {K V : Type}

namespace RedBlackTree

section setters
variable (s : RedBlackTree K V) (a p : Nat) (c : Color)

@[simp] theorem setParent_root : (s.setParent a p).root_ = s.root_ := rfl
@[simp] theorem setParent_nil_ : (s.setParent a p).nil_ = s.nil_ := rfl
@[simp] theorem setParent_brk : (s.setParent a p).brk = s.brk := rfl
@[simp] theorem setParent_freed : (s.setParent a p).freed = s.freed := rfl
@[simp] theorem setLeft_root : (s.setLeft a p).root_ = s.root_ := rfl
@[simp] theorem setLeft_nil_ : (s.setLeft a p).nil_ = s.nil_ := rfl
@[simp] theorem setLeft_brk : (s.setLeft a p).brk = s.brk := rfl
@[simp] theorem setLeft_freed : (s.setLeft a p).freed = s.freed := rfl
@[simp] theorem setRight_root : (s.setRight a p).root_ = s.root_ := rfl
@[simp] theorem setRight_nil_ : (s.setRight a p).nil_ = s.nil_ := rfl
@[simp] theorem setRight_brk : (s.setRight a p).brk = s.brk := rfl
@[simp] theorem setRight_freed : (s.setRight a p).freed = s.freed := rfl
@[simp] theorem setColor_root : (s.setColor a c).root_ = s.root_ := rfl
@[simp] theorem setColor_nil_ : (s.setColor a c).nil_ = s.nil_ := rfl
@[simp] theorem setColor_brk : (s.setColor a c).brk = s.brk := rfl
@[simp] theorem setColor_freed : (s.setColor a c).freed = s.freed := rfl
@[simp] theorem setRoot_root : (s.setRoot p).root_ = p := rfl
@[simp] theorem setRoot_nil_ : (s.setRoot p).nil_ = s.nil_ := rfl
@[simp] theorem setRoot_brk : (s.setRoot p).brk = s.brk := rfl
@[simp] theorem setRoot_freed : (s.setRoot p).freed = s.freed := rfl
@[simp] theorem setRoot_heap : (s.setRoot p).heap = s.heap := rfl

theorem setParent_heap (b : Nat) : (s.setParent a p).heap b =
    if b = a then { s.heap a with parent := p } else s.heap b := by
  simp [setParent, Function.update_apply]

theorem setLeft_heap (b : Nat) : (s.setLeft a p).heap b =
    if b = a then { s.heap a with left := p } else s.heap b := by
  simp [setLeft, Function.update_apply]

theorem setRight_heap (b : Nat) : (s.setRight a p).heap b =
    if b = a then { s.heap a with right := p } else s.heap b := by
  simp [setRight, Function.update_apply]

theorem setColor_heap (b : Nat) : (s.setColor a c).heap b =
    if b = a then { s.heap a with color := c } else s.heap b := by
  simp [setColor, Function.update_apply]

end setters

end RedBlackTree

open RedBlackTree

/-- The parts of `Shape s (path.plug t)`. -/
theorem shape_plug_iff {s : RedBlackTree K V} {P : Path K V} {t : Tree K V} :
    Shape s (P.plug t) ↔
      P.Rep s.heap s.nil_ s.root_ (t.rootAddr s.nil_)
      ∧ t.Rep s.heap s.nil_ (P.parentAddr s.nil_)
      ∧ t.addrs.Nodup ∧ P.addrs.Nodup ∧ (∀ a ∈ t.addrs, a ∉ P.addrs)
      ∧ (∀ a ∈ t.addrs, nullptr < a ∧ a < s.brk) ∧ (∀ a ∈ P.addrs, nullptr < a ∧ a < s.brk)
      ∧ (nullptr < s.nil_ ∧ s.nil_ < s.brk) := by
  constructor
  · rintro ⟨h1, h2, h3, h4, h5⟩
    obtain ⟨hp, ht⟩ := (Path.rep_plug P t).1 ⟨h1, h2⟩
    obtain ⟨n1, n2, n3⟩ := (Path.nodup_plug P t).1 h3
    exact ⟨hp, ht, n1, n2, n3, fun a ha => h4 a ((Path.mem_addrs_plug _ _ _).2 (Or.inl ha)),
      fun a ha => h4 a ((Path.mem_addrs_plug _ _ _).2 (Or.inr ha)), h5⟩
  · rintro ⟨hp, ht, n1, n2, n3, a1, a2, h5⟩
    obtain ⟨h1, h2⟩ := (Path.rep_plug P t).2 ⟨hp, ht⟩
    refine ⟨h1, h2, (Path.nodup_plug P t).2 ⟨n1, n2, n3⟩, fun a ha => ?_, h5⟩
    rcases (Path.mem_addrs_plug _ _ _).1 ha with h | h
    · exact a1 a h
    · exact a2 a h

end RBT

namespace RBT

variable {K V : Type}

open RedBlackTree Tree

namespace Path

/-- Writing the pointer variable of the hole: the path stays held, with the new pointer in
the hole. -/
theorem Rep.writeSlot {s : RedBlackTree K V} {P : Path K V} {a : Nat}
    (hr : P.Rep s.heap s.nil_ s.root_ a) (hnd : P.addrs.Nodup) (a' : Nat) :
    P.Rep (s.writeSlot P.slot a').heap s.nil_ (s.writeSlot P.slot a').root_ a' := by
  cases P with
  | top => simp [Path.Rep, slot, RedBlackTree.writeSlot]
  | left c p kv r up =>
    obtain ⟨hp, hrec, hr, hup⟩ := hr
    simp only [addrs_left, List.nodup_cons, List.mem_append, not_or] at hnd
    refine ⟨hp, ?_, hr.congr fun b hb => ?_, hup.congr_path fun b hb => ?_⟩
    · simp [slot, RedBlackTree.writeSlot, setLeft_heap, hrec]
    · have : b ≠ p := by rintro rfl; exact hnd.1.1 hb
      simp [slot, RedBlackTree.writeSlot, setLeft_heap, this]
    · have : b ≠ p := by rintro rfl; exact hnd.1.2 hb
      simp [slot, RedBlackTree.writeSlot, setLeft_heap, this]
  | right c l p kv up =>
    obtain ⟨hp, hrec, hr, hup⟩ := hr
    simp only [addrs_right, List.nodup_cons, List.mem_append, not_or] at hnd
    refine ⟨hp, ?_, hr.congr fun b hb => ?_, hup.congr_path fun b hb => ?_⟩
    · simp [slot, RedBlackTree.writeSlot, setRight_heap, hrec]
    · have : b ≠ p := by rintro rfl; exact hnd.1.1 hb
      simp [slot, RedBlackTree.writeSlot, setRight_heap, this]
    · have : b ≠ p := by rintro rfl; exact hnd.1.2 hb
      simp [slot, RedBlackTree.writeSlot, setRight_heap, this]

end Path

theorem writeSlot_heap_of_not_mem (s : RedBlackTree K V) (P : Path K V) (a' z : Nat)
    (hz : z ∉ P.addrs) : (s.writeSlot P.slot a').heap z = s.heap z := by
  cases P with
  | top => rfl
  | left c p kv r up =>
    have : z ≠ p := by rintro rfl; exact hz (by simp)
    simp [Path.slot, RedBlackTree.writeSlot, setLeft_heap, this]
  | right c l p kv up =>
    have : z ≠ p := by rintro rfl; exact hz (by simp)
    simp [Path.slot, RedBlackTree.writeSlot, setRight_heap, this]

@[simp] theorem writeSlot_nil_ (s : RedBlackTree K V) (sl : Slot) (a' : Nat) :
    (s.writeSlot sl a').nil_ = s.nil_ := by cases sl <;> rfl

@[simp] theorem writeSlot_brk (s : RedBlackTree K V) (sl : Slot) (a' : Nat) :
    (s.writeSlot sl a').brk = s.brk := by cases sl <;> rfl

@[simp] theorem writeSlot_freed (s : RedBlackTree K V) (sl : Slot) (a' : Nat) :
    (s.writeSlot sl a').freed = s.freed := by cases sl <;> rfl

/-- The three-way test of `LeftRotate`, `RightRotate` and `Transplant` selects the pointer
variable that designates the node. -/
theorem slot_if_eq {s0 : RedBlackTree K V} {P : Path K V} {a : Nat}
    (hr : P.Rep s0.heap s0.nil_ s0.root_ a) (ha : a ≠ s0.nil_) (hm : a ∉ P.addrs)
    (s : RedBlackTree K V) (a' : Nat) :
    (if P.parentAddr s0.nil_ = s0.nil_ then s.setRoot a'
      else if (s0.heap (P.parentAddr s0.nil_)).left = a then
        s.setLeft (P.parentAddr s0.nil_) a'
      else s.setRight (P.parentAddr s0.nil_) a') = s.writeSlot P.slot a' := by
  cases P with
  | top => simp [Path.slot, RedBlackTree.writeSlot]
  | left c p kv r up =>
    obtain ⟨hp, hrec, -, -⟩ := hr
    simp [Path.slot, RedBlackTree.writeSlot, hp, hrec]
  | right c l p kv up =>
    obtain ⟨hp, hrec, hl, -⟩ := hr
    have : l.rootAddr s0.nil_ ≠ a := by
      rcases Tree.rootAddr_mem_or s0.nil_ l with h | h
      · subst h; exact fun e => ha e.symm
      · intro e; rw [e] at h; exact hm (by simp [h])
    simp [Path.slot, RedBlackTree.writeSlot, hp, hrec, this]

theorem parentAddr_ne_of_not_mem {nl : Nat} {P : Path K V} {x : Nat} (hx : x ≠ nl)
    (hm : x ∉ P.addrs) : P.parentAddr nl ≠ x := by
  cases P with
  | top => exact fun e => hx e.symm
  | left c p kv r up => rintro rfl; exact hm (by simp)
  | right c l p kv up => rintro rfl; exact hm (by simp)

theorem rootAddr_ne_of_not_mem {nl : Nat} {t : Tree K V} {x : Nat} (hx : x ≠ nl)
    (hm : x ∉ t.addrs) : t.rootAddr nl ≠ x := by
  rcases Tree.rootAddr_mem_or nl t with h | h
  · subst h; exact fun e => hx e.symm
  · intro e; rw [e] at h; exact hm h

/-- Replacing the tree in the hole by a tree on a subset of its nodes. -/
theorem Shape.replace {s s' : RedBlackTree K V} {P : Path K V} {t t' : Tree K V}
    (h : Shape s (P.plug t)) (hsub : ∀ a ∈ t'.addrs, a ∈ t.addrs) (hnd : t'.addrs.Nodup)
    (hnil : s'.nil_ = s.nil_) (hbrk : s.brk ≤ s'.brk)
    (hp : P.Rep s'.heap s.nil_ s'.root_ (t'.rootAddr s.nil_))
    (ht : t'.Rep s'.heap s.nil_ (P.parentAddr s.nil_)) : Shape s' (P.plug t') := by
  rw [shape_plug_iff] at h ⊢
  obtain ⟨-, -, n1, n2, n3, a1, a2, h5⟩ := h
  rw [hnil]
  exact ⟨hp, ht, hnd, n2, fun a ha => n3 a (hsub a ha),
    fun a ha => ⟨(a1 a (hsub a ha)).1, lt_of_lt_of_le (a1 a (hsub a ha)).2 hbrk⟩,
    fun a ha => ⟨(a2 a ha).1, lt_of_lt_of_le (a2 a ha).2 hbrk⟩, h5.1, lt_of_lt_of_le h5.2 hbrk⟩

theorem Frame.refl (s : RedBlackTree K V) : Frame s s := ⟨rfl, rfl, rfl, rfl⟩

theorem Frame.trans {s1 s2 s3 : RedBlackTree K V} (h1 : Frame s1 s2) (h2 : Frame s2 s3) :
    Frame s1 s3 :=
  ⟨h2.nil_.trans h1.nil_, h2.brk.trans h1.brk, h2.freed.trans h1.freed, by
    have := h2.sentinel; rw [h1.nil_] at this; rw [this, h1.sentinel]⟩

theorem Frame.sentinelBlack {s s' : RedBlackTree K V} (h : Frame s s') (hb : SentinelBlack s) :
    SentinelBlack s' := by
  unfold SentinelBlack at *
  rw [h.nil_, h.sentinel, hb]

theorem setColor_frame (s : RedBlackTree K V) {a : Nat} (c : Color) (ha : a ≠ s.nil_) :
    Frame s (s.setColor a c) :=
  ⟨rfl, rfl, rfl, by simp [setColor_heap, Ne.symm ha]⟩

theorem LeftRotate_shape {s : RedBlackTree K V} {P : Path K V} {cx cy : Color}
    {A B C : Tree K V} {x y : Nat} {kx ky : K × V}
    (h : Shape s (P.plug (node cx A x kx (node cy B y ky C)))) :
    Shape (LeftRotate s x) (P.plug (node cy (node cx A x kx B) y ky C))
      ∧ Frame s (LeftRotate s x) := by
  have h0 := h
  rw [shape_plug_iff] at h
  obtain ⟨hp, ht, n1, n2, n3, a1, a2, h5⟩ := h
  have hadd : (node cy (node cx A x kx B) y ky C).addrs
      = (node cx A x kx (node cy B y ky C)).addrs := by simp
  obtain ⟨hx, hxrec, hA, hx_r⟩ := ht
  obtain ⟨hy, hyrec, hB, hC⟩ := hx_r
  simp only [rootAddr_node] at hp hxrec
  have n1' := n1
  simp only [addrs_node, List.nodup_append, List.nodup_cons, List.mem_append, List.mem_cons,
    List.Disjoint, not_or] at n1 n3 a1
  obtain ⟨nA, ⟨⟨hxB, hxy, hxC⟩, nB, ⟨hyC, nC⟩, hBC⟩, hAx⟩ := n1
  have hbx : B.rootAddr s.nil_ ≠ x := rootAddr_ne_of_not_mem hx hxB
  have hby : B.rootAddr s.nil_ ≠ y := rootAddr_ne_of_not_mem hy fun h => hBC h (Or.inl rfl)
  have hxp : x ∉ P.addrs := n3 x (by simp)
  have hyp : y ∉ P.addrs := n3 y (by simp)
  have hpx : P.parentAddr s.nil_ ≠ x := parentAddr_ne_of_not_mem hx hxp
  have hpy : P.parentAddr s.nil_ ≠ y := parentAddr_ne_of_not_mem hy hyp
  have e1 : ∃ s2 : RedBlackTree K V, s2.nil_ = s.nil_ ∧ s2.root_ = s.root_ ∧ s2.brk = s.brk ∧
      s2.freed = s.freed ∧
      s2.heap x = { s.heap x with right := B.rootAddr s.nil_ } ∧
      s2.heap y = s.heap y ∧
      (B ≠ leaf → s2.heap (B.rootAddr s.nil_) = { s.heap (B.rootAddr s.nil_) with parent := x }) ∧
      (∀ z, z ≠ x → z ≠ B.rootAddr s.nil_ ∨ B = leaf → s2.heap z = s.heap z) ∧
      LeftRotate s x = (((s2.setParent y (P.parentAddr s.nil_)).writeSlot P.slot y).setLeft y
        x).setParent x y := by
    cases B with
    | leaf =>
      refine ⟨s.setRight x s.nil_, rfl, rfl, rfl, rfl, ?_, ?_, ?_, ?_, ?_⟩
      · simp [setRight_heap]
      · simp [setRight_heap, Ne.symm hxy]
      · simp
      · intro z hz _; simp [setRight_heap, hz]
      · unfold LeftRotate
        simp only [setRight_heap, setParent_heap, setRight_nil_, setParent_nil_, hxrec, hyrec,
          if_true, rootAddr_leaf, hxy, Ne.symm hxy, if_false, ne_eq, not_true_eq_false,
          hpx, Ne.symm hpx, hpy, Ne.symm hpy]
        rw [slot_if_eq hp hx hxp]
    | node cb Bl b kb Br =>
      simp only [rootAddr_node] at hbx hby hyrec ⊢
      have hb := hB.1
      have hpb : P.parentAddr s.nil_ ≠ b :=
        parentAddr_ne_of_not_mem hb (n3 b (by simp))
      refine ⟨(s.setRight x b).setParent b x, rfl, rfl, rfl, rfl, ?_, ?_, ?_, ?_, ?_⟩
      · simp [setRight_heap, setParent_heap, Ne.symm hbx]
      · simp [setRight_heap, setParent_heap, Ne.symm hby, Ne.symm hxy]
      · simp [setRight_heap, setParent_heap, hbx]
      · intro z hz hzb; simp at hzb; simp [setRight_heap, setParent_heap, hz, hzb]
      · unfold LeftRotate
        simp only [setRight_heap, setParent_heap, setRight_nil_, setParent_nil_, hxrec, hyrec,
          if_true, hxy, Ne.symm hxy, if_false, ne_eq, not_true_eq_false, not_false_eq_true,
          hpx, Ne.symm hpx, hpy, Ne.symm hpy, hb, hbx, Ne.symm hbx, hby, Ne.symm hby, hpb]
        rw [slot_if_eq hp hx hxp]
  obtain ⟨s2, e_nil, e_root, e_brk, e_fr, e_x, e_y, e_b, e_z, e⟩ := e1
  rw [e]
  have hzp : ∀ z ∈ P.addrs, s2.heap z = s.heap z := by
    intro z hz
    refine e_z z (by rintro rfl; exact hxp hz) ?_
    rcases Tree.rootAddr_mem_or s.nil_ B with h | h
    · exact Or.inr h
    · left; rintro rfl; exact n3 _ (by simp [h]) hz
  have hp3 : P.Rep (s2.setParent y (P.parentAddr s.nil_)).heap
      (s2.setParent y (P.parentAddr s.nil_)).nil_
      (s2.setParent y (P.parentAddr s.nil_)).root_ x := by
    simp only [setParent_nil_, setParent_root, e_nil, e_root]
    refine hp.congr_path fun z hz => ?_
    have : z ≠ y := by rintro rfl; exact hyp hz
    simp [setParent_heap, this, hzp z hz]
  have hp4 := hp3.writeSlot n2 y
  refine ⟨h0.replace (by simp) (by rw [hadd]; exact n1') (by simp [e_nil]) (by simp [e_brk]) ?_ ?_,
    by simp [e_nil], by simp [e_brk], by simp [e_fr], ?_⟩
  rotate_left 2
  · have hn : s.nil_ ∉ P.addrs := hp.nil_not_mem_path
    have hnB : s.nil_ ≠ B.rootAddr s.nil_ ∨ B = leaf := by
      rcases Tree.rootAddr_mem_or s.nil_ B with h | h
      · exact Or.inr h
      · left; intro e; rw [← e] at h; exact hB.nil_not_mem h
    simp [setParent_heap, setLeft_heap, Ne.symm hx, Ne.symm hy,
      writeSlot_heap_of_not_mem _ _ _ _ hn, e_z _ (Ne.symm hx) hnB]
  · simp only [setParent_nil_, e_nil, setParent_root, setLeft_root, rootAddr_node] at hp4 ⊢
    refine hp4.congr_path fun z hz => ?_
    have h1 : z ≠ y := by rintro rfl; exact hyp hz
    have h2 : z ≠ x := by rintro rfl; exact hxp hz
    simp [setParent_heap, setLeft_heap, h1, h2]
  · have hh : ∀ z, z ∉ P.addrs → z ≠ x → z ≠ y →
        ((((s2.setParent y (P.parentAddr s.nil_)).writeSlot P.slot y).setLeft y
        x).setParent x y).heap z = s2.heap z := by
      intro z hz h1 h2
      simp [setParent_heap, setLeft_heap, h1, h2, writeSlot_heap_of_not_mem _ _ _ _ hz]
    refine ⟨hy, ?_, ⟨hx, ?_, ?_, ?_⟩, ?_⟩
    · simp [setParent_heap, setLeft_heap, Ne.symm hxy, writeSlot_heap_of_not_mem _ _ _ _ hyp,
        e_y, hyrec]
    · simp [setParent_heap, setLeft_heap, hxy, writeSlot_heap_of_not_mem _ _ _ _ hxp,
        e_x, hxrec]
    · refine hA.congr fun z hz => ?_
      have h1 : z ≠ x := by rintro rfl; exact hAx hz (Or.inl rfl)
      have h2 : z ≠ y := by rintro rfl; exact hAx hz (Or.inr (Or.inr (Or.inl rfl)))
      rw [hh z (n3 z (Or.inl hz)) h1 h2]
      refine e_z z h1 ?_
      rcases Tree.rootAddr_mem_or s.nil_ B with h | h
      · exact Or.inr h
      · left; rintro rfl; exact hAx hz (Or.inr (Or.inl h))
    · refine hB.reparent nB (fun hne => ?_) fun z hz hzr => ?_
      · rw [hh _ (n3 _ (Or.inr (Or.inr (Or.inl ((Tree.rootAddr_mem_or s.nil_ B).resolve_left hne)))))
          hbx hby]
        exact e_b hne
      · have h1 : z ≠ x := by rintro rfl; exact hxB hz
        have h2 : z ≠ y := by rintro rfl; exact hBC hz (Or.inl rfl)
        rw [hh z (n3 z (Or.inr (Or.inr (Or.inl hz)))) h1 h2]
        exact e_z z h1 (Or.inl hzr)
    · refine hC.congr fun z hz => ?_
      have h1 : z ≠ x := by rintro rfl; exact hxC hz
      have h2 : z ≠ y := by rintro rfl; exact hyC hz
      rw [hh z (n3 z (Or.inr (Or.inr (Or.inr (Or.inr hz))))) h1 h2]
      refine e_z z h1 ?_
      rcases Tree.rootAddr_mem_or s.nil_ B with h | h
      · exact Or.inr h
      · left; rintro rfl; exact hBC h (Or.inr hz)

theorem RightRotate_shape {s : RedBlackTree K V} {P : Path K V} {cx cy : Color}
    {A B C : Tree K V} {x y : Nat} {kx ky : K × V}
    (h : Shape s (P.plug (node cy (node cx A x kx B) y ky C))) :
    Shape (RightRotate s y) (P.plug (node cx A x kx (node cy B y ky C)))
      ∧ Frame s (RightRotate s y) := by
  have h0 := h
  rw [shape_plug_iff] at h
  obtain ⟨hp, ht, n1, n2, n3, a1, a2, h5⟩ := h
  have hadd : (node cx A x kx (node cy B y ky C)).addrs
      = (node cy (node cx A x kx B) y ky C).addrs := by simp
  obtain ⟨hy, hyrec, hy_l, hC⟩ := ht
  obtain ⟨hx, hxrec, hA, hB⟩ := hy_l
  simp only [rootAddr_node] at hp hyrec
  have n1' := n1
  simp only [addrs_node, List.nodup_append, List.nodup_cons, List.mem_append, List.mem_cons,
    List.Disjoint, not_or] at n1 n3 a1
  obtain ⟨⟨nA, ⟨hxB, nB⟩, hAx⟩, ⟨hyC, nC⟩, hABC⟩ := n1
  have hxy : x ≠ y := fun e => hABC (Or.inr (Or.inl rfl)) (Or.inl e)
  have hyB : y ∉ B.addrs := fun h => hABC (Or.inr (Or.inr h)) (Or.inl rfl)
  have hxC : x ∉ C.addrs := fun h => hABC (Or.inr (Or.inl rfl)) (Or.inr h)
  have hbx : B.rootAddr s.nil_ ≠ x := rootAddr_ne_of_not_mem hx hxB
  have hby : B.rootAddr s.nil_ ≠ y := rootAddr_ne_of_not_mem hy hyB
  have hxp : x ∉ P.addrs := n3 x (by simp)
  have hyp : y ∉ P.addrs := n3 y (by simp)
  have hpx : P.parentAddr s.nil_ ≠ x := parentAddr_ne_of_not_mem hx hxp
  have hpy : P.parentAddr s.nil_ ≠ y := parentAddr_ne_of_not_mem hy hyp
  have e1 : ∃ s2 : RedBlackTree K V, s2.nil_ = s.nil_ ∧ s2.root_ = s.root_ ∧ s2.brk = s.brk ∧
      s2.freed = s.freed ∧
      s2.heap y = { s.heap y with left := B.rootAddr s.nil_ } ∧
      s2.heap x = s.heap x ∧
      (B ≠ leaf → s2.heap (B.rootAddr s.nil_) = { s.heap (B.rootAddr s.nil_) with parent := y }) ∧
      (∀ z, z ≠ y → z ≠ B.rootAddr s.nil_ ∨ B = leaf → s2.heap z = s.heap z) ∧
      RightRotate s y = (((s2.setParent x (P.parentAddr s.nil_)).writeSlot P.slot x).setRight x
        y).setParent y x := by
    cases B with
    | leaf =>
      refine ⟨s.setLeft y s.nil_, rfl, rfl, rfl, rfl, ?_, ?_, ?_, ?_, ?_⟩
      · simp [setLeft_heap]
      · simp [setLeft_heap, hxy]
      · simp
      · intro z hz _; simp [setLeft_heap, hz]
      · unfold RightRotate
        simp only [setLeft_heap, setParent_heap, setLeft_nil_, setParent_nil_, hxrec, hyrec,
          if_true, rootAddr_leaf, hxy, Ne.symm hxy, if_false, ne_eq, not_true_eq_false,
          hpx, Ne.symm hpx, hpy, Ne.symm hpy]
        rw [slot_if_eq hp hy hyp]
    | node cb Bl b kb Br =>
      simp only [rootAddr_node] at hbx hby hxrec ⊢
      have hb := hB.1
      have hpb : P.parentAddr s.nil_ ≠ b :=
        parentAddr_ne_of_not_mem hb (n3 b (by simp))
      refine ⟨(s.setLeft y b).setParent b y, rfl, rfl, rfl, rfl, ?_, ?_, ?_, ?_, ?_⟩
      · simp [setLeft_heap, setParent_heap, Ne.symm hby]
      · simp [setLeft_heap, setParent_heap, Ne.symm hbx, hxy]
      · simp [setLeft_heap, setParent_heap, hby]
      · intro z hz hzb; simp at hzb; simp [setLeft_heap, setParent_heap, hz, hzb]
      · unfold RightRotate
        simp only [setLeft_heap, setParent_heap, setLeft_nil_, setParent_nil_, hxrec, hyrec,
          if_true, hxy, Ne.symm hxy, if_false, ne_eq, not_true_eq_false, not_false_eq_true,
          hpx, Ne.symm hpx, hpy, Ne.symm hpy, hb, hbx, Ne.symm hbx, hby, Ne.symm hby, hpb]
        rw [slot_if_eq hp hy hyp]
  obtain ⟨s2, e_nil, e_root, e_brk, e_fr, e_y, e_x, e_b, e_z, e⟩ := e1
  rw [e]
  have hzB : ∀ z, z ∉ B.addrs → z ≠ B.rootAddr s.nil_ ∨ B = leaf := by
    intro z hz
    rcases Tree.rootAddr_mem_or s.nil_ B with h | h
    · exact Or.inr h
    · left; rintro rfl; exact hz h
  have hzp : ∀ z ∈ P.addrs, s2.heap z = s.heap z := by
    intro z hz
    exact e_z z (by rintro rfl; exact hyp hz) (hzB z fun h => n3 z (by simp [h]) hz)
  have hp3 : P.Rep (s2.setParent x (P.parentAddr s.nil_)).heap
      (s2.setParent x (P.parentAddr s.nil_)).nil_
      (s2.setParent x (P.parentAddr s.nil_)).root_ y := by
    simp only [setParent_nil_, setParent_root, e_nil, e_root]
    refine hp.congr_path fun z hz => ?_
    have : z ≠ x := by rintro rfl; exact hxp hz
    simp [setParent_heap, this, hzp z hz]
  have hp4 := hp3.writeSlot n2 x
  refine ⟨h0.replace (by simp) (by rw [hadd]; exact n1') (by simp [e_nil]) (by simp [e_brk]) ?_ ?_,
    by simp [e_nil], by simp [e_brk], by simp [e_fr], ?_⟩
  rotate_left 2
  · have hn : s.nil_ ∉ P.addrs := hp.nil_not_mem_path
    have hnB : s.nil_ ≠ B.rootAddr s.nil_ ∨ B = leaf := by
      rcases Tree.rootAddr_mem_or s.nil_ B with h | h
      · exact Or.inr h
      · left; intro e; rw [← e] at h; exact hB.nil_not_mem h
    simp [setParent_heap, setRight_heap, Ne.symm hx, Ne.symm hy,
      writeSlot_heap_of_not_mem _ _ _ _ hn, e_z _ (Ne.symm hy) hnB]
  · simp only [setParent_nil_, e_nil, setParent_root, setRight_root, rootAddr_node] at hp4 ⊢
    refine hp4.congr_path fun z hz => ?_
    have h1 : z ≠ y := by rintro rfl; exact hyp hz
    have h2 : z ≠ x := by rintro rfl; exact hxp hz
    simp [setParent_heap, setRight_heap, h1, h2]
  · have hh : ∀ z, z ∉ P.addrs → z ≠ x → z ≠ y →
        ((((s2.setParent x (P.parentAddr s.nil_)).writeSlot P.slot x).setRight x
        y).setParent y x).heap z = s2.heap z := by
      intro z hz h1 h2
      simp [setParent_heap, setRight_heap, h1, h2, writeSlot_heap_of_not_mem _ _ _ _ hz]
    refine ⟨hx, ?_, ?_, ⟨hy, ?_, ?_, ?_⟩⟩
    · simp [setParent_heap, setRight_heap, hxy, writeSlot_heap_of_not_mem _ _ _ _ hxp,
        e_x, hxrec]
    · refine hA.congr fun z hz => ?_
      have h1 : z ≠ x := by rintro rfl; exact hAx hz (Or.inl rfl)
      have h2 : z ≠ y := by rintro rfl; exact hABC (Or.inl hz) (Or.inl rfl)
      rw [hh z (n3 z (Or.inl (Or.inl hz))) h1 h2]
      exact e_z z h2 (hzB z fun h => hAx hz (Or.inr h))
    · simp [setParent_heap, setRight_heap, Ne.symm hxy, writeSlot_heap_of_not_mem _ _ _ _ hyp,
        e_y, hyrec]
    · refine hB.reparent nB (fun hne => ?_) fun z hz hzr => ?_
      · rw [hh _ (n3 _ (Or.inl (Or.inr (Or.inr ((Tree.rootAddr_mem_or s.nil_ B).resolve_left hne)))))
          hbx hby]
        exact e_b hne
      · have h1 : z ≠ x := by rintro rfl; exact hxB hz
        have h2 : z ≠ y := by rintro rfl; exact hyB hz
        rw [hh z (n3 z (Or.inl (Or.inr (Or.inr hz)))) h1 h2]
        exact e_z z h2 (Or.inl hzr)
    · refine hC.congr fun z hz => ?_
      have h1 : z ≠ x := by rintro rfl; exact hxC hz
      have h2 : z ≠ y := by rintro rfl; exact hyC hz
      rw [hh z (n3 z (Or.inr (Or.inr hz))) h1 h2]
      exact e_z z h2 (hzB z fun h => hABC (Or.inr (Or.inr h)) (Or.inr hz))

end RBT

namespace RBT

variable {K V : Type}

open RedBlackTree Tree

/-- The cell of the node in the hole. -/
theorem Shape.focus {s : RedBlackTree K V} {P : Path K V} {c : Color} {l r : Tree K V}
    {a : Nat} {kv : K × V} (h : Shape s (P.plug (node c l a kv r))) :
    a ≠ s.nil_ ∧
      s.heap a = ⟨P.parentAddr s.nil_, l.rootAddr s.nil_, r.rootAddr s.nil_, kv, c⟩ := by
  rw [shape_plug_iff] at h
  exact ⟨h.2.1.1, h.2.1.2.1⟩

theorem Shape.focus_not_mem {s : RedBlackTree K V} {P : Path K V} {c : Color} {l r : Tree K V}
    {a : Nat} {kv : K × V} (h : Shape s (P.plug (node c l a kv r))) :
    a ∉ P.addrs ∧ a ∉ l.addrs ∧ a ∉ r.addrs := by
  rw [shape_plug_iff] at h
  obtain ⟨-, -, n1, -, n3, -⟩ := h
  simp only [addrs_node, List.nodup_append, List.nodup_cons, List.mem_append, List.mem_cons,
    List.Disjoint, not_or] at n1 n3
  exact ⟨n3 a (by simp), fun h => n1.2.2 h (Or.inl rfl), n1.2.1.1⟩

/-- The colour read through the pointer to a subtree. -/
theorem Tree.Rep.color_root {h : Nat → Node K V} {nl p : Nat} {t : Tree K V}
    (hr : t.Rep h nl p) (hb : (h nl).color = Color.BLACK) :
    (h (t.rootAddr nl)).color = t.rootColor := by
  cases t with
  | leaf => simpa using hb
  | node c l a kv r => simp [hr.2.1]

theorem setColor_shape {s : RedBlackTree K V} {P : Path K V} {c : Color} {l r : Tree K V}
    {a : Nat} {kv : K × V} (h : Shape s (P.plug (node c l a kv r))) (c' : Color) :
    Shape (s.setColor a c') (P.plug (node c' l a kv r)) ∧ Frame s (s.setColor a c') := by
  have h0 := h
  obtain ⟨hap, hal, har⟩ := h.focus_not_mem
  rw [shape_plug_iff] at h
  obtain ⟨hp, ⟨ha, harec, hl, hr⟩, n1, n2, n3, a1, a2, h5⟩ := h
  refine ⟨h0.replace (by simp) n1 rfl (le_refl _) ?_ ?_, setColor_frame s c' ha⟩
  · refine hp.congr_path fun z hz => ?_
    have : z ≠ a := by rintro rfl; exact hap hz
    simp [setColor_heap, this]
  · refine ⟨ha, by simp [setColor_heap, harec], hl.congr fun z hz => ?_, hr.congr fun z hz => ?_⟩
    · have : z ≠ a := by rintro rfl; exact hal hz
      simp [setColor_heap, this]
    · have : z ≠ a := by rintro rfl; exact har hz
      simp [setColor_heap, this]

end RBT

namespace RBT

variable {K V : Type}

open RedBlackTree Tree

theorem Shape.focus_children {s : RedBlackTree K V} {P : Path K V} {c : Color}
    {l r : Tree K V} {a : Nat} {kv : K × V} (h : Shape s (P.plug (node c l a kv r))) :
    l.Rep s.heap s.nil_ a ∧ r.Rep s.heap s.nil_ a := by
  rw [shape_plug_iff] at h
  exact ⟨h.2.1.2.2.1, h.2.1.2.2.2⟩

/-- The colour read through the pointer to the left subtree of the node in the hole. -/
theorem Shape.color_left {s : RedBlackTree K V} {P : Path K V} {c : Color}
    {l r : Tree K V} {a : Nat} {kv : K × V} (h : Shape s (P.plug (node c l a kv r)))
    (hb : SentinelBlack s) : (s.heap (l.rootAddr s.nil_)).color = l.rootColor :=
  h.focus_children.1.color_root hb

theorem Shape.color_right {s : RedBlackTree K V} {P : Path K V} {c : Color}
    {l r : Tree K V} {a : Nat} {kv : K × V} (h : Shape s (P.plug (node c l a kv r)))
    (hb : SentinelBlack s) : (s.heap (r.rootAddr s.nil_)).color = r.rootColor :=
  h.focus_children.2.color_root hb

theorem Shape.rootAddr_left_ne {s : RedBlackTree K V} {P : Path K V} {c : Color}
    {l r : Tree K V} {a : Nat} {kv : K × V} (h : Shape s (P.plug (node c l a kv r))) :
    l.rootAddr s.nil_ ≠ a := rootAddr_ne_of_not_mem h.focus.1 h.focus_not_mem.2.1

theorem Shape.rootAddr_right_ne {s : RedBlackTree K V} {P : Path K V} {c : Color}
    {l r : Tree K V} {a : Nat} {kv : K × V} (h : Shape s (P.plug (node c l a kv r))) :
    r.rootAddr s.nil_ ≠ a := rootAddr_ne_of_not_mem h.focus.1 h.focus_not_mem.2.2

/-- The loop of `InsertFixup` ends when the parent is not RED. -/
theorem InsertFixupLoop_exit (s : RedBlackTree K V) (z fuel : Nat)
    (h : (s.heap (s.heap z).parent).color ≠ Color.RED) :
    InsertFixupLoop (fuel + 1) s z = some s := by
  rw [InsertFixupLoop]; simp [h]

theorem Shape.parent_color {s : RedBlackTree K V} {P : Path K V} {t : Tree K V}
    (h : Shape s (P.plug t)) (hb : SentinelBlack s) :
    (s.heap (P.parentAddr s.nil_)).color = P.parentColor := by
  cases P with
  | top => exact hb
  | left c p kp r up => simp [(Shape.focus (P := up) h).2, Path.parentColor]
  | right c l p kp up => simp [(Shape.focus (P := up) h).2, Path.parentColor]

/-- The node in the hole is not the root of its left sibling. -/
theorem Shape.sibling_left_ne {s : RedBlackTree K V} {up : Path K V} {c : Color}
    {l t : Tree K V} {a : Nat} {kv : K × V} (h : Shape s ((Path.right c l a kv up).plug t))
    {x : Nat} (hx : x ∈ t.addrs) : l.rootAddr s.nil_ ≠ x := by
  have hh := h
  rw [shape_plug_iff] at hh
  obtain ⟨-, ht, -, -, n3, -⟩ := hh
  have hxn : x ≠ s.nil_ := by rintro rfl; exact ht.nil_not_mem hx
  exact rootAddr_ne_of_not_mem hxn fun hm => n3 x hx (by simp [hm])

/-- The node in the hole is not the root of its right sibling. -/
theorem Shape.sibling_right_ne {s : RedBlackTree K V} {up : Path K V} {c : Color}
    {r t : Tree K V} {a : Nat} {kv : K × V} (h : Shape s ((Path.left c a kv r up).plug t))
    {x : Nat} (hx : x ∈ t.addrs) : r.rootAddr s.nil_ ≠ x := by
  have hh := h
  rw [shape_plug_iff] at hh
  obtain ⟨-, ht, -, -, n3, -⟩ := hh
  have hxn : x ≠ s.nil_ := by rintro rfl; exact ht.nil_not_mem hx
  exact rootAddr_ne_of_not_mem hxn fun hm => n3 x hx (by simp [hm])

end RBT

namespace RBT

variable {K V : Type}

open RedBlackTree Tree

theorem InsertFixupLoop_sim (P : Path K V) (t : Tree K V) :
    ∀ (s : RedBlackTree K V) (fuel : Nat), Shape s (P.plug t) → t ≠ leaf →
      SentinelBlack s → (P.plug leaf).rootColor = Color.BLACK → P.depth + 2 ≤ fuel →
      ∃ s', InsertFixupLoop fuel s (t.rootAddr s.nil_) = some s' ∧ Shape s' (insFix P t)
        ∧ Frame s s' := by
  induction P, t using insFix.induct with
  | case1 t =>
    intro s fuel h ht hb _ hf
    obtain ⟨fuel, rfl⟩ : ∃ f, fuel = f + 1 := ⟨fuel - 1, by omega⟩
    obtain ⟨ct, tl, z, kz, tr, rfl⟩ : ∃ ct tl z kz tr, t = node ct tl z kz tr := by
      cases t <;> simp at ht ⊢
    refine ⟨s, InsertFixupLoop_exit _ _ _ ?_, by simpa [insFix] using h, Frame.refl s⟩
    have := (Shape.focus (P := .top) h).2
    have hb' : (s.heap s.nil_).color = Color.BLACK := hb
    simp [this, hb']
  | case2 p kp r up t =>
    intro s fuel h ht hb _ hf
    obtain ⟨fuel, rfl⟩ : ∃ f, fuel = f + 1 := ⟨fuel - 1, by omega⟩
    obtain ⟨ct, tl, z, kz, tr, rfl⟩ : ∃ ct tl z kz tr, t = node ct tl z kz tr := by
      cases t <;> simp at ht ⊢
    refine ⟨s, InsertFixupLoop_exit _ _ _ ?_, by simpa [insFix] using h, Frame.refl s⟩
    have := (Shape.focus h).2
    have hp := (Shape.focus (P := up) h).2
    simp [this, hp]
  | case3 l p kp up t =>
    intro s fuel h ht hb _ hf
    obtain ⟨fuel, rfl⟩ : ∃ f, fuel = f + 1 := ⟨fuel - 1, by omega⟩
    obtain ⟨ct, tl, z, kz, tr, rfl⟩ : ∃ ct tl z kz tr, t = node ct tl z kz tr := by
      cases t <;> simp at ht ⊢
    refine ⟨s, InsertFixupLoop_exit _ _ _ ?_, by simpa [insFix] using h, Frame.refl s⟩
    have := (Shape.focus h).2
    have hp := (Shape.focus (P := up) h).2
    simp [this, hp]
  | case4 p kp r t =>
    intro s fuel h ht hb hroot hf
    simp at hroot
  | case5 l p kp t =>
    intro s fuel h ht hb hroot hf
    simp at hroot
  | case6 p kp r c g kg u upg t hu ih =>
    intro s fuel h ht hb hroot hf
    obtain ⟨fuel, rfl⟩ : ∃ f, fuel = f + 1 := ⟨fuel - 1, by omega⟩
    obtain ⟨ct, tl, z, kz, tr, rfl⟩ : ∃ ct tl z kz tr, t = node ct tl z kz tr := by
      cases t <;> simp at ht ⊢
    obtain ⟨ul, ua, ku, ur, rfl⟩ : ∃ ul ua ku ur, u = node Color.RED ul ua ku ur := by
      cases u <;> simp at hu ⊢; exact hu
    have hz := (Shape.focus h).2
    have hp := (Shape.focus (P := .left c g kg _ upg) h).2
    have hg := (Shape.focus (P := upg) h).2
    have hua := (Shape.focus (P := .right c _ g kg upg) h).2
    simp only [Path.parentAddr_left, rootAddr_node] at hz hp hg
    have h1 := setColor_shape (P := .left c g kg _ upg) h Color.BLACK
    have h2 := setColor_shape (P := .right c _ g kg upg) h1.1 Color.BLACK
    have h3 := setColor_shape (P := upg) h2.1 Color.RED
    have hfr := (h1.2.trans h2.2).trans h3.2
    obtain ⟨s', e, hs', hfr'⟩ := ih _ fuel h3.1 (by simp) (hfr.sentinelBlack hb)
      (rootColor_plug_up _ _ _ _ _ _ (rootColor_plug_up _ _ _ _ _ _ hroot))
      (by simp [Path.depth] at hf; omega)
    refine ⟨s', ?_, by simpa [insFix, paint] using hs', hfr.trans hfr'⟩
    rw [InsertFixupLoop]
    simp only [rootAddr_node, hz, hp, hg, hua, if_true, setColor_nil_] at e ⊢
    exact e
  | case7 p kp r c g kg u upg t hu =>
    intro s fuel h ht hb hroot hf
    obtain ⟨fuel, rfl⟩ : ∃ f, fuel = f + 2 := ⟨fuel - 2, by simp [Path.depth] at hf; omega⟩
    obtain ⟨ct, tl, z, kz, tr, rfl⟩ : ∃ ct tl z kz tr, t = node ct tl z kz tr := by
      cases t <;> simp at ht ⊢
    have hz := (Shape.focus h).2
    have hp := (Shape.focus (P := .left c g kg _ upg) h).2
    have hg := (Shape.focus (P := upg) h).2
    have hua := Shape.color_right (P := upg) h hb
    have hzr := Shape.sibling_right_ne h (x := z) (by simp)
    simp only [Path.parentAddr_left, rootAddr_node] at hz hp hg hzr
    have h1 := setColor_shape (P := .left c g kg _ upg) h Color.BLACK
    have h2 := setColor_shape (P := upg) h1.1 Color.RED
    have h3 := RightRotate_shape (P := upg) h2.1
    have hfr := (h1.2.trans h2.2).trans h3.2
    have hz3 := (Shape.focus (P := .left _ p kp _ upg) h3.1).2
    have hp3 := (Shape.focus (P := upg) h3.1).2
    simp only [Path.parentAddr_left] at hz3
    refine ⟨_, ?_, by simpa [insFix, hu] using h3.1, hfr⟩
    rw [InsertFixupLoop]
    simp only [rootAddr_node, hz, hp, hg, hua, hu, if_true, if_false, setColor_nil_,
      Ne.symm hzr, setColor_heap]
    exact InsertFixupLoop_exit _ _ _ (by simp [hz3, hp3])
  | case8 l p kp c g kg u upg t hu ih =>
    intro s fuel h ht hb hroot hf
    obtain ⟨fuel, rfl⟩ : ∃ f, fuel = f + 1 := ⟨fuel - 1, by omega⟩
    obtain ⟨ct, tl, z, kz, tr, rfl⟩ : ∃ ct tl z kz tr, t = node ct tl z kz tr := by
      cases t <;> simp at ht ⊢
    obtain ⟨ul, ua, ku, ur, rfl⟩ : ∃ ul ua ku ur, u = node Color.RED ul ua ku ur := by
      cases u <;> simp at hu ⊢; exact hu
    have hz := (Shape.focus h).2
    have hp := (Shape.focus (P := .left c g kg _ upg) h).2
    have hg := (Shape.focus (P := upg) h).2
    have hua := (Shape.focus (P := .right c _ g kg upg) h).2
    simp only [Path.parentAddr_left, Path.parentAddr_right, rootAddr_node] at hz hp hg
    have h1 := setColor_shape (P := .left c g kg _ upg) h Color.BLACK
    have h2 := setColor_shape (P := .right c _ g kg upg) h1.1 Color.BLACK
    have h3 := setColor_shape (P := upg) h2.1 Color.RED
    have hfr := (h1.2.trans h2.2).trans h3.2
    obtain ⟨s', e, hs', hfr'⟩ := ih _ fuel h3.1 (by simp) (hfr.sentinelBlack hb)
      (rootColor_plug_up _ _ _ _ _ _ (rootColor_plug_up _ _ _ _ _ _ hroot))
      (by simp [Path.depth] at hf; omega)
    refine ⟨s', ?_, by simpa [insFix, paint] using hs', hfr.trans hfr'⟩
    rw [InsertFixupLoop]
    simp only [rootAddr_node, hz, hp, hg, hua, if_true, setColor_nil_] at e ⊢
    exact e
  | case9 l p kp c g kg u upg hu =>
    intro s fuel h ht
    exact absurd rfl ht
  | case10 l p kp c g kg u upg hu ct tl z kz tr =>
    intro s fuel h ht hb hroot hf
    obtain ⟨fuel, rfl⟩ : ∃ f, fuel = f + 2 := ⟨fuel - 2, by simp [Path.depth] at hf; omega⟩
    have hz := (Shape.focus h).2
    have hp := (Shape.focus (P := .left c g kg _ upg) h).2
    have hg := (Shape.focus (P := upg) h).2
    have hua := Shape.color_right (P := upg) h hb
    simp only [Path.parentAddr_left, Path.parentAddr_right, rootAddr_node] at hz hp hg
    have h0 := LeftRotate_shape (P := .left c g kg _ upg) h
    have hp0 := (Shape.focus (P := .left _ z kz _ (.left c g kg _ upg)) h0.1).2
    simp only [Path.parentAddr_left] at hp0
    have h1 := setColor_shape (P := .left c g kg _ upg) h0.1 Color.BLACK
    have h2 := setColor_shape (P := upg) h1.1 Color.RED
    have h3 := RightRotate_shape (P := upg) h2.1
    have hfr := ((h0.2.trans h1.2).trans h2.2).trans h3.2
    have hp3 := (Shape.focus (P := .left _ z kz _ upg) h3.1).2
    have hz3 := (Shape.focus (P := upg) h3.1).2
    simp only [Path.parentAddr_left] at hp3
    refine ⟨_, ?_, by simpa [insFix, hu] using h3.1, hfr⟩
    rw [InsertFixupLoop]
    simp only [rootAddr_node, hz, hp, hg, hua, hu, if_true, if_false, setColor_nil_, hp0]
    exact InsertFixupLoop_exit _ _ _ (by simp [hz3, hp3])
  | case11 p kp r c u g kg upg t hu ih =>
    intro s fuel h ht hb hroot hf
    obtain ⟨fuel, rfl⟩ : ∃ f, fuel = f + 1 := ⟨fuel - 1, by omega⟩
    obtain ⟨ct, tl, z, kz, tr, rfl⟩ : ∃ ct tl z kz tr, t = node ct tl z kz tr := by
      cases t <;> simp at ht ⊢
    obtain ⟨ul, ua, ku, ur, rfl⟩ : ∃ ul ua ku ur, u = node Color.RED ul ua ku ur := by
      cases u <;> simp at hu ⊢; exact hu
    have hz := (Shape.focus h).2
    have hp := (Shape.focus (P := .right c _ g kg upg) h).2
    have hg := (Shape.focus (P := upg) h).2
    have hua := (Shape.focus (P := .left c g kg _ upg) h).2
    have hpu := @Shape.sibling_left_ne _ _ _ upg _ _ _ _ _ h p (by simp)
    simp only [Path.parentAddr_left, Path.parentAddr_right, rootAddr_node] at hz hp hg hpu
    have h1 := setColor_shape (P := .right c _ g kg upg) h Color.BLACK
    have h2 := setColor_shape (P := .left c g kg _ upg) h1.1 Color.BLACK
    have h3 := setColor_shape (P := upg) h2.1 Color.RED
    have hfr := (h1.2.trans h2.2).trans h3.2
    obtain ⟨s', e, hs', hfr'⟩ := ih _ fuel h3.1 (by simp) (hfr.sentinelBlack hb)
      (rootColor_plug_up _ _ _ _ _ _ (rootColor_plug_up _ _ _ _ _ _ hroot))
      (by simp [Path.depth] at hf; omega)
    refine ⟨s', ?_, by simpa [insFix, paint] using hs', hfr.trans hfr'⟩
    rw [InsertFixupLoop]
    simp only [rootAddr_node, hz, hp, hg, hua, if_true, if_false, setColor_nil_, Ne.symm hpu]
      at e ⊢
    exact e
  | case12 p kp r c u g kg upg hu =>
    intro s fuel h ht
    exact absurd rfl ht
  | case13 p kp r c u g kg upg hu ct tl z kz tr =>
    intro s fuel h ht hb hroot hf
    obtain ⟨fuel, rfl⟩ : ∃ f, fuel = f + 2 := ⟨fuel - 2, by simp [Path.depth] at hf; omega⟩
    have hz := (Shape.focus h).2
    have hp := (Shape.focus (P := .right c _ g kg upg) h).2
    have hg := (Shape.focus (P := upg) h).2
    have hua := Shape.color_left (P := upg) h hb
    have hpu := @Shape.sibling_left_ne _ _ _ upg _ _ _ _ _ h p (by simp)
    simp only [Path.parentAddr_left, Path.parentAddr_right, rootAddr_node] at hz hp hg hpu
    have h0 := RightRotate_shape (P := .right c _ g kg upg) h
    have hp0 := (Shape.focus (P := .right _ _ z kz (.right c _ g kg upg)) h0.1).2
    simp only [Path.parentAddr_right] at hp0
    have h1 := setColor_shape (P := .right c _ g kg upg) h0.1 Color.BLACK
    have h2 := setColor_shape (P := upg) h1.1 Color.RED
    have h3 := LeftRotate_shape (P := upg) h2.1
    have hfr := ((h0.2.trans h1.2).trans h2.2).trans h3.2
    have hp3 := (Shape.focus (P := .right _ _ z kz upg) h3.1).2
    have hz3 := (Shape.focus (P := upg) h3.1).2
    simp only [Path.parentAddr_right] at hp3
    refine ⟨_, ?_, by simpa [insFix, hu] using h3.1, hfr⟩
    rw [InsertFixupLoop]
    simp only [rootAddr_node, hz, hp, hg, hua, hu, if_true, if_false, setColor_nil_, hp0,
      Ne.symm hpu]
    exact InsertFixupLoop_exit _ _ _ (by simp [hz3, hp3])
  | case14 l p kp c u g kg upg t hu ih =>
    intro s fuel h ht hb hroot hf
    obtain ⟨fuel, rfl⟩ : ∃ f, fuel = f + 1 := ⟨fuel - 1, by omega⟩
    obtain ⟨ct, tl, z, kz, tr, rfl⟩ : ∃ ct tl z kz tr, t = node ct tl z kz tr := by
      cases t <;> simp at ht ⊢
    obtain ⟨ul, ua, ku, ur, rfl⟩ : ∃ ul ua ku ur, u = node Color.RED ul ua ku ur := by
      cases u <;> simp at hu ⊢; exact hu
    have hz := (Shape.focus h).2
    have hp := (Shape.focus (P := .right c _ g kg upg) h).2
    have hg := (Shape.focus (P := upg) h).2
    have hua := (Shape.focus (P := .left c g kg _ upg) h).2
    have hpu := @Shape.sibling_left_ne _ _ _ upg _ _ _ _ _ h p (by simp)
    simp only [Path.parentAddr_left, Path.parentAddr_right, rootAddr_node] at hz hp hg hpu
    have h1 := setColor_shape (P := .right c _ g kg upg) h Color.BLACK
    have h2 := setColor_shape (P := .left c g kg _ upg) h1.1 Color.BLACK
    have h3 := setColor_shape (P := upg) h2.1 Color.RED
    have hfr := (h1.2.trans h2.2).trans h3.2
    obtain ⟨s', e, hs', hfr'⟩ := ih _ fuel h3.1 (by simp) (hfr.sentinelBlack hb)
      (rootColor_plug_up _ _ _ _ _ _ (rootColor_plug_up _ _ _ _ _ _ hroot))
      (by simp [Path.depth] at hf; omega)
    refine ⟨s', ?_, by simpa [insFix, paint] using hs', hfr.trans hfr'⟩
    rw [InsertFixupLoop]
    simp only [rootAddr_node, hz, hp, hg, hua, if_true, if_false, setColor_nil_, Ne.symm hpu]
      at e ⊢
    exact e
  | case15 l p kp c u g kg upg t hu =>
    intro s fuel h ht hb hroot hf
    obtain ⟨fuel, rfl⟩ : ∃ f, fuel = f + 2 := ⟨fuel - 2, by simp [Path.depth] at hf; omega⟩
    obtain ⟨ct, tl, z, kz, tr, rfl⟩ : ∃ ct tl z kz tr, t = node ct tl z kz tr := by
      cases t <;> simp at ht ⊢
    have hz := (Shape.focus h).2
    have hp := (Shape.focus (P := .right c _ g kg upg) h).2
    have hg := (Shape.focus (P := upg) h).2
    have hua := Shape.color_left (P := upg) h hb
    have hpu := @Shape.sibling_left_ne _ _ _ upg _ _ _ _ _ h p (by simp)
    have hzl := Shape.sibling_left_ne h (x := z) (by simp)
    simp only [Path.parentAddr_left, Path.parentAddr_right, rootAddr_node] at hz hp hg hpu hzl
    have h1 := setColor_shape (P := .right c _ g kg upg) h Color.BLACK
    have h2 := setColor_shape (P := upg) h1.1 Color.RED
    have h3 := LeftRotate_shape (P := upg) h2.1
    have hfr := (h1.2.trans h2.2).trans h3.2
    have hz3 := (Shape.focus (P := .right _ _ p kp upg) h3.1).2
    have hp3 := (Shape.focus (P := upg) h3.1).2
    simp only [Path.parentAddr_right] at hz3
    refine ⟨_, ?_, by simpa [insFix, hu] using h3.1, hfr⟩
    rw [InsertFixupLoop]
    simp only [rootAddr_node, hz, hp, hg, hua, hu, if_true, if_false, setColor_nil_,
      Ne.symm hzl, Ne.symm hpu, setColor_heap]
    exact InsertFixupLoop_exit _ _ _ (by simp [hz3, hp3])

end RBT

namespace RBT

variable {K V : Type}

open Tree

theorem insFix_toList (P : Path K V) (t : Tree K V) :
    (insFix P t).toList = (P.plug t).toList := by
  induction P, t using insFix.induct with
  | case1 t => simp [insFix]
  | case2 p kp r up t => simp [insFix]
  | case3 l p kp up t => simp [insFix]
  | case4 p kp r t => simp [insFix]
  | case5 l p kp t => simp [insFix]
  | case6 p kp r c g kg u upg t hu ih =>
    simp only [insFix, hu, if_true, ih]
    simp [Path.toList_plug]
  | case7 p kp r c g kg u upg t hu =>
    simp only [insFix, hu, if_false]
    simp [Path.toList_plug]
  | case8 l p kp c g kg u upg t hu ih =>
    simp only [insFix, hu, if_true, ih]
    simp [Path.toList_plug]
  | case9 l p kp c g kg u upg hu =>
    simp only [insFix, hu, if_false]
    simp [Path.toList_plug]
  | case10 l p kp c g kg u upg hu ct tl z kz tr =>
    simp only [insFix, hu, if_false]
    simp [Path.toList_plug]
  | case11 p kp r c u g kg upg t hu ih =>
    simp only [insFix, hu, if_true, ih]
    simp [Path.toList_plug]
  | case12 p kp r c u g kg upg hu =>
    simp only [insFix, hu, if_false]
    simp [Path.toList_plug]
  | case13 p kp r c u g kg upg hu ct tl z kz tr =>
    simp only [insFix, hu, if_false]
    simp [Path.toList_plug]
  | case14 l p kp c u g kg upg t hu ih =>
    simp only [insFix, hu, if_true, ih]
    simp [Path.toList_plug]
  | case15 l p kp c u g kg upg t hu =>
    simp only [insFix, hu, if_false]
    simp [Path.toList_plug]

theorem bh_paint_black_of_red {t : Tree K V} (h : t.rootColor = Color.RED) :
    (t.paint Color.BLACK).bh = t.bh + 1 := by
  cases t with
  | leaf => simp at h
  | node c l a kv r => simp at h; simp [h]

/-- The loop of `InsertFixup` re-establishes invariants 3 and 4 (up to the colour of the
root, which may be left RED). -/
theorem insFix_inv (P : Path K V) (t : Tree K V) :
    P.NoRedRed → P.Bal t.bh → t.Bal → t.NoRedRed → t.rootColor = Color.RED →
      (P.plug leaf).rootColor = Color.BLACK →
      (insFix P t).NoRedRed ∧ (insFix P t).Bal := by
  induction P, t using insFix.induct with
  | case1 t => intro _ _ h1 h2 _ _; simpa [insFix] using ⟨h2, h1⟩
  | case2 p kp r up t =>
    intro h1 h2 h3 h4 h5 _
    simp only [insFix]
    exact ⟨(Path.noRedRed_plug _ _).2 ⟨h1, h4, by simp⟩, (Path.bal_plug _ _).2 ⟨h3, h2⟩⟩
  | case3 l p kp up t =>
    intro h1 h2 h3 h4 h5 _
    simp only [insFix]
    exact ⟨(Path.noRedRed_plug _ _).2 ⟨h1, h4, by simp⟩, (Path.bal_plug _ _).2 ⟨h3, h2⟩⟩
  | case4 p kp r t => intro _ _ _ _ _ h; simp at h
  | case5 l p kp t => intro _ _ _ _ _ h; simp at h
  | case6 p kp r c g kg u upg t hu ih =>
    intro h1 h2 h3 h4 h5 h6
    simp only [insFix, hu, if_true]
    simp only [Path.noRedRed_left, Path.parentColor_left, true_implies, Path.bal_left,
      if_false, add_zero, reduceCtorEq] at h1 h2
    obtain ⟨⟨hr, rfl⟩, hrn, -, hun, hupg⟩ := h1
    obtain ⟨e1, hrb, e2, hub, hupb⟩ := h2
    refine ih hupg ?_ ?_ ?_ rfl (rootColor_plug_up _ _ _ _ _ _ (rootColor_plug_up _ _ _ _ _ _ h6))
    · simpa using hupb
    · simp [h3, hrb, hub, bh_paint_black_of_red hu, e1, e2]
    · simp [h4, hrn, hun.paint_black]
      cases u <;> simp
  | case7 p kp r c g kg u upg t hu =>
    intro h1 h2 h3 h4 h5 h6
    simp only [insFix, hu, if_false]
    simp only [Path.noRedRed_left, Path.parentColor_left, true_implies, Path.bal_left,
      if_false, add_zero, reduceCtorEq] at h1 h2
    obtain ⟨⟨hr, rfl⟩, hrn, -, hun, hupg⟩ := h1
    obtain ⟨e1, hrb, e2, hub, hupb⟩ := h2
    refine ⟨(Path.noRedRed_plug _ _).2 ⟨hupg, ?_, by simp⟩, (Path.bal_plug _ _).2 ⟨?_, ?_⟩⟩
    · simp [h4, hrn, hun, hr, ne_red_iff.1 hu]
    · simp [h3, hrb, hub, e1, e2]
    · simpa using hupb
  | case8 l p kp c g kg u upg t hu ih =>
    intro h1 h2 h3 h4 h5 h6
    simp only [insFix, hu, if_true]
    simp only [Path.noRedRed_left, Path.noRedRed_right, Path.parentColor_left, true_implies,
      Path.bal_left, Path.bal_right, if_false, add_zero, reduceCtorEq] at h1 h2
    obtain ⟨⟨hr, rfl⟩, hrn, -, hun, hupg⟩ := h1
    obtain ⟨e1, hrb, e2, hub, hupb⟩ := h2
    refine ih hupg ?_ ?_ ?_ rfl (rootColor_plug_up _ _ _ _ _ _ (rootColor_plug_up _ _ _ _ _ _ h6))
    · simpa [e1] using hupb
    · simp [h3, hrb, hub, bh_paint_black_of_red hu, e1, e2]
    · simp [h4, hrn, hun.paint_black]
      cases u <;> simp
  | case9 l p kp c g kg u upg hu => intro _ _ _ _ h; simp at h
  | case10 l p kp c g kg u upg hu ct tl z kz tr =>
    intro h1 h2 h3 h4 h5 h6
    simp only [insFix, hu, if_false]
    simp only [Path.noRedRed_left, Path.noRedRed_right, Path.parentColor_left, true_implies,
      Path.bal_left, Path.bal_right, if_false, add_zero, reduceCtorEq] at h1 h2
    obtain ⟨⟨hr, rfl⟩, hrn, -, hun, hupg⟩ := h1
    obtain ⟨e1, hrb, e2, hub, hupb⟩ := h2
    simp only [rootColor_node] at h5
    subst h5
    simp only [noRedRed_node, true_implies, bal_node, bh_node, if_false, add_zero,
      reduceCtorEq] at h3 h4 e1 e2
    refine ⟨(Path.noRedRed_plug _ _).2 ⟨hupg, ?_, by simp⟩, (Path.bal_plug _ _).2 ⟨?_, ?_⟩⟩
    · simp [h4, hrn, hun, hr, ne_red_iff.1 hu]
    · simp [h3, hrb, hub, e1, e2]
    · simpa [e1] using hupb
  | case11 p kp r c u g kg upg t hu ih =>
    intro h1 h2 h3 h4 h5 h6
    simp only [insFix, hu, if_true]
    simp only [Path.noRedRed_left, Path.noRedRed_right, Path.parentColor_right, true_implies,
      Path.bal_left, Path.bal_right, if_false, add_zero, reduceCtorEq] at h1 h2
    obtain ⟨⟨hr, rfl⟩, hrn, -, hun, hupg⟩ := h1
    obtain ⟨e1, hrb, e2, hub, hupb⟩ := h2
    refine ih hupg ?_ ?_ ?_ rfl (rootColor_plug_up _ _ _ _ _ _ (rootColor_plug_up _ _ _ _ _ _ h6))
    · simpa [bh_paint_black_of_red hu, e2] using hupb
    · simp [h3, hrb, hub, bh_paint_black_of_red hu, e1, e2]
    · simp [h4, hrn, hun.paint_black]
      cases u <;> simp
  | case12 p kp r c u g kg upg hu => intro _ _ _ _ h; simp at h
  | case13 p kp r c u g kg upg hu ct tl z kz tr =>
    intro h1 h2 h3 h4 h5 h6
    simp only [insFix, hu, if_false]
    simp only [Path.noRedRed_left, Path.noRedRed_right, Path.parentColor_right, true_implies,
      Path.bal_left, Path.bal_right, if_false, add_zero, reduceCtorEq] at h1 h2
    obtain ⟨⟨hr, rfl⟩, hrn, -, hun, hupg⟩ := h1
    obtain ⟨e1, hrb, e2, hub, hupb⟩ := h2
    simp only [rootColor_node] at h5
    subst h5
    simp only [noRedRed_node, true_implies, bal_node, bh_node, if_false, add_zero,
      reduceCtorEq] at h3 h4 e1 e2
    refine ⟨(Path.noRedRed_plug _ _).2 ⟨hupg, ?_, by simp⟩, (Path.bal_plug _ _).2 ⟨?_, ?_⟩⟩
    · simp [h4, hrn, hun, hr, ne_red_iff.1 hu]
    · simp [h3, hrb, hub, e1, e2]
    · simpa [e2] using hupb
  | case14 l p kp c u g kg upg t hu ih =>
    intro h1 h2 h3 h4 h5 h6
    simp only [insFix, hu, if_true]
    simp only [Path.noRedRed_left, Path.noRedRed_right, Path.parentColor_right, true_implies,
      Path.bal_left, Path.bal_right, if_false, add_zero, reduceCtorEq] at h1 h2
    obtain ⟨⟨hr, rfl⟩, hrn, -, hun, hupg⟩ := h1
    obtain ⟨e1, hrb, e2, hub, hupb⟩ := h2
    refine ih hupg ?_ ?_ ?_ rfl (rootColor_plug_up _ _ _ _ _ _ (rootColor_plug_up _ _ _ _ _ _ h6))
    · simpa [bh_paint_black_of_red hu, e2] using hupb
    · simp [h3, hrb, hub, bh_paint_black_of_red hu, e1, e2]
    · simp [h4, hrn, hun.paint_black]
      cases u <;> simp
  | case15 l p kp c u g kg upg t hu =>
    intro h1 h2 h3 h4 h5 h6
    simp only [insFix, hu, if_false]
    simp only [Path.noRedRed_left, Path.noRedRed_right, Path.parentColor_right, true_implies,
      Path.bal_left, Path.bal_right, if_false, add_zero, reduceCtorEq] at h1 h2
    obtain ⟨⟨hr, rfl⟩, hrn, -, hun, hupg⟩ := h1
    obtain ⟨e1, hrb, e2, hub, hupb⟩ := h2
    refine ⟨(Path.noRedRed_plug _ _).2 ⟨hupg, ?_, by simp⟩, (Path.bal_plug _ _).2 ⟨?_, ?_⟩⟩
    · simp [h4, hrn, hun, hr, ne_red_iff.1 hu]
    · simp [h3, hrb, hub, e1, e2]
    · simpa [e2] using hupb

end RBT

namespace RBT

variable {K V : Type}

open Tree

theorem rootColor_paint_black (t : Tree K V) : (t.paint Color.BLACK).rootColor = Color.BLACK := by
  cases t <;> rfl

theorem paint_black_of_black {t : Tree K V} (h : t.rootColor = Color.BLACK) :
    t.paint Color.BLACK = t := by
  cases t with
  | leaf => rfl
  | node c l a kv r => simp at h; simp [h]

theorem bh_pos_ne_leaf {t : Tree K V} {n : Nat} (h : t.bh = n + 1) : t ≠ leaf := by
  rintro rfl; simp at h

theorem rootColor_plug_ne_top : ∀ (P : Path K V) (t t' : Tree K V), P ≠ .top →
    (P.plug t).rootColor = (P.plug t').rootColor
  | .top, _, _, h => absurd rfl h
  | .left _ _ _ _ _, _, _, _ => rootColor_plug_node ..
  | .right _ _ _ _ _, _, _, _ => rootColor_plug_node ..

theorem delSibL_inl {up : Path K V} {cp : Color} {t w t' : Tree K V} {p : Nat} {kp : K × V}
    (hd : delSibL up cp t p kp w = some (.inl t')) : ∃ w', t' = node cp t p kp w' := by
  cases w with
  | leaf => simp [delSibL] at hd
  | node cw wl wa kw wr =>
    simp only [delSibL] at hd
    split_ifs at hd
    · simp only [Option.some.injEq, Sum.inl.injEq] at hd; exact ⟨_, hd.symm⟩
    · cases wl <;> simp at hd
    · simp at hd

theorem delSibR_inl {up : Path K V} {cp : Color} {t w t' : Tree K V} {p : Nat} {kp : K × V}
    (hd : delSibR up cp t p kp w = some (.inl t')) : ∃ w', t' = node cp w' p kp t := by
  cases w with
  | leaf => simp [delSibR] at hd
  | node cw wl wa kw wr =>
    simp only [delSibR] at hd
    split_ifs at hd
    · simp only [Option.some.injEq, Sum.inl.injEq] at hd; exact ⟨_, hd.symm⟩
    · cases wr <;> simp at hd
    · simp at hd

section delSibL

variable {up : Path K V} {cp : Color} {t w : Tree K V} {p : Nat} {kp : K × V}

theorem delSibL_some (hwb : w.bh = t.bh + 1) (hwc : w.rootColor = Color.BLACK) :
    ∃ r, delSibL up cp t p kp w = some r := by
  cases w with
  | leaf => simp at hwb
  | node cw wl wa kw wr =>
    simp only [delSibL]
    split_ifs with h1 h2
    · exact ⟨_, rfl⟩
    · cases wl with
      | leaf => simp [h2] at h1
      | node cwl wll wla kwl wlr => exact ⟨_, rfl⟩
    · exact ⟨_, rfl⟩

theorem delSibL_inl_inv {t' : Tree K V} (hd : delSibL up cp t p kp w = some (.inl t'))
    (hwb : w.bh = t.bh + 1) (hwc : w.rootColor = Color.BLACK) (hw1 : w.Bal) (hw2 : w.NoRedRed)
    (ht1 : t.Bal) (ht2 : t.NoRedRed) :
    t'.Bal ∧ t'.bh = t.bh + (if cp = Color.BLACK then 1 else 0)
      ∧ (t'.paint Color.BLACK).NoRedRed ∧ (cp = Color.BLACK → t'.NoRedRed)
      ∧ t'.toList = (node cp t p kp w).toList := by
  cases w with
  | leaf => simp [delSibL] at hd
  | node cw wl wa kw wr =>
    simp only [delSibL] at hd
    simp only [rootColor_node] at hwc
    subst hwc
    split_ifs at hd with h1 h2
    · simp only [Option.some.injEq, Sum.inl.injEq] at hd
      subst hd
      simp only [bal_node, bh_node, if_true, noRedRed_node] at hwb hw1 hw2
      obtain ⟨e1, hlb, hrb⟩ := hw1
      obtain ⟨-, hln, hrn⟩ := hw2
      simp only [bal_node, bh_node, paint_node, noRedRed_node, toList_node, if_false,
        reduceCtorEq, add_zero, true_implies, rootColor_node, false_implies, true_and]
      refine ⟨⟨by omega, ht1, e1, hlb, hrb⟩, ⟨ht2, h1, hln, hrn⟩, ?_, trivial⟩
      intro hc
      exact ⟨by simp [hc], ht2, h1, hln, hrn⟩
    · cases wl <;> simp at hd
    · simp at hd

theorem delSibL_inr_inv {T : Tree K V} (hd : delSibL up cp t p kp w = some (.inr T))
    (hwb : w.bh = t.bh + 1) (hwc : w.rootColor = Color.BLACK) (hw1 : w.Bal) (hw2 : w.NoRedRed)
    (ht1 : t.Bal) (ht2 : t.NoRedRed) (hu1 : up.NoRedRed)
    (hu2 : up.Bal (t.bh + 1 + (if cp = Color.BLACK then 1 else 0)))
    (hcp : cp = Color.RED → up.parentColor = Color.BLACK) :
    T.Bal ∧ T.NoRedRed ∧ T.toList = (up.plug (node cp t p kp w)).toList
      ∧ (up ≠ .top → T.rootColor = (up.plug (node cp t p kp w)).rootColor) := by
  cases w with
  | leaf => simp [delSibL] at hd
  | node cw wl wa kw wr =>
    simp only [delSibL] at hd
    simp only [rootColor_node] at hwc
    subst hwc
    simp only [bal_node, bh_node, if_true, noRedRed_node] at hwb hw1 hw2
    obtain ⟨e1, hlb, hrb⟩ := hw1
    obtain ⟨-, hln, hrn⟩ := hw2
    split_ifs at hd with h1 h2
    · simp at hd
    · cases wl with
      | leaf => simp at hd
      | node cwl wll wla kwl wlr =>
        simp only [Option.some.injEq, Sum.inr.injEq] at hd
        subst hd
        have hred : cwl = Color.RED := by
          rcases color_cases cwl with h | h
          · exact absurd ⟨h, h2⟩ h1
          · exact h
        subst hred
        simp only [bal_node, bh_node, noRedRed_node, rootColor_node, true_implies, if_false,
          reduceCtorEq, add_zero] at hwb e1 hlb hln
        obtain ⟨e2, hllb, hlrb⟩ := hlb
        obtain ⟨⟨c1, c2⟩, hlln, hlrn⟩ := hln
        refine ⟨(Path.bal_plug _ _).2 ⟨?_, ?_⟩, (Path.noRedRed_plug _ _).2 ⟨hu1, ?_, ?_⟩, ?_,
          fun hne => ?_⟩
        · simp only [bal_node, bh_node, if_true]
          exact ⟨by omega, ⟨by omega, ht1, hllb⟩, by omega, hlrb, hrb⟩
        · simpa using hu2
        · simp only [noRedRed_node, rootColor_node, reduceCtorEq, false_implies, true_and,
            implies_true]
          exact ⟨⟨ht2, hlln⟩, hlrn, hrn⟩
        · intro hp
          rcases color_cases cp with h | h
          · exact h
          · rw [hcp h] at hp; cases hp
        · simp [Path.toList_plug]
        · exact rootColor_plug_node ..
    · simp only [Option.some.injEq, Sum.inr.injEq] at hd
      subst hd
      have hred : wr.rootColor = Color.RED := ne_black_iff.1 h2
      refine ⟨(Path.bal_plug _ _).2 ⟨?_, ?_⟩, (Path.noRedRed_plug _ _).2 ⟨hu1, ?_, ?_⟩, ?_,
        fun hne => ?_⟩
      · simp only [bal_node, bh_node, if_true, bal_paint, bh_paint_black_of_red hred]
        exact ⟨by omega, ⟨by omega, ht1, hlb⟩, hrb⟩
      · simpa using hu2
      · simp only [noRedRed_node, rootColor_node, reduceCtorEq, false_implies, true_and,
          implies_true]
        exact ⟨fun _ => rootColor_paint_black _, ⟨ht2, hln⟩, hrn.paint_black⟩
      · intro hp
        rcases color_cases cp with h | h
        · exact h
        · rw [hcp h] at hp; cases hp
      · simp [Path.toList_plug]
      · exact rootColor_plug_node ..

end delSibL

section delSibR

variable {up : Path K V} {cp : Color} {t w : Tree K V} {p : Nat} {kp : K × V}

theorem delSibR_some (hwb : w.bh = t.bh + 1) (hwc : w.rootColor = Color.BLACK) :
    ∃ r, delSibR up cp t p kp w = some r := by
  cases w with
  | leaf => simp at hwb
  | node cw wl wa kw wr =>
    simp only [delSibR]
    split_ifs with h1 h2
    · exact ⟨_, rfl⟩
    · cases wr with
      | leaf => simp [h2] at h1
      | node cwr wrl wra kwr wrr => exact ⟨_, rfl⟩
    · exact ⟨_, rfl⟩

theorem delSibR_inl_inv {t' : Tree K V} (hd : delSibR up cp t p kp w = some (.inl t'))
    (hwb : w.bh = t.bh + 1) (hwc : w.rootColor = Color.BLACK) (hw1 : w.Bal) (hw2 : w.NoRedRed)
    (ht1 : t.Bal) (ht2 : t.NoRedRed) :
    t'.Bal ∧ t'.bh = t.bh + (if cp = Color.BLACK then 1 else 0)
      ∧ (t'.paint Color.BLACK).NoRedRed ∧ (cp = Color.BLACK → t'.NoRedRed)
      ∧ t'.toList = (node cp w p kp t).toList := by
  cases w with
  | leaf => simp [delSibR] at hd
  | node cw wl wa kw wr =>
    simp only [delSibR] at hd
    simp only [rootColor_node] at hwc
    subst hwc
    split_ifs at hd with h1 h2
    · simp only [Option.some.injEq, Sum.inl.injEq] at hd
      subst hd
      simp only [bal_node, bh_node, if_true, noRedRed_node] at hwb hw1 hw2
      obtain ⟨e1, hlb, hrb⟩ := hw1
      obtain ⟨-, hln, hrn⟩ := hw2
      simp only [bal_node, bh_node, paint_node, noRedRed_node, toList_node, if_false,
        reduceCtorEq, add_zero, true_implies, rootColor_node, false_implies, true_and]
      refine ⟨⟨by omega, ⟨e1, hlb, hrb⟩, ht1⟩, by omega, ⟨⟨h1, hln, hrn⟩, ht2⟩, ?_, trivial⟩
      intro hc
      exact ⟨by simp [hc], ⟨h1, hln, hrn⟩, ht2⟩
    · cases wr <;> simp at hd
    · simp at hd

theorem delSibR_inr_inv {T : Tree K V} (hd : delSibR up cp t p kp w = some (.inr T))
    (hwb : w.bh = t.bh + 1) (hwc : w.rootColor = Color.BLACK) (hw1 : w.Bal) (hw2 : w.NoRedRed)
    (ht1 : t.Bal) (ht2 : t.NoRedRed) (hu1 : up.NoRedRed)
    (hu2 : up.Bal (t.bh + 1 + (if cp = Color.BLACK then 1 else 0)))
    (hcp : cp = Color.RED → up.parentColor = Color.BLACK) :
    T.Bal ∧ T.NoRedRed ∧ T.toList = (up.plug (node cp w p kp t)).toList
      ∧ (up ≠ .top → T.rootColor = (up.plug (node cp w p kp t)).rootColor) := by
  cases w with
  | leaf => simp [delSibR] at hd
  | node cw wl wa kw wr =>
    simp only [delSibR] at hd
    simp only [rootColor_node] at hwc
    subst hwc
    simp only [bal_node, bh_node, if_true, noRedRed_node] at hwb hw1 hw2
    obtain ⟨e1, hlb, hrb⟩ := hw1
    obtain ⟨-, hln, hrn⟩ := hw2
    split_ifs at hd with h1 h2
    · simp at hd
    · cases wr with
      | leaf => simp at hd
      | node cwr wrl wra kwr wrr =>
        simp only [Option.some.injEq, Sum.inr.injEq] at hd
        subst hd
        have hred : cwr = Color.RED := by
          rcases color_cases cwr with h | h
          · exact absurd ⟨h2, h⟩ h1
          · exact h
        subst hred
        simp only [bal_node, bh_node, noRedRed_node, rootColor_node, true_implies, if_false,
          reduceCtorEq, add_zero] at hwb e1 hrb hrn
        obtain ⟨e2, hrlb, hrrb⟩ := hrb
        obtain ⟨⟨c1, c2⟩, hrln, hrrn⟩ := hrn
        refine ⟨(Path.bal_plug _ _).2 ⟨?_, ?_⟩, (Path.noRedRed_plug _ _).2 ⟨hu1, ?_, ?_⟩, ?_,
          fun hne => ?_⟩
        · simp only [bal_node, bh_node, if_true]
          exact ⟨by omega, ⟨by omega, hlb, hrlb⟩, by omega, hrrb, ht1⟩
        · have : wl.bh = t.bh := by omega
          simpa [this] using hu2
        · simp only [noRedRed_node, rootColor_node, reduceCtorEq, false_implies, true_and,
            implies_true]
          exact ⟨⟨hln, hrln⟩, hrrn, ht2⟩
        · intro hp
          rcases color_cases cp with h | h
          · exact h
          · rw [hcp h] at hp; cases hp
        · simp [Path.toList_plug]
        · exact rootColor_plug_node ..
    · simp only [Option.some.injEq, Sum.inr.injEq] at hd
      subst hd
      have hred : wl.rootColor = Color.RED := ne_black_iff.1 h2
      refine ⟨(Path.bal_plug _ _).2 ⟨?_, ?_⟩, (Path.noRedRed_plug _ _).2 ⟨hu1, ?_, ?_⟩, ?_,
        fun hne => ?_⟩
      · simp only [bal_node, bh_node, if_true, bal_paint, bh_paint_black_of_red hred]
        exact ⟨by omega, hlb, by omega, hrb, ht1⟩
      · have : (wl.paint Color.BLACK).bh = t.bh + 1 := by
          rw [bh_paint_black_of_red hred]; omega
        simpa [this] using hu2
      · simp only [noRedRed_node, rootColor_node, reduceCtorEq, false_implies, true_and,
          implies_true]
        exact ⟨fun _ => ⟨rootColor_paint_black _, trivial⟩, hln.paint_black, hrn, ht2⟩
      · intro hp
        rcases color_cases cp with h | h
        · exact h
        · rw [hcp h] at hp; cases hp
      · simp [Path.toList_plug]
      · exact rootColor_plug_node ..

end delSibR

/-- `DeleteFixup` is defined on a tree that is one black node short in the hole, and restores
invariants 2, 3 and 4 without changing the in-order sequence. -/
theorem delFix_inv : ∀ (P : Path K V) (t : Tree K V), P.NoRedRed → P.Bal (t.bh + 1) →
    t.Bal → (t.paint Color.BLACK).NoRedRed → (P.plug leaf).rootColor = Color.BLACK →
    ∃ T, delFix P t = some T ∧ T.NoRedRed ∧ T.Bal ∧ T.rootColor = Color.BLACK
      ∧ T.toList = (P.plug t).toList := by
  intro P
  induction P with
  | top =>
    intro t _ _ h3 h4 _
    exact ⟨_, rfl, h4, (bal_paint _ _).2 h3, rootColor_paint_black _, by simp⟩
  | left cp p kp w up ih =>
    intro t hpn hpb h3 h4 hroot
    simp only [Path.noRedRed_left, Path.bal_left] at hpn hpb
    obtain ⟨hcp, hwn, hupn⟩ := hpn
    obtain ⟨hwb, hwbal, hupb⟩ := hpb
    simp only [delFix]
    split_ifs with ht hw
    · refine ⟨_, rfl, (Path.noRedRed_plug _ _).2 ⟨⟨hcp, hwn, hupn⟩, h4,
        fun _ => rootColor_paint_black _⟩, (Path.bal_plug _ _).2 ⟨(bal_paint _ _).2 h3, ?_⟩, ?_,
        by simp [Path.toList_plug]⟩
      · rw [bh_paint_black_of_red ht]; exact ⟨hwb, hwbal, hupb⟩
      · rw [← hroot]; exact rootColor_plug_ne_top _ _ _ (by simp)
    · -- RED sibling
      have htb : t.rootColor = Color.BLACK := ne_red_iff.1 ht
      rw [paint_black_of_black htb] at h4
      have hcpb : cp = Color.BLACK := by
        rcases color_cases cp with h | h
        · exact h
        · rw [(hcp h).1] at hw; cases hw
      subst hcpb
      cases w with
      | leaf => simp at hw
      | node cw wl wa kw wr =>
        simp only [rootColor_node] at hw
        subst hw
        simp only [bal_node, bh_node, noRedRed_node, true_implies, if_false, if_true,
          reduceCtorEq, add_zero] at hwb hwbal hwn hupb
        obtain ⟨e1, hlb, hrb⟩ := hwbal
        obtain ⟨⟨c1, c2⟩, hln, hrn⟩ := hwn
        have hu1 : (Path.left Color.BLACK wa kw wr up).NoRedRed := by
          simp only [Path.noRedRed_left, reduceCtorEq, false_implies, true_and]
          exact ⟨hrn, hupn⟩
        have hu2 : (Path.left Color.BLACK wa kw wr up).Bal
            (t.bh + 1 + (if Color.RED = Color.BLACK then 1 else 0)) := by
          simp only [Path.bal_left, if_true, reduceCtorEq, if_false, add_zero]
          exact ⟨by omega, hrb, hupb⟩
        obtain ⟨r, hr⟩ : ∃ r, delSibL (.left Color.BLACK wa kw wr up) Color.RED _ p kp _ = some r :=
          delSibL_some hwb c1
        simp only [hr]
        cases r with
        | inl t' =>
          obtain ⟨i1, i2, i3, -, i5⟩ := delSibL_inl_inv hr hwb c1 hlb hln h3 h4
          obtain ⟨w', rfl⟩ := delSibL_inl hr
          refine ⟨_, rfl, (Path.noRedRed_plug _ _).2 ⟨hu1, i3, fun _ => rfl⟩,
            (Path.bal_plug _ _).2 ⟨(bal_paint _ _).2 i1, ?_⟩, ?_, ?_⟩
          · simp only [paint_node, bh_node, if_true, Path.bal_left]
            exact ⟨by omega, hrb, hupb⟩
          · refine Eq.trans ?_ hroot
            simp only [Path.plug_left]
            exact rootColor_plug_node ..
          · simp only [Path.plug_left, Path.toList_plug, toList_node, toList_paint] at i5 ⊢
            simp [i5]
        | inr T0 =>
          obtain ⟨i1, i2, i3, -⟩ := delSibL_inr_inv hr hwb c1 hlb hln h3 h4 hu1 hu2
            (fun _ => rfl)
          refine ⟨_, rfl, i2.paint_black, (bal_paint _ _).2 i1, rootColor_paint_black _, ?_⟩
          simp only [toList_paint, i3, Path.plug_left, Path.toList_plug, toList_node]
          simp
    · -- BLACK sibling
      have htb : t.rootColor = Color.BLACK := ne_red_iff.1 ht
      have hwc : w.rootColor = Color.BLACK := ne_red_iff.1 hw
      rw [paint_black_of_black htb] at h4
      obtain ⟨r, hr⟩ : ∃ r, delSibL up cp _ p kp _ = some r := delSibL_some hwb hwc
      simp only [hr]
      cases r with
      | inl t' =>
        obtain ⟨i1, i2, i3, -, i5⟩ := delSibL_inl_inv hr hwb hwc hwbal hwn h3 h4
        have hb' : up.Bal (t'.bh + 1) := by
          have : t'.bh + 1 = t.bh + 1 + (if cp = Color.BLACK then 1 else 0) := by omega
          rw [this]; exact hupb
        obtain ⟨T, e, j1, j2, j3, j4⟩ := ih t' hupn hb' i1 i3 (rootColor_plug_up _ _ _ _ _ _ hroot)
        refine ⟨T, e, j1, j2, j3, ?_⟩
        rw [j4]
        simp only [Path.plug_left, Path.toList_plug, i5]
      | inr T0 =>
        obtain ⟨i1, i2, i3, -⟩ := delSibL_inr_inv hr hwb hwc hwbal hwn h3 h4 hupn hupb
          (fun h => (hcp h).2)
        exact ⟨_, rfl, i2.paint_black, (bal_paint _ _).2 i1, rootColor_paint_black _, by
          simp only [toList_paint, i3, Path.plug_left]⟩
  | right cp w p kp up ih =>
    intro t hpn hpb h3 h4 hroot
    simp only [Path.noRedRed_right, Path.bal_right] at hpn hpb
    obtain ⟨hcp, hwn, hupn⟩ := hpn
    obtain ⟨hwb, hwbal, hupb⟩ := hpb
    simp only [delFix]
    split_ifs with ht hw
    · refine ⟨_, rfl, (Path.noRedRed_plug _ _).2 ⟨⟨hcp, hwn, hupn⟩, h4,
        fun _ => rootColor_paint_black _⟩, (Path.bal_plug _ _).2 ⟨(bal_paint _ _).2 h3, ?_⟩, ?_,
        by simp [Path.toList_plug]⟩
      · rw [bh_paint_black_of_red ht]; exact ⟨hwb, hwbal, hupb⟩
      · rw [← hroot]; exact rootColor_plug_ne_top _ _ _ (by simp)
    · have htb : t.rootColor = Color.BLACK := ne_red_iff.1 ht
      rw [paint_black_of_black htb] at h4
      have hcpb : cp = Color.BLACK := by
        rcases color_cases cp with h | h
        · exact h
        · rw [(hcp h).1] at hw; cases hw
      subst hcpb
      cases w with
      | leaf => simp at hw
      | node cw wl wa kw wr =>
        simp only [rootColor_node] at hw
        subst hw
        simp only [bal_node, bh_node, noRedRed_node, true_implies, if_false, if_true,
          reduceCtorEq, add_zero] at hwb hwbal hwn hupb
        obtain ⟨e1, hlb, hrb⟩ := hwbal
        obtain ⟨⟨c1, c2⟩, hln, hrn⟩ := hwn
        have hu1 : (Path.right Color.BLACK wl wa kw up).NoRedRed := by
          simp only [Path.noRedRed_right, reduceCtorEq, false_implies, true_and]
          exact ⟨hln, hupn⟩
        have hu2 : (Path.right Color.BLACK wl wa kw up).Bal
            (t.bh + 1 + (if Color.RED = Color.BLACK then 1 else 0)) := by
          simp only [Path.bal_right, if_true, reduceCtorEq, if_false, add_zero]
          exact ⟨by omega, hlb, hupb⟩
        obtain ⟨r, hr⟩ : ∃ r, delSibR (.right Color.BLACK wl wa kw up) Color.RED t p kp wr = some r :=
          delSibR_some (by omega) c2
        simp only [hr]
        cases r with
        | inl t' =>
          obtain ⟨i1, i2, i3, -, i5⟩ := delSibR_inl_inv hr (by omega) c2 hrb hrn h3 h4
          obtain ⟨w', rfl⟩ := delSibR_inl hr
          refine ⟨_, rfl, (Path.noRedRed_plug _ _).2 ⟨hu1, i3, fun _ => rfl⟩,
            (Path.bal_plug _ _).2 ⟨(bal_paint _ _).2 i1, ?_⟩, ?_, ?_⟩
          · have hw' : w'.bh = t.bh := by simpa using i2
            simp only [paint_node, bh_node, if_true, Path.bal_right, hw']
            exact ⟨by omega, hlb, hupb⟩
          · refine Eq.trans ?_ hroot
            simp only [Path.plug_right]
            exact rootColor_plug_node ..
          · simp only [Path.plug_right, Path.toList_plug, toList_node, toList_paint] at i5 ⊢
            simp [i5]
        | inr T0 =>
          obtain ⟨i1, i2, i3, -⟩ := delSibR_inr_inv hr (by omega) c2 hrb hrn h3 h4 hu1 hu2
            (fun _ => rfl)
          refine ⟨_, rfl, i2.paint_black, (bal_paint _ _).2 i1, rootColor_paint_black _, ?_⟩
          simp only [toList_paint, i3, Path.plug_right, Path.toList_plug, toList_node]
          simp
    · have htb : t.rootColor = Color.BLACK := ne_red_iff.1 ht
      have hwc : w.rootColor = Color.BLACK := ne_red_iff.1 hw
      rw [paint_black_of_black htb] at h4
      obtain ⟨r, hr⟩ : ∃ r, delSibR up cp _ p kp _ = some r := delSibR_some hwb hwc
      simp only [hr]
      cases r with
      | inl t' =>
        obtain ⟨i1, i2, i3, -, i5⟩ := delSibR_inl_inv hr hwb hwc hwbal hwn h3 h4
        have hb' : up.Bal (t'.bh + 1) := by
          have : t'.bh + 1 = t.bh + 1 + (if cp = Color.BLACK then 1 else 0) := by omega
          rw [this]; exact hupb
        obtain ⟨T, e, j1, j2, j3, j4⟩ := ih t' hupn hb' i1 i3 (rootColor_plug_up _ _ _ _ _ _ hroot)
        refine ⟨T, e, j1, j2, j3, ?_⟩
        rw [j4]
        simp only [Path.plug_right, Path.toList_plug, i5]
      | inr T0 =>
        have hupb' : up.Bal (t.bh + 1 + (if cp = Color.BLACK then 1 else 0)) := hupb
        obtain ⟨i1, i2, i3, -⟩ := delSibR_inr_inv hr hwb hwc hwbal hwn h3 h4 hupn hupb'
          (fun h => (hcp h).2)
        exact ⟨_, rfl, i2.paint_black, (bal_paint _ _).2 i1, rootColor_paint_black _, by
          simp only [toList_paint, i3, Path.plug_right]⟩

end RBT

namespace RBT

variable {K V : Type}

open Tree

namespace Path

@[simp] theorem append_top (outer : Path K V) : (top : Path K V).append outer = outer := rfl
@[simp] theorem append_left (c a kv r) (up outer : Path K V) :
    (left c a kv r up).append outer = left c a kv r (up.append outer) := rfl
@[simp] theorem append_right (c l a kv) (up outer : Path K V) :
    (right c l a kv up).append outer = right c l a kv (up.append outer) := rfl

theorem plug_append : ∀ (inner outer : Path K V) (t : Tree K V),
    (inner.append outer).plug t = outer.plug (inner.plug t)
  | top, _, _ => rfl
  | left c a kv r up, outer, t => by simp [plug_append up]
  | right c l a kv up, outer, t => by simp [plug_append up]

theorem parentAddr_append (nl : Nat) (inner outer : Path K V) (h : inner ≠ top) :
    (inner.append outer).parentAddr nl = inner.parentAddr nl := by
  cases inner with
  | top => exact absurd rfl h
  | left c a kv r up => rfl
  | right c l a kv up => rfl

theorem depth_append : ∀ (inner outer : Path K V),
    (inner.append outer).depth = inner.depth + outer.depth
  | top, _ => by simp [depth]
  | left c a kv r up, outer => by simp [depth, depth_append up]; omega
  | right c l a kv up, outer => by simp [depth, depth_append up]; omega

theorem parentColor_append_base (inner : Path K V) (c : Color) (l : Tree K V) (a a' : Nat)
    (kv kv' : K × V) (P : Path K V) :
    (inner.append (right c l a kv P)).parentColor
      = (inner.append (right c l a' kv' P)).parentColor := by
  cases inner <;> rfl

/-- Invariant 3 on a path does not depend on the address and pair of a node. -/
theorem noRedRed_append_base : ∀ (inner : Path K V) (c : Color) (l : Tree K V) (a a' : Nat)
    (kv kv' : K × V) (P : Path K V),
    (inner.append (right c l a kv P)).NoRedRed →
      (inner.append (right c l a' kv' P)).NoRedRed
  | top, _, _, _, _, _, _, _, h => h
  | left c2 a2 kv2 r2 up, c, l, a, a', kv, kv', P, h => by
    simp only [append_left, noRedRed_left] at h ⊢
    rw [parentColor_append_base up c l a' a kv' kv P]
    exact ⟨h.1, h.2.1, noRedRed_append_base up c l a a' kv kv' P h.2.2⟩
  | right c2 l2 a2 kv2 up, c, l, a, a', kv, kv', P, h => by
    simp only [append_right, noRedRed_right] at h ⊢
    rw [parentColor_append_base up c l a' a kv' kv P]
    exact ⟨h.1, h.2.1, noRedRed_append_base up c l a a' kv kv' P h.2.2⟩

theorem bal_append_base : ∀ (inner : Path K V) (c : Color) (l : Tree K V) (a a' : Nat)
    (kv kv' : K × V) (P : Path K V) (n : Nat),
    (inner.append (right c l a kv P)).Bal n → (inner.append (right c l a' kv' P)).Bal n
  | top, _, _, _, _, _, _, _, _, h => h
  | left c2 a2 kv2 r2 up, c, l, a, a', kv, kv', P, n, h => by
    simp only [append_left, bal_left] at h ⊢
    exact ⟨h.1, h.2.1, bal_append_base up c l a a' kv kv' P _ h.2.2⟩
  | right c2 l2 a2 kv2 up, c, l, a, a', kv, kv', P, n, h => by
    simp only [append_right, bal_right] at h ⊢
    exact ⟨h.1, h.2.1, bal_append_base up c l a a' kv kv' P _ h.2.2⟩

theorem rootColor_append_base (inner : Path K V) (c : Color) (l : Tree K V) (a a' : Nat)
    (kv kv' : K × V) (P : Path K V) (t t' : Tree K V) :
    ((inner.append (right c l a kv P)).plug t).rootColor
      = ((inner.append (right c l a' kv' P)).plug t').rootColor := by
  rw [plug_append, plug_append]
  exact rootColor_plug_node ..

end Path

theorem zoomMin_append : ∀ (t : Tree K V) (pre outer : Path K V),
    zoomMin t (pre.append outer) = ((zoomMin t pre).1.append outer, (zoomMin t pre).2)
  | leaf, _, _ => rfl
  | node c leaf a kv r, _, _ => rfl
  | node c (node cl ll la kl lr) a kv r, pre, outer => by
    simp only [zoomMin]
    exact zoomMin_append (node cl ll la kl lr) (.left c a kv r pre) outer

theorem zoomMin_plug : ∀ (t : Tree K V) (pre : Path K V),
    (zoomMin t pre).1.plug (zoomMin t pre).2 = pre.plug t
  | leaf, _ => rfl
  | node c leaf a kv r, _ => rfl
  | node c (node cl ll la kl lr) a kv r, pre => by
    simp only [zoomMin]
    rw [zoomMin_plug (node cl ll la kl lr)]
    rfl

theorem zoomMin_node : ∀ (t : Tree K V) (pre : Path K V), t ≠ leaf →
    ∃ cy y ky ry, (zoomMin t pre).2 = node cy leaf y ky ry
  | leaf, _, h => absurd rfl h
  | node c leaf a kv r, _, _ => ⟨c, a, kv, r, rfl⟩
  | node c (node cl ll la kl lr) a kv r, pre, _ => by
    simp only [zoomMin]
    exact zoomMin_node (node cl ll la kl lr) _ (by simp)

theorem zoomMin_before : ∀ (t : Tree K V) (pre : Path K V),
    (zoomMin t pre).1.before = pre.before
  | leaf, _ => rfl
  | node c leaf a kv r, _ => rfl
  | node c (node cl ll la kl lr) a kv r, pre => by
    simp only [zoomMin]
    rw [zoomMin_before (node cl ll la kl lr)]
    rfl

theorem zoomMin_depth : ∀ (t : Tree K V) (pre : Path K V),
    (zoomMin t pre).1.depth + 1 ≤ pre.depth + max t.height 1
  | leaf, _ => by simp [zoomMin]
  | node c leaf a kv r, _ => by simp [zoomMin]
  | node c (node cl ll la kl lr) a kv r, pre => by
    have := zoomMin_depth (node cl ll la kl lr) (.left c a kv r pre)
    simp only [zoomMin, Path.depth, height] at this ⊢
    omega

theorem zoomMin_top_iff (c : Color) (l : Tree K V) (a : Nat) (kv : K × V) (r : Tree K V) :
    (zoomMin (node c l a kv r) .top).1 = .top ↔ l = leaf := by
  cases l with
  | leaf => simp [zoomMin]
  | node cl ll la kl lr =>
    simp only [zoomMin, reduceCtorEq, iff_false]
    have := zoomMin_append (node cl ll la kl lr) .top (.left c a kv r .top)
    simp only [Path.append_top] at this
    rw [this]
    intro h
    cases hz : (zoomMin (node cl ll la kl lr) Path.top).1 <;> simp [hz] at h

/-- The in-order sequence of a non-empty tree starts with the node `zoomMin` stops at. -/
theorem zoomMin_toList (t : Tree K V) :
    t.toList = (zoomMin t .top).2.toList ++ (zoomMin t .top).1.after := by
  have := congrArg Tree.toList (zoomMin_plug t .top)
  rw [Path.toList_plug, zoomMin_before] at this
  simpa using this.symm

end RBT

namespace RBT

variable {K V : Type}

open RedBlackTree Tree

theorem Shape.readSlot {s : RedBlackTree K V} {P : Path K V} {t : Tree K V}
    (h : Shape s (P.plug t)) : s.readSlot P.slot = t.rootAddr s.nil_ := by
  rw [shape_plug_iff] at h
  obtain ⟨hp, -⟩ := h
  cases P with
  | top => exact hp
  | left c p kp r up => simp [Path.slot, RedBlackTree.readSlot, hp.2.1]
  | right c l p kp up => simp [Path.slot, RedBlackTree.readSlot, hp.2.1]

theorem height_le_size : ∀ t : Tree K V, t.height ≤ t.size
  | leaf => le_refl _
  | node c l a kv r => by
    have := height_le_size l
    have := height_le_size r
    simp only [height, size]
    omega

/-- The allocation mark exceeds the number of nodes by at least two: the null pointer and the
sentinel are not nodes. -/
theorem Shape.size_lt {s : RedBlackTree K V} {t : Tree K V} (h : Shape s t) :
    t.size + 2 ≤ s.brk := by
  have hn : s.nil_ ∉ t.addrs := h.rep.nil_not_mem
  have h0 : (0 : Nat) ∉ t.addrs := fun hm => by
    have := (h.alloc 0 hm).1; simp [nullptr] at this
  have hnz : s.nil_ ≠ 0 := by
    have := h.nil_alloc.1; simp [nullptr] at this; omega
  have hnd : (0 :: s.nil_ :: t.addrs).Nodup := by
    simp only [List.nodup_cons, List.mem_cons, not_or]
    exact ⟨⟨Ne.symm hnz, h0⟩, hn, h.nodup⟩
  have hsub : (0 :: s.nil_ :: t.addrs).toFinset ⊆ Finset.range s.brk := by
    intro x hx
    simp only [List.toFinset_cons, Finset.mem_insert, List.mem_toFinset] at hx
    simp only [Finset.mem_range]
    rcases hx with rfl | rfl | hx
    · have := h.nil_alloc; omega
    · exact h.nil_alloc.2
    · exact (h.alloc x hx).2
  have := Finset.card_le_card hsub
  rw [List.toFinset_card_of_nodup hnd, Finset.card_range] at this
  simp only [List.length_cons, length_addrs] at this
  omega

section
variable [LinearOrder K]

theorem DescendLoop_sim (key : K) : ∀ (t : Tree K V) (P : Path K V) (s : RedBlackTree K V)
    (fuel : Nat), Shape s (P.plug t) → t.height + 1 ≤ fuel →
    DescendLoop s key fuel P.slot (P.parentAddr s.nil_)
      = some (descendOutcome s.nil_ (zoom key t P))
  | leaf, P, s, fuel, h, hf => by
    obtain ⟨fuel, rfl⟩ : ∃ f, fuel = f + 1 := ⟨fuel - 1, by omega⟩
    rw [DescendLoop]
    simp [h.readSlot, zoom, descendOutcome]
  | node c l a kv r, P, s, fuel, h, hf => by
    obtain ⟨fuel, rfl⟩ : ∃ f, fuel = f + 1 := ⟨fuel - 1, by omega⟩
    simp only [height] at hf
    have ha := h.focus
    rw [DescendLoop]
    simp only [h.readSlot, rootAddr_node, ne_eq, ha.1, not_false_eq_true, if_true, ha.2]
    unfold zoom
    split_ifs with e1 e2
    · simp [descendOutcome]
    · exact DescendLoop_sim key l (.left c a kv r P) s fuel h (by omega)
    · exact DescendLoop_sim key r (.right c l a kv P) s fuel h (by omega)

theorem FindLoop_sim (key : K) : ∀ (t : Tree K V) (P : Path K V) (s : RedBlackTree K V)
    (fuel : Nat), Shape s (P.plug t) → t.height + 1 ≤ fuel →
    FindLoop s key fuel (t.rootAddr s.nil_) = some ((zoom key t P).2.rootAddr s.nil_)
  | leaf, P, s, fuel, h, hf => by
    obtain ⟨fuel, rfl⟩ : ∃ f, fuel = f + 1 := ⟨fuel - 1, by omega⟩
    rw [FindLoop]
    simp [zoom]
  | node c l a kv r, P, s, fuel, h, hf => by
    obtain ⟨fuel, rfl⟩ : ∃ f, fuel = f + 1 := ⟨fuel - 1, by omega⟩
    simp only [height] at hf
    have ha := h.focus
    rw [FindLoop]
    simp only [rootAddr_node, ne_eq, ha.1, not_false_eq_true, if_true, ha.2]
    unfold zoom
    by_cases e1 : key = kv.1
    · simp [e1]
    · rw [if_neg (Ne.symm e1), if_neg e1]
      by_cases e2 : key < kv.1
      · rw [if_neg (not_lt_of_gt e2), if_pos e2]
        exact FindLoop_sim key l (.left c a kv r P) s fuel h (by omega)
      · rw [if_pos (lt_of_le_of_ne (not_lt.1 e2) (Ne.symm e1)), if_neg e2]
        exact FindLoop_sim key r (.right c l a kv P) s fuel h (by omega)

theorem AtLoop_sim (key : K) : ∀ (t : Tree K V) (P : Path K V) (s : RedBlackTree K V)
    (fuel : Nat), Shape s (P.plug t) → t.height + 1 ≤ fuel →
    AtLoop s key fuel (t.rootAddr s.nil_) = some (atOutcome (zoom key t P).2)
  | leaf, P, s, fuel, h, hf => by
    obtain ⟨fuel, rfl⟩ : ∃ f, fuel = f + 1 := ⟨fuel - 1, by omega⟩
    rw [AtLoop]
    simp [zoom, atOutcome]
  | node c l a kv r, P, s, fuel, h, hf => by
    obtain ⟨fuel, rfl⟩ : ∃ f, fuel = f + 1 := ⟨fuel - 1, by omega⟩
    simp only [height] at hf
    have ha := h.focus
    rw [AtLoop]
    simp only [rootAddr_node, ne_eq, ha.1, not_false_eq_true, if_true, ha.2]
    unfold zoom
    by_cases e1 : key = kv.1
    · simp [e1, atOutcome]
    · rw [if_neg (Ne.symm e1), if_neg e1]
      by_cases e2 : key < kv.1
      · rw [if_neg (not_lt_of_gt e2), if_pos e2]
        exact AtLoop_sim key l (.left c a kv r P) s fuel h (by omega)
      · rw [if_pos (lt_of_le_of_ne (not_lt.1 e2) (Ne.symm e1)), if_neg e2]
        exact AtLoop_sim key r (.right c l a kv P) s fuel h (by omega)

end

end RBT

namespace RBT

variable {K V : Type}

open RedBlackTree Tree

theorem Path.depth_le_length : ∀ P : Path K V, P.depth ≤ P.addrs.length
  | .top => le_refl _
  | .left c a kv r up => by
    have := Path.depth_le_length up
    simp only [Path.depth, Path.addrs_left, List.length_cons, List.length_append]; omega
  | .right c l a kv up => by
    have := Path.depth_le_length up
    simp only [Path.depth, Path.addrs_right, List.length_cons, List.length_append]; omega

theorem Path.size_plug (P : Path K V) (t : Tree K V) :
    (P.plug t).size = t.size + P.addrs.length := by
  rw [← length_addrs, (Path.addrs_plug_perm P t).length_eq, List.length_append, length_addrs]

theorem Shape.depth_lt {s : RedBlackTree K V} {P : Path K V} {t : Tree K V}
    (h : Shape s (P.plug t)) : P.depth + t.size + 2 ≤ s.brk := by
  have := h.size_lt
  rw [Path.size_plug] at this
  have := Path.depth_le_length P
  omega

/-- The colour read through `root_`. -/
theorem Shape.rootColor {s : RedBlackTree K V} {t : Tree K V} (h : Shape s t)
    (hb : SentinelBlack s) : (s.heap s.root_).color = t.rootColor := by
  rw [h.root]; exact h.rep.color_root hb

theorem Shape.rootBlack_iff {s : RedBlackTree K V} {t : Tree K V} (h : Shape s t)
    (hb : SentinelBlack s) : RootBlack s ↔ t.rootColor = Color.BLACK := by
  unfold RootBlack
  rw [h.rootColor hb]
  constructor
  · intro h1
    cases t with
    | leaf => rfl
    | node c l a kv r => exact h1 (by rw [h.root]; exact (Shape.focus (P := .top) h).1)
  · exact fun h1 _ => h1

/-- The last statement of `InsertFixup`: `root_->color = BLACK`. -/
theorem paint_root_shape {s : RedBlackTree K V} {t : Tree K V} (h : Shape s t)
    (hb : SentinelBlack s) :
    Shape (s.setColor s.root_ Color.BLACK) (t.paint Color.BLACK)
      ∧ SentinelBlack (s.setColor s.root_ Color.BLACK)
      ∧ RootBlack (s.setColor s.root_ Color.BLACK) := by
  refine ⟨?_, ?_, fun _ => by simp [setColor_heap]⟩
  · cases t with
    | leaf => exact ⟨h.root, trivial, h.nodup, h.alloc, h.nil_alloc⟩
    | node c l a kv r =>
      have := h.root
      simp only [rootAddr_node] at this
      rw [this]
      exact (setColor_shape (P := .top) h Color.BLACK).1
  · unfold SentinelBlack
    simp only [setColor_nil_, setColor_heap]
    split_ifs
    · rfl
    · exact hb

/-- The allocation and linking of the new node in `Insert` and `operator[]`. -/
theorem link_shape {s : RedBlackTree K V} {P : Path K V} (h : Shape s (P.plug leaf))
    (value : K × V) (s1 : RedBlackTree K V)
    (hs1 : s1 = (((((s.allocNode value).writeSlot P.slot s.brk).setParent s.brk
        (P.parentAddr s.nil_)).setLeft s.brk s.nil_).setRight s.brk s.nil_).setColor s.brk
          Color.RED) :
    Shape s1 (P.plug (node Color.RED leaf s.brk value leaf)) ∧ s1.nil_ = s.nil_
      ∧ s1.brk = s.brk + 1 ∧ s1.freed = s.freed ∧ s1.heap s.nil_ = s.heap s.nil_ := by
  have h0 := h
  rw [shape_plug_iff] at h
  obtain ⟨hp, -, -, n2, -, -, a2, h5⟩ := h
  have hbp : s.brk ∉ P.addrs := fun hm => by have := (a2 _ hm).2; omega
  have hbn : s.brk ≠ s.nil_ := by omega
  have hnp : s.nil_ ∉ P.addrs := hp.nil_not_mem_path
  have e_nil : s1.nil_ = s.nil_ := by simp [hs1, allocNode]
  have e_brk : s1.brk = s.brk + 1 := by simp [hs1, allocNode]
  have hheap : ∀ z, z ≠ s.brk → z ∉ P.addrs → s1.heap z = s.heap z := by
    intro z hz hzp
    simp [hs1, setColor_heap, setRight_heap, setLeft_heap, setParent_heap, hz,
      writeSlot_heap_of_not_mem _ _ _ _ hzp, Function.update_apply, allocNode]
  refine ⟨?_, e_nil, e_brk, by simp [hs1, allocNode], hheap _ (Ne.symm hbn) hnp⟩
  rw [shape_plug_iff]
  refine ⟨?_, ?_, by simp, n2, by simpa using hbp, ?_, ?_, ?_⟩
  · have hp0 : P.Rep (s.allocNode value).heap
        s.nil_ s.root_ s.nil_ := by
      refine hp.congr_path fun z hz => ?_
      have : z ≠ s.brk := by rintro rfl; exact hbp hz
      simp [allocNode, Function.update_apply, this]
    have hp1 := Path.Rep.writeSlot (s := (s.allocNode value))
      hp0 n2 s.brk
    rw [e_nil]
    simp only [rootAddr_node]
    have hroot : s1.root_ = ((s.allocNode value).writeSlot P.slot s.brk).root_ := by simp [hs1]
    rw [hroot]
    refine hp1.congr_path fun z hz => ?_
    have : z ≠ s.brk := by rintro rfl; exact hbp hz
    simp [hs1, setColor_heap, setRight_heap, setLeft_heap, setParent_heap, this]
  · rw [e_nil]
    refine ⟨hbn, ?_, trivial, trivial⟩
    simp [hs1, setColor_heap, setRight_heap, setLeft_heap, setParent_heap,
      writeSlot_heap_of_not_mem _ _ _ _ hbp, Function.update_apply, allocNode]
  · intro a ha
    simp only [addrs_node, addrs_leaf, List.nil_append, List.mem_singleton] at ha
    subst ha
    rw [e_brk]
    have := h5.1
    simp only [nullptr] at this ⊢
    omega
  · intro a ha
    rw [e_brk]
    exact ⟨(a2 a ha).1, by have := (a2 a ha).2; omega⟩
  · rw [e_nil, e_brk]
    exact ⟨h5.1, by omega⟩

end RBT

namespace RBT

variable {K V : Type}

open RedBlackTree Tree

theorem linkNew_spec {s : RedBlackTree K V} {P : Path K V} (h : Shape s (P.plug leaf))
    (hb : SentinelBlack s) (hr : RootBlack s) (value : K × V) :
    ∃ s', linkNew s P.slot (P.parentAddr s.nil_) value = some (s', s.brk)
      ∧ Shape s' ((insFix P (node Color.RED leaf s.brk value leaf)).paint Color.BLACK)
      ∧ SentinelBlack s' ∧ RootBlack s'
      ∧ s'.nil_ = s.nil_ ∧ s'.brk = s.brk + 1 ∧ s'.freed = s.freed := by
  unfold linkNew InsertFixup
  simp only [setColor_nil_, setRight_nil_, setLeft_nil_, setParent_nil_, writeSlot_nil_,
    show (s.allocNode value).nil_ = s.nil_ from rfl]
  generalize hs1 : (((((s.allocNode value).writeSlot P.slot s.brk).setParent s.brk
        (P.parentAddr s.nil_)).setLeft s.brk s.nil_).setRight s.brk s.nil_).setColor s.brk
          Color.RED = s1
  obtain ⟨h1, e_nil, e_brk, e_fr, e_sent⟩ := link_shape h value s1 hs1.symm
  have hb1 : SentinelBlack s1 := by
    unfold SentinelBlack
    rw [e_nil, e_sent]; exact hb
  have hroot : (P.plug leaf).rootColor = Color.BLACK := (h.rootBlack_iff hb).1 hr
  have hd := h.depth_lt
  obtain ⟨s2, e2, h2, hfr⟩ := InsertFixupLoop_sim P _ _ (s.brk + 1) h1 (by simp) hb1 hroot
    (by omega)
  obtain ⟨h3, hb3, hr3⟩ := paint_root_shape h2 (hfr.sentinelBlack hb1)
  simp only [e_nil, rootAddr_node] at e2
  refine ⟨_, by rw [e_brk, e2]; rfl, h3, hb3, hr3, ?_, ?_, ?_⟩
  · simp [hfr.nil_, e_nil]
  · simp [hfr.brk, e_brk]
  · simp [hfr.freed, e_fr]

section
variable [LinearOrder K]

/-- `Insert` of a key that is present returns at the node that holds it and writes nothing. -/
theorem Insert_present {s : RedBlackTree K V} {t : Tree K V} (h : Shape s t) (ho : t.Ordered)
    {a : Nat} {key : K} {v : V} (hm : (a, key, v) ∈ t.toList) (v' : V) :
    Insert s (key, v') = some (s, a, false) := by
  obtain ⟨c, l, r, e⟩ := zoom_found key t .top ho a v hm
  have := DescendLoop_sim key t .top s s.brk h (by
    have := h.size_lt; have := height_le_size t; omega)
  unfold RedBlackTree.Insert
  simp only [Path.slot, Path.parentAddr_top] at this
  simp only [this]
  rw [show zoom key t Path.top = ((zoom key t Path.top).1, (zoom key t Path.top).2) from rfl, e]
  rfl

/-- `Insert` of an absent key: the new node is the cell at the old allocation mark, it enters
the in-order sequence at its sorted position, and invariants 1 to 5 hold again. -/
theorem Insert_absent {s : RedBlackTree K V} {t : Tree K V} (h : Invariants s t)
    {key : K} (hk : key ∉ t.keys) (v : V) :
    ∃ s' t' bef aft, Insert s (key, v) = some (s', s.brk, true) ∧ Invariants s' t'
      ∧ t.toList = bef ++ aft ∧ t'.toList = bef ++ (s.brk, key, v) :: aft
      ∧ s'.nil_ = s.nil_ ∧ s'.brk = s.brk + 1 ∧ s'.freed = s.freed := by
  have hleaf := zoom_leaf_of_not_mem key t .top hk
  have hplug := zoom_plug key t .top
  rw [hleaf, Path.plug_top] at hplug
  have hsh : Shape s ((zoom key t .top).1.plug leaf) := by rw [hplug]; exact h.shape
  obtain ⟨s', e, hs', hb', hr', e_nil, e_brk, e_fr⟩ :=
    linkNew_spec hsh h.sentinel h.rootBlack (key, v)
  have hdesc := DescendLoop_sim key t .top s s.brk h.shape (by
    have := h.shape.size_lt; have := height_le_size t; omega)
  have hnr := h.noRedRed
  have hbal := (blackBalanced_iff_bal t).1 h.balanced
  rw [← hplug, Path.noRedRed_plug] at hnr
  rw [← hplug, Path.bal_plug] at hbal
  obtain ⟨i1, i2⟩ := insFix_inv (zoom key t .top).1 (node Color.RED leaf s.brk (key, v) leaf)
    hnr.1 (by simpa using hbal.2) (by simp) (by simp) rfl
    ((hsh.rootBlack_iff h.sentinel).1 h.rootBlack)
  have hbounds := zoom_bounds key t .top h.ordered (by simp) (by simp)
  have hl : t.toList = (zoom key t .top).1.before ++ (zoom key t .top).1.after := by
    conv_lhs => rw [← hplug]
    simp [Path.toList_plug]
  have hl' : ((insFix (zoom key t .top).1 (node Color.RED leaf s.brk (key, v) leaf)).paint
      Color.BLACK).toList
        = (zoom key t .top).1.before ++ (s.brk, key, v) :: (zoom key t .top).1.after := by
    rw [toList_paint, insFix_toList, Path.toList_plug]
    simp
  refine ⟨s', _, _, _, ?_, ⟨⟨hs', hb', hr', i1.paint_black,
    (blackBalanced_iff_bal _).2 ((bal_paint _ _).2 i2)⟩, ?_⟩, hl, hl', e_nil, e_brk, e_fr⟩
  · unfold RedBlackTree.Insert
    simp only [Path.slot, Path.parentAddr_top] at hdesc
    simp only [hdesc]
    rw [show zoom key t Path.top = ((zoom key t Path.top).1, (zoom key t Path.top).2) from rfl,
      hleaf]
    simp only [descendOutcome, e, Option.map_some']
  · have ho := (ordered_iff_pairwise t).1 h.ordered
    rw [ordered_iff_pairwise, keys_eq_map_toList, hl']
    rw [keys_eq_map_toList, hl] at ho
    simp only [List.map_append, List.map_cons, List.pairwise_append, List.pairwise_cons,
      List.mem_map, List.mem_cons, forall_exists_index, and_imp] at ho ⊢
    refine ⟨ho.1, ⟨?_, ho.2.1⟩, ?_⟩
    · rintro k x hx rfl
      exact hbounds.2 x hx
    · rintro k x hx rfl k' (rfl | ⟨x', hx', rfl⟩)
      · exact hbounds.1 x hx
      · exact ho.2.2 _ x hx rfl _ x' hx' rfl

end

end RBT

namespace RBT

variable {K V : Type}

open RedBlackTree Tree

theorem Tree.Rep.value_of_mem {h : Nat → Node K V} {nl : Nat} :
    ∀ {t : Tree K V} {p : Nat}, t.Rep h nl p → ∀ {a k v},
      (a, k, v) ∈ t.toList → (h a).value = (k, v)
  | leaf, _, _, a, k, v, hm => by simp at hm
  | node c l x kv r, p, hr, a, k, v, hm => by
    obtain ⟨-, hrec, hl, hr⟩ := hr
    simp only [toList_node, List.mem_append, List.mem_cons, Prod.mk.injEq] at hm
    rcases hm with hm | ⟨rfl, rfl, rfl⟩ | hm
    · exact hl.value_of_mem hm
    · rw [hrec]
    · exact hr.value_of_mem hm

/-- The entries of the in-order sequence are the nodes of the tree with the pairs stored in
their cells. -/
theorem Tree.Rep.mem_toList_iff {h : Nat → Node K V} {nl p : Nat} {t : Tree K V}
    (hr : t.Rep h nl p) {a : Nat} {k : K} {v : V} :
    (a, k, v) ∈ t.toList ↔ a ∈ t.addrs ∧ (h a).value = (k, v) := by
  constructor
  · intro hm
    refine ⟨?_, hr.value_of_mem hm⟩
    rw [addrs_eq_map_toList]; exact List.mem_map.2 ⟨_, hm, rfl⟩
  · rintro ⟨ha, hv⟩
    rw [addrs_eq_map_toList] at ha
    obtain ⟨⟨a', k', v'⟩, hm, rfl⟩ := List.mem_map.1 ha
    have := hr.value_of_mem hm
    rw [hv] at this
    simp only [Prod.mk.injEq] at this
    obtain ⟨rfl, rfl⟩ := this
    exact hm

theorem Tree.Rep.mem_keys_iff {h : Nat → Node K V} {nl p : Nat} {t : Tree K V}
    (hr : t.Rep h nl p) {k : K} : k ∈ t.keys ↔ ∃ a ∈ t.addrs, (h a).value.1 = k := by
  rw [keys_eq_map_toList]
  constructor
  · intro hk
    obtain ⟨⟨a, k', v⟩, hm, rfl⟩ := List.mem_map.1 hk
    have := hr.mem_toList_iff.1 hm
    exact ⟨a, this.1, by rw [this.2]⟩
  · rintro ⟨a, ha, rfl⟩
    exact List.mem_map.2 ⟨(a, (h a).value.1, (h a).value.2),
      hr.mem_toList_iff.2 ⟨ha, rfl⟩, rfl⟩

section
variable [LinearOrder K]

theorem Find_eq_zoom {s : RedBlackTree K V} {t : Tree K V} (h : Shape s t) (key : K) :
    s.Find key = some ((zoom key t .top).2.rootAddr s.nil_) := by
  unfold Find
  rw [h.root]
  exact FindLoop_sim key t .top s s.brk h (by
    have := h.size_lt; have := height_le_size t; omega)

theorem At_eq_zoom {s : RedBlackTree K V} {t : Tree K V} (h : Shape s t) (key : K) :
    s.At key = some (atOutcome (zoom key t .top).2, s) := by
  unfold At
  rw [h.root, AtLoop_sim key t .top s s.brk h (by
    have := h.size_lt; have := height_le_size t; omega)]
  rfl

/-- `Find` of a key in the in-order sequence returns the node that holds it. -/
theorem Find_present {s : RedBlackTree K V} {t : Tree K V} (h : Shape s t) (ho : t.Ordered)
    {a : Nat} {key : K} {v : V} (hm : (a, key, v) ∈ t.toList) : s.Find key = some a := by
  obtain ⟨c, l, r, e⟩ := zoom_found key t .top ho a v hm
  rw [Find_eq_zoom h, e]; rfl

/-- `Find` of a key that is not in the in-order sequence returns the sentinel. -/
theorem Find_absent {s : RedBlackTree K V} {t : Tree K V} (h : Shape s t)
    {key : K} (hk : key ∉ t.keys) : s.Find key = some s.nil_ := by
  rw [Find_eq_zoom h, zoom_leaf_of_not_mem key t .top hk]; rfl

theorem At_present {s : RedBlackTree K V} {t : Tree K V} (h : Shape s t) (ho : t.Ordered)
    {a : Nat} {key : K} {v : V} (hm : (a, key, v) ∈ t.toList) :
    s.At key = some (.value v, s) := by
  obtain ⟨c, l, r, e⟩ := zoom_found key t .top ho a v hm
  rw [At_eq_zoom h, e]; rfl

theorem At_absent {s : RedBlackTree K V} {t : Tree K V} (h : Shape s t)
    {key : K} (hk : key ∉ t.keys) : s.At key = some (.out_of_range, s) := by
  rw [At_eq_zoom h, zoom_leaf_of_not_mem key t .top hk]; rfl

end

end RBT

namespace RBT

variable {K V : Type}

open RedBlackTree Tree

@[simp] theorem setColor_heap_parent (s : RedBlackTree K V) (a x : Nat) (c : Color) :
    ((s.setColor a c).heap x).parent = (s.heap x).parent := by
  rw [setColor_heap]; split_ifs with h
  · rw [h]
  · rfl

@[simp] theorem setColor_heap_left (s : RedBlackTree K V) (a x : Nat) (c : Color) :
    ((s.setColor a c).heap x).left = (s.heap x).left := by
  rw [setColor_heap]; split_ifs with h
  · rw [h]
  · rfl

@[simp] theorem setColor_heap_right (s : RedBlackTree K V) (a x : Nat) (c : Color) :
    ((s.setColor a c).heap x).right = (s.heap x).right := by
  rw [setColor_heap]; split_ifs with h
  · rw [h]
  · rfl

@[simp] theorem setColor_heap_value (s : RedBlackTree K V) (a x : Nat) (c : Color) :
    ((s.setColor a c).heap x).value = (s.heap x).value := by
  rw [setColor_heap]; split_ifs with h
  · rw [h]
  · rfl

theorem FocusShape.rootAddr_not_mem {s : RedBlackTree K V} {P : Path K V} {t : Tree K V}
    (h : FocusShape s P t) : t.rootAddr s.nil_ ∉ P.addrs := by
  have hh := h.1
  rw [shape_plug_iff] at hh
  obtain ⟨hp, -, -, -, n3, -⟩ := hh
  rcases Tree.rootAddr_mem_or s.nil_ t with ht | ht
  · subst ht; exact hp.nil_not_mem_path
  · exact n3 _ ht

/-- The parent link of the focus survives a step that leaves the sentinel's cell alone. -/
theorem FocusShape.of_frame {s s' : RedBlackTree K V} {P path' : Path K V} {t : Tree K V}
    (h : FocusShape s P t) (h' : Shape s' (path'.plug t)) (hf : Frame s s')
    (hp : path'.parentAddr s.nil_ = P.parentAddr s.nil_) : FocusShape s' path' t := by
  refine ⟨h', ?_⟩
  rw [hf.nil_, hp]
  cases t with
  | leaf => simp only [rootAddr_leaf]; rw [hf.sentinel]; exact h.2
  | node c l a kv r =>
    have := h'.focus.2
    simp only [rootAddr_node, this, hf.nil_, hp]

theorem FocusShape.of_node {s : RedBlackTree K V} {P : Path K V} {c : Color}
    {l r : Tree K V} {a : Nat} {kv : K × V} (h : Shape s (P.plug (node c l a kv r))) :
    FocusShape s P (node c l a kv r) :=
  ⟨h, by simp [h.focus.2]⟩

/-- One round of the loop of `DeleteFixup`. -/
theorem DeleteFixupLoop_succ (fuel : Nat) (s : RedBlackTree K V) (node : Nat) :
    DeleteFixupLoop (fuel + 1) s node =
      if node ≠ s.root_ ∧ (s.heap node).color = Color.BLACK then
        if node = (s.heap (s.heap node).parent).left then
          DeleteFixupRestL (DeleteFixupLoop fuel) (DeleteFixupSiblingL s node).2 node
            (DeleteFixupSiblingL s node).1
        else
          DeleteFixupRestR (DeleteFixupLoop fuel) (DeleteFixupSiblingR s node).2 node
            (DeleteFixupSiblingR s node).1
      else some (s, node) := by
  rw [DeleteFixupLoop]
  rfl

end RBT

namespace RBT

variable {K V : Type}

open RedBlackTree Tree

theorem DeleteFixupSiblingL_black {s : RedBlackTree K V} {up : Path K V} {cp : Color}
    {t w : Tree K V} {p : Nat} {kp : K × V} (h : FocusShape s (.left cp p kp w up) t)
    (hb : SentinelBlack s) (hw : ¬ w.rootColor = Color.RED) :
    DeleteFixupSiblingL s (t.rootAddr s.nil_) = (w.rootAddr s.nil_, s) := by
  have hx := h.2
  have hp := (Shape.focus (P := up) h.1).2
  have hwc := Shape.color_right (P := up) h.1 hb
  simp only [Path.parentAddr_left] at hx
  unfold DeleteFixupSiblingL
  simp only [hx, hp, hwc, hw, if_false]

theorem DeleteFixupSiblingL_red {s : RedBlackTree K V} {up : Path K V} {cp cw : Color}
    {t wl wr : Tree K V} {p wa : Nat} {kp kw : K × V}
    (h : FocusShape s (.left cp p kp (node cw wl wa kw wr) up) t) (hw : cw = Color.RED) :
    ∃ s', DeleteFixupSiblingL s (t.rootAddr s.nil_) = (wl.rootAddr s.nil_, s')
      ∧ FocusShape s' (.left Color.RED p kp wl (.left Color.BLACK wa kw wr up)) t
      ∧ Frame s s' := by
  subst hw
  have hx := h.2
  have hp := (Shape.focus (P := up) h.1).2
  have hwa := (Shape.focus (P := .right cp t p kp up) h.1).2
  simp only [Path.parentAddr_left, rootAddr_node] at hx hp
  have h1 := setColor_shape (P := .right cp t p kp up) h.1 Color.BLACK
  have h2 := setColor_shape (P := up) h1.1 Color.RED
  have h3 := LeftRotate_shape (P := up) h2.1
  have hfr := (h1.2.trans h2.2).trans h3.2
  have hf3 : FocusShape _ (.left Color.RED p kp wl (.left Color.BLACK wa kw wr up)) t :=
    h.of_frame h3.1 hfr rfl
  have hx3 := hf3.2
  have hp3 := (Shape.focus (P := .left Color.BLACK wa kw wr up) hf3.1).2
  simp only [Path.parentAddr_left, hfr.nil_] at hx3 hp3
  refine ⟨_, ?_, hf3, hfr⟩
  unfold DeleteFixupSiblingL
  simp only [hx, hp, hwa, if_true, setColor_heap_parent]
  simp only [hx3, hp3]

theorem DeleteFixupRestL_inl {s : RedBlackTree K V} {up : Path K V} {cp : Color}
    {t w t' : Tree K V} {p : Nat} {kp : K × V}
    (loop : RedBlackTree K V → Nat → Option (RedBlackTree K V × Nat))
    (h : FocusShape s (.left cp p kp w up) t) (hb : SentinelBlack s)
    (hd : delSibL up cp t p kp w = some (.inl t')) :
    ∃ s', DeleteFixupRestL loop s (t.rootAddr s.nil_) (w.rootAddr s.nil_) = loop s' p
      ∧ Shape s' (up.plug t') ∧ t'.rootAddr s.nil_ = p ∧ Frame s s' := by
  cases w with
  | leaf => simp [delSibL] at hd
  | node cw wl wa kw wr =>
    simp only [delSibL] at hd
    split_ifs at hd with hc hc2
    · simp only [Option.some.injEq, Sum.inl.injEq] at hd
      subst hd
      have hx := h.2
      have hwa := (Shape.focus (P := .right cp t p kp up) h.1).2
      have hcl := Shape.color_left (P := .right cp t p kp up) h.1 hb
      have hcr := Shape.color_right (P := .right cp t p kp up) h.1 hb
      simp only [Path.parentAddr_left] at hx
      have h1 := setColor_shape (P := .right cp t p kp up) h.1 Color.RED
      refine ⟨_, ?_, h1.1, rfl, h1.2⟩
      unfold DeleteFixupRestL
      simp only [rootAddr_node, hwa, hcl, hcr, hc, and_self, if_true, setColor_heap_parent, hx]
    · cases wl <;> simp at hd
    · simp at hd

theorem DeleteFixupRestL_inr {s : RedBlackTree K V} {up : Path K V} {cp : Color}
    {t w T : Tree K V} {p : Nat} {kp : K × V}
    (loop : RedBlackTree K V → Nat → Option (RedBlackTree K V × Nat))
    (h : FocusShape s (.left cp p kp w up) t) (hb : SentinelBlack s)
    (hd : delSibL up cp t p kp w = some (.inr T)) :
    ∃ s', DeleteFixupRestL loop s (t.rootAddr s.nil_) (w.rootAddr s.nil_) = loop s' s'.root_
      ∧ Shape s' T ∧ Frame s s' := by
  cases w with
  | leaf => simp [delSibL] at hd
  | node cw wl wa kw wr =>
    have hx := h.2
    have hp := (Shape.focus (P := up) h.1).2
    have hwa := (Shape.focus (P := .right cp t p kp up) h.1).2
    have hcl := Shape.color_left (P := .right cp t p kp up) h.1 hb
    have hcr := Shape.color_right (P := .right cp t p kp up) h.1 hb
    simp only [Path.parentAddr_left, rootAddr_node] at hx hp
    simp only [delSibL] at hd
    split_ifs at hd with hc hc2
    · simp at hd
    · -- the near nephew is RED, the far one BLACK
      cases wl with
      | leaf => simp at hd
      | node cwl wll wla kwl wlr =>
        simp only [Option.some.injEq, Sum.inr.injEq] at hd
        subst hd
        have hwlc : ¬ cwl = Color.BLACK := fun e => hc ⟨e, hc2⟩
        simp only [rootAddr_node, rootColor_node] at hcl hcr hwa
        have h1 := setColor_shape (P := .left cw wa kw wr (.right cp t p kp up)) h.1
          Color.BLACK
        have h2 := setColor_shape (P := .right cp t p kp up) h1.1 Color.RED
        have h3 := RightRotate_shape (P := .right cp t p kp up) h2.1
        have hfr3 := (h1.2.trans h2.2).trans h3.2
        have hf3 : FocusShape _ (.left cp p kp _ up) t := h.of_frame h3.1 hfr3 rfl
        have hx3 := hf3.2
        have hp3 := (Shape.focus (P := up) h3.1).2
        have hwla3 := (Shape.focus (P := .right cp t p kp up) h3.1).2
        simp only [Path.parentAddr_left, rootAddr_node, hfr3.nil_] at hx3 hp3 hwla3
        have h4 := setColor_shape (P := .right cp t p kp up) h3.1 cp
        have h5 := setColor_shape (P := up) h4.1 Color.BLACK
        have h6 := setColor_shape (P := .right cp wll wla kwl (.right Color.BLACK t p kp up))
          h5.1 Color.BLACK
        have h7 := LeftRotate_shape (P := up) h6.1
        have hfr := (((hfr3.trans h4.2).trans h5.2).trans h6.2).trans h7.2
        refine ⟨_, ?_, h7.1, hfr⟩
        unfold DeleteFixupRestL
        simp only [rootAddr_node, hwa, hcl, hcr, hwlc, hc2, false_and, and_true, if_true,
          if_false, setColor_heap_parent, setColor_heap_right, setColor_heap_left, hx3, hp3,
          hwla3]
    · -- the far nephew is RED
      simp only [Option.some.injEq, Sum.inr.injEq] at hd
      subst hd
      obtain ⟨cwr, wrl, wra, kwr, wrr, rfl⟩ : ∃ cwr wrl wra kwr wrr,
          wr = node cwr wrl wra kwr wrr := by
        cases wr <;> simp at hc2 ⊢
      simp only [rootAddr_node, rootColor_node] at hcl hcr hwa hc2
      have h4 := setColor_shape (P := .right cp t p kp up) h.1 cp
      have h5 := setColor_shape (P := up) h4.1 Color.BLACK
      have h6 := setColor_shape (P := .right cp wl wa kw (.right Color.BLACK t p kp up))
        h5.1 Color.BLACK
      have h7 := LeftRotate_shape (P := up) h6.1
      have hfr := ((h4.2.trans h5.2).trans h6.2).trans h7.2
      refine ⟨_, ?_, h7.1, hfr⟩
      unfold DeleteFixupRestL
      simp only [rootAddr_node, hwa, hcl, hcr, hc2, and_false, if_true, if_false,
        setColor_heap_parent, setColor_heap_right, setColor_heap_left, hx, hp, paint_node]

end RBT

namespace RBT

variable {K V : Type}

open RedBlackTree Tree

theorem DeleteFixupSiblingR_black {s : RedBlackTree K V} {up : Path K V} {cp : Color}
    {t w : Tree K V} {p : Nat} {kp : K × V} (h : FocusShape s (.right cp w p kp up) t)
    (hb : SentinelBlack s) (hw : ¬ w.rootColor = Color.RED) :
    DeleteFixupSiblingR s (t.rootAddr s.nil_) = (w.rootAddr s.nil_, s) := by
  have hx := h.2
  have hp := (Shape.focus (P := up) h.1).2
  have hwc := Shape.color_left (P := up) h.1 hb
  simp only [Path.parentAddr_right] at hx
  unfold DeleteFixupSiblingR
  simp only [hx, hp, hwc, hw, if_false]

theorem DeleteFixupSiblingR_red {s : RedBlackTree K V} {up : Path K V} {cp cw : Color}
    {t wl wr : Tree K V} {p wa : Nat} {kp kw : K × V}
    (h : FocusShape s (.right cp (node cw wl wa kw wr) p kp up) t) (hw : cw = Color.RED) :
    ∃ s', DeleteFixupSiblingR s (t.rootAddr s.nil_) = (wr.rootAddr s.nil_, s')
      ∧ FocusShape s' (.right Color.RED wr p kp (.right Color.BLACK wl wa kw up)) t
      ∧ Frame s s' := by
  subst hw
  have hx := h.2
  have hp := (Shape.focus (P := up) h.1).2
  have hwa := (Shape.focus (P := .left cp p kp t up) h.1).2
  simp only [Path.parentAddr_right, rootAddr_node] at hx hp
  have h1 := setColor_shape (P := .left cp p kp t up) h.1 Color.BLACK
  have h2 := setColor_shape (P := up) h1.1 Color.RED
  have h3 := RightRotate_shape (P := up) h2.1
  have hfr := (h1.2.trans h2.2).trans h3.2
  have hf3 : FocusShape _ (.right Color.RED wr p kp (.right Color.BLACK wl wa kw up)) t :=
    h.of_frame h3.1 hfr rfl
  have hx3 := hf3.2
  have hp3 := (Shape.focus (P := .right Color.BLACK wl wa kw up) hf3.1).2
  simp only [Path.parentAddr_right, hfr.nil_] at hx3 hp3
  refine ⟨_, ?_, hf3, hfr⟩
  unfold DeleteFixupSiblingR
  simp only [hx, hp, hwa, if_true, setColor_heap_parent]
  simp only [hx3, hp3]

theorem DeleteFixupRestR_inl {s : RedBlackTree K V} {up : Path K V} {cp : Color}
    {t w t' : Tree K V} {p : Nat} {kp : K × V}
    (loop : RedBlackTree K V → Nat → Option (RedBlackTree K V × Nat))
    (h : FocusShape s (.right cp w p kp up) t) (hb : SentinelBlack s)
    (hd : delSibR up cp t p kp w = some (.inl t')) :
    ∃ s', DeleteFixupRestR loop s (t.rootAddr s.nil_) (w.rootAddr s.nil_) = loop s' p
      ∧ Shape s' (up.plug t') ∧ t'.rootAddr s.nil_ = p ∧ Frame s s' := by
  cases w with
  | leaf => simp [delSibR] at hd
  | node cw wl wa kw wr =>
    simp only [delSibR] at hd
    split_ifs at hd with hc hc2
    · simp only [Option.some.injEq, Sum.inl.injEq] at hd
      subst hd
      have hx := h.2
      have hwa := (Shape.focus (P := .left cp p kp t up) h.1).2
      have hcl := Shape.color_left (P := .left cp p kp t up) h.1 hb
      have hcr := Shape.color_right (P := .left cp p kp t up) h.1 hb
      simp only [Path.parentAddr_right] at hx
      have h1 := setColor_shape (P := .left cp p kp t up) h.1 Color.RED
      refine ⟨_, ?_, h1.1, rfl, h1.2⟩
      unfold DeleteFixupRestR
      simp only [rootAddr_node, hwa, hcl, hcr, hc, and_self, if_true, setColor_heap_parent, hx]
    · cases wr <;> simp at hd
    · simp at hd

theorem DeleteFixupRestR_inr {s : RedBlackTree K V} {up : Path K V} {cp : Color}
    {t w T : Tree K V} {p : Nat} {kp : K × V}
    (loop : RedBlackTree K V → Nat → Option (RedBlackTree K V × Nat))
    (h : FocusShape s (.right cp w p kp up) t) (hb : SentinelBlack s)
    (hd : delSibR up cp t p kp w = some (.inr T)) :
    ∃ s', DeleteFixupRestR loop s (t.rootAddr s.nil_) (w.rootAddr s.nil_) = loop s' s'.root_
      ∧ Shape s' T ∧ Frame s s' := by
  cases w with
  | leaf => simp [delSibR] at hd
  | node cw wl wa kw wr =>
    have hx := h.2
    have hp := (Shape.focus (P := up) h.1).2
    have hwa := (Shape.focus (P := .left cp p kp t up) h.1).2
    have hcl := Shape.color_left (P := .left cp p kp t up) h.1 hb
    have hcr := Shape.color_right (P := .left cp p kp t up) h.1 hb
    simp only [Path.parentAddr_right, rootAddr_node] at hx hp
    simp only [delSibR] at hd
    split_ifs at hd with hc hc2
    · simp at hd
    · -- the near nephew is RED, the far one BLACK
      cases wr with
      | leaf => simp at hd
      | node cwr wrl wra kwr wrr =>
        simp only [Option.some.injEq, Sum.inr.injEq] at hd
        subst hd
        have hwrc : ¬ cwr = Color.BLACK := fun e => hc ⟨hc2, e⟩
        simp only [rootAddr_node, rootColor_node] at hcl hcr hwa
        have h1 := setColor_shape (P := .right cw wl wa kw (.left cp p kp t up)) h.1
          Color.BLACK
        have h2 := setColor_shape (P := .left cp p kp t up) h1.1 Color.RED
        have h3 := LeftRotate_shape (P := .left cp p kp t up) h2.1
        have hfr3 := (h1.2.trans h2.2).trans h3.2
        have hf3 : FocusShape _ (.right cp _ p kp up) t := h.of_frame h3.1 hfr3 rfl
        have hx3 := hf3.2
        have hp3 := (Shape.focus (P := up) h3.1).2
        have hwra3 := (Shape.focus (P := .left cp p kp t up) h3.1).2
        simp only [Path.parentAddr_right, rootAddr_node, hfr3.nil_] at hx3 hp3 hwra3
        have h4 := setColor_shape (P := .left cp p kp t up) h3.1 cp
        have h5 := setColor_shape (P := up) h4.1 Color.BLACK
        have h6 := setColor_shape (P := .left cp wra kwr wrr (.left Color.BLACK p kp t up))
          h5.1 Color.BLACK
        have h7 := RightRotate_shape (P := up) h6.1
        have hfr := (((hfr3.trans h4.2).trans h5.2).trans h6.2).trans h7.2
        refine ⟨_, ?_, h7.1, hfr⟩
        unfold DeleteFixupRestR
        simp only [rootAddr_node, hwa, hcl, hcr, hwrc, hc2, and_false, true_and, if_true,
          if_false, setColor_heap_parent, setColor_heap_right, setColor_heap_left, hx3, hp3,
          hwra3]
    · -- the far nephew is RED
      simp only [Option.some.injEq, Sum.inr.injEq] at hd
      subst hd
      obtain ⟨cwl, wll, wla, kwl, wlr, rfl⟩ : ∃ cwl wll wla kwl wlr,
          wl = node cwl wll wla kwl wlr := by
        cases wl <;> simp at hc2 ⊢
      simp only [rootAddr_node, rootColor_node] at hcl hcr hwa hc2
      have h4 := setColor_shape (P := .left cp p kp t up) h.1 cp
      have h5 := setColor_shape (P := up) h4.1 Color.BLACK
      have h6 := setColor_shape (P := .left cp wa kw wr (.left Color.BLACK p kp t up))
        h5.1 Color.BLACK
      have h7 := RightRotate_shape (P := up) h6.1
      have hfr := ((h4.2.trans h5.2).trans h6.2).trans h7.2
      refine ⟨_, ?_, h7.1, hfr⟩
      unfold DeleteFixupRestR
      simp only [rootAddr_node, hwa, hcl, hcr, hc2, false_and, if_true, if_false,
        setColor_heap_parent, setColor_heap_right, setColor_heap_left, hx, hp, paint_node]

end RBT

namespace RBT

variable {K V : Type}

open RedBlackTree Tree

theorem Path.rootAddr_plug_mem (nl : Nat) : ∀ (P : Path K V) (t : Tree K V),
    P ≠ .top → (P.plug t).rootAddr nl ∈ P.addrs
  | .top, _, h => absurd rfl h
  | .left c a kv r up, t, _ => by
    cases up with
    | top => simp
    | left c2 a2 kv2 r2 up2 =>
      have := Path.rootAddr_plug_mem nl (.left c2 a2 kv2 r2 up2) (node c t a kv r) (by simp)
      simp only [Path.plug_left, Path.addrs_left, List.mem_cons, List.mem_append] at this ⊢
      tauto
    | right c2 l2 a2 kv2 up2 =>
      have := Path.rootAddr_plug_mem nl (.right c2 l2 a2 kv2 up2) (node c t a kv r) (by simp)
      simp only [Path.plug_left, Path.plug_right, Path.addrs_left, Path.addrs_right,
        List.mem_cons, List.mem_append] at this ⊢
      tauto
  | .right c l a kv up, t, _ => by
    cases up with
    | top => simp
    | left c2 a2 kv2 r2 up2 =>
      have := Path.rootAddr_plug_mem nl (.left c2 a2 kv2 r2 up2) (node c l a kv t) (by simp)
      simp only [Path.plug_left, Path.plug_right, Path.addrs_left, Path.addrs_right,
        List.mem_cons, List.mem_append] at this ⊢
      tauto
    | right c2 l2 a2 kv2 up2 =>
      have := Path.rootAddr_plug_mem nl (.right c2 l2 a2 kv2 up2) (node c l a kv t) (by simp)
      simp only [Path.plug_right, Path.addrs_right, List.mem_cons, List.mem_append] at this ⊢
      tauto

theorem FocusShape.ne_root {s : RedBlackTree K V} {P : Path K V} {t : Tree K V}
    (h : FocusShape s P t) (hp : P ≠ .top) : t.rootAddr s.nil_ ≠ s.root_ := by
  intro e
  have := Path.rootAddr_plug_mem s.nil_ P t hp
  rw [← h.1.root, ← e] at this
  exact h.rootAddr_not_mem this

theorem FocusShape.color {s : RedBlackTree K V} {P : Path K V} {t : Tree K V}
    (h : FocusShape s P t) (hb : SentinelBlack s) :
    (s.heap (t.rootAddr s.nil_)).color = t.rootColor := by
  have hh := h.1
  rw [shape_plug_iff] at hh
  exact hh.2.1.color_root hb

theorem DeleteFixupLoop_exit (fuel : Nat) (s : RedBlackTree K V) (node : Nat)
    (h : ¬ (node ≠ s.root_ ∧ (s.heap node).color = Color.BLACK)) :
    DeleteFixupLoop (fuel + 1) s node = some (s, node) := by
  rw [DeleteFixupLoop_succ, if_neg h]

theorem setColor_self_frame (s : RedBlackTree K V) (a : Nat) (c : Color)
    (h : a = s.nil_ → (s.heap a).color = c) : Frame s (s.setColor a c) := by
  refine ⟨rfl, rfl, rfl, ?_⟩
  rw [setColor_heap]
  split_ifs with e
  · have := h e.symm
    rw [← e]
    cases hn : s.heap s.nil_ with
    | mk pa le ri va co =>
      rw [← e] at this
      rw [hn] at this
      simp only at this
      simp [this]
  · rfl

theorem paint_root_frame {s : RedBlackTree K V} (hb : SentinelBlack s) :
    Frame s (s.setColor s.root_ Color.BLACK) :=
  setColor_self_frame s _ _ fun e => by rw [e]; exact hb

/-- The loop of `DeleteFixup` and the final `node->color = BLACK` produce the tree computed by
`delFix`. -/
theorem DeleteFixup_sim : ∀ (P : Path K V) (t : Tree K V) (s : RedBlackTree K V)
    (fuel : Nat) (T : Tree K V), FocusShape s P t → SentinelBlack s →
    delFix P t = some T → P.depth + 2 ≤ fuel →
    ∃ s', (DeleteFixupLoop fuel s (t.rootAddr s.nil_)).map
        (fun r => r.1.setColor r.2 Color.BLACK) = some s'
      ∧ Shape s' T ∧ Frame s s' := by
  intro P
  induction P with
  | top =>
    intro t s fuel T h hb hd hf
    obtain ⟨fuel, rfl⟩ : ∃ f, fuel = f + 1 := ⟨fuel - 1, by omega⟩
    simp only [delFix, Option.some.injEq] at hd
    subst hd
    have hroot : t.rootAddr s.nil_ = s.root_ := h.1.root.symm
    rw [DeleteFixupLoop_exit _ _ _ (by simp [hroot])]
    refine ⟨_, rfl, ?_, ?_⟩
    · simp only [hroot]; exact (paint_root_shape h.1 hb).1
    · simp only [hroot]; exact paint_root_frame hb
  | left cp p kp w up ih =>
    intro t s fuel T h hb hd hf
    obtain ⟨fuel, rfl⟩ : ∃ f, fuel = f + 2 := ⟨fuel - 2, by simp [Path.depth] at hf; omega⟩
    have hcol := h.color hb
    have hx := h.2
    have hp := (Shape.focus (P := up) h.1).2
    simp only [Path.parentAddr_left] at hx
    simp only [delFix] at hd
    split_ifs at hd with ht hw
    · -- the node is RED: the loop is not entered
      simp only [Option.some.injEq] at hd
      subst hd
      obtain ⟨ct, tl, z, kz, tr, rfl⟩ : ∃ ct tl z kz tr, t = node ct tl z kz tr := by
        cases t <;> simp at ht ⊢
      simp only [rootAddr_node, rootColor_node] at hcol ht
      rw [DeleteFixupLoop_exit _ _ _ (by simp [hcol, ht])]
      exact ⟨_, rfl, (setColor_shape h.1 Color.BLACK).1, (setColor_shape h.1 Color.BLACK).2⟩
    · -- the sibling is RED
      have hne := h.ne_root (by simp)
      have htb : t.rootColor = Color.BLACK := ne_red_iff.1 ht
      cases w with
      | leaf => simp at hd
      | node cw wl wa kw wr =>
        simp only [rootColor_node] at hw
        obtain ⟨s1, e1, hf1, hfr1⟩ := DeleteFixupSiblingL_red h hw
        rw [DeleteFixupLoop_succ, if_pos ⟨hne, by rw [hcol, htb]⟩, if_pos (by simp [hx, hp]),
          e1]
        simp only
        have hb1 := hfr1.sentinelBlack hb
        rw [← hfr1.nil_]
        cases hsib : delSibL (.left Color.BLACK wa kw wr up) Color.RED t p kp wl with
        | none => simp [hsib] at hd
        | some r =>
          cases r with
          | inl t' =>
            simp only [hsib, Option.some.injEq] at hd
            subst hd
            obtain ⟨s2, e2, h2, -, hfr2⟩ := DeleteFixupRestL_inl (DeleteFixupLoop (fuel + 1))
              hf1 hb1 hsib
            obtain ⟨w', rfl⟩ := delSibL_inl hsib
            have hp2 := (Shape.focus h2).2
            rw [e2, DeleteFixupLoop_exit _ _ _ (by simp [hp2])]
            have h3 := setColor_shape h2 Color.BLACK
            exact ⟨_, rfl, h3.1, (hfr1.trans hfr2).trans h3.2⟩
          | inr T0 =>
            simp only [hsib, Option.some.injEq] at hd
            subst hd
            obtain ⟨s2, e2, h2, hfr2⟩ := DeleteFixupRestL_inr (DeleteFixupLoop (fuel + 1))
              hf1 hb1 hsib
            rw [e2, DeleteFixupLoop_exit _ _ _ (by simp)]
            have hb2 := hfr2.sentinelBlack hb1
            exact ⟨_, rfl, (paint_root_shape h2 hb2).1,
              (hfr1.trans hfr2).trans (paint_root_frame hb2)⟩
    · -- the sibling is BLACK
      have hne := h.ne_root (by simp)
      have htb : t.rootColor = Color.BLACK := ne_red_iff.1 ht
      rw [DeleteFixupLoop_succ, if_pos ⟨hne, by rw [hcol, htb]⟩, if_pos (by simp [hx, hp]),
        DeleteFixupSiblingL_black h hb hw]
      simp only
      cases hsib : delSibL up cp t p kp w with
      | none => simp [hsib] at hd
      | some r =>
        cases r with
        | inl t' =>
          simp only [hsib] at hd
          obtain ⟨s2, e2, h2, -, hfr2⟩ := DeleteFixupRestL_inl (DeleteFixupLoop (fuel + 1))
            h hb hsib
          obtain ⟨w', rfl⟩ := delSibL_inl hsib
          obtain ⟨s3, e3, h3, hfr3⟩ := ih _ s2 (fuel + 1) T (FocusShape.of_node h2)
            (hfr2.sentinelBlack hb) hd (by simp [Path.depth] at hf; omega)
          simp only [rootAddr_node] at e3
          rw [e2]
          exact ⟨s3, e3, h3, hfr2.trans hfr3⟩
        | inr T0 =>
          simp only [hsib, Option.some.injEq] at hd
          subst hd
          obtain ⟨s2, e2, h2, hfr2⟩ := DeleteFixupRestL_inr (DeleteFixupLoop (fuel + 1))
            h hb hsib
          rw [e2, DeleteFixupLoop_exit _ _ _ (by simp)]
          have hb2 := hfr2.sentinelBlack hb
          exact ⟨_, rfl, (paint_root_shape h2 hb2).1, hfr2.trans (paint_root_frame hb2)⟩
  | right cp w p kp up ih =>
    intro t s fuel T h hb hd hf
    obtain ⟨fuel, rfl⟩ : ∃ f, fuel = f + 2 := ⟨fuel - 2, by simp [Path.depth] at hf; omega⟩
    have hcol := h.color hb
    have hx := h.2
    have hp := (Shape.focus (P := up) h.1).2
    simp only [Path.parentAddr_right] at hx
    simp only [delFix] at hd
    split_ifs at hd with ht hw
    · simp only [Option.some.injEq] at hd
      subst hd
      obtain ⟨ct, tl, z, kz, tr, rfl⟩ : ∃ ct tl z kz tr, t = node ct tl z kz tr := by
        cases t <;> simp at ht ⊢
      simp only [rootAddr_node, rootColor_node] at hcol ht
      rw [DeleteFixupLoop_exit _ _ _ (by simp [hcol, ht])]
      exact ⟨_, rfl, (setColor_shape h.1 Color.BLACK).1, (setColor_shape h.1 Color.BLACK).2⟩
    · have hne := h.ne_root (by simp)
      have htb : t.rootColor = Color.BLACK := ne_red_iff.1 ht
      cases w with
      | leaf => simp at hd
      | node cw wl wa kw wr =>
        simp only [rootColor_node] at hw
        have hside : ¬ t.rootAddr s.nil_ = (s.heap (s.heap (t.rootAddr s.nil_)).parent).left := by
          rw [hx, hp]
          simp only [rootAddr_node]
          intro e
          exact h.rootAddr_not_mem (by rw [e]; simp)
        obtain ⟨s1, e1, hf1, hfr1⟩ := DeleteFixupSiblingR_red h hw
        rw [DeleteFixupLoop_succ, if_pos ⟨hne, by rw [hcol, htb]⟩, if_neg hside, e1]
        simp only
        have hb1 := hfr1.sentinelBlack hb
        rw [← hfr1.nil_]
        cases hsib : delSibR (.right Color.BLACK wl wa kw up) Color.RED t p kp wr with
        | none => simp [hsib] at hd
        | some r =>
          cases r with
          | inl t' =>
            simp only [hsib, Option.some.injEq] at hd
            subst hd
            obtain ⟨s2, e2, h2, -, hfr2⟩ := DeleteFixupRestR_inl (DeleteFixupLoop (fuel + 1))
              hf1 hb1 hsib
            obtain ⟨w', rfl⟩ := delSibR_inl hsib
            have hp2 := (Shape.focus h2).2
            rw [e2, DeleteFixupLoop_exit _ _ _ (by simp [hp2])]
            have h3 := setColor_shape h2 Color.BLACK
            exact ⟨_, rfl, h3.1, (hfr1.trans hfr2).trans h3.2⟩
          | inr T0 =>
            simp only [hsib, Option.some.injEq] at hd
            subst hd
            obtain ⟨s2, e2, h2, hfr2⟩ := DeleteFixupRestR_inr (DeleteFixupLoop (fuel + 1))
              hf1 hb1 hsib
            rw [e2, DeleteFixupLoop_exit _ _ _ (by simp)]
            have hb2 := hfr2.sentinelBlack hb1
            exact ⟨_, rfl, (paint_root_shape h2 hb2).1,
              (hfr1.trans hfr2).trans (paint_root_frame hb2)⟩
    · have hne := h.ne_root (by simp)
      have htb : t.rootColor = Color.BLACK := ne_red_iff.1 ht
      have hwn : w ≠ leaf := by
        rintro rfl
        simp [delSibR] at hd
      have hside : ¬ t.rootAddr s.nil_ = (s.heap (s.heap (t.rootAddr s.nil_)).parent).left := by
        rw [hx, hp]
        intro e
        refine h.rootAddr_not_mem ?_
        rw [e]
        have := (Tree.rootAddr_mem_or s.nil_ w).resolve_left hwn
        simp [this]
      rw [DeleteFixupLoop_succ, if_pos ⟨hne, by rw [hcol, htb]⟩, if_neg hside,
        DeleteFixupSiblingR_black h hb hw]
      simp only
      cases hsib : delSibR up cp t p kp w with
      | none => simp [hsib] at hd
      | some r =>
        cases r with
        | inl t' =>
          simp only [hsib] at hd
          obtain ⟨s2, e2, h2, -, hfr2⟩ := DeleteFixupRestR_inl (DeleteFixupLoop (fuel + 1))
            h hb hsib
          obtain ⟨w', rfl⟩ := delSibR_inl hsib
          obtain ⟨s3, e3, h3, hfr3⟩ := ih _ s2 (fuel + 1) T (FocusShape.of_node h2)
            (hfr2.sentinelBlack hb) hd (by simp [Path.depth] at hf; omega)
          simp only [rootAddr_node] at e3
          rw [e2]
          exact ⟨s3, e3, h3, hfr2.trans hfr3⟩
        | inr T0 =>
          simp only [hsib, Option.some.injEq] at hd
          subst hd
          obtain ⟨s2, e2, h2, hfr2⟩ := DeleteFixupRestR_inr (DeleteFixupLoop (fuel + 1))
            h hb hsib
          rw [e2, DeleteFixupLoop_exit _ _ _ (by simp)]
          have hb2 := hfr2.sentinelBlack hb
          exact ⟨_, rfl, (paint_root_shape h2 hb2).1, hfr2.trans (paint_root_frame hb2)⟩

end RBT

namespace RBT

variable {K V : Type}

open RedBlackTree Tree

/-- The three-way test of `Transplant`, which compares in the other order. -/
theorem slot_if_eq_symm {s0 : RedBlackTree K V} {P : Path K V} {a : Nat}
    (hr : P.Rep s0.heap s0.nil_ s0.root_ a) (ha : a ≠ s0.nil_) (hm : a ∉ P.addrs)
    (s : RedBlackTree K V) (a' : Nat) :
    (if P.parentAddr s0.nil_ = s0.nil_ then s.setRoot a'
      else if a = (s0.heap (P.parentAddr s0.nil_)).left then
        s.setLeft (P.parentAddr s0.nil_) a'
      else s.setRight (P.parentAddr s0.nil_) a') = s.writeSlot P.slot a' := by
  rw [← slot_if_eq hr ha hm s a']
  split_ifs with h1 h2 h3 h3
  · rfl
  · rfl
  · exact absurd h2.symm h3
  · exact absurd h3.symm h2
  · rfl

/-- The method `Transplant` writes the pointer variable that designates `old_node`, then the
parent link of `new_node`. -/
theorem Transplant_eq {s : RedBlackTree K V} {P : Path K V} {x : Nat}
    (hr : P.Rep s.heap s.nil_ s.root_ x) (hx : x ≠ s.nil_) (hm : x ∉ P.addrs)
    (hp : (s.heap x).parent = P.parentAddr s.nil_) (b : Nat) :
    Transplant s x b = (s.writeSlot P.slot b).setParent b (P.parentAddr s.nil_) := by
  have hpx : P.parentAddr s.nil_ ≠ x := parentAddr_ne_of_not_mem hx hm
  unfold Transplant
  simp only [hp]
  rw [slot_if_eq_symm hr hx hm s b]
  congr 1
  cases P with
  | top => simp [Path.slot, RedBlackTree.writeSlot, hp]
  | left c p kp r up =>
    simp only [Path.slot, RedBlackTree.writeSlot, setLeft_heap, Path.parentAddr_left] at hpx ⊢
    rw [if_neg (Ne.symm hpx)]; exact hp
  | right c l p kp up =>
    simp only [Path.slot, RedBlackTree.writeSlot, setRight_heap, Path.parentAddr_right] at hpx ⊢
    rw [if_neg (Ne.symm hpx)]; exact hp

/-- Splicing out a node whose child `ch` takes its place: `addrs` is what remains. -/
theorem Transplant_shape {s : RedBlackTree K V} {P : Path K V} {c : Color}
    {l r ch : Tree K V} {x : Nat} {kv : K × V} (h : Shape s (P.plug (node c l x kv r)))
    (hch : ch = l ∨ ch = r) :
    FocusShape (Transplant s x (ch.rootAddr s.nil_)) P ch
      ∧ (Transplant s x (ch.rootAddr s.nil_)).nil_ = s.nil_
      ∧ (Transplant s x (ch.rootAddr s.nil_)).brk = s.brk
      ∧ (Transplant s x (ch.rootAddr s.nil_)).freed = s.freed
      ∧ ((Transplant s x (ch.rootAddr s.nil_)).heap s.nil_).color = (s.heap s.nil_).color
      ∧ (Transplant s x (ch.rootAddr s.nil_)).heap x = s.heap x := by
  have h0 := h
  obtain ⟨hxp, hxl, hxr⟩ := h.focus_not_mem
  obtain ⟨hxn, hxrec⟩ := h.focus
  obtain ⟨hlrep, hrrep⟩ := h.focus_children
  rw [shape_plug_iff] at h
  obtain ⟨hp, -, n1, n2, n3, a1, a2, h5⟩ := h
  simp only [addrs_node, List.nodup_append, List.nodup_cons, List.mem_append, List.mem_cons,
    List.Disjoint, not_or] at n1 n3
  have hchrep : ch.Rep s.heap s.nil_ x := by rcases hch with rfl | rfl <;> assumption
  have hchsub : ∀ a ∈ ch.addrs, a ∈ (node c l x kv r).addrs := by
    intro a ha
    rcases hch with rfl | rfl <;> simp [ha]
  have hchnd : ch.addrs.Nodup := by
    rcases hch with rfl | rfl
    · exact n1.1
    · exact n1.2.1.2
  have hxch : x ∉ ch.addrs := by rcases hch with rfl | rfl <;> assumption
  have hchp : ∀ a ∈ ch.addrs, a ∉ P.addrs := fun a ha => by
    rcases hch with rfl | rfl
    · exact n3 a (Or.inl ha)
    · exact n3 a (Or.inr (Or.inr ha))
  have hnp : s.nil_ ∉ P.addrs := hp.nil_not_mem_path
  have hbp : ch.rootAddr s.nil_ ∉ P.addrs := by
    rcases Tree.rootAddr_mem_or s.nil_ ch with e | e
    · rw [e]; exact hnp
    · exact hchp _ e
  have hbx : ch.rootAddr s.nil_ ≠ x := rootAddr_ne_of_not_mem hxn hxch
  simp only [rootAddr_node] at hp
  rw [Transplant_eq hp hxn hxp (by rw [hxrec])]
  have hp1 := hp.writeSlot n2 (ch.rootAddr s.nil_)
  refine ⟨⟨h0.replace hchsub hchnd (by simp) (by simp) ?_ ?_, ?_⟩, by simp, by simp, by simp,
    ?_, ?_⟩
  · simp only [setParent_root]
    refine hp1.congr_path fun z hz => ?_
    have : z ≠ ch.rootAddr s.nil_ := by rintro rfl; exact hbp hz
    simp [setParent_heap, this]
  · refine hchrep.reparent hchnd (fun _ => ?_) fun z hz hzr => ?_
    · simp [setParent_heap, writeSlot_heap_of_not_mem _ _ _ _ hbp]
    · simp [setParent_heap, hzr, writeSlot_heap_of_not_mem _ _ _ _ (hchp z hz)]
  · simp [setParent_heap]
  · rw [setParent_heap]
    split_ifs with e
    · simp [← e, writeSlot_heap_of_not_mem _ _ _ _ hnp]
    · rw [writeSlot_heap_of_not_mem _ _ _ _ hnp]
  · simp [setParent_heap, Ne.symm hbx, writeSlot_heap_of_not_mem _ _ _ _ hxp]

end RBT

namespace RBT

variable {K V : Type}

open RedBlackTree Tree

theorem relinkSuccessor_eq (s : RedBlackTree K V) (old replaced : Nat) :
    relinkSuccessor s old replaced =
      takeOver
        (if (s.heap replaced).parent = old then
          s.setParent (s.heap replaced).right replaced
        else
          ((Transplant s replaced (s.heap replaced).right).setRight replaced
            ((Transplant s replaced (s.heap replaced).right).heap old).right).setParent
            ((((Transplant s replaced (s.heap replaced).right).setRight replaced
              ((Transplant s replaced (s.heap replaced).right).heap old).right).heap
                replaced).right) replaced)
        old replaced := rfl

/-- The node `y`, already the parent of the subtree `R`, takes the place of `x`. -/
theorem takeOver_shape {s : RedBlackTree K V} {P : Path K V} {c d : Color}
    {L M R : Tree K V} {x y b : Nat} {q k : K × V}
    (hp : P.Rep s.heap s.nil_ s.root_ x) (hx : x ≠ s.nil_)
    (hxp : (s.heap x).parent = P.parentAddr s.nil_) (hxl : (s.heap x).left = b)
    (hxc : (s.heap x).color = c)
    (hl : (node d L b q M).Rep s.heap s.nil_ x)
    (hy : y ≠ s.nil_) (hyr : (s.heap y).right = R.rootAddr s.nil_) (hyv : (s.heap y).value = k)
    (hR : R.Rep s.heap s.nil_ y)
    (hnd : ((node d L b q M).addrs ++ y :: R.addrs).Nodup) (hpnd : P.addrs.Nodup)
    (hdis : ∀ a ∈ (node d L b q M).addrs ++ y :: R.addrs, a ∉ P.addrs)
    (hxm : x ∉ P.addrs) (hxy : x ≠ y) (hxla : x ∉ (node d L b q M).addrs)
    (hal : ∀ a ∈ (node d L b q M).addrs ++ y :: R.addrs, nullptr < a ∧ a < s.brk)
    (hap : ∀ a ∈ P.addrs, nullptr < a ∧ a < s.brk)
    (hn : nullptr < s.nil_ ∧ s.nil_ < s.brk) :
    Shape (takeOver s x y) (P.plug (node c (node d L b q M) y k R))
      ∧ Frame s (takeOver s x y) := by
  have hyp : y ∉ P.addrs := hdis y (by simp)
  have hlap : b ∉ P.addrs := hdis b (by simp)
  have hnp : s.nil_ ∉ P.addrs := hp.nil_not_mem_path
  have hla : b ≠ s.nil_ := hl.1
  have hnd' := hnd
  simp only [addrs_node, List.nodup_append, List.nodup_cons, List.mem_append, List.mem_cons,
    List.Disjoint, not_or] at hnd' hxla
  obtain ⟨⟨nll, ⟨hlalr, nlr⟩, hll⟩, ⟨hyR, nR⟩, hlR⟩ := hnd'
  have hlay : b ≠ y := fun e => hlR (Or.inr (Or.inl rfl)) (Or.inl e)
  have hxla' : x ≠ b := hxla.2.1
  have e : takeOver s x y = ((((s.writeSlot P.slot y).setParent y
      (P.parentAddr s.nil_)).setLeft y b).setParent b y).setColor y c := by
    unfold takeOver
    rw [Transplant_eq hp hx hxm hxp]
    simp only [setParent_heap, setLeft_heap, hxy, hxla', if_false, if_true,
      writeSlot_heap_of_not_mem _ _ _ _ hxm, hxl, hxc]
  rw [e]
  have hh : ∀ z, z ∉ P.addrs → z ≠ y → z ≠ b →
      (((((s.writeSlot P.slot y).setParent y (P.parentAddr s.nil_)).setLeft y
        b).setParent b y).setColor y c).heap z = s.heap z := by
    intro z hz h1 h2
    simp [setColor_heap, setParent_heap, setLeft_heap, h1, h2,
      writeSlot_heap_of_not_mem _ _ _ _ hz]
  have hp1 := hp.writeSlot hpnd y
  refine ⟨?_, by simp, by simp, by simp, hh _ hnp (Ne.symm hy) (Ne.symm hla)⟩
  rw [shape_plug_iff]
  simp only [setColor_nil_, setParent_nil_, setLeft_nil_, writeSlot_nil_, setColor_brk,
    setParent_brk, setLeft_brk, writeSlot_brk, setColor_root, setParent_root, setLeft_root,
    rootAddr_node]
  refine ⟨?_, ⟨hy, ?_, ?_, ?_⟩, ?_, hpnd, ?_, ?_, hap, hn⟩
  · refine hp1.congr_path fun z hz => ?_
    have h1 : z ≠ y := by rintro rfl; exact hyp hz
    have h2 : z ≠ b := by rintro rfl; exact hlap hz
    simp [setColor_heap, setParent_heap, setLeft_heap, h1, h2]
  · simp [setColor_heap, setParent_heap, setLeft_heap, Ne.symm hlay,
      writeSlot_heap_of_not_mem _ _ _ _ hyp, hyr, hyv]
  · refine hl.reparent (List.nodup_append.1 hnd).1 (fun _ => ?_) fun z hz hzr => ?_
    · simp [setColor_heap, setParent_heap, setLeft_heap, hlay,
        writeSlot_heap_of_not_mem _ _ _ _ hlap]
    · simp only [rootAddr_node] at hzr
      have h1 : z ≠ y := by rintro rfl; exact hlR (by simpa using hz) (Or.inl rfl)
      exact hh z (hdis z (by simp at hz ⊢; tauto)) h1 hzr
  · refine hR.congr fun z hz => ?_
    have h1 : z ≠ y := by rintro rfl; exact hyR hz
    have h2 : z ≠ b := by rintro rfl; exact hlR (Or.inr (Or.inl rfl)) (Or.inr hz)
    exact hh z (hdis z (by simp [hz])) h1 h2
  · simpa using hnd
  · simpa using hdis
  · simpa using hal

end RBT

namespace RBT

variable {K V : Type}

open RedBlackTree Tree

theorem Path.mem_addrs_append : ∀ (inner outer : Path K V) (a : Nat),
    a ∈ (inner.append outer).addrs ↔ a ∈ inner.addrs ∨ a ∈ outer.addrs
  | .top, _, _ => by simp
  | .left c b kv r up, outer, a => by
    simp only [Path.append_left, Path.addrs_left, List.mem_cons, List.mem_append,
      Path.mem_addrs_append up outer a]
    tauto
  | .right c l b kv up, outer, a => by
    simp only [Path.append_right, Path.addrs_right, List.mem_cons, List.mem_append,
      Path.mem_addrs_append up outer a]
    tauto

theorem Path.parentAddr_mem (nl : Nat) (P : Path K V) (h : P ≠ .top) :
    P.parentAddr nl ∈ P.addrs := by
  cases P with
  | top => exact absurd rfl h
  | left c a kv r up => simp
  | right c l a kv up => simp

theorem TreeMinimum_sim : ∀ (t : Tree K V) (pre : Path K V) (s : RedBlackTree K V) (fuel : Nat),
    Shape s (pre.plug t) → t ≠ leaf → t.height ≤ fuel →
    TreeMinimum s fuel (t.rootAddr s.nil_) = some ((zoomMin t pre).2.rootAddr s.nil_)
  | leaf, _, _, _, _, h, _ => absurd rfl h
  | node c leaf a kv r, pre, s, fuel, h, _, hf => by
    obtain ⟨fuel, rfl⟩ : ∃ f, fuel = f + 1 := ⟨fuel - 1, by simp [height] at hf; omega⟩
    rw [TreeMinimum]
    simp [h.focus.2, zoomMin]
  | node c (node cl ll la kl lr) a kv r, pre, s, fuel, h, _, hf => by
    obtain ⟨fuel, rfl⟩ : ∃ f, fuel = f + 1 := ⟨fuel - 1, by simp [height] at hf; omega⟩
    have hla := (Shape.focus (P := .left c a kv r pre) h).1
    rw [TreeMinimum]
    simp only [rootAddr_node, h.focus.2, ne_eq, hla, not_false_eq_true, if_true, zoomMin]
    exact TreeMinimum_sim (node cl ll la kl lr) (.left c a kv r pre) s fuel h (by simp)
      (by simp only [height] at hf ⊢; omega)

/-- The two-children branch of `Delete` when the successor is the right child of `old`. -/
theorem relink_child_shape {s : RedBlackTree K V} {P : Path K V} {c cl cy : Color}
    {ll lr ry : Tree K V} {x y la : Nat} {kv kl ky : K × V}
    (h : Shape s (P.plug (node c (node cl ll la kl lr) x kv (node cy leaf y ky ry)))) :
    FocusShape (relinkSuccessor s x y) (.right c (node cl ll la kl lr) y ky P) ry
      ∧ (relinkSuccessor s x y).nil_ = s.nil_ ∧ (relinkSuccessor s x y).brk = s.brk
      ∧ (relinkSuccessor s x y).freed = s.freed
      ∧ ((relinkSuccessor s x y).heap s.nil_).color = (s.heap s.nil_).color := by
  have h0 := h
  obtain ⟨hxn, hxrec⟩ := h.focus
  obtain ⟨hyn, hyrec⟩ := (Shape.focus (P := .right c _ x kv P) h)
  obtain ⟨hlrep, hrrep⟩ := h.focus_children
  obtain ⟨-, hryrep⟩ := (Shape.focus_children (P := .right c _ x kv P) h)
  obtain ⟨hxp, hxl, hxr⟩ := h.focus_not_mem
  rw [shape_plug_iff] at h
  obtain ⟨hp, -, n1, n2, n3, a1, a2, h5⟩ := h
  simp only [rootAddr_node, Path.parentAddr_right, rootAddr_leaf] at hp hxrec hyrec
  have n1' := n1
  have n3' := n3
  simp only [addrs_node, addrs_leaf, List.nil_append, List.nodup_append, List.nodup_cons,
    List.mem_append, List.mem_cons, List.Disjoint, not_or] at n1' n3' hxl hxr
  obtain ⟨nl, ⟨⟨hxy, hxry⟩, hyry, nry⟩, hlr⟩ := n1'
  have hrrp : ry.rootAddr s.nil_ ∉ P.addrs := by
    rcases Tree.rootAddr_mem_or s.nil_ ry with e | e
    · rw [e]; exact hp.nil_not_mem_path
    · exact n3' _ (Or.inr (Or.inr (Or.inr e)))
  have hrrx : ry.rootAddr s.nil_ ≠ x := rootAddr_ne_of_not_mem hxn hxry
  have hrry : ry.rootAddr s.nil_ ≠ y := rootAddr_ne_of_not_mem hyn hyry
  have hrrl : ry.rootAddr s.nil_ ∉ (node cl ll la kl lr).addrs := by
    rcases Tree.rootAddr_mem_or s.nil_ ry with e | e
    · rw [e]; exact hlrep.nil_not_mem
    · intro hm
      exact hlr (by simpa using hm) (Or.inr (Or.inr e))
  rw [relinkSuccessor_eq]
  simp only [hyrec, if_true]
  have hs1 : ∀ z, z ≠ ry.rootAddr s.nil_ →
      (s.setParent (ry.rootAddr s.nil_) y).heap z = s.heap z := by
    intro z hz; simp [setParent_heap, hz]
  obtain ⟨hsh, hfr⟩ := takeOver_shape (s := s.setParent (ry.rootAddr s.nil_) y) (P := P)
    (c := c) (R := ry) (k := ky)
    (hp.congr_path fun z hz => hs1 z (by rintro rfl; exact hrrp hz)) hxn
    (by simp only [hs1 _ (Ne.symm hrrx), hxrec, setParent_nil_])
    (by simp only [hs1 _ (Ne.symm hrrx), hxrec, setParent_nil_, rootAddr_node])
    (by simp only [hs1 _ (Ne.symm hrrx), hxrec])
    (hlrep.congr fun z hz => hs1 z (by rintro rfl; exact hrrl hz)) hyn
    (by simp only [hs1 _ (Ne.symm hrry), hyrec, setParent_nil_])
    (by simp only [hs1 _ (Ne.symm hrry), hyrec])
    (hryrep.reparent nry (fun _ => by simp [setParent_heap]) fun z _ hzr => hs1 z hzr)
    (by
      simp only [addrs_node, List.nodup_append, List.nodup_cons, List.mem_append,
        List.mem_cons, List.Disjoint, not_or]
      refine ⟨nl, ⟨hyry, nry⟩, ?_⟩
      intro a ha hb
      exact hlr ha (Or.inr hb))
    n2 (fun a ha => n3 a (by simp at ha ⊢; tauto)) hxp hxy
    (by simpa using hxl) (fun a ha => a1 a (by simp at ha ⊢; tauto)) a2 h5
  refine ⟨⟨hsh, ?_⟩, hfr.nil_, hfr.brk, hfr.freed, ?_⟩
  · rw [hfr.nil_]
    simp only [setParent_nil_, Path.parentAddr_right]
    cases ry with
    | leaf =>
      have := hfr.sentinel
      simp only [setParent_nil_, rootAddr_leaf] at this
      simp only [rootAddr_leaf, this, setParent_heap, if_true]
    | node cr rl ra kr rr =>
      have := (Shape.focus (P := .right c _ y ky P) hsh).2
      simp only [rootAddr_node] at this ⊢
      simp only [this, Path.parentAddr_right]
  · have := hfr.sentinel
    simp only [setParent_nil_] at this
    rw [this, setParent_heap]
    split_ifs with e
    · rw [← e]
    · rfl

end RBT

namespace RBT

variable {K V : Type}

open RedBlackTree Tree

/-- The two-children branch of `Delete` when the successor lies deeper in the right
subtree of `old`. -/
theorem relink_deep_shape {s : RedBlackTree K V} {P mp : Path K V} {c cl cy : Color}
    {ll lr ry : Tree K V} {x y la : Nat} {kv kl ky : K × V}
    (h : Shape s (P.plug (node c (node cl ll la kl lr) x kv
      (mp.plug (node cy leaf y ky ry))))) (hmp : mp ≠ .top) :
    FocusShape (relinkSuccessor s x y)
        (mp.append (.right c (node cl ll la kl lr) y ky P)) ry
      ∧ (relinkSuccessor s x y).nil_ = s.nil_ ∧ (relinkSuccessor s x y).brk = s.brk
      ∧ (relinkSuccessor s x y).freed = s.freed
      ∧ ((relinkSuccessor s x y).heap s.nil_).color = (s.heap s.nil_).color := by
  have hP : Shape s ((mp.append (.right c (node cl ll la kl lr) x kv P)).plug
      (node cy leaf y ky ry)) := by
    rw [Path.plug_append]; exact h
  obtain ⟨hyn, hyrec⟩ := hP.focus
  obtain ⟨hyP, -, hyry⟩ := hP.focus_not_mem
  rw [Path.parentAddr_append _ _ _ hmp] at hyrec
  rw [Path.mem_addrs_append] at hyP
  simp only [Path.addrs_right, addrs_node, List.mem_cons, List.mem_append, not_or] at hyP
  obtain ⟨hymp, hyx, ⟨hyll, hyla, hylr⟩, hypath⟩ := hyP
  obtain ⟨-, hxmp⟩ : x ∉ (node cl ll la kl lr).addrs ∧ x ∉ (mp.plug (node cy leaf y ky ry)).addrs :=
    h.focus_not_mem.2
  have hxmp' : x ∉ mp.addrs := fun hm => hxmp ((Path.mem_addrs_plug _ _ _).2 (Or.inr hm))
  have hpar : (s.heap y).parent ≠ x := by
    rw [hyrec]
    intro e
    exact hxmp' (e ▸ Path.parentAddr_mem s.nil_ mp hmp)
  have hyal := hP.alloc y ((Path.mem_addrs_plug _ _ _).2 (Or.inl (by simp)))
  obtain ⟨hF, e1, e2, e3, e4, e5⟩ := @Transplant_shape _ _ _ _ _ _ _ ry _ _ hP (Or.inr rfl)
  rw [relinkSuccessor_eq]
  simp only [hpar, if_false]
  have hyr : (s.heap y).right = ry.rootAddr s.nil_ := by rw [hyrec]
  rw [hyr]
  generalize hs1 : Transplant s y (ry.rootAddr s.nil_) = s1 at hF e1 e2 e3 e4 e5 ⊢
  have h1 : Shape s1 (P.plug (node c (node cl ll la kl lr) x kv (mp.plug ry))) := by
    have := hF.1
    rwa [Path.plug_append] at this
  obtain ⟨hxn, hxrec⟩ := h1.focus
  obtain ⟨hlrep, hRrep⟩ := h1.focus_children
  obtain ⟨hxp, hxl, hxR⟩ := h1.focus_not_mem
  have h1' := h1
  rw [shape_plug_iff] at h1'
  obtain ⟨hp, -, n1, n2, n3, a1, a2, h5⟩ := h1'
  simp only [rootAddr_node] at hp hxrec
  have hRa : (mp.plug ry).rootAddr s1.nil_ ∈ mp.addrs := Path.rootAddr_plug_mem _ mp ry hmp
  have hRaR : (mp.plug ry).rootAddr s1.nil_ ∈ (mp.plug ry).addrs :=
    (Path.mem_addrs_plug _ _ _).2 (Or.inr hRa)
  have hRay : (mp.plug ry).rootAddr s1.nil_ ≠ y := fun e => hymp (e ▸ hRa)
  have hRax : (mp.plug ry).rootAddr s1.nil_ ≠ x := fun e => hxR (e ▸ hRaR)
  have hRne : mp.plug ry ≠ leaf := by
    intro e
    rw [e] at hRaR
    simp at hRaR
  have hyR : y ∉ (mp.plug ry).addrs := by
    rw [Path.mem_addrs_plug]
    exact fun hm => hm.elim hyry hymp
  have n1' := n1
  simp only [addrs_node, List.nodup_append, List.nodup_cons, List.mem_append, List.mem_cons,
    List.Disjoint, not_or] at n1' hxl
  obtain ⟨nl, ⟨hxR', nR⟩, hlR⟩ := n1'
  have hRal : (mp.plug ry).rootAddr s1.nil_ ∉ (node cl ll la kl lr).addrs := by
    intro hm
    exact hlR (by simpa using hm) (Or.inr hRaR)
  have hRap : (mp.plug ry).rootAddr s1.nil_ ∉ P.addrs :=
    n3 _ (by simp only [addrs_node, List.mem_append, List.mem_cons]; exact Or.inr (Or.inr hRaR))
  have hxR0 : (s1.heap x).right = (mp.plug ry).rootAddr s1.nil_ := by rw [hxrec]
  rw [hxR0]
  have hyR2 : ((s1.setRight y ((mp.plug ry).rootAddr s1.nil_)).heap y).right
      = (mp.plug ry).rootAddr s1.nil_ := by
    simp [setRight_heap]
  rw [hyR2]
  generalize hs3 : (s1.setRight y ((mp.plug ry).rootAddr s1.nil_)).setParent
    ((mp.plug ry).rootAddr s1.nil_) y = s3
  have hn3 : s3.nil_ = s1.nil_ := by rw [← hs3]; rfl
  have hb3 : s3.brk = s1.brk := by rw [← hs3]; rfl
  have hf3 : s3.freed = s1.freed := by rw [← hs3]; rfl
  have hr3 : s3.root_ = s1.root_ := by rw [← hs3]; rfl
  have hh3 : ∀ z, z ≠ y → z ≠ (mp.plug ry).rootAddr s1.nil_ → s3.heap z = s1.heap z := by
    intro z hz1 hz2
    rw [← hs3]
    simp [setParent_heap, setRight_heap, hz1, hz2]
  have hh3y : s3.heap y = { s1.heap y with right := (mp.plug ry).rootAddr s1.nil_ } := by
    rw [← hs3]
    simp [setParent_heap, setRight_heap, hRay.symm]
  have hh3R : s3.heap ((mp.plug ry).rootAddr s1.nil_)
      = { s1.heap ((mp.plug ry).rootAddr s1.nil_) with parent := y } := by
    rw [← hs3]
    simp [setParent_heap, setRight_heap, hRay]
  have hypath' : y ∉ P.addrs := hypath
  obtain ⟨hsh, hfr⟩ := takeOver_shape (s := s3) (P := P)
    (c := c) (R := mp.plug ry) (k := ky) (x := x) (y := y) (b := la) (d := cl) (L := ll)
    (M := lr) (q := kl)
    (by
      rw [hn3, hr3]
      exact hp.congr_path fun z hz => hh3 z (by rintro rfl; exact hypath' hz)
        (by rintro rfl; exact hRap hz))
    (by rw [hn3]; exact hxn)
    (by rw [hh3 x (Ne.symm hyx) (Ne.symm hRax), hxrec, hn3])
    (by rw [hh3 x (Ne.symm hyx) (Ne.symm hRax), hxrec])
    (by rw [hh3 x (Ne.symm hyx) (Ne.symm hRax), hxrec])
    (by
      rw [hn3]
      exact hlrep.congr fun z hz => hh3 z
        (by
          rintro rfl
          simp only [addrs_node, List.mem_append, List.mem_cons] at hz
          tauto)
        (by rintro rfl; exact hRal hz))
    (by rw [hn3, e1]; exact hyn)
    (by rw [hh3y, hn3])
    (by rw [hh3y, e5, hyrec])
    (by
      rw [hn3]
      exact hRrep.reparent nR (fun _ => hh3R) fun z hz hzr => hh3 z
        (by rintro rfl; exact hyR hz) hzr)
    (by
      simp only [addrs_node, List.nodup_append, List.nodup_cons, List.mem_append,
        List.mem_cons, List.Disjoint, not_or]
      refine ⟨nl, ⟨hyR, nR⟩, ?_⟩
      intro a ha hb
      rcases hb with rfl | hb
      · tauto
      · exact hlR ha (Or.inr hb))
    n2
    (by
      intro a ha
      simp only [addrs_node, List.mem_append, List.mem_cons] at ha
      rcases ha with ha | rfl | ha
      · exact n3 a (by simp only [addrs_node, List.mem_append, List.mem_cons]; tauto)
      · exact hypath'
      · exact n3 a (by simp only [addrs_node, List.mem_append, List.mem_cons]; tauto))
    hxp (Ne.symm hyx)
    (by simpa using hxl)
    (by
      intro a ha
      rw [hb3]
      simp only [addrs_node, List.mem_append, List.mem_cons] at ha
      rcases ha with ha | rfl | ha
      · exact a1 a (by simp only [addrs_node, List.mem_append, List.mem_cons]; tauto)
      · rw [e2]; exact hyal
      · exact a1 a (by simp only [addrs_node, List.mem_append, List.mem_cons]; tauto))
    (by rw [hb3]; exact a2) (by rw [hb3, hn3]; exact h5)
  have hsh' : Shape (takeOver s3 x y)
      ((mp.append (.right c (node cl ll la kl lr) y ky P)).plug ry) := by
    rw [Path.plug_append]; exact hsh
  have hnil : (takeOver s3 x y).nil_ = s.nil_ := by rw [hfr.nil_, hn3, e1]
  have hsent : (takeOver s3 x y).heap s.nil_ = s1.heap s.nil_ := by
    have := hfr.sentinel
    rw [hn3, e1] at this
    rw [this]
    rw [← e1]
    exact hh3 _ (fun e => hyn (by rw [← e, e1])) (fun e => hxn (by
      exfalso
      exact hRrep.nil_not_mem (e ▸ hRaR)))
  refine ⟨⟨hsh', ?_⟩, hnil, by rw [hfr.brk, hb3, e2], by rw [hfr.freed, hf3, e3], ?_⟩
  · rw [hnil, Path.parentAddr_append _ _ _ hmp]
    cases ry with
    | leaf =>
      have := hF.2
      rw [Path.parentAddr_append _ _ _ hmp, e1] at this
      simp only [rootAddr_leaf] at this ⊢
      rw [hsent, this]
    | node cr rl ra kr rr =>
      have := (Shape.focus hsh').2
      simp only [rootAddr_node] at this ⊢
      rw [this, Path.parentAddr_append _ _ _ hmp, hnil]
  · rw [hsent, e4]

end RBT

namespace RBT

variable {K V : Type}

open RedBlackTree Tree

theorem Shape.of_freed {s : RedBlackTree K V} {t : Tree K V} (h : Shape s t) (f : List Nat) :
    Shape { s with freed := f } t :=
  ⟨h.root, h.rep, h.nodup, h.alloc, h.nil_alloc⟩

/-- The end of `Delete`, after the node `n` (with at most one child `ch`) was unlinked and
`ch` put in its place. -/
theorem finish_spec {s1 : RedBlackTree K V} {P : Path K V} {cn : Color} {tl tr ch : Tree K V}
    {n : Nat} {kn : K × V} (x : Nat)
    (hF : FocusShape s1 P ch) (hsb : SentinelBlack s1)
    (hn : (P.plug (node cn tl n kn tr)).NoRedRed) (hb : (P.plug (node cn tl n kn tr)).Bal)
    (hroot : (P.plug (node cn tl n kn tr)).rootColor = Color.BLACK)
    (hch : (tl = leaf ∧ ch = tr) ∨ (tr = leaf ∧ ch = tl)) :
    ∃ s' T', finishDelete s1 (decide (cn = Color.BLACK)) (ch.rootAddr s1.nil_) x = some s'
      ∧ Shape s' T' ∧ SentinelBlack s' ∧ T'.NoRedRed ∧ T'.Bal ∧ T'.rootColor = Color.BLACK
      ∧ T'.toList = (P.plug ch).toList
      ∧ s'.nil_ = s1.nil_ ∧ s'.brk = s1.brk ∧ s'.freed = x :: s1.freed := by
  rw [Path.noRedRed_plug] at hn
  rw [Path.bal_plug] at hb
  obtain ⟨hPn, hnn, hpc⟩ := hn
  obtain ⟨hnb, hPb⟩ := hb
  simp only [noRedRed_node, bal_node, bh_node, rootColor_node] at hnn hnb hPb hpc
  have hchn : ch.NoRedRed := by
    rcases hch with ⟨-, rfl⟩ | ⟨-, rfl⟩
    exacts [hnn.2.2, hnn.2.1]
  have hchb : ch.Bal := by
    rcases hch with ⟨-, rfl⟩ | ⟨-, rfl⟩
    exacts [hnb.2.2, hnb.2.1]
  have hbh : ch.bh = tl.bh := by
    rcases hch with ⟨-, rfl⟩ | ⟨-, rfl⟩
    exacts [hnb.1.symm, rfl]
  rcases color_cases cn with rfl | rfl
  · simp only [if_true] at hPb
    obtain ⟨T, hdel, hTn, hTb, hTr, hTl⟩ := delFix_inv P ch hPn (by rw [hbh]; exact hPb) hchb
      hchn.paint_black (rootColor_plug_up P _ _ _ _ _ hroot)
    obtain ⟨s', hs', hsh, hfr⟩ := DeleteFixup_sim P ch s1 s1.brk T hF hsb hdel
      (by have := hF.1.depth_lt; omega)
    refine ⟨{ s' with freed := x :: s'.freed }, T, ?_, hsh.of_freed _, hfr.sentinelBlack hsb,
      hTn, hTb, hTr, hTl, hfr.nil_, hfr.brk, ?_⟩
    · simp only [finishDelete, DeleteFixup, decide_True, if_true, hs', Option.map_some']
    · show x :: s'.freed = x :: s1.freed
      rw [hfr.freed]
  · have hPt : P ≠ .top := by
      rintro rfl
      simp at hroot
    refine ⟨{ s1 with freed := x :: s1.freed }, P.plug ch, ?_, hF.1.of_freed _, hsb, ?_, ?_, ?_,
      rfl, rfl, rfl, rfl⟩
    · simp [finishDelete]
    · rw [Path.noRedRed_plug]
      refine ⟨hPn, hchn, fun _ => ?_⟩
      rcases hch with ⟨-, rfl⟩ | ⟨-, rfl⟩
      exacts [(hnn.1 rfl).2, (hnn.1 rfl).1]
    · rw [Path.bal_plug]
      refine ⟨hchb, ?_⟩
      rw [hbh]
      simpa using hPb
    · rw [← hroot]
      exact rootColor_plug_ne_top P _ _ hPt

theorem Delete_two {s : RedBlackTree K V} {x y : Nat} (h1 : (s.heap x).left ≠ s.nil_)
    (h2 : (s.heap x).right ≠ s.nil_) (h3 : TreeMinimum s s.brk (s.heap x).right = some y) :
    Delete s x = finishDelete (relinkSuccessor s x y)
      (decide ((s.heap y).color = Color.BLACK)) (s.heap y).right x := by
  unfold Delete
  simp only [h1, h2, if_false, h3]
  rfl

end RBT

namespace RBT

variable {K V : Type}

open RedBlackTree Tree

/-- `Delete` of the node `x` of a red-black tree: the three branches of the method, on the
colour invariants and the in-order sequence. -/
theorem Delete_colour {s : RedBlackTree K V} {P : Path K V} {c : Color} {l r : Tree K V}
    {x : Nat} {kv : K × V} (hsh : Shape s (P.plug (node c l x kv r)))
    (hsb : SentinelBlack s) (hn : (P.plug (node c l x kv r)).NoRedRed)
    (hb : (P.plug (node c l x kv r)).Bal)
    (hroot : (P.plug (node c l x kv r)).rootColor = Color.BLACK) :
    ∃ s' T', Delete s x = some s' ∧ Shape s' T' ∧ SentinelBlack s' ∧ T'.NoRedRed ∧ T'.Bal
      ∧ T'.rootColor = Color.BLACK
      ∧ T'.toList = P.before ++ l.toList ++ (r.toList ++ P.after)
      ∧ s'.nil_ = s.nil_ ∧ s'.brk = s.brk ∧ s'.freed = x :: s.freed := by
  obtain ⟨hxn, hxrec⟩ := hsh.focus
  obtain ⟨hlrep, hrrep⟩ := hsh.focus_children
  by_cases hl : l = leaf
  · subst hl
    obtain ⟨hF, e1, e2, e3, e4, -⟩ := @Transplant_shape _ _ _ _ _ _ _ r _ _ hsh (Or.inr rfl)
    have hD : Delete s x = finishDelete (Transplant s x (r.rootAddr s.nil_))
        (decide (c = Color.BLACK)) (r.rootAddr s.nil_) x := by
      unfold Delete
      simp only [hxrec, rootAddr_leaf, if_true]
    have hsb1 : SentinelBlack (Transplant s x (r.rootAddr s.nil_)) := by
      unfold SentinelBlack
      rw [e1, e4]; exact hsb
    obtain ⟨s', T', h1, h2, h3, h4, h5, h6, h7, h8, h9, h10⟩ :=
      finish_spec x hF hsb1 hn hb hroot (Or.inl ⟨rfl, rfl⟩)
    rw [e1] at h1 h8
    refine ⟨s', T', by rw [hD, h1], h2, h3, h4, h5, h6, ?_, h8, by rw [h9, e2],
      by rw [h10, e3]⟩
    rw [h7, Path.toList_plug]
    simp [List.append_assoc]
  by_cases hr : r = leaf
  · subst hr
    obtain ⟨hF, e1, e2, e3, e4, -⟩ := @Transplant_shape _ _ _ _ _ _ _ l _ _ hsh (Or.inl rfl)
    have hln : l.rootAddr s.nil_ ≠ s.nil_ := fun e => hl (hlrep.rootAddr_eq_nil.1 e)
    have hD : Delete s x = finishDelete (Transplant s x (l.rootAddr s.nil_))
        (decide (c = Color.BLACK)) (l.rootAddr s.nil_) x := by
      unfold Delete
      simp only [hxrec, rootAddr_leaf, if_true, hln, if_false]
    have hsb1 : SentinelBlack (Transplant s x (l.rootAddr s.nil_)) := by
      unfold SentinelBlack
      rw [e1, e4]; exact hsb
    obtain ⟨s', T', h1, h2, h3, h4, h5, h6, h7, h8, h9, h10⟩ :=
      finish_spec x hF hsb1 hn hb hroot (Or.inr ⟨rfl, rfl⟩)
    rw [e1] at h1 h8
    refine ⟨s', T', by rw [hD, h1], h2, h3, h4, h5, h6, ?_, h8, by rw [h9, e2],
      by rw [h10, e3]⟩
    rw [h7, Path.toList_plug]
    simp [List.append_assoc]
  have hln : l.rootAddr s.nil_ ≠ s.nil_ := fun e => hl (hlrep.rootAddr_eq_nil.1 e)
  have hrn : r.rootAddr s.nil_ ≠ s.nil_ := fun e => hr (hrrep.rootAddr_eq_nil.1 e)
  obtain ⟨cy, y, ky, ry, hy⟩ := zoomMin_node r .top hr
  have hmin := TreeMinimum_sim r (.right c l x kv P) s s.brk hsh hr (by
    have h1 := hsh.size_lt
    have h2 := height_le_size r
    rw [Path.size_plug] at h1
    simp only [size] at h1
    omega)
  have happ := zoomMin_append r .top (.right c l x kv P)
  simp only [Path.append_top] at happ
  rw [happ, hy] at hmin
  simp only [rootAddr_node] at hmin
  obtain ⟨mp, hmp, hbef⟩ : ∃ mp : Path K V, r = mp.plug (node cy leaf y ky ry)
      ∧ mp.before = [] := by
    refine ⟨(zoomMin r .top).1, ?_, ?_⟩
    · rw [← hy]; exact (zoomMin_plug r .top).symm
    · rw [zoomMin_before]; rfl
  subst hmp
  obtain ⟨cl, ll, la, kl, lr, rfl⟩ : ∃ cl ll la kl lr, l = node cl ll la kl lr := by
    cases l with
    | leaf => exact absurd rfl hl
    | node cl ll la kl lr => exact ⟨cl, ll, la, kl, lr, rfl⟩
  have hP : Shape s ((mp.append (.right c (node cl ll la kl lr) x kv P)).plug
      (node cy leaf y ky ry)) := by
    rw [Path.plug_append]; exact hsh
  obtain ⟨-, hyrec⟩ := hP.focus
  have hD := Delete_two (s := s) (x := x) (y := y) (by rw [hxrec]; exact hln)
    (by rw [hxrec]; exact hrn) (by rw [hxrec]; exact hmin)
  have hyc : (s.heap y).color = cy := by rw [hyrec]
  have hyr : (s.heap y).right = ry.rootAddr s.nil_ := by rw [hyrec]
  rw [hyc, hyr] at hD
  obtain ⟨hF, e1, e2, e3, e4⟩ :
      FocusShape (relinkSuccessor s x y)
        (mp.append (.right c (node cl ll la kl lr) y ky P)) ry
      ∧ (relinkSuccessor s x y).nil_ = s.nil_ ∧ (relinkSuccessor s x y).brk = s.brk
      ∧ (relinkSuccessor s x y).freed = s.freed
      ∧ ((relinkSuccessor s x y).heap s.nil_).color = (s.heap s.nil_).color := by
    by_cases hmp : mp = .top
    · subst hmp
      exact relink_child_shape hsh
    · exact relink_deep_shape hsh hmp
  have hsb1 : SentinelBlack (relinkSuccessor s x y) := by
    unfold SentinelBlack
    rw [e1, e4]; exact hsb
  have hn' : ((mp.append (.right c (node cl ll la kl lr) y ky P)).plug
      (node cy leaf y ky ry)).NoRedRed := by
    rw [Path.plug_append]
    show (P.plug (node c (node cl ll la kl lr) y ky (mp.plug (node cy leaf y ky ry)))).NoRedRed
    rw [Path.noRedRed_plug P] at hn ⊢
    exact hn
  have hb' : ((mp.append (.right c (node cl ll la kl lr) y ky P)).plug
      (node cy leaf y ky ry)).Bal := by
    rw [Path.plug_append]
    show (P.plug (node c (node cl ll la kl lr) y ky (mp.plug (node cy leaf y ky ry)))).Bal
    rw [Path.bal_plug P] at hb ⊢
    exact hb
  have hroot' : ((mp.append (.right c (node cl ll la kl lr) y ky P)).plug
      (node cy leaf y ky ry)).rootColor = Color.BLACK := by
    rw [Path.plug_append, ← hroot]
    exact rootColor_plug_node ..
  obtain ⟨s', T', h1, h2, h3, h4, h5, h6, h7, h8, h9, h10⟩ :=
    finish_spec x hF hsb1 hn' hb' hroot' (Or.inl ⟨rfl, rfl⟩)
  rw [e1] at h1 h8
  refine ⟨s', T', by rw [hD, h1], h2, h3, h4, h5, h6, ?_, h8, by rw [h9, e2],
    by rw [h10, e3]⟩
  rw [h7, Path.plug_append]
  simp [Path.toList_plug, hbef, List.append_assoc]

/-- `Delete` at a live node keeps invariants 1 to 5 and removes exactly the entry of that
node from the in-order sequence; the cell goes to the deallocation log. -/
theorem Delete_spec [LinearOrder K] {s : RedBlackTree K V} {P : Path K V} {c : Color}
    {l r : Tree K V} {x : Nat} {kv : K × V}
    (h : Invariants s (P.plug (node c l x kv r))) :
    ∃ s' T', Delete s x = some s' ∧ Invariants s' T'
      ∧ T'.toList = P.before ++ l.toList ++ (r.toList ++ P.after)
      ∧ s'.nil_ = s.nil_ ∧ s'.brk = s.brk ∧ s'.freed = x :: s.freed := by
  obtain ⟨s', T', h1, h2, h3, h4, h5, h6, h7, h8, h9, h10⟩ :=
    Delete_colour h.shape h.sentinel h.noRedRed ((blackBalanced_iff_bal _).1 h.balanced)
      ((h.shape.rootBlack_iff h.sentinel).1 h.rootBlack)
  refine ⟨s', T', h1, ⟨⟨h2, h3, (h2.rootBlack_iff h3).2 h6, h4,
    (blackBalanced_iff_bal _).2 h5⟩, ?_⟩, h7, h8, h9, h10⟩
  have ho := (ordered_iff_pairwise _).1 h.ordered
  rw [ordered_iff_pairwise, keys_eq_map_toList, h7]
  rw [keys_eq_map_toList, Path.toList_plug, toList_node] at ho
  refine ho.sublist (List.Sublist.map _ ?_)
  simp only [List.append_assoc]
  exact (List.Sublist.refl _).append ((List.Sublist.refl _).append
    (List.sublist_cons_self _ _))

end RBT

namespace RBT

variable {K V : Type}

open RedBlackTree Tree

/-- A live entry is the label of a node: the tree is a context around that node. -/
theorem Tree.exists_focus : ∀ (t : Tree K V) (pre : Path K V) {a : Nat} {k : K} {v : V},
    (a, k, v) ∈ t.toList →
    ∃ (P : Path K V) (c : Color) (l r : Tree K V), pre.plug t = P.plug (node c l a (k, v) r)
  | leaf, _, _, _, _, h => by simp at h
  | node c l b kv r, pre, a, k, v, h => by
    simp only [toList_node, List.mem_append, List.mem_cons] at h
    rcases h with h | h | h
    · exact Tree.exists_focus l (.left c b kv r pre) h
    · obtain ⟨rfl, rfl, rfl⟩ : a = b ∧ k = kv.1 ∧ v = kv.2 := by
        simpa [Prod.ext_iff] using h
      exact ⟨pre, c, l, r, rfl⟩
    · exact Tree.exists_focus r (.right c l b kv pre) h

theorem Tree.exists_focus_addr (t : Tree K V) {a : Nat} (h : a ∈ t.addrs) :
    ∃ (P : Path K V) (c : Color) (l : Tree K V) (kv : K × V) (r : Tree K V),
      t = P.plug (node c l a kv r) := by
  rw [addrs_eq_map_toList, List.mem_map] at h
  obtain ⟨⟨a', k, v⟩, hm, rfl⟩ := h
  obtain ⟨P, c, l, r, e⟩ := Tree.exists_focus t .top hm
  exact ⟨P, c, l, (k, v), r, e⟩

/-- The pointers of a state form at most one tree. -/
theorem Tree.Rep.unique {h : Nat → Node K V} {nl : Nat} :
    ∀ {t t' : Tree K V} {p p' : Nat}, t.Rep h nl p → t'.Rep h nl p' →
      t.rootAddr nl = t'.rootAddr nl → t = t'
  | leaf, leaf, _, _, _, _, _ => rfl
  | leaf, node c l a kv r, _, _, _, h2, e => absurd e.symm h2.1
  | node c l a kv r, leaf, _, _, h1, _, e => absurd e h1.1
  | node c l a kv r, node c' l' a' kv' r', _, _, h1, h2, e => by
    simp only [rootAddr_node] at e
    subst e
    obtain ⟨-, e1, hl, hr⟩ := h1
    obtain ⟨-, e2, hl', hr'⟩ := h2
    rw [e1] at e2
    simp only [Node.mk.injEq] at e2
    obtain ⟨-, el, er, rfl, rfl⟩ := e2
    rw [Tree.Rep.unique hl hl' el, Tree.Rep.unique hr hr' er]

theorem Shape.tree_unique {s : RedBlackTree K V} {t t' : Tree K V} (h : Shape s t)
    (h' : Shape s t') : t = t' :=
  Tree.Rep.unique h.rep h'.rep (by rw [← h.root, ← h'.root])

theorem invariants_new [LinearOrder K] [Inhabited K] [Inhabited V] (mem : Nat → Node K V) :
    Invariants (RedBlackTree.new mem) leaf := by
  refine ⟨⟨⟨rfl, trivial, List.nodup_nil, by simp, by simp [RedBlackTree.new, nullptr]⟩, ?_, ?_,
    trivial, ?_⟩, trivial⟩
  · simp [SentinelBlack, RedBlackTree.new]
  · intro h; exact absurd rfl h
  · rw [blackBalanced_iff_bal]; trivial

/-- `Insert` returns on every red-black tree and gives a red-black tree again whose in-order
sequence is the old one, with the new entry added when the key was absent. -/
theorem Insert_invariants [LinearOrder K] {s : RedBlackTree K V} {t : Tree K V}
    (h : Invariants s t) (kv : K × V) :
    ∃ s' p b t', RedBlackTree.Insert s kv = some (s', p, b) ∧ Invariants s' t' := by
  by_cases hk : kv.1 ∈ t.keys
  · rw [keys_eq_map_toList, List.mem_map] at hk
    obtain ⟨⟨a, k, v⟩, hm, e⟩ := hk
    simp only at e
    subst e
    exact ⟨s, a, false, t, Insert_present h.shape h.ordered hm kv.2, h⟩
  · obtain ⟨s', t', bef, aft, e, hi, -⟩ := Insert_absent h hk kv.2
    exact ⟨s', s.brk, true, t', e, hi⟩

theorem Delete_invariants [LinearOrder K] {s : RedBlackTree K V} {t : Tree K V}
    (h : Invariants s t) {pos : Nat} (hp : pos ∈ t.addrs) :
    ∃ s' t', RedBlackTree.Delete s pos = some s' ∧ Invariants s' t' := by
  obtain ⟨P, c, l, kv, r, rfl⟩ := Tree.exists_focus_addr t hp
  obtain ⟨s', T', e, hi, -⟩ := Delete_spec h
  exact ⟨s', T', e, hi⟩

/-- Every state reached from the empty tree by `Insert` and `Delete` is a red-black tree. -/
theorem Reachable.invariants [LinearOrder K] [Inhabited K] [Inhabited V]
    {s : RedBlackTree K V} (h : Reachable s) : ∃ t, Invariants s t := by
  induction h with
  | new mem => exact ⟨leaf, invariants_new mem⟩
  | insert _ e ih =>
    obtain ⟨t, ht⟩ := ih
    obtain ⟨s', p, b, t', e', hi⟩ := Insert_invariants ht _
    rw [e'] at e
    simp only [Option.some.injEq, Prod.mk.injEq] at e
    obtain ⟨rfl, -, -⟩ := e
    exact ⟨t', hi⟩
  | delete _ hl e ih =>
    obtain ⟨t, ht⟩ := ih
    obtain ⟨t0, hs0, hp⟩ := hl
    rw [← ht.shape.tree_unique hs0] at hp
    obtain ⟨s', t', e', hi⟩ := Delete_invariants ht hp
    rw [e'] at e
    simp only [Option.some.injEq] at e
    subst e
    exact ⟨t', hi⟩

end RBT

namespace RBT

variable {K V : Type}

open RedBlackTree Tree

theorem firstAddr_append (nl : Nat) (L M : List (Nat × K × V)) :
    firstAddr nl (L ++ M) = (L.map Prod.fst).headD (firstAddr nl M) := by
  cases L <;> rfl

theorem firstAddr_eq (nl : Nat) (L : List (Nat × K × V)) :
    firstAddr nl L = (L.map Prod.fst).headD nl := by
  cases L <;> rfl

theorem zoomMin_firstAddr (nl : Nat) : ∀ (t : Tree K V) (pre : Path K V)
    (X : List (Nat × K × V)), t ≠ leaf →
    (zoomMin t pre).2.rootAddr nl = firstAddr nl (t.toList ++ X)
  | leaf, _, _, h => absurd rfl h
  | node c leaf a kv r, _, _, _ => rfl
  | node c (node cl ll la kl lr) a kv r, pre, X, _ => by
    simp only [zoomMin]
    rw [zoomMin_firstAddr nl (node cl ll la kl lr) _ ((a, kv.1, kv.2) :: r.toList ++ X)
      (by simp)]
    simp [List.append_assoc]

/-- The ascent of `TreeSuccessor` from the root of `t` ends at the first node after `t`. -/
theorem TreeSuccessorLoop_sim : ∀ (P : Path K V) (t : Tree K V) (s : RedBlackTree K V)
    (fuel : Nat), Shape s (P.plug t) → t ≠ leaf → P.depth + 1 ≤ fuel →
    TreeSuccessorLoop s fuel (t.rootAddr s.nil_) (P.parentAddr s.nil_)
      = some (firstAddr s.nil_ P.after)
  | .top, t, s, fuel, _, _, hf => by
    obtain ⟨fuel, rfl⟩ : ∃ f, fuel = f + 1 := ⟨fuel - 1, by omega⟩
    simp [TreeSuccessorLoop, firstAddr]
  | .left c a kv r up, t, s, fuel, h, ht, hf => by
    obtain ⟨fuel, rfl⟩ : ∃ f, fuel = f + 1 := ⟨fuel - 1, by omega⟩
    obtain ⟨han, harec⟩ := Shape.focus (P := up) h
    have hne : r.rootAddr s.nil_ ≠ t.rootAddr s.nil_ :=
      h.sibling_right_ne ((rootAddr_mem_or s.nil_ t).resolve_left ht)
    simp [TreeSuccessorLoop, harec, hne, firstAddr]
  | .right c l a kv up, t, s, fuel, h, ht, hf => by
    obtain ⟨fuel, rfl⟩ : ∃ f, fuel = f + 1 := ⟨fuel - 1, by omega⟩
    obtain ⟨han, harec⟩ := Shape.focus (P := up) h
    have ih := TreeSuccessorLoop_sim up (node c l a kv t) s fuel h (by simp)
      (by simp only [Path.depth] at hf; omega)
    simp only [rootAddr_node] at ih
    rw [TreeSuccessorLoop]
    simp only [Path.parentAddr_right, ne_eq, han, not_false_eq_true, harec, and_self, if_true,
      Path.after_right]
    exact ih

/-- `TreeSuccessor` at a node of the tree: the first node after it in the in-order sequence,
the sentinel when there is none. -/
theorem TreeSuccessor_sim {s : RedBlackTree K V} {P : Path K V} {c : Color}
    {l r : Tree K V} {x : Nat} {kv : K × V} (h : Shape s (P.plug (node c l x kv r))) :
    TreeSuccessor s x = some (firstAddr s.nil_ (r.toList ++ P.after)) := by
  obtain ⟨hxn, hxrec⟩ := h.focus
  obtain ⟨-, hrrep⟩ := h.focus_children
  unfold TreeSuccessor
  by_cases hr : r = leaf
  · subst hr
    have := TreeSuccessorLoop_sim P (node c l x kv leaf) s s.brk h (by simp)
      (by have := h.depth_lt; omega)
    simpa [hxrec] using this
  · have hrn : r.rootAddr s.nil_ ≠ s.nil_ := fun e => hr (hrrep.rootAddr_eq_nil.1 e)
    have := TreeMinimum_sim r (.right c l x kv P) s s.brk h hr (by
      have h1 := h.size_lt
      have h2 := height_le_size r
      rw [Path.size_plug] at h1
      simp only [size] at h1
      omega)
    rw [zoomMin_firstAddr s.nil_ r _ P.after hr] at this
    simpa [hxrec, hrn] using this

theorem SuccChain_append (s : RedBlackTree K V) (fin : Nat) : ∀ (xs ys : List Nat),
    SuccChain s (xs ++ ys) fin ↔ SuccChain s xs (ys.headD fin) ∧ SuccChain s ys fin
  | [], ys => by simp [SuccChain]
  | [a], ys => by simp [SuccChain]
  | a :: b :: xs, ys => by
    have := SuccChain_append s fin (b :: xs) ys
    simp only [List.cons_append, SuccChain, List.headD_cons] at this ⊢
    rw [this]
    tauto

/-- The nodes of a subtree follow each other, under `operator++`, in in-order. -/
theorem SuccChain_tree {s : RedBlackTree K V} : ∀ (t : Tree K V) (P : Path K V),
    Shape s (P.plug t) → SuccChain s t.addrs (firstAddr s.nil_ P.after)
  | leaf, _, _ => trivial
  | node c l a kv r, P, h => by
    have hl := SuccChain_tree l (.left c a kv r P) h
    have hr := SuccChain_tree r (.right c l a kv P) h
    have hs := TreeSuccessor_sim h
    rw [firstAddr_append, ← addrs_eq_map_toList] at hs
    simp only [addrs_node, SuccChain_append, SuccChain, List.headD_cons]
    exact ⟨by simpa [firstAddr] using hl, hs, by simpa using hr⟩

theorem advance_chain (s : RedBlackTree K V) (fin : Nat) : ∀ (L : List Nat),
    SuccChain s L fin → ∀ i, i ≤ L.length → advance s i (L.headD fin) = (L ++ [fin])[i]?
  | [], _, i, hi => by
    obtain rfl : i = 0 := by simpa using hi
    rfl
  | a :: rest, h, 0, _ => by simp [advance]
  | a :: rest, h, i + 1, hi => by
    simp only [advance, List.headD_cons, h.1, Option.some_bind, List.cons_append,
      List.getElem?_cons_succ]
    exact advance_chain s fin rest h.2 i (by simpa using hi)

theorem Begin_sim {s : RedBlackTree K V} {t : Tree K V} (h : Shape s t) (ht : t ≠ leaf) :
    Begin s = some (t.addrs.headD s.nil_) := by
  have := TreeMinimum_sim t .top s s.brk h ht (by
    have h1 := h.size_lt
    have h2 := height_le_size t
    omega)
  rw [zoomMin_firstAddr s.nil_ t _ [] ht, List.append_nil, firstAddr_eq,
    ← addrs_eq_map_toList, ← h.root] at this
  exact this

end RBT

namespace RBT

variable {K V : Type}

open RedBlackTree Tree

theorem Tree.mem_keys_of_mem_toList {t : Tree K V} {a : Nat} {k : K} {v : V}
    (h : (a, k, v) ∈ t.toList) : k ∈ t.keys := by
  rw [keys_eq_map_toList]
  exact List.mem_map.2 ⟨_, h, rfl⟩

theorem Tree.exists_mem_toList_of_mem_keys {t : Tree K V} {k : K} (h : k ∈ t.keys) :
    ∃ a v, (a, k, v) ∈ t.toList := by
  rw [keys_eq_map_toList, List.mem_map] at h
  obtain ⟨⟨a, k', v⟩, hm, e⟩ := h
  simp only at e
  subst e
  exact ⟨a, v, hm⟩

theorem Tree.mem_addrs_of_mem_toList {t : Tree K V} {a : Nat} {k : K} {v : V}
    (h : (a, k, v) ∈ t.toList) : a ∈ t.addrs := by
  rw [addrs_eq_map_toList]
  exact List.mem_map.2 ⟨_, h, rfl⟩

/-- In a strictly increasing sequence, the entries before an entry have smaller keys and the
entries after it greater keys. -/
theorem split_keys [LinearOrder K] {B A : List (Nat × K × V)} {e : Nat × K × V}
    (hp : ((B ++ e :: A).map fun x => x.2.1).Pairwise (· < ·)) :
    (∀ x ∈ B, x.2.1 < e.2.1) ∧ (∀ x ∈ A, e.2.1 < x.2.1) := by
  rw [List.map_append, List.map_cons, List.pairwise_append] at hp
  obtain ⟨-, h2, h3⟩ := hp
  rw [List.pairwise_cons] at h2
  refine ⟨fun x hx => h3 _ (List.mem_map.2 ⟨x, hx, rfl⟩) _ (List.mem_cons_self _ _),
    fun x hx => h2.1 _ (List.mem_map.2 ⟨x, hx, rfl⟩)⟩

theorem state3_invariants : Invariants state3 tree3 := by
  refine ⟨⟨⟨rfl, ?_, by decide, by decide, by decide⟩, rfl, fun _ => rfl, ?_, ?_⟩, ?_⟩
  · exact ⟨by decide, rfl, ⟨by decide, rfl, trivial, trivial⟩,
      ⟨by decide, rfl, trivial, trivial⟩⟩
  · simp [tree3]
  · rw [blackBalanced_iff_bal]; simp [tree3]
  · simp [tree3, Ordered]

theorem afterInsert_eq [LinearOrder K] {s s' : RedBlackTree K V} {value : K × V} {pos : Nat}
    {b : Bool} (h : RedBlackTree.Insert s value = some (s', pos, b)) :
    afterInsert s value = s' := by
  simp [afterInsert, h]

theorem Reachable.afterInsert [LinearOrder K] [Inhabited K] [Inhabited V]
    {s : RedBlackTree K V} (h : Reachable s) (value : K × V) :
    Reachable (afterInsert s value) := by
  obtain ⟨t, ht⟩ := h.invariants
  obtain ⟨s', p, b, t', e, -⟩ := Insert_invariants ht value
  rw [afterInsert_eq e]
  exact Reachable.insert h e

/-- The state after the insertion of an absent key is not the empty tree. -/
theorem afterInsert_root_ne [LinearOrder K] {s : RedBlackTree K V} {t : Tree K V}
    (h : Invariants s t) {k : K} (hk : k ∉ t.keys) (v : V) :
    (afterInsert s (k, v)).root_ ≠ (afterInsert s (k, v)).nil_ := by
  obtain ⟨s', t', bef, aft, e, hi, -, h2, -⟩ := Insert_absent h hk v
  rw [afterInsert_eq e, hi.shape.root]
  intro e'
  rw [hi.shape.rep.rootAddr_eq_nil] at e'
  rw [e'] at h2
  simp at h2

/-- The method `operator[]` is `Insert` of the key with a default value, and hands out the
value stored in the node found or made. -/
theorem index_eq_of_Insert [LinearOrder K] [Inhabited V] {s s' : RedBlackTree K V} {k : K}
    {p : Nat} {b : Bool} (h : RedBlackTree.Insert s (k, default) = some (s', p, b)) :
    index s k = some (s', p, (s'.heap p).value.2) := by
  unfold RedBlackTree.Insert at h
  unfold index
  cases hd : DescendLoop s k s.brk .root s.nil_ with
  | none => simp [hd] at h
  | some res =>
    cases res with
    | inl found =>
      simp only [hd, Option.some.injEq, Prod.mk.injEq] at h
      obtain ⟨rfl, rfl, -⟩ := h
      rfl
    | inr sp =>
      obtain ⟨now_ptr, parent⟩ := sp
      simp only [hd] at h ⊢
      cases hl : linkNew s now_ptr parent (k, default) with
      | none => simp [hl] at h
      | some r =>
        simp only [hl, Option.map_some', Option.some.injEq, Prod.mk.injEq] at h ⊢
        obtain ⟨rfl, rfl, -⟩ := h
        exact ⟨rfl, rfl, rfl⟩

end RBT

namespace RBT

variable {K V : Type}

open RedBlackTree Tree

/-! ## Main theorems -/

/-- C1: `Insert` (with `InsertFixup`) keeps the colour invariants.  On every tree that
satisfies invariants 1 to 5 and for every key/value pair the call returns, and the tree
afterwards has a BLACK sentinel, a BLACK root, no RED node with a RED child and the same number
of BLACK nodes on every path from the root to the sentinel. -/
theorem Insert_preserves_colour_invariants [LinearOrder K] (s : RedBlackTree K V)
    (t : Tree K V) (h : Invariants s t) (value : K × V) :
    ∃ s' pos inserted t', RedBlackTree.Insert s value = some (s', pos, inserted) ∧ Shape s' t'
      ∧ SentinelBlack s' ∧ (s'.heap s'.root_).color = Color.BLACK ∧ RootBlack s'
      ∧ t'.NoRedRed ∧ t'.BlackBalanced := by
  obtain ⟨s', p, b, t', e, hi⟩ := Insert_invariants h value
  refine ⟨s', p, b, t', e, hi.shape, hi.sentinel, ?_, hi.rootBlack, hi.noRedRed, hi.balanced⟩
  by_cases hr : s'.root_ = s'.nil_
  · rw [hr]; exact hi.sentinel
  · exact hi.rootBlack hr

theorem Insert_preserves_colour_invariants_witness :
    Invariants state3 tree3 ∧
      ∃ s' pos inserted t', RedBlackTree.Insert state3 (4, 40) = some (s', pos, inserted)
        ∧ Shape s' t' ∧ SentinelBlack s' ∧ (s'.heap s'.root_).color = Color.BLACK
        ∧ RootBlack s' ∧ t'.NoRedRed ∧ t'.BlackBalanced :=
  ⟨state3_invariants,
    Insert_preserves_colour_invariants state3 tree3 state3_invariants (4, 40)⟩

/-- C2: `Delete` (with `DeleteFixup` when it runs) keeps the colour invariants.  On every tree
that satisfies invariants 1 to 5 and at every live node the call returns, whichever of its
three branches is taken, and the tree afterwards has a BLACK sentinel, a BLACK root if it is
not empty, no RED node with a RED child and the same number of BLACK nodes on every path from
the root to the sentinel. -/
theorem Delete_preserves_colour_invariants [LinearOrder K] (s : RedBlackTree K V)
    (t : Tree K V) (h : Invariants s t) (pos : Nat) (hp : pos ∈ t.addrs) :
    ∃ s' t', RedBlackTree.Delete s pos = some s' ∧ Shape s' t' ∧ SentinelBlack s'
      ∧ RootBlack s' ∧ t'.NoRedRed ∧ t'.BlackBalanced := by
  obtain ⟨s', t', e, hi⟩ := Delete_invariants h hp
  exact ⟨s', t', e, hi.shape, hi.sentinel, hi.rootBlack, hi.noRedRed, hi.balanced⟩

theorem Delete_preserves_colour_invariants_witness :
    Invariants state3 tree3 ∧ 2 ∈ tree3.addrs ∧
      ∃ s' t', RedBlackTree.Delete state3 2 = some s' ∧ Shape s' t' ∧ SentinelBlack s'
        ∧ RootBlack s' ∧ t'.NoRedRed ∧ t'.BlackBalanced :=
  ⟨state3_invariants, by decide,
    Delete_preserves_colour_invariants state3 tree3 state3_invariants 2 (by decide)⟩

/-- C3: the mutations keep the binary-search-tree ordering.  On every tree of the data
structure, that is every tree that satisfies invariants 1 to 5, as every tree reached through
the public calls does, `Insert` of any pair and `Delete` at any live node return and the tree
they leave is ordered again: at every node the keys of the left subtree are less and the keys
of the right subtree greater than the key of the node. -/
theorem mutations_preserve_ordering [LinearOrder K] (s : RedBlackTree K V) (t : Tree K V)
    (h : Invariants s t) :
    (∀ value : K × V, ∃ s' pos inserted t',
        RedBlackTree.Insert s value = some (s', pos, inserted) ∧ Shape s' t' ∧ t'.Ordered)
      ∧ (∀ pos ∈ t.addrs, ∃ s' t',
        RedBlackTree.Delete s pos = some s' ∧ Shape s' t' ∧ t'.Ordered) := by
  constructor
  · intro value
    obtain ⟨s', p, b, t', e, hi⟩ := Insert_invariants h value
    exact ⟨s', p, b, t', e, hi.shape, hi.ordered⟩
  · intro pos hp
    obtain ⟨s', t', e, hi⟩ := Delete_invariants h hp
    exact ⟨s', t', e, hi.shape, hi.ordered⟩

theorem mutations_preserve_ordering_witness :
    Invariants state3 tree3 ∧
      ((∀ value : Nat × Nat, ∃ s' pos inserted t',
          RedBlackTree.Insert state3 value = some (s', pos, inserted) ∧ Shape s' t'
            ∧ t'.Ordered)
        ∧ (∀ pos ∈ tree3.addrs, ∃ s' t',
          RedBlackTree.Delete state3 pos = some s' ∧ Shape s' t' ∧ t'.Ordered)) :=
  ⟨state3_invariants, mutations_preserve_ordering state3 tree3 state3_invariants⟩

/-- C4: `Find` is correct on every ordered tree.  `Find(k)` returns the node whose key is `k`
when there is one, it returns `End()` exactly when no live node has the key `k`, and what it
returns is either `End()` or a live node with the key `k`. -/
theorem Find_correct [LinearOrder K] (s : RedBlackTree K V) (t : Tree K V) (h : Shape s t)
    (ho : t.Ordered) (k : K) :
    (∀ a v, (a, k, v) ∈ t.toList → Find s k = some a ∧ a ≠ End s)
      ∧ (Find s k = some (End s) ↔ k ∉ t.keys)
      ∧ ∃ p, Find s k = some p
          ∧ (p = End s ∨ (p ∈ t.addrs ∧ (s.heap p).value.1 = k)) := by
  have hpres : ∀ a v, (a, k, v) ∈ t.toList → Find s k = some a ∧ a ≠ End s := by
    intro a v hm
    refine ⟨Find_present h ho hm, ?_⟩
    rintro rfl
    exact h.rep.nil_not_mem (mem_addrs_of_mem_toList hm)
  refine ⟨hpres, ?_, ?_⟩
  · constructor
    · intro e hk
      obtain ⟨a, v, hm⟩ := exists_mem_toList_of_mem_keys hk
      obtain ⟨e', hne⟩ := hpres a v hm
      rw [e'] at e
      exact hne (Option.some.inj e)
    · exact fun hk => Find_absent h hk
  · by_cases hk : k ∈ t.keys
    · obtain ⟨a, v, hm⟩ := exists_mem_toList_of_mem_keys hk
      refine ⟨a, (hpres a v hm).1, Or.inr ⟨mem_addrs_of_mem_toList hm, ?_⟩⟩
      rw [h.rep.value_of_mem hm]
    · exact ⟨End s, Find_absent h hk, Or.inl rfl⟩

theorem Find_correct_witness :
    Shape state3 tree3 ∧ tree3.Ordered ∧
      ((∀ a v, (a, 8, v) ∈ tree3.toList → Find state3 8 = some a ∧ a ≠ End state3)
        ∧ (Find state3 8 = some (End state3) ↔ 8 ∉ tree3.keys)
        ∧ ∃ p, Find state3 8 = some p
            ∧ (p = End state3 ∨ (p ∈ tree3.addrs ∧ (state3.heap p).value.1 = 8))) :=
  ⟨state3_invariants.shape, state3_invariants.ordered,
    Find_correct state3 tree3 state3_invariants.shape state3_invariants.ordered 8⟩

/-- C5: `Insert` of a new key is the insertion into a finite map.  On a red-black tree with
key set `S` and for a pair `(k, v)` with `k` not in `S`, `Insert` returns `(p, true)`, the node
`p` holds `(k, v)`, the key set afterwards is `S` with `k` added, `Find(k)` then returns `p`,
and every key of `S` is still found, in its old node and with its old value. -/
theorem Insert_new_key [LinearOrder K] (s : RedBlackTree K V) (t : Tree K V)
    (h : Invariants s t) (k : K) (v : V) (hk : k ∉ t.keys) :
    ∃ s' p t', RedBlackTree.Insert s (k, v) = some (s', p, true) ∧ Invariants s' t'
      ∧ p ∈ t'.addrs ∧ (s'.heap p).value = (k, v)
      ∧ (∀ k', k' ∈ t'.keys ↔ k' ∈ t.keys ∨ k' = k)
      ∧ Find s' k = some p
      ∧ ∀ a k' v', (a, k', v') ∈ t.toList →
          Find s' k' = some a ∧ (s'.heap a).value = (k', v')
            ∧ At s' k' = some (.value v', s') := by
  obtain ⟨s', t', bef, aft, e, hi, h1, h2, -⟩ := Insert_absent h hk v
  have hm : (s.brk, k, v) ∈ t'.toList := by rw [h2]; simp
  have hold : ∀ a k' v', (a, k', v') ∈ t.toList → (a, k', v') ∈ t'.toList := by
    intro a k' v' hm'
    rw [h1] at hm'
    rw [h2]
    simp only [List.mem_append, List.mem_cons] at hm' ⊢
    tauto
  refine ⟨s', s.brk, t', e, hi, mem_addrs_of_mem_toList hm, hi.shape.rep.value_of_mem hm, ?_,
    Find_present hi.shape hi.ordered hm, ?_⟩
  · intro k'
    simp only [keys_eq_map_toList, h1, h2, List.map_append, List.map_cons, List.mem_append,
      List.mem_cons]
    tauto
  · intro a k' v' hm'
    exact ⟨Find_present hi.shape hi.ordered (hold a k' v' hm'),
      hi.shape.rep.value_of_mem (hold a k' v' hm'),
      At_present hi.shape hi.ordered (hold a k' v' hm')⟩

theorem Insert_new_key_witness :
    Invariants state3 tree3 ∧ 4 ∉ tree3.keys ∧
      ∃ s' p t', RedBlackTree.Insert state3 (4, 40) = some (s', p, true) ∧ Invariants s' t'
        ∧ p ∈ t'.addrs ∧ (s'.heap p).value = (4, 40)
        ∧ (∀ k', k' ∈ t'.keys ↔ k' ∈ tree3.keys ∨ k' = 4)
        ∧ Find s' 4 = some p
        ∧ ∀ a k' v', (a, k', v') ∈ tree3.toList →
            Find s' k' = some a ∧ (s'.heap a).value = (k', v')
              ∧ At s' k' = some (.value v', s') :=
  ⟨state3_invariants, by decide,
    Insert_new_key state3 tree3 state3_invariants 4 40 (by decide)⟩

/-- C6: `Delete` removes exactly the erased key.  On a red-black tree with key set `S` and at
a live node `p` with key `k`, after `Delete(p)` the key set is `S` without `k`: `Find(k)`
returns `End()`, `At(k)` signals not-found, and every other key of `S` is still found, in its
old node and with its old value. -/
theorem Delete_removes_key [LinearOrder K] (s : RedBlackTree K V) (t : Tree K V)
    (h : Invariants s t) (p : Nat) (k : K) (v : V) (hp : (p, k, v) ∈ t.toList) :
    ∃ s' t', RedBlackTree.Delete s p = some s' ∧ Invariants s' t'
      ∧ (∀ k', k' ∈ t'.keys ↔ k' ∈ t.keys ∧ k' ≠ k)
      ∧ Find s' k = some (End s') ∧ At s' k = some (.out_of_range, s')
      ∧ ∀ a k' v', (a, k', v') ∈ t.toList → k' ≠ k →
          Find s' k' = some a ∧ (s'.heap a).value = (k', v')
            ∧ At s' k' = some (.value v', s') := by
  obtain ⟨P, c, l, r, e⟩ := Tree.exists_focus t .top hp
  simp only [Path.plug_top] at e
  subst e
  obtain ⟨s', T', e, hi, h7, -⟩ := Delete_spec h
  have ho := (ordered_iff_pairwise _).1 h.ordered
  rw [keys_eq_map_toList, Path.toList_plug, toList_node, List.append_assoc,
    List.append_assoc, ← List.append_assoc, List.cons_append] at ho
  obtain ⟨hB, hA⟩ := split_keys ho
  simp only at hB hA
  have hkT : k ∉ T'.keys := by
    rw [keys_eq_map_toList, h7]
    intro hm
    obtain ⟨x, hx, hxk⟩ := List.mem_map.1 hm
    rcases List.mem_append.1 hx with hx | hx
    · exact absurd hxk (ne_of_lt (hB x hx))
    · exact absurd hxk.symm (ne_of_lt (hA x hx))
  have hold : ∀ a k' v', (a, k', v') ∈ (P.plug (node c l p (k, v) r)).toList → k' ≠ k →
      (a, k', v') ∈ T'.toList := by
    intro a k' v' hm hne
    rw [Path.toList_plug, toList_node] at hm
    rw [h7]
    simp only [List.mem_append, List.mem_cons, Prod.mk.injEq] at hm ⊢
    tauto
  refine ⟨s', T', e, hi, ?_, Find_absent hi.shape hkT, At_absent hi.shape hkT, ?_⟩
  · intro k'
    constructor
    · intro hk'
      refine ⟨?_, fun e' => hkT (e' ▸ hk')⟩
      rw [keys_eq_map_toList, h7] at hk'
      rw [keys_eq_map_toList, Path.toList_plug, toList_node]
      simp only [List.map_append, List.map_cons, List.mem_append, List.mem_cons] at hk' ⊢
      tauto
    · rintro ⟨hk', hne⟩
      obtain ⟨a, v', hm⟩ := exists_mem_toList_of_mem_keys hk'
      exact mem_keys_of_mem_toList (hold a k' v' hm hne)
  · intro a k' v' hm hne
    exact ⟨Find_present hi.shape hi.ordered (hold a k' v' hm hne),
      hi.shape.rep.value_of_mem (hold a k' v' hm hne),
      At_present hi.shape hi.ordered (hold a k' v' hm hne)⟩

theorem Delete_removes_key_witness :
    Invariants state3 tree3 ∧ (2, 5, 50) ∈ tree3.toList ∧
      ∃ s' t', RedBlackTree.Delete state3 2 = some s' ∧ Invariants s' t'
        ∧ (∀ k', k' ∈ t'.keys ↔ k' ∈ tree3.keys ∧ k' ≠ 5)
        ∧ Find s' 5 = some (End s') ∧ At s' 5 = some (.out_of_range, s')
        ∧ ∀ a k' v', (a, k', v') ∈ tree3.toList → k' ≠ 5 →
            Find s' k' = some a ∧ (s'.heap a).value = (k', v')
              ∧ At s' k' = some (.value v', s') :=
  ⟨state3_invariants, by decide,
    Delete_removes_key state3 tree3 state3_invariants 2 5 50 (by decide)⟩

end RBT

namespace RBT

variable {K V : Type}

open RedBlackTree Tree

/-- C7: `Insert` of a key that is present is a no-op.  On an ordered tree in which the node
`a` holds the key `k` with the value `v`, `Insert` of `(k, v')` returns `(a, false)` and the
state it leaves is the state before, so shape, colours and key set are the same and the value
stored for `k` is still `v`. -/
theorem Insert_duplicate_noop [LinearOrder K] (s : RedBlackTree K V) (t : Tree K V)
    (h : Shape s t) (ho : t.Ordered) (a : Nat) (k : K) (v v' : V)
    (hm : (a, k, v) ∈ t.toList) :
    RedBlackTree.Insert s (k, v') = some (s, a, false) ∧ (s.heap a).value = (k, v)
      ∧ At s k = some (.value v, s) :=
  ⟨Insert_present h ho hm v', h.rep.value_of_mem hm, At_present h ho hm⟩

theorem Insert_duplicate_noop_witness :
    Shape state3 tree3 ∧ tree3.Ordered ∧ (4, 8, 80) ∈ tree3.toList ∧
      (RedBlackTree.Insert state3 (8, 0) = some (state3, 4, false)
        ∧ (state3.heap 4).value = (8, 80) ∧ At state3 8 = some (.value 80, state3)) :=
  ⟨state3_invariants.shape, state3_invariants.ordered, by decide,
    Insert_duplicate_noop state3 tree3 state3_invariants.shape state3_invariants.ordered
      4 8 80 0 (by decide)⟩

/-- C8: `At` fails if and only if the key is absent.  On every ordered tree `At(k)` returns
the value stored with `k` when a live node has the key `k`, it signals `out_of_range` exactly
when no live node has the key `k`, so on the empty tree for every key, and the state it leaves
is the state before. -/
theorem At_fails_iff_absent [LinearOrder K] (s : RedBlackTree K V) (t : Tree K V)
    (h : Shape s t) (ho : t.Ordered) (k : K) :
    (∀ a v, (a, k, v) ∈ t.toList → At s k = some (.value v, s))
      ∧ (At s k = some (.out_of_range, s) ↔ k ∉ t.keys)
      ∧ (t = leaf → At s k = some (.out_of_range, s))
      ∧ ∃ r, At s k = some (r, s) := by
  refine ⟨fun a v hm => At_present h ho hm, ?_, ?_, ?_⟩
  · constructor
    · intro e hk
      obtain ⟨a, v, hm⟩ := exists_mem_toList_of_mem_keys hk
      rw [At_present h ho hm] at e
      simp at e
    · exact fun hk => At_absent h hk
  · rintro rfl
    exact At_absent h (by simp)
  · by_cases hk : k ∈ t.keys
    · obtain ⟨a, v, hm⟩ := exists_mem_toList_of_mem_keys hk
      exact ⟨_, At_present h ho hm⟩
    · exact ⟨_, At_absent h hk⟩

theorem At_fails_iff_absent_witness :
    Shape state3 tree3 ∧ tree3.Ordered ∧
      ((∀ a v, (a, 4, v) ∈ tree3.toList → At state3 4 = some (.value v, state3))
        ∧ (At state3 4 = some (.out_of_range, state3) ↔ 4 ∉ tree3.keys)
        ∧ (tree3 = leaf → At state3 4 = some (.out_of_range, state3))
        ∧ ∃ r, At state3 4 = some (r, state3)) :=
  ⟨state3_invariants.shape, state3_invariants.ordered,
    At_fails_iff_absent state3 tree3 state3_invariants.shape state3_invariants.ordered 4⟩

/-- C9: `operator[]` finds or inserts a default.  On a red-black tree, when the key `k` is
present `operator[]` hands out the stored value and leaves the state as it was; when `k` is
absent it leaves the state that `Insert` of `(k, default)` leaves, which again satisfies
invariants 1 to 5, it hands out the default value of the new entry, and `Find(k)` then returns
the new node. -/
theorem index_finds_or_inserts [LinearOrder K] [Inhabited V] (s : RedBlackTree K V)
    (t : Tree K V) (h : Invariants s t) (k : K) :
    (∀ a v, (a, k, v) ∈ t.toList → index s k = some (s, a, v))
      ∧ (k ∉ t.keys → ∃ s' p t',
          RedBlackTree.Insert s (k, default) = some (s', p, true)
            ∧ index s k = some (s', p, default)
            ∧ Invariants s' t' ∧ p ∈ t'.addrs ∧ (s'.heap p).value = (k, default)
            ∧ Find s' k = some p) := by
  constructor
  · intro a v hm
    rw [index_eq_of_Insert (Insert_present h.shape h.ordered hm default),
      h.shape.rep.value_of_mem hm]
  · intro hk
    obtain ⟨s', t', bef, aft, e, hi, h1, h2, -⟩ := Insert_absent h hk default
    have hm : (s.brk, k, default) ∈ t'.toList := by rw [h2]; simp
    refine ⟨s', s.brk, t', e, ?_, hi, mem_addrs_of_mem_toList hm,
      hi.shape.rep.value_of_mem hm, Find_present hi.shape hi.ordered hm⟩
    rw [index_eq_of_Insert e, hi.shape.rep.value_of_mem hm]

theorem index_finds_or_inserts_witness :
    Invariants state3 tree3 ∧
      ((∀ a v, (a, 4, v) ∈ tree3.toList → index state3 4 = some (state3, a, v))
        ∧ (4 ∉ tree3.keys → ∃ s' p t',
            RedBlackTree.Insert state3 (4, default) = some (s', p, true)
              ∧ index state3 4 = some (s', p, default)
              ∧ Invariants s' t' ∧ p ∈ t'.addrs ∧ (s'.heap p).value = (4, default)
              ∧ Find s' 4 = some p)) :=
  ⟨state3_invariants, index_finds_or_inserts state3 tree3 state3_invariants 4⟩

/-- C10: the in-order walk yields the sorted key set.  In a non-empty state reached from the
empty tree by `Insert` and `Delete`, with `n` live nodes, `Begin()` is the first node in
in-order, `i` applications of `operator++` lead to the `i`-th node for `i < n` and to `End()`
for `i = n`, the keys of the nodes visited are the live keys in strictly increasing order, and
`operator++` at a live node gives the node with the smallest larger key, `End()` when the node
holds the greatest key. -/
theorem inorder_walk_sorted [LinearOrder K] [Inhabited K] [Inhabited V]
    (s : RedBlackTree K V) (hr : Reachable s) (hne : s.root_ ≠ s.nil_) :
    ∃ t b, Shape s t ∧ Begin s = some b
      ∧ (∀ i, i ≤ t.size → advance s i b = (t.addrs ++ [End s])[i]?)
      ∧ t.addrs.length = t.size ∧ End s ∉ t.addrs
      ∧ (t.addrs.map fun a => (s.heap a).value.1) = t.keys
      ∧ t.keys.Pairwise (· < ·)
      ∧ ∀ p k v, (p, k, v) ∈ t.toList → ∃ q, TreeSuccessor s p = some q
          ∧ ((q = End s ∧ ∀ k' ∈ t.keys, k' ≤ k)
            ∨ ∃ k2 v2, (q, k2, v2) ∈ t.toList ∧ k < k2
                ∧ ∀ k' ∈ t.keys, k < k' → k2 ≤ k') := by
  obtain ⟨t, hi⟩ := hr.invariants
  have hsh := hi.shape
  have ht : t ≠ leaf := by
    rintro rfl
    exact hne hsh.root
  have hp := (ordered_iff_pairwise t).1 hi.ordered
  refine ⟨t, _, hsh, Begin_sim hsh ht, ?_, length_addrs t, hsh.rep.nil_not_mem, ?_, hp, ?_⟩
  · intro i hle
    exact advance_chain s s.nil_ t.addrs (SuccChain_tree t .top hsh) i
      (by rw [length_addrs]; exact hle)
  · rw [addrs_eq_map_toList, keys_eq_map_toList, List.map_map]
    refine List.map_congr_left fun e he => ?_
    obtain ⟨a, k, v⟩ := e
    simp only [Function.comp_apply]
    rw [hsh.rep.value_of_mem he]
  · intro p k v hm
    obtain ⟨P, c, l, r, e⟩ := Tree.exists_focus t .top hm
    simp only [Path.plug_top] at e
    subst e
    refine ⟨_, TreeSuccessor_sim hsh, ?_⟩
    rw [keys_eq_map_toList, Path.toList_plug, toList_node, List.append_assoc,
      List.append_assoc, ← List.append_assoc, List.cons_append] at hp
    have hp' := hp
    obtain ⟨hB, hA⟩ := split_keys hp
    simp only at hB hA
    have hkeys : ∀ k' ∈ (P.plug (node c l p (k, v) r)).keys,
        (∃ x ∈ P.before ++ l.toList, x.2.1 = k') ∨ k' = k
          ∨ ∃ x ∈ r.toList ++ P.after, x.2.1 = k' := by
      intro k' hk'
      rw [keys_eq_map_toList, Path.toList_plug, toList_node] at hk'
      obtain ⟨x, hx, rfl⟩ := List.mem_map.1 hk'
      simp only [List.mem_append, List.mem_cons] at hx
      rcases hx with (hx | hx | rfl | hx) | hx
      · exact Or.inl ⟨x, List.mem_append.2 (Or.inl hx), rfl⟩
      · exact Or.inl ⟨x, List.mem_append.2 (Or.inr hx), rfl⟩
      · exact Or.inr (Or.inl rfl)
      · exact Or.inr (Or.inr ⟨x, List.mem_append.2 (Or.inl hx), rfl⟩)
      · exact Or.inr (Or.inr ⟨x, List.mem_append.2 (Or.inr hx), rfl⟩)
    cases hA' : r.toList ++ P.after with
    | nil =>
      left
      refine ⟨rfl, fun k' hk' => ?_⟩
      rcases hkeys k' hk' with ⟨x, hx, rfl⟩ | rfl | ⟨x, hx, rfl⟩
      · exact le_of_lt (hB x hx)
      · exact le_refl _
      · rw [hA'] at hx; simp at hx
    | cons e2 rest =>
      right
      obtain ⟨q, k2, v2⟩ := e2
      refine ⟨k2, v2, ?_, ?_, fun k' hk' hlt => ?_⟩
      · rw [Path.toList_plug, toList_node]
        have : (q, k2, v2) ∈ r.toList ++ P.after := by rw [hA']; simp
        simp only [List.mem_append, List.mem_cons] at this ⊢
        tauto
      · exact hA (q, k2, v2) (by rw [hA']; simp)
      · rcases hkeys k' hk' with ⟨x, hx, rfl⟩ | rfl | ⟨x, hx, rfl⟩
        · exact absurd (hB x hx) (not_lt_of_gt hlt)
        · exact absurd hlt (lt_irrefl _)
        · rw [hA'] at hx hp'
          rcases List.mem_cons.1 hx with rfl | hx
          · exact le_refl _
          · rw [List.map_append, List.map_cons, List.map_cons, List.pairwise_append] at hp'
            have h2 := hp'.2.1
            rw [List.pairwise_cons, List.pairwise_cons] at h2
            exact le_of_lt (h2.2.1 _ (List.mem_map.2 ⟨x, hx, rfl⟩))

end RBT

namespace RBT

variable {K V : Type}

open RedBlackTree Tree

/-- C15: node identity is stable under mutation.  On every tree that satisfies invariants 1 to
5, after `Insert` of any pair every node that was live is still live and holds the pair it
held, and after `Delete` at a live node every other node that was live is still live and holds
the pair it held. -/
theorem node_identity_stable [LinearOrder K] (s : RedBlackTree K V) (t : Tree K V)
    (h : Invariants s t) :
    (∀ value : K × V, ∃ s' pos inserted t',
        RedBlackTree.Insert s value = some (s', pos, inserted) ∧ Shape s' t'
          ∧ ∀ a ∈ t.addrs, a ∈ t'.addrs ∧ (s'.heap a).value = (s.heap a).value)
      ∧ (∀ pos ∈ t.addrs, ∃ s' t',
        RedBlackTree.Delete s pos = some s' ∧ Shape s' t' ∧ pos ∉ t'.addrs
          ∧ ∀ a ∈ t.addrs, a ≠ pos → a ∈ t'.addrs ∧ (s'.heap a).value = (s.heap a).value) := by
  have hentry : ∀ a ∈ t.addrs, ∃ k v, (a, k, v) ∈ t.toList := by
    intro a ha
    rw [addrs_eq_map_toList, List.mem_map] at ha
    obtain ⟨⟨a', k, v⟩, hm, rfl⟩ := ha
    exact ⟨k, v, hm⟩
  constructor
  · intro value
    by_cases hk : value.1 ∈ t.keys
    · obtain ⟨a, v, hm⟩ := exists_mem_toList_of_mem_keys hk
      exact ⟨s, a, false, t, Insert_present h.shape h.ordered hm value.2, h.shape,
        fun b hb => ⟨hb, rfl⟩⟩
    · obtain ⟨s', t', bef, aft, e, hi, h1, h2, -⟩ := Insert_absent h hk value.2
      refine ⟨s', s.brk, true, t', e, hi.shape, fun a ha => ?_⟩
      obtain ⟨k, v, hm⟩ := hentry a ha
      have hm' : (a, k, v) ∈ t'.toList := by
        rw [h1] at hm
        rw [h2]
        simp only [List.mem_append, List.mem_cons] at hm ⊢
        tauto
      exact ⟨mem_addrs_of_mem_toList hm',
        by rw [hi.shape.rep.value_of_mem hm', h.shape.rep.value_of_mem hm]⟩
  · intro pos hp
    obtain ⟨P, c, l, kv, r, rfl⟩ := Tree.exists_focus_addr t hp
    obtain ⟨s', T', e, hi, h7, -⟩ := Delete_spec h
    have hnd := h.shape.nodup
    rw [addrs_eq_map_toList, Path.toList_plug, toList_node] at hnd
    refine ⟨s', T', e, hi.shape, ?_, fun a ha hne => ?_⟩
    · rw [addrs_eq_map_toList, h7]
      simp only [List.map_append, List.map_cons, List.nodup_append, List.nodup_cons,
        List.mem_append, List.mem_cons, List.Disjoint, not_or] at hnd ⊢
      exact ⟨⟨fun hm => hnd.1.2.2 hm (Or.inr (Or.inl rfl)),
        fun hm => hnd.1.2.1.2.2 hm (Or.inl rfl)⟩, hnd.1.2.1.2.1.1,
        fun hm => hnd.2.2 (Or.inr (Or.inr (Or.inl rfl))) hm⟩
    · obtain ⟨k, v, hm⟩ := hentry a ha
      have hm' : (a, k, v) ∈ T'.toList := by
        rw [Path.toList_plug, toList_node] at hm
        rw [h7]
        simp only [List.mem_append, List.mem_cons, Prod.mk.injEq] at hm ⊢
        tauto
      exact ⟨mem_addrs_of_mem_toList hm',
        by rw [hi.shape.rep.value_of_mem hm', h.shape.rep.value_of_mem hm]⟩

theorem node_identity_stable_witness :
    Invariants state3 tree3 ∧
      ((∀ value : Nat × Nat, ∃ s' pos inserted t',
          RedBlackTree.Insert state3 value = some (s', pos, inserted) ∧ Shape s' t'
            ∧ ∀ a ∈ tree3.addrs, a ∈ t'.addrs ∧ (s'.heap a).value = (state3.heap a).value)
        ∧ (∀ pos ∈ tree3.addrs, ∃ s' t',
          RedBlackTree.Delete state3 pos = some s' ∧ Shape s' t' ∧ pos ∉ t'.addrs
            ∧ ∀ a ∈ tree3.addrs, a ≠ pos →
                a ∈ t'.addrs ∧ (s'.heap a).value = (state3.heap a).value)) :=
  ⟨state3_invariants, node_identity_stable state3 tree3 state3_invariants⟩

end RBT

namespace RBT

variable {K V : Type}

open RedBlackTree Tree

/-- Without a RED node under a RED node, a path has at most twice as many nodes as BLACK
nodes, one more when the root is RED. -/
theorem Tree.height_le_bh : ∀ t : Tree K V, t.NoRedRed → t.Bal →
    t.height ≤ 2 * t.bh + (if t.rootColor = Color.RED then 1 else 0)
  | leaf, _, _ => by simp [height]
  | node c l a kv r, hn, hb => by
    simp only [noRedRed_node, bal_node] at hn hb
    have hl := Tree.height_le_bh l hn.2.1 hb.2.1
    have hr := Tree.height_le_bh r hn.2.2 hb.2.2
    rw [← hb.1] at hr
    simp only [height, bh_node, rootColor_node]
    rcases color_cases c with rfl | rfl
    · simp only [reduceCtorEq, if_false, if_true]
      split_ifs at hl hr <;> omega
    · obtain ⟨h1, h2⟩ := hn.1 rfl
      simp only [h1, h2, reduceCtorEq, if_false, if_true] at hl hr ⊢
      omega

/-- A black-balanced tree of black height `b` has at least `2 ^ b - 1` nodes. -/
theorem Tree.pow_bh_le_size : ∀ t : Tree K V, t.Bal → 2 ^ t.bh ≤ t.size + 1
  | leaf, _ => by simp [size]
  | node c l a kv r, hb => by
    simp only [bal_node] at hb
    have hl := Tree.pow_bh_le_size l hb.2.1
    have hr := Tree.pow_bh_le_size r hb.2.2
    rw [← hb.1] at hr
    simp only [bh_node, size]
    split_ifs
    · rw [pow_succ]; omega
    · simp only [add_zero]; omega

/-- The height bound of a red-black tree with a BLACK root. -/
theorem Tree.height_log {t : Tree K V} (hn : t.NoRedRed) (hb : t.Bal)
    (hr : t.rootColor = Color.BLACK) :
    t.height ≤ 2 * Nat.log 2 (t.size + 1) ∧ 2 ^ t.height ≤ (t.size + 1) ^ 2 := by
  have h1 := Tree.height_le_bh t hn hb
  have h2 := Tree.pow_bh_le_size t hb
  simp only [hr, reduceCtorEq, if_false, add_zero] at h1
  have h3 : t.bh ≤ Nat.log 2 (t.size + 1) :=
    (Nat.pow_le_iff_le_log (by norm_num) (by omega)).1 h2
  refine ⟨by omega, ?_⟩
  calc 2 ^ t.height ≤ 2 ^ (2 * t.bh) := Nat.pow_le_pow_right (by norm_num) h1
    _ = (2 ^ t.bh) ^ 2 := by rw [mul_comm, pow_mul]
    _ ≤ (t.size + 1) ^ 2 := Nat.pow_le_pow_left h2 2

/-- Every state reached from the empty tree by `Insert`, `operator[]` and `Delete` is a
red-black tree. -/
theorem ReachableIdx.invariants_idx [LinearOrder K] [Inhabited K] [Inhabited V]
    {s : RedBlackTree K V} (h : ReachableIdx s) : ∃ t, Invariants s t := by
  induction h with
  | new mem => exact ⟨leaf, invariants_new mem⟩
  | insert _ e ih =>
    obtain ⟨t, ht⟩ := ih
    obtain ⟨s', p, b, t', e', hi⟩ := Insert_invariants ht _
    rw [e'] at e
    simp only [Option.some.injEq, Prod.mk.injEq] at e
    obtain ⟨rfl, -, -⟩ := e
    exact ⟨t', hi⟩
  | index _ e ih =>
    obtain ⟨t, ht⟩ := ih
    obtain ⟨s', p, b, t', e', hi⟩ := Insert_invariants ht (_, default)
    rw [index_eq_of_Insert e'] at e
    simp only [Option.some.injEq, Prod.mk.injEq] at e
    obtain ⟨rfl, -, -⟩ := e
    exact ⟨t', hi⟩
  | delete _ hl e ih =>
    obtain ⟨t, ht⟩ := ih
    obtain ⟨t0, hs0, hp⟩ := hl
    rw [← ht.shape.tree_unique hs0] at hp
    obtain ⟨s', t', e', hi⟩ := Delete_invariants ht hp
    rw [e'] at e
    simp only [Option.some.injEq] at e
    subst e
    exact ⟨t', hi⟩

theorem ReachableIdx.afterInsert_idx [LinearOrder K] [Inhabited K] [Inhabited V]
    {s : RedBlackTree K V} (h : ReachableIdx s) (value : K × V) :
    ReachableIdx (afterInsert s value) := by
  obtain ⟨t, ht⟩ := h.invariants_idx
  obtain ⟨s', p, b, t', e, -⟩ := Insert_invariants ht value
  rw [afterInsert_eq e]
  exact ReachableIdx.insert h e

/-- C17: the height is logarithmically bounded.  In every state reached from the empty tree by
`Insert`, `operator[]` and `Delete`, with `n` live nodes, the number of nodes on the longest
path from the root to the sentinel is at most `2 * log2 (n + 1)`: at most twice the rounded-down
logarithm, and `2 ^ height ≤ (n + 1) ^ 2`, which is the bound for the real logarithm. -/
theorem height_logarithmic [LinearOrder K] [Inhabited K] [Inhabited V]
    (s : RedBlackTree K V) (h : ReachableIdx s) :
    ∃ t, Shape s t ∧ t.height ≤ 2 * Nat.log 2 (t.size + 1)
      ∧ 2 ^ t.height ≤ (t.size + 1) ^ 2 := by
  obtain ⟨t, hi⟩ := h.invariants_idx
  have := Tree.height_log hi.noRedRed ((blackBalanced_iff_bal t).1 hi.balanced)
    ((hi.shape.rootBlack_iff hi.sentinel).1 hi.rootBlack)
  exact ⟨t, hi.shape, this.1, this.2⟩

end RBT

namespace RBT

variable {K V : Type}

open RedBlackTree Tree

theorem setParent_heap_color (s : RedBlackTree K V) (a p x : Nat) :
    ((s.setParent a p).heap x).color = (s.heap x).color := by
  rw [setParent_heap]; split_ifs with h
  · rw [h]
  · rfl

theorem setLeft_heap_color (s : RedBlackTree K V) (a p x : Nat) :
    ((s.setLeft a p).heap x).color = (s.heap x).color := by
  rw [setLeft_heap]; split_ifs with h
  · rw [h]
  · rfl

theorem setRight_heap_color (s : RedBlackTree K V) (a p x : Nat) :
    ((s.setRight a p).heap x).color = (s.heap x).color := by
  rw [setRight_heap]; split_ifs with h
  · rw [h]
  · rfl

/-- `LeftRotate` writes no colour. -/
theorem LeftRotate_color (s : RedBlackTree K V) (x a : Nat) :
    ((LeftRotate s x).heap a).color = (s.heap a).color := by
  unfold LeftRotate
  simp only []
  split_ifs <;>
    simp only [setParent_heap_color, setLeft_heap_color, setRight_heap_color, setRoot_heap]

/-- `RightRotate` writes no colour. -/
theorem RightRotate_color (s : RedBlackTree K V) (x a : Nat) :
    ((RightRotate s x).heap a).color = (s.heap a).color := by
  unfold RightRotate
  simp only []
  split_ifs <;>
    simp only [setParent_heap_color, setLeft_heap_color, setRight_heap_color, setRoot_heap]

/-- The root of the tree is the node in the hole only when the hole is at the top. -/
theorem Shape.root_eq_focus {s : RedBlackTree K V} {P : Path K V} {c : Color} {l r : Tree K V}
    {x : Nat} {kv : K × V} (h : Shape s (P.plug (node c l x kv r))) (hr : s.root_ = x) :
    P = .top := by
  by_contra hP
  have h1 := Path.rootAddr_plug_mem s.nil_ P (node c l x kv r) hP
  rw [← h.root, hr] at h1
  exact h.focus_not_mem.1 h1

/-- C18: the rotations preserve order and colours.  In a state whose pointers form a tree, at
a node `x` with a right child `y`, `LeftRotate(x)` leaves a tree with the same in-order
sequence, writes no colour, puts `y` in the place of `x` (as the root when `x` was the root)
with `x` as its left child, and `RightRotate(y)` then gives the tree before again; the same
holds for `RightRotate(x)` at a node with a left child `y`, followed by `LeftRotate(y)`. -/
theorem rotations_preserve_order_and_colours (s : RedBlackTree K V) (T : Tree K V)
    (h : Shape s T) (x : Nat) (hx : x ∈ T.addrs) :
    ((s.heap x).right ≠ s.nil_ →
      ∃ (P : Path K V) (cx cy : Color) (A B C : Tree K V) (y : Nat) (kx ky : K × V),
        y = (s.heap x).right ∧ T = P.plug (node cx A x kx (node cy B y ky C))
          ∧ Shape (LeftRotate s x) (P.plug (node cy (node cx A x kx B) y ky C))
          ∧ (P.plug (node cy (node cx A x kx B) y ky C)).toList = T.toList
          ∧ (∀ a, ((LeftRotate s x).heap a).color = (s.heap a).color)
          ∧ ((LeftRotate s x).heap y).left = x ∧ ((LeftRotate s x).heap x).parent = y
          ∧ ((LeftRotate s x).heap y).parent = (s.heap x).parent
          ∧ (s.root_ = x → (LeftRotate s x).root_ = y)
          ∧ Shape (RightRotate (LeftRotate s x) y) T)
      ∧ ((s.heap x).left ≠ s.nil_ →
        ∃ (P : Path K V) (cx cy : Color) (A B C : Tree K V) (y : Nat) (kx ky : K × V),
          y = (s.heap x).left ∧ T = P.plug (node cx (node cy A y ky B) x kx C)
            ∧ Shape (RightRotate s x) (P.plug (node cy A y ky (node cx B x kx C)))
            ∧ (P.plug (node cy A y ky (node cx B x kx C))).toList = T.toList
            ∧ (∀ a, ((RightRotate s x).heap a).color = (s.heap a).color)
            ∧ ((RightRotate s x).heap y).right = x ∧ ((RightRotate s x).heap x).parent = y
            ∧ ((RightRotate s x).heap y).parent = (s.heap x).parent
            ∧ (s.root_ = x → (RightRotate s x).root_ = y)
            ∧ Shape (LeftRotate (RightRotate s x) y) T) := by
  obtain ⟨P, cx, A, kx, R, rfl⟩ := Tree.exists_focus_addr T hx
  obtain ⟨hxn, hxrec⟩ := h.focus
  obtain ⟨hArep, hRrep⟩ := h.focus_children
  constructor
  · intro hne
    rw [hxrec] at hne
    simp only at hne
    cases R with
    | leaf => exact absurd rfl hne
    | node cy B y ky C =>
      obtain ⟨h1, f1⟩ := LeftRotate_shape h
      obtain ⟨h2, -⟩ := RightRotate_shape h1
      refine ⟨P, cx, cy, A, B, C, y, kx, ky, by rw [hxrec]; rfl, rfl, h1, ?_,
        LeftRotate_color s x, ?_, ?_, ?_, ?_, h2⟩
      · simp [Path.toList_plug, List.append_assoc]
      · rw [h1.focus.2]
        rfl
      · rw [(Shape.focus (P := .left cy y ky C P) h1).2]
        rfl
      · rw [h1.focus.2, hxrec, f1.nil_]
      · intro hr
        obtain rfl := h.root_eq_focus hr
        exact h1.root
  · intro hne
    rw [hxrec] at hne
    simp only at hne
    cases A with
    | leaf => exact absurd rfl hne
    | node cy A y ky B =>
      obtain ⟨h1, f1⟩ := RightRotate_shape h
      obtain ⟨h2, -⟩ := LeftRotate_shape h1
      refine ⟨P, cx, cy, A, B, R, y, kx, ky, by rw [hxrec]; rfl, rfl, h1, ?_,
        RightRotate_color s x, ?_, ?_, ?_, ?_, h2⟩
      · simp [Path.toList_plug, List.append_assoc]
      · rw [h1.focus.2]
        rfl
      · rw [(Shape.focus (P := .right cy A y ky P) h1).2]
        rfl
      · rw [h1.focus.2, hxrec, f1.nil_]
      · intro hr
        obtain rfl := h.root_eq_focus hr
        exact h1.root

theorem rotations_preserve_order_and_colours_witness :
    Shape state3 tree3 ∧ 2 ∈ tree3.addrs ∧
    (((state3.heap 2).right ≠ state3.nil_ →
      ∃ (P : Path Nat Nat) (cx cy : Color) (A B C : Tree Nat Nat) (y : Nat) (kx ky : Nat × Nat),
        y = (state3.heap 2).right ∧ tree3 = P.plug (node cx A 2 kx (node cy B y ky C))
          ∧ Shape (LeftRotate state3 2) (P.plug (node cy (node cx A 2 kx B) y ky C))
          ∧ (P.plug (node cy (node cx A 2 kx B) y ky C)).toList = tree3.toList
          ∧ (∀ a, ((LeftRotate state3 2).heap a).color = (state3.heap a).color)
          ∧ ((LeftRotate state3 2).heap y).left = 2 ∧ ((LeftRotate state3 2).heap 2).parent = y
          ∧ ((LeftRotate state3 2).heap y).parent = (state3.heap 2).parent
          ∧ (state3.root_ = 2 → (LeftRotate state3 2).root_ = y)
          ∧ Shape (RightRotate (LeftRotate state3 2) y) tree3)
      ∧ ((state3.heap 2).left ≠ state3.nil_ →
        ∃ (P : Path Nat Nat) (cx cy : Color) (A B C : Tree Nat Nat) (y : Nat)
          (kx ky : Nat × Nat),
          y = (state3.heap 2).left ∧ tree3 = P.plug (node cx (node cy A y ky B) 2 kx C)
            ∧ Shape (RightRotate state3 2) (P.plug (node cy A y ky (node cx B 2 kx C)))
            ∧ (P.plug (node cy A y ky (node cx B 2 kx C))).toList = tree3.toList
            ∧ (∀ a, ((RightRotate state3 2).heap a).color = (state3.heap a).color)
            ∧ ((RightRotate state3 2).heap y).right = 2
            ∧ ((RightRotate state3 2).heap 2).parent = y
            ∧ ((RightRotate state3 2).heap y).parent = (state3.heap 2).parent
            ∧ (state3.root_ = 2 → (RightRotate state3 2).root_ = y)
            ∧ Shape (LeftRotate (RightRotate state3 2) y) tree3)) :=
  ⟨state3_invariants.shape, by decide,
    rotations_preserve_order_and_colours state3 tree3 state3_invariants.shape 2 (by decide)⟩

end RBT

namespace RBT

variable {K V : Type}

open RedBlackTree Tree

/-- C19: the two-children branch of `Delete` moves the successor into the place of the erased
node.  At a node `x` with two children, with `y` the minimum of the right subtree of `x`,
before `Delete` decides on `DeleteFixup` the node `y` stands where `x` stood (same parent, the
root when `x` was the root), has the left subtree of `x` as left subtree, the right subtree of
`x` without `y` as right subtree and the colour of `x`; `DeleteFixup` runs exactly when `y`
was BLACK, on the former right child of `y`, whose parent link, also when it is the sentinel,
designates `y` when `y` was the right child of `x` and the former parent of `y` otherwise. -/
theorem two_child_delete_relinks (s : RedBlackTree K V) (P : Path K V) (c : Color)
    (l : Tree K V) (x : Nat) (kv : K × V) (r : Tree K V)
    (h : Shape s (P.plug (node c l x kv r))) (hl : l ≠ leaf) (hr : r ≠ leaf) :
    ∃ (mp : Path K V) (cy : Color) (y : Nat) (ky : K × V) (ry : Tree K V),
      r = mp.plug (node cy leaf y ky ry)
        ∧ r.toList = (y, ky.1, ky.2) :: (ry.toList ++ mp.after)
        ∧ TreeMinimum s s.brk (s.heap x).right = some y
        ∧ (s.heap y).color = cy ∧ (s.heap y).right = ry.rootAddr s.nil_
        ∧ RedBlackTree.Delete s x
            = ((if cy = Color.BLACK then
                  DeleteFixup (relinkSuccessor s x y) (ry.rootAddr s.nil_)
                else some (relinkSuccessor s x y)).map
                fun s' => { s' with freed := x :: s'.freed })
        ∧ Shape (relinkSuccessor s x y) (P.plug (node c l y ky (mp.plug ry)))
        ∧ ((relinkSuccessor s x y).heap y).parent = (s.heap x).parent
        ∧ ((relinkSuccessor s x y).heap y).left = (s.heap x).left
        ∧ ((relinkSuccessor s x y).heap y).color = (s.heap x).color
        ∧ (s.root_ = x → (relinkSuccessor s x y).root_ = y)
        ∧ (mp = .top → ((relinkSuccessor s x y).heap (ry.rootAddr s.nil_)).parent = y)
        ∧ (mp ≠ .top →
            ((relinkSuccessor s x y).heap (ry.rootAddr s.nil_)).parent = (s.heap y).parent) := by
  obtain ⟨hxn, hxrec⟩ := h.focus
  obtain ⟨hlrep, hrrep⟩ := h.focus_children
  have hln : l.rootAddr s.nil_ ≠ s.nil_ := fun e => hl (hlrep.rootAddr_eq_nil.1 e)
  have hrn : r.rootAddr s.nil_ ≠ s.nil_ := fun e => hr (hrrep.rootAddr_eq_nil.1 e)
  obtain ⟨cy, y, ky, ry, hy⟩ := zoomMin_node r .top hr
  have hmin := TreeMinimum_sim r (.right c l x kv P) s s.brk h hr (by
    have h1 := h.size_lt
    have h2 := height_le_size r
    rw [Path.size_plug] at h1
    simp only [size] at h1
    omega)
  have happ := zoomMin_append r .top (.right c l x kv P)
  simp only [Path.append_top] at happ
  rw [happ, hy] at hmin
  simp only [rootAddr_node] at hmin
  obtain ⟨mp, hmp, hbef⟩ : ∃ mp : Path K V, r = mp.plug (node cy leaf y ky ry)
      ∧ mp.before = [] := by
    refine ⟨(zoomMin r .top).1, ?_, ?_⟩
    · rw [← hy]; exact (zoomMin_plug r .top).symm
    · rw [zoomMin_before]; rfl
  subst hmp
  obtain ⟨cl, ll, la, kl, lr, rfl⟩ : ∃ cl ll la kl lr, l = node cl ll la kl lr := by
    cases l with
    | leaf => exact absurd rfl hl
    | node cl ll la kl lr => exact ⟨cl, ll, la, kl, lr, rfl⟩
  have hP : Shape s ((mp.append (.right c (node cl ll la kl lr) x kv P)).plug
      (node cy leaf y ky ry)) := by
    rw [Path.plug_append]; exact h
  obtain ⟨-, hyrec⟩ := hP.focus
  have hD := Delete_two (s := s) (x := x) (y := y) (by rw [hxrec]; exact hln)
    (by rw [hxrec]; exact hrn) (by rw [hxrec]; exact hmin)
  have hyc : (s.heap y).color = cy := by rw [hyrec]
  have hyr : (s.heap y).right = ry.rootAddr s.nil_ := by rw [hyrec]
  rw [hyc, hyr] at hD
  obtain ⟨hF, e1, -⟩ :
      FocusShape (relinkSuccessor s x y)
        (mp.append (.right c (node cl ll la kl lr) y ky P)) ry
      ∧ (relinkSuccessor s x y).nil_ = s.nil_ ∧ (relinkSuccessor s x y).brk = s.brk
      ∧ (relinkSuccessor s x y).freed = s.freed
      ∧ ((relinkSuccessor s x y).heap s.nil_).color = (s.heap s.nil_).color := by
    by_cases hmp : mp = .top
    · subst hmp
      exact relink_child_shape h
    · exact relink_deep_shape h hmp
  have hsh : Shape (relinkSuccessor s x y)
      (P.plug (node c (node cl ll la kl lr) y ky (mp.plug ry))) := by
    have := hF.1
    rwa [Path.plug_append] at this
  obtain ⟨-, hynew⟩ := hsh.focus
  have hpar := hF.2
  rw [e1] at hpar hynew
  refine ⟨mp, cy, y, ky, ry, rfl, ?_, by rw [hxrec]; exact hmin, hyc, hyr, ?_, hsh, ?_, ?_, ?_,
    ?_, ?_, ?_⟩
  · rw [Path.toList_plug, hbef]
    simp
  · rw [hD]
    simp [finishDelete]
  · rw [hynew, hxrec]
  · rw [hynew, hxrec]
  · rw [hynew, hxrec]
  · intro hroot
    obtain rfl := h.root_eq_focus hroot
    exact hsh.root.trans (by simp [e1])
  · rintro rfl
    exact hpar
  · intro hne
    rw [hpar, Path.parentAddr_append _ _ _ hne, hyrec, Path.parentAddr_append _ _ _ hne]

theorem two_child_delete_relinks_witness :
    Shape state3 (Path.top.plug (node .BLACK (node .RED leaf 3 (3, 30) leaf) 2 (5, 50)
        (node .RED leaf 4 (8, 80) leaf)))
      ∧ (node .RED leaf 3 (3, 30) leaf : Tree Nat Nat) ≠ leaf
      ∧ (node .RED leaf 4 (8, 80) leaf : Tree Nat Nat) ≠ leaf
      ∧ ∃ (mp : Path Nat Nat) (cy : Color) (y : Nat) (ky : Nat × Nat) (ry : Tree Nat Nat),
        (node .RED leaf 4 (8, 80) leaf : Tree Nat Nat) = mp.plug (node cy leaf y ky ry)
          ∧ (node .RED leaf 4 (8, 80) leaf : Tree Nat Nat).toList
              = (y, ky.1, ky.2) :: (ry.toList ++ mp.after)
          ∧ TreeMinimum state3 state3.brk (state3.heap 2).right = some y
          ∧ (state3.heap y).color = cy ∧ (state3.heap y).right = ry.rootAddr state3.nil_
          ∧ RedBlackTree.Delete state3 2
              = ((if cy = Color.BLACK then
                    DeleteFixup (relinkSuccessor state3 2 y) (ry.rootAddr state3.nil_)
                  else some (relinkSuccessor state3 2 y)).map
                  fun s' => { s' with freed := 2 :: s'.freed })
          ∧ Shape (relinkSuccessor state3 2 y)
              (Path.top.plug (node .BLACK (node .RED leaf 3 (3, 30) leaf) y ky (mp.plug ry)))
          ∧ ((relinkSuccessor state3 2 y).heap y).parent = (state3.heap 2).parent
          ∧ ((relinkSuccessor state3 2 y).heap y).left = (state3.heap 2).left
          ∧ ((relinkSuccessor state3 2 y).heap y).color = (state3.heap 2).color
          ∧ (state3.root_ = 2 → (relinkSuccessor state3 2 y).root_ = y)
          ∧ (mp = .top →
              ((relinkSuccessor state3 2 y).heap (ry.rootAddr state3.nil_)).parent = y)
          ∧ (mp ≠ .top →
              ((relinkSuccessor state3 2 y).heap (ry.rootAddr state3.nil_)).parent
                = (state3.heap y).parent) :=
  ⟨state3_invariants.shape, by simp, by simp,
    two_child_delete_relinks state3 .top .BLACK (node .RED leaf 3 (3, 30) leaf) 2 (5, 50)
      (node .RED leaf 4 (8, 80) leaf) state3_invariants.shape (by simp) (by simp)⟩

end RBT

namespace RBT

variable {K V : Type}

open RedBlackTree Tree

theorem Tree.keys_eq_nil : ∀ {t : Tree K V}, t.keys = [] → t = leaf
  | leaf, _ => rfl
  | node c l a kv r, h => by simp at h

/-- The key set after `Insert`. -/
theorem Insert_keys [LinearOrder K] {s : RedBlackTree K V} {t : Tree K V}
    (h : Invariants s t) (kv : K × V) :
    ∃ s' p b t', RedBlackTree.Insert s kv = some (s', p, b) ∧ Invariants s' t'
      ∧ ∀ k, k ∈ t'.keys ↔ k ∈ t.keys ∨ k = kv.1 := by
  by_cases hk : kv.1 ∈ t.keys
  · obtain ⟨a, v, hm⟩ := exists_mem_toList_of_mem_keys hk
    refine ⟨s, a, false, t, Insert_present h.shape h.ordered hm kv.2, h, fun k => ?_⟩
    constructor
    · exact Or.inl
    · rintro (h1 | rfl)
      · exact h1
      · exact hk
  · obtain ⟨s', t', bef, aft, e, hi, h1, h2, -⟩ := Insert_absent h hk kv.2
    refine ⟨s', s.brk, true, t', e, hi, fun k => ?_⟩
    simp only [keys_eq_map_toList, h1, h2, List.map_append, List.map_cons, List.mem_append,
      List.mem_cons]
    tauto

/-- The key set after `Delete` at the node of the key `k`. -/
theorem Delete_keys [LinearOrder K] {s : RedBlackTree K V} {t : Tree K V}
    (h : Invariants s t) {p : Nat} {k : K} {v : V} (hp : (p, k, v) ∈ t.toList) :
    ∃ s' t', RedBlackTree.Delete s p = some s' ∧ Invariants s' t'
      ∧ ∀ k', k' ∈ t'.keys ↔ k' ∈ t.keys ∧ k' ≠ k := by
  obtain ⟨P, c, l, r, e⟩ := Tree.exists_focus t .top hp
  simp only [Path.plug_top] at e
  subst e
  obtain ⟨s', T', e, hi, h7, -⟩ := Delete_spec h
  have ho := (ordered_iff_pairwise _).1 h.ordered
  rw [keys_eq_map_toList, Path.toList_plug, toList_node, List.append_assoc,
    List.append_assoc, ← List.append_assoc, List.cons_append] at ho
  obtain ⟨hB, hA⟩ := split_keys ho
  simp only at hB hA
  refine ⟨s', T', e, hi, fun k' => ?_⟩
  rw [keys_eq_map_toList, h7, keys_eq_map_toList, Path.toList_plug, toList_node]
  simp only [List.map_append, List.map_cons, List.mem_append, List.mem_cons, List.mem_map]
  constructor
  · rintro ((⟨e, he, rfl⟩ | ⟨e, he, rfl⟩) | ⟨e, he, rfl⟩ | ⟨e, he, rfl⟩)
    · exact ⟨Or.inl (Or.inl ⟨e, he, rfl⟩), ne_of_lt (hB e (List.mem_append.2 (Or.inl he)))⟩
    · exact ⟨Or.inl (Or.inr (Or.inl ⟨e, he, rfl⟩)),
        ne_of_lt (hB e (List.mem_append.2 (Or.inr he)))⟩
    · exact ⟨Or.inl (Or.inr (Or.inr (Or.inr ⟨e, he, rfl⟩))),
        ne_of_gt (hA e (List.mem_append.2 (Or.inl he)))⟩
    · exact ⟨Or.inr ⟨e, he, rfl⟩, ne_of_gt (hA e (List.mem_append.2 (Or.inr he)))⟩
  · rintro ⟨((h1 | h1 | h1 | h1) | h1), hne⟩
    · exact Or.inl (Or.inl h1)
    · exact Or.inl (Or.inr h1)
    · exact absurd h1 hne
    · exact Or.inr (Or.inl h1)
    · exact Or.inr (Or.inr h1)

/-- The calls `Insert(v)` for a list of pairs return, and add the keys of the list. -/
theorem insertAll_spec [LinearOrder K] : ∀ (kvs : List (K × V)) {s : RedBlackTree K V}
    {t : Tree K V}, Invariants s t →
    ∃ s' t', insertAll s kvs = some s' ∧ Invariants s' t'
      ∧ ∀ k, k ∈ t'.keys ↔ k ∈ t.keys ∨ k ∈ kvs.map Prod.fst
  | [], s, t, h => ⟨s, t, rfl, h, fun k => by simp⟩
  | kv :: kvs, s, t, h => by
    obtain ⟨s1, p, b, t1, e, h1, hk1⟩ := Insert_keys h kv
    obtain ⟨s2, t2, e2, h2, hk2⟩ := insertAll_spec kvs h1
    refine ⟨s2, t2, ?_, h2, fun k => ?_⟩
    · simp only [insertAll, e]
      exact e2
    · rw [hk2, hk1]
      simp only [List.map_cons, List.mem_cons]
      tauto

/-- The call `Delete(Find(k))` for a key that is present returns and removes the key. -/
theorem erase_spec [LinearOrder K] {s : RedBlackTree K V} {t : Tree K V} (h : Invariants s t)
    {k : K} (hk : k ∈ t.keys) :
    ∃ s' t', erase s k = some s' ∧ Invariants s' t'
      ∧ ∀ k', k' ∈ t'.keys ↔ k' ∈ t.keys ∧ k' ≠ k := by
  obtain ⟨a, v, hm⟩ := exists_mem_toList_of_mem_keys hk
  obtain ⟨s', t', e, hi, hk'⟩ := Delete_keys h hm
  refine ⟨s', t', ?_, hi, hk'⟩
  simp only [erase, Find_present h.shape h.ordered hm, Option.some_bind]
  exact e

/-- The calls `Delete(Find(k))` for distinct keys that are present return and remove them. -/
theorem eraseAll_spec [LinearOrder K] : ∀ (ks : List K) {s : RedBlackTree K V} {t : Tree K V},
    Invariants s t → ks.Nodup → (∀ k ∈ ks, k ∈ t.keys) →
    ∃ s' t', eraseAll s ks = some s' ∧ Invariants s' t'
      ∧ ∀ k, k ∈ t'.keys ↔ k ∈ t.keys ∧ k ∉ ks
  | [], s, t, h, _, _ => ⟨s, t, rfl, h, fun k => by simp⟩
  | k :: ks, s, t, h, hnd, hin => by
    rw [List.nodup_cons] at hnd
    obtain ⟨s1, t1, e1, h1, hk1⟩ := erase_spec h (hin k (List.mem_cons_self _ _))
    obtain ⟨s2, t2, e2, h2, hk2⟩ := eraseAll_spec ks h1 hnd.2 (fun k' hk' =>
      (hk1 k').2 ⟨hin k' (List.mem_cons_of_mem _ hk'), fun e => hnd.1 (e ▸ hk')⟩)
    refine ⟨s2, t2, ?_, h2, fun k' => ?_⟩
    · simp only [eraseAll, e1]
      exact e2
    · rw [hk2, hk1]
      simp only [List.mem_cons, not_or]
      tauto

/-- A state whose tree has no key is the empty tree. -/
theorem Invariants.empty_of_no_key [LinearOrder K] {s : RedBlackTree K V} {t : Tree K V}
    (h : Invariants s t) (hk : ∀ k, k ∉ t.keys) :
    t = leaf ∧ s.root_ = s.nil_ ∧ ∀ k, Find s k = some (End s) := by
  have ht : t = leaf := Tree.keys_eq_nil (List.eq_nil_iff_forall_not_mem.2 hk)
  subst ht
  exact ⟨rfl, h.shape.root, fun k => Find_absent h.shape (hk k)⟩

/-- Insert-all then delete-all.  For every list of pairs with distinct keys inserted into the
empty tree and every permutation of the keys, each then deleted by `Delete(Find(k))`, all calls
return and in the final state the root is the sentinel and `Find` of every key returns
`End()`. -/
theorem insert_all_delete_all [LinearOrder K] [Inhabited K] [Inhabited V]
    (mem : Nat → Node K V) (kvs : List (K × V)) (ks : List K)
    (hnd : (kvs.map Prod.fst).Nodup) (hperm : ks.Perm (kvs.map Prod.fst)) :
    ∃ s1 s2, insertAll (RedBlackTree.new mem) kvs = some s1 ∧ eraseAll s1 ks = some s2
      ∧ s2.root_ = s2.nil_ ∧ Shape s2 leaf ∧ ∀ k, Find s2 k = some (End s2) := by
  obtain ⟨s1, t1, e1, h1, hk1⟩ := insertAll_spec kvs (invariants_new mem)
  obtain ⟨s2, t2, e2, h2, hk2⟩ := eraseAll_spec ks h1 (hperm.nodup_iff.2 hnd) (fun k hk =>
    (hk1 k).2 (Or.inr (hperm.mem_iff.1 hk)))
  have hno : ∀ k, k ∉ t2.keys := by
    intro k hk
    obtain ⟨hin, hout⟩ := (hk2 k).1 hk
    rcases (hk1 k).1 hin with h0 | h0
    · simp at h0
    · exact hout (hperm.mem_iff.2 h0)
  obtain ⟨rfl, hroot, hfind⟩ := h2.empty_of_no_key hno
  exact ⟨s1, s2, e1, e2, hroot, h2.shape, hfind⟩

theorem insert_all_delete_all_witness :
    (([(1, 10), (2, 20), (3, 30)] : List (Nat × Nat)).map Prod.fst).Nodup
      ∧ ([3, 1, 2] : List Nat).Perm (([(1, 10), (2, 20), (3, 30)] : List (Nat × Nat)).map Prod.fst)
      ∧ ∃ s1 s2, insertAll (RedBlackTree.new mem0) [(1, 10), (2, 20), (3, 30)] = some s1
        ∧ eraseAll s1 [3, 1, 2] = some s2
        ∧ s2.root_ = s2.nil_ ∧ Shape s2 leaf ∧ ∀ k, Find s2 k = some (End s2) :=
  ⟨by decide, by decide,
    insert_all_delete_all mem0 [(1, 10), (2, 20), (3, 30)] [3, 1, 2] (by decide) (by decide)⟩

end RBT

namespace RBT

variable {K V : Type}

open RedBlackTree Tree

/-- The keys held by the nodes of the tree, in in-order, are the keys of the tree. -/
theorem Shape.map_key_addrs {s : RedBlackTree K V} {t : Tree K V} (h : Shape s t) :
    (t.addrs.map fun a => (s.heap a).value.1) = t.keys := by
  rw [addrs_eq_map_toList, keys_eq_map_toList, List.map_map]
  refine List.map_congr_left fun e he => ?_
  obtain ⟨a, k, v⟩ := e
  simp only [Function.comp_apply]
  rw [h.rep.value_of_mem he]

theorem walkFrom_chain (s : RedBlackTree K V) : ∀ (L : List Nat) (fuel : Nat),
    SuccChain s L s.nil_ → (∀ a ∈ L, a ≠ s.nil_) → L.length + 1 ≤ fuel →
    walkFrom s fuel (L.headD s.nil_) = some (L.map fun a => (s.heap a).value.1)
  | [], fuel, _, _, hf => by
    obtain ⟨fuel, rfl⟩ : ∃ f, fuel = f + 1 := ⟨fuel - 1, by omega⟩
    simp [walkFrom, End]
  | a :: rest, fuel, hc, hn, hf => by
    obtain ⟨fuel, rfl⟩ : ∃ f, fuel = f + 1 := ⟨fuel - 1, by omega⟩
    have ha : a ≠ s.nil_ := hn a (List.mem_cons_self _ _)
    have ih := walkFrom_chain s rest fuel hc.2 (fun b hb => hn b (List.mem_cons_of_mem _ hb))
      (by simp only [List.length_cons] at hf; omega)
    simp only [walkFrom, List.headD_cons, End, ha, if_false, hc.1, ih, Option.map_some',
      List.map_cons]

/-- The in-order traversal of a non-empty tree visits its keys in in-order. -/
theorem inorder_sim {s : RedBlackTree K V} {t : Tree K V} (h : Shape s t) (ht : t ≠ leaf) :
    inorder s = some t.keys := by
  have hc := SuccChain_tree t .top h
  simp only [Path.after_top, firstAddr] at hc
  have := walkFrom_chain s t.addrs s.brk hc
    (fun a ha e => h.rep.nil_not_mem (e ▸ ha))
    (by have := h.size_lt; rw [length_addrs]; omega)
  rw [h.map_key_addrs] at this
  simp only [inorder, Begin_sim h ht, Option.some_bind]
  exact this

/-- The in-order key sequence of a red-black tree is the sorted list of its keys. -/
theorem Invariants.keys_eq [LinearOrder K] {s : RedBlackTree K V} {t : Tree K V}
    (h : Invariants s t) {L : List K} (hL : L.Sorted (· < ·))
    (hk : ∀ k, k ∈ t.keys ↔ k ∈ L) : t.keys = L := by
  have hp := (ordered_iff_pairwise t).1 h.ordered
  have hnd : t.keys.Nodup := hp.imp ne_of_lt
  exact List.eq_of_perm_of_sorted ((List.perm_ext_iff_of_nodup hnd hL.nodup).2 hk) hp hL

/-- C14: the scenario of the keys 10, 20, 30, 15, 25.  Inserted in that order into the empty
tree they give the in-order traversal 10, 15, 20, 25, 30; deleting 20 gives the traversal
10, 15, 25, 30 in a state that satisfies invariants 1 to 5; deleting 10, 15, 25, 30 in that
order leaves the empty tree.  All calls return, whatever the fresh memory and the values. -/
theorem scenario_five_keys (mem : Nat → Node Nat Nat) (v : Nat → Nat) :
    ∃ s5 s4 s0,
      insertAll (RedBlackTree.new mem)
          [(10, v 10), (20, v 20), (30, v 30), (15, v 15), (25, v 25)] = some s5
        ∧ inorder s5 = some [10, 15, 20, 25, 30]
        ∧ erase s5 20 = some s4
        ∧ inorder s4 = some [10, 15, 25, 30]
        ∧ (∃ t, Invariants s4 t)
        ∧ eraseAll s4 [10, 15, 25, 30] = some s0
        ∧ s0.root_ = s0.nil_ ∧ Shape s0 leaf := by
  obtain ⟨s5, t5, e5, h5, hk5⟩ := insertAll_spec
    [(10, v 10), (20, v 20), (30, v 30), (15, v 15), (25, v 25)] (invariants_new mem)
  have hkeys5 : t5.keys = [10, 15, 20, 25, 30] := by
    refine h5.keys_eq (by decide) fun k => ?_
    rw [hk5]
    simp only [keys_leaf, List.not_mem_nil, false_or, List.map_cons, List.map_nil,
      List.mem_cons, List.mem_singleton, or_false]
    constructor <;> intro h <;> omega
  have ht5 : t5 ≠ leaf := by
    rintro rfl
    simp at hkeys5
  obtain ⟨s4, t4, e4, h4, hk4⟩ := erase_spec h5 (k := 20) (by rw [hkeys5]; decide)
  have hkeys4 : t4.keys = [10, 15, 25, 30] := by
    refine h4.keys_eq (by decide) fun k => ?_
    rw [hk4, hkeys5]
    simp only [List.mem_cons, List.mem_singleton, List.not_mem_nil, or_false]
    constructor <;> intro h <;> omega
  have ht4 : t4 ≠ leaf := by
    rintro rfl
    simp at hkeys4
  obtain ⟨s0, t0, e0, h0, hk0⟩ := eraseAll_spec [10, 15, 25, 30] h4 (by decide)
    (fun k hk => by rw [hkeys4]; exact hk)
  have hno : ∀ k, k ∉ t0.keys := by
    intro k hk
    obtain ⟨hin, hout⟩ := (hk0 k).1 hk
    rw [hkeys4] at hin
    exact hout hin
  obtain ⟨rfl, hroot, -⟩ := h0.empty_of_no_key hno
  refine ⟨s5, s4, s0, e5, ?_, e4, ?_, ⟨t4, h4⟩, e0, hroot, h0.shape⟩
  · rw [inorder_sim h5.shape ht5, hkeys5]
  · rw [inorder_sim h4.shape ht4, hkeys4]

end RBT

namespace RBT

variable {K V : Type}

open RedBlackTree Tree

/-- What `TreeMinimum` returns has the sentinel as left child. -/
theorem TreeMinimum_left (s : RedBlackTree K V) : ∀ (fuel x y : Nat),
    TreeMinimum s fuel x = some y → (s.heap y).left = s.nil_
  | 0, _, _, h => by simp [TreeMinimum] at h
  | fuel + 1, x, y, h => by
    rw [TreeMinimum] at h
    split_ifs at h with hx
    · exact TreeMinimum_left s fuel _ y h
    · obtain rfl := Option.some.inj h
      exact not_not.1 hx

/-- What `TreeMaximum` returns has the sentinel as right child. -/
theorem TreeMaximum_right (s : RedBlackTree K V) : ∀ (fuel x y : Nat),
    TreeMaximum s fuel x = some y → (s.heap y).right = s.nil_
  | 0, _, _, h => by simp [TreeMaximum] at h
  | fuel + 1, x, y, h => by
    rw [TreeMaximum] at h
    split_ifs at h with hx
    · exact TreeMaximum_right s fuel _ y h
    · obtain rfl := Option.some.inj h
      exact not_not.1 hx

/-- On the empty tree `Begin()` is `End()` exactly when the left link of the sentinel, which
no method writes, designates the sentinel itself. -/
theorem Begin_empty_iff (s : RedBlackTree K V) (hr : s.root_ = s.nil_) (hb : 0 < s.brk) :
    Begin s = some (End s) ↔ (s.heap s.nil_).left = s.nil_ := by
  constructor
  · intro h
    exact TreeMinimum_left s _ _ _ h
  · intro h
    obtain ⟨f, hf⟩ : ∃ f, s.brk = f + 1 := ⟨s.brk - 1, by omega⟩
    simp [Begin, hf, hr, TreeMinimum, h, End]

/-- In zeroed memory the descent of `TreeMinimum` from the null pointer never returns. -/
theorem TreeMinimum_null_mem0 : ∀ fuel : Nat,
    TreeMinimum (RedBlackTree.new mem0) fuel 0 = none
  | 0 => rfl
  | fuel + 1 => by
    rw [TreeMinimum]
    have h : ((RedBlackTree.new mem0).heap 0).left ≠ (RedBlackTree.new mem0).nil_ := by decide
    rw [if_pos h]
    exact TreeMinimum_null_mem0 fuel

/-- C12, at the failing input: `Begin()` of the freshly constructed tree in zeroed memory.
The root is the sentinel, whose left link the constructor leaves as the memory held it, here
the null pointer: `TreeMinimum` steps from the sentinel to the null pointer and does not
return `End()`, with the fuel of `Begin` or any other. -/
theorem Begin_fresh_tree_zeroed :
    (RedBlackTree.new mem0).root_ = (RedBlackTree.new mem0).nil_
      ∧ ((RedBlackTree.new mem0).heap (RedBlackTree.new mem0).nil_).left = nullptr
      ∧ Begin (RedBlackTree.new mem0) = none
      ∧ ∀ fuel, TreeMinimum (RedBlackTree.new mem0) fuel (RedBlackTree.new mem0).root_
          ≠ some (End (RedBlackTree.new mem0)) := by
  refine ⟨rfl, rfl, rfl, fun fuel => ?_⟩
  cases fuel with
  | zero => simp [TreeMinimum]
  | succ fuel =>
    rw [TreeMinimum]
    have h : ((RedBlackTree.new mem0).heap (RedBlackTree.new mem0).root_).left
        ≠ (RedBlackTree.new mem0).nil_ := by decide
    rw [if_pos h]
    have : ((RedBlackTree.new mem0).heap (RedBlackTree.new mem0).root_).left = 0 := rfl
    rw [this, TreeMinimum_null_mem0]
    simp

/-- At a node without left child `TreePredecessor` does not look at the node: the test
`if (node->left)` holds for the sentinel, and the result is `TreeMaximum(nil_)`. -/
theorem TreePredecessor_no_left {s : RedBlackTree K V} {t : Tree K V} (h : Shape s t)
    {x : Nat} (hl : (s.heap x).left = s.nil_) :
    TreePredecessor s x = TreeMaximum s s.brk s.nil_ := by
  have hn : s.nil_ ≠ nullptr := by
    have := h.nil_alloc.1
    omega
  simp [TreePredecessor, hl, hn]

/-- In `state3` the descent of `TreeMaximum` from the null pointer never returns. -/
theorem TreeMaximum_null_state3 : ∀ fuel : Nat, TreeMaximum state3 fuel 0 = none
  | 0 => rfl
  | fuel + 1 => by
    rw [TreeMaximum]
    have h : (state3.heap 0).right ≠ state3.nil_ := by decide
    rw [if_pos h]
    exact TreeMaximum_null_state3 fuel

/-- C13, at the failing input: `TreePredecessor` at the node 4 of `state3`, which holds the
key 8, has no left child and is the right child of the root 2 with the key 5.  Its left link
is the sentinel, not the null pointer, so the method runs `TreeMaximum(nil_)`: it does not
return the node 2, and where it returns a node at all, the right link of that node is the
sentinel, which the node 2 is not. -/
theorem TreePredecessor_state3 :
    Shape state3 tree3 ∧ tree3.keys = [3, 5, 8] ∧ tree3.addrs = [3, 2, 4]
      ∧ (state3.heap 4).left = state3.nil_ ∧ (state3.heap 4).left ≠ nullptr
      ∧ TreePredecessor state3 4 = none
      ∧ TreePredecessor state3 4 ≠ some 2
      ∧ ∀ (s : RedBlackTree Nat Nat), Shape s tree3 → TreePredecessor s 4 ≠ some 2 := by
  refine ⟨state3_invariants.shape, rfl, rfl, rfl, by decide, rfl, by decide, ?_⟩
  intro s hs e
  have hs4 : Shape s ((Path.right .BLACK (node .RED leaf 3 (3, 30) leaf) 2 (5, 50) .top).plug
      (node .RED leaf 4 (8, 80) leaf)) := hs
  have hs2 : Shape s (Path.top.plug (node .BLACK (node .RED leaf 3 (3, 30) leaf) 2 (5, 50)
      (node .RED leaf 4 (8, 80) leaf))) := hs
  obtain ⟨-, h4⟩ := hs4.focus
  obtain ⟨-, h2⟩ := hs2.focus
  have hl : (s.heap 4).left = s.nil_ := by rw [h4]; rfl
  rw [TreePredecessor_no_left hs hl] at e
  have := TreeMaximum_right s _ _ _ e
  rw [h2] at this
  simp only [rootAddr_node] at this
  have hn := hs.rep.nil_not_mem
  rw [← this] at hn
  exact hn (by decide)

end RBT

namespace RBT

variable {K V : Type}

open RedBlackTree Tree

theorem Tree.postorder_perm : ∀ t : Tree K V, t.postorder.Perm t.addrs
  | leaf => List.Perm.refl _
  | node c l a kv r => by
    simp only [postorder, addrs_node]
    have hl := Tree.postorder_perm l
    have hr := Tree.postorder_perm r
    have h1 : (l.postorder ++ r.postorder ++ [a]).Perm (l.addrs ++ r.addrs ++ [a]) :=
      List.Perm.append_right _ (hl.append hr)
    refine h1.trans ?_
    rw [List.append_assoc]
    exact List.Perm.append_left _ List.perm_append_comm

theorem zoomMin_size : ∀ (t : Tree K V) (pre : Path K V), (zoomMin t pre).2.size ≤ t.size
  | leaf, _ => le_refl _
  | node c leaf a kv r, _ => le_refl _
  | node c (node cl ll la kl lr) a kv r, pre => by
    have := zoomMin_size (node cl ll la kl lr) (.left c a kv r pre)
    simp only [zoomMin, size] at this ⊢
    omega

/-- The node where `TreeMinimum` stops is the first node of the subtree in post-order once
its own right subtree is done. -/
theorem zoomMin_rest : ∀ (t : Tree K V) (pre : Path K V), t ≠ leaf →
    ∃ cy y ky ry, (zoomMin t pre).2 = node cy leaf y ky ry
      ∧ t.postorder ++ pre.rest = ry.postorder ++ y :: (zoomMin t pre).1.rest
  | leaf, _, h => absurd rfl h
  | node c leaf a kv r, pre, _ => ⟨c, a, kv, r, rfl, by simp [zoomMin, postorder]⟩
  | node c (node cl ll la kl lr) a kv r, pre, _ => by
    obtain ⟨cy, y, ky, ry, e1, e2⟩ :=
      zoomMin_rest (node cl ll la kl lr) (.left c a kv r pre) (by simp)
    refine ⟨cy, y, ky, ry, by simp only [zoomMin]; exact e1, ?_⟩
    simp only [zoomMin]
    rw [← e2]
    simp [postorder, Path.rest, List.append_assoc]

theorem Shape.free {s : RedBlackTree K V} {t : Tree K V} (h : Shape s t) (p : Nat) :
    Shape (s.free p) t :=
  ⟨h.root, h.rep, h.nodup, h.alloc, h.nil_alloc⟩

/-- The descent loop of `Clear` at a node `x`: it stops at the node that comes first in
post-order among the right subtree of `x` and `x` itself. -/
theorem ClearDescend_sim (s : RedBlackTree K V) : ∀ (n : Nat) (P : Path K V) (c : Color)
    (l : Tree K V) (x : Nat) (kv : K × V) (r : Tree K V) (fuel : Nat),
    r.size ≤ n → r.size + 1 ≤ fuel → Shape s (P.plug (node c l x kv r)) →
    ∃ (Q : Path K V) (d : Color) (m : Tree K V) (z : Nat) (kz : K × V),
      ClearDescend s fuel x = some z
        ∧ P.plug (node c l x kv r) = Q.plug (node d m z kz leaf)
        ∧ r.postorder ++ x :: P.rest = z :: Q.rest
  | n, P, c, l, x, kv, leaf, fuel, _, hf, h => by
    obtain ⟨fuel, rfl⟩ : ∃ f, fuel = f + 1 := ⟨fuel - 1, by omega⟩
    refine ⟨P, c, l, x, kv, ?_, rfl, by simp [postorder]⟩
    simp [ClearDescend, h.focus.2]
  | 0, P, c, l, x, kv, node cr rl ra kr rr, fuel, hn, _, _ => by simp [size] at hn
  | n + 1, P, c, l, x, kv, node cr rl ra kr rr, fuel, hn, hf, h => by
    obtain ⟨fuel, rfl⟩ : ∃ f, fuel = f + 1 := ⟨fuel - 1, by omega⟩
    have hmin := TreeMinimum_sim (node cr rl ra kr rr) (.right c l x kv P) s s.brk h (by simp)
      (by
        have h1 := h.size_lt
        have h2 := height_le_size (node cr rl ra kr rr)
        rw [Path.size_plug] at h1
        simp only [size] at h1 h2 ⊢
        omega)
    obtain ⟨cy, y, ky, ry, e1, e2⟩ :=
      zoomMin_rest (node cr rl ra kr rr) (.right c l x kv P) (by simp)
    have hsz := zoomMin_size (node cr rl ra kr rr) (.right c l x kv P)
    have hplug := zoomMin_plug (node cr rl ra kr rr) (.right c l x kv P)
    rw [e1] at hmin hsz hplug
    simp only [rootAddr_node] at hmin
    simp only [size] at hsz hn hf
    have h' : Shape s ((zoomMin (node cr rl ra kr rr) (.right c l x kv P)).1.plug
        (node cy leaf y ky ry)) := by
      rw [hplug]; exact h
    obtain ⟨Q, d, m, z, kz, e3, e4, e5⟩ := ClearDescend_sim s n _ cy leaf y ky ry fuel
      (by omega) (by omega) h'
    refine ⟨Q, d, m, z, kz, ?_, ?_, ?_⟩
    · rw [ClearDescend]
      have hne : (s.heap x).right ≠ s.nil_ := by
        rw [h.focus.2]
        exact (Shape.focus (P := .right c l x kv P) h).1
      rw [if_pos hne]
      have hxr : (s.heap x).right = ra := by rw [h.focus.2]; rfl
      rw [hxr, hmin]
      exact e3
    · rw [← e4, hplug]
      rfl
    · rw [← e5, ← e2]
      simp [Path.rest]

end RBT

namespace RBT

variable {K V : Type}

open RedBlackTree Tree

theorem Shape.of_log {s : RedBlackTree K V} {t : Tree K V} (h : Shape s t) (f : List Nat) :
    Shape { s with freed := f } t :=
  ⟨h.root, h.rep, h.nodup, h.alloc, h.nil_alloc⟩

/-- The ascent loop of `Clear` from the root of `t`: it deletes the nodes it leaves through
their parent's right link and stops at the first node that is a left child, or the root. -/
theorem ClearAscend_sim : ∀ (Q : Path K V) (t : Tree K V) (s : RedBlackTree K V) (fuel : Nat),
    Shape s (Q.plug t) → t ≠ leaf → Q.depth + 1 ≤ fuel →
    ∃ (asc : List Nat) (W : Path K V) (tw : Tree K V),
      ClearAscend fuel s (t.rootAddr s.nil_) (Q.parentAddr s.nil_)
          = some ({ s with freed := asc.reverse ++ s.freed }, tw.rootAddr s.nil_,
              W.parentAddr s.nil_)
        ∧ Q.plug t = W.plug tw ∧ tw ≠ leaf
        ∧ (W = .top ∨ ∃ c a kv r up, W = .left c a kv r up)
        ∧ t.rootAddr s.nil_ :: Q.rest = asc ++ tw.rootAddr s.nil_ :: W.rest
  | .top, t, s, fuel, _, ht, hf => by
    obtain ⟨fuel, rfl⟩ : ∃ f, fuel = f + 1 := ⟨fuel - 1, by omega⟩
    refine ⟨[], .top, t, ?_, rfl, ht, Or.inl rfl, rfl⟩
    simp [ClearAscend]
  | .left c a kv r up, t, s, fuel, h, ht, hf => by
    obtain ⟨fuel, rfl⟩ : ∃ f, fuel = f + 1 := ⟨fuel - 1, by omega⟩
    obtain ⟨han, harec⟩ := Shape.focus (P := up) h
    have hne : r.rootAddr s.nil_ ≠ t.rootAddr s.nil_ :=
      h.sibling_right_ne ((rootAddr_mem_or s.nil_ t).resolve_left ht)
    refine ⟨[], .left c a kv r up, t, ?_, rfl, ht, Or.inr ⟨c, a, kv, r, up, rfl⟩, rfl⟩
    simp [ClearAscend, harec, hne]
  | .right c l a kv up, t, s, fuel, h, ht, hf => by
    obtain ⟨fuel, rfl⟩ : ∃ f, fuel = f + 1 := ⟨fuel - 1, by omega⟩
    obtain ⟨han, harec⟩ := Shape.focus (P := up) h
    have h1 : Shape (s.free (t.rootAddr s.nil_)) (up.plug (node c l a kv t)) :=
      Shape.free h _
    obtain ⟨asc, W, tw, e1, e2, e3, e4, e5⟩ := ClearAscend_sim up (node c l a kv t)
      (s.free (t.rootAddr s.nil_)) fuel h1 (by simp)
      (by simp only [Path.depth] at hf; omega)
    refine ⟨t.rootAddr s.nil_ :: asc, W, tw, ?_, e2, e3, e4, ?_⟩
    · rw [ClearAscend]
      simp only [Path.parentAddr_right, ne_eq, han, not_false_eq_true, harec, and_self,
        if_true]
      have hp : ((s.free (t.rootAddr s.nil_)).heap a).parent
          = up.parentAddr (s.free (t.rootAddr s.nil_)).nil_ := by
        show (s.heap a).parent = up.parentAddr s.nil_
        rw [harec]
      rw [hp]
      simp only [rootAddr_node] at e1
      rw [e1]
      simp [RedBlackTree.free, List.append_assoc]
    · simp only [rootAddr_node] at e5
      simp only [Path.rest, List.cons_append]
      rw [e5]
      rfl

/-- The outer loop of `Clear` entered at a node `x` whose left subtree is done: it deletes
the right subtree of `x`, then `x`, then what follows in post-order. -/
theorem ClearLoop_sim : ∀ (n : Nat) (P : Path K V) (c : Color) (l : Tree K V) (x : Nat)
    (kv : K × V) (r : Tree K V) (s : RedBlackTree K V) (fuel : Nat),
    (r.postorder ++ x :: P.rest).length ≤ n → n + 1 ≤ fuel →
    Shape s (P.plug (node c l x kv r)) →
    ClearLoop fuel s x
      = some { s with freed := (r.postorder ++ x :: P.rest).reverse ++ s.freed }
  | 0, P, c, l, x, kv, r, s, fuel, hn, _, _ => by simp at hn
  | n + 1, P, c, l, x, kv, r, s, fuel, hn, hf, h => by
    obtain ⟨fuel, rfl⟩ : ∃ f, fuel = f + 1 := ⟨fuel - 1, by omega⟩
    obtain ⟨hxn, -⟩ := h.focus
    have hsz := h.size_lt
    rw [Path.size_plug] at hsz
    simp only [size] at hsz
    obtain ⟨Q, d, m, z, kz, e3, e4, e5⟩ := ClearDescend_sim s r.size P c l x kv r s.brk
      (le_refl _) (by omega) h
    have hQ : Shape s (Q.plug (node d m z kz leaf)) := by rw [← e4]; exact h
    obtain ⟨hzn, hzrec⟩ := hQ.focus
    obtain ⟨asc, W, tw, ea, eplug, htw, hW, erest⟩ := ClearAscend_sim Q (node d m z kz leaf) s
      s.brk hQ (by simp) (by have := hQ.depth_lt; omega)
    simp only [rootAddr_node] at ea erest
    have hzp : (s.heap z).parent = Q.parentAddr s.nil_ := by rw [hzrec]
    rw [ClearLoop]
    simp only [ne_eq, hxn, not_false_eq_true, if_true, e3, hzp, ea]
    rw [e5, erest]
    rcases hW with rfl | ⟨c', a, kv', r', up, rfl⟩
    · obtain ⟨fuel, rfl⟩ : ∃ f, fuel = f + 1 := ⟨fuel - 1, by
        rw [e5, erest] at hn
        simp at hn
        omega⟩
      simp [ClearLoop, RedBlackTree.free, Path.rest, List.append_assoc]
    · have hW' : Shape ({ s with freed := asc.reverse ++ s.freed }.free (tw.rootAddr s.nil_))
          (up.plug (node c' tw a kv' r')) := by
        have : Shape s (up.plug (node c' tw a kv' r')) := by
          have := hQ
          rw [eplug] at this
          exact this
        exact Shape.free (this.of_log _) _
      have ih := ClearLoop_sim n up c' tw a kv' r'
        ({ s with freed := asc.reverse ++ s.freed }.free (tw.rootAddr s.nil_)) fuel
        (by
          rw [e5, erest] at hn
          simp only [Path.rest, List.length_append, List.length_cons] at hn ⊢
          omega)
        (by omega) hW'
      simp only [Path.parentAddr_left]
      rw [ih]
      simp [RedBlackTree.free, Path.rest, List.append_assoc]

theorem Tree.length_postorder (t : Tree K V) : t.postorder.length = t.size := by
  rw [(Tree.postorder_perm t).length_eq, length_addrs]

/-- `Clear()` returns; it logs the nodes of the tree in post-order and sets the root to the
sentinel, nothing else. -/
theorem Clear_spec {s : RedBlackTree K V} {t : Tree K V} (h : Shape s t) :
    Clear s = some (if s.root_ = s.nil_ then s
      else ({ s with freed := t.postorder.reverse ++ s.freed }).setRoot s.nil_) := by
  unfold Clear
  split_ifs with hr
  · rfl
  · have ht : t ≠ leaf := by
      rintro rfl
      exact hr h.root
    have hmin := TreeMinimum_sim t .top s s.brk h ht (by
      have h1 := h.size_lt
      have h2 := height_le_size t
      omega)
    obtain ⟨cy, y, ky, ry, e1, e2⟩ := zoomMin_rest t .top ht
    have hplug := zoomMin_plug t .top
    rw [e1] at hmin hplug
    simp only [rootAddr_node, Path.plug_top] at hmin hplug
    rw [← h.root] at hmin
    have h' : Shape s ((zoomMin t .top).1.plug (node cy leaf y ky ry)) := by
      rw [hplug]; exact h
    have hl := ClearLoop_sim t.size _ cy leaf y ky ry s s.brk
      (by
        rw [← e2]
        simp [Path.rest, Tree.length_postorder])
      (by have := h.size_lt; omega) h'
    rw [← e2] at hl
    simp only [Path.rest, List.append_nil] at hl
    simp only [hmin, hl, Option.map_some']

/-- C16: `Clear` empties the tree and releases each node once.  In a state whose pointers form
a tree and whose sentinel is BLACK, `Clear()` returns; the nodes it deallocates, in the order
of the calls of `delete`, are the nodes of the tree in post-order, so every live node exactly
once and never the sentinel; afterwards the root is the sentinel, `Find` of every key returns
`End()` and the sentinel is BLACK; on the empty tree the state stays as it is. -/
theorem Clear_releases_every_node [LinearOrder K] (s : RedBlackTree K V) (t : Tree K V)
    (h : Shape s t) (hb : SentinelBlack s) :
    ∃ s', Clear s = some s'
      ∧ s'.freed = t.postorder.reverse ++ s.freed
      ∧ t.postorder.Perm t.addrs ∧ t.postorder.Nodup ∧ s.nil_ ∉ t.postorder
      ∧ s'.root_ = s'.nil_ ∧ s'.nil_ = s.nil_ ∧ s'.heap = s.heap ∧ SentinelBlack s'
      ∧ Shape s' leaf ∧ (∀ k, Find s' k = some (End s'))
      ∧ (s.root_ = s.nil_ → s' = s) := by
  have hperm := Tree.postorder_perm t
  have hshape : ∀ f : List Nat, Shape (({ s with freed := f }).setRoot s.nil_) leaf :=
    fun f => ⟨rfl, trivial, List.nodup_nil, by simp, h.nil_alloc⟩
  by_cases hr : s.root_ = s.nil_
  · have ht : t = leaf := by
      have := h.root
      rw [hr] at this
      exact h.rep.rootAddr_eq_nil.1 this.symm
    subst ht
    have hl : Shape s leaf := h
    refine ⟨s, by rw [Clear_spec h, if_pos hr], by simp [postorder], hperm,
      hperm.nodup_iff.2 h.nodup, by simp [postorder], hr, rfl, rfl, hb, hl,
      fun k => Find_absent hl (by simp), fun _ => rfl⟩
  · refine ⟨({ s with freed := t.postorder.reverse ++ s.freed }).setRoot s.nil_,
      by rw [Clear_spec h, if_neg hr], rfl, hperm, hperm.nodup_iff.2 h.nodup,
      fun hm => h.rep.nil_not_mem (hperm.mem_iff.1 hm), rfl, rfl, rfl, hb, hshape _,
      fun k => Find_absent (hshape _) (by simp), fun e => absurd e hr⟩

theorem Clear_releases_every_node_witness :
    Shape state3 tree3 ∧ SentinelBlack state3 ∧
      ∃ s', Clear state3 = some s'
        ∧ s'.freed = tree3.postorder.reverse ++ state3.freed
        ∧ tree3.postorder.Perm tree3.addrs ∧ tree3.postorder.Nodup
        ∧ state3.nil_ ∉ tree3.postorder
        ∧ s'.root_ = s'.nil_ ∧ s'.nil_ = state3.nil_ ∧ s'.heap = state3.heap
        ∧ SentinelBlack s' ∧ Shape s' leaf ∧ (∀ k, Find s' k = some (End s'))
        ∧ (state3.root_ = state3.nil_ → s' = state3) :=
  ⟨state3_invariants.shape, state3_invariants.sentinel,
    Clear_releases_every_node state3 tree3 state3_invariants.shape state3_invariants.sentinel⟩

end RBT

namespace RBT

variable {K V : Type}

open RedBlackTree Tree

/-- One round of the loop of `InsertFixup`: while the test holds, the loop continues after one
pass through the body. -/
theorem InsertFixupLoop_pass (fuel : Nat) (s : RedBlackTree K V) (node : Nat)
    (h : InsertFixupCond s node) :
    InsertFixupLoop (fuel + 1) s node
      = InsertFixupLoop fuel (InsertFixupBody s node).1 (InsertFixupBody s node).2 := by
  unfold InsertFixupCond at h
  rw [InsertFixupLoop]
  unfold InsertFixupBody
  simp only [h, if_true]
  split_ifs <;> rfl

/-- The distance to the root of the node in the hole of a path is the depth of the path. -/
theorem stepsToRoot_focus : ∀ (P : Path K V) (t : Tree K V) (s : RedBlackTree K V) (fuel : Nat),
    FocusShape s P t → P.depth < fuel →
    stepsToRoot s fuel (t.rootAddr s.nil_) = some P.depth
  | .top, t, s, fuel, h, hf => by
    obtain ⟨fuel, rfl⟩ : ∃ f, fuel = f + 1 := ⟨fuel - 1, by omega⟩
    have hroot : t.rootAddr s.nil_ = s.root_ := h.1.root.symm
    simp [stepsToRoot, hroot, Path.depth]
  | .left c p kp r up, t, s, fuel, h, hf => by
    obtain ⟨fuel, rfl⟩ : ∃ f, fuel = f + 1 := ⟨fuel - 1, by omega⟩
    have hne := h.ne_root (by simp)
    have hx := h.2
    simp only [Path.parentAddr_left] at hx
    have ih := stepsToRoot_focus up (node c t p kp r) s fuel (FocusShape.of_node h.1)
      (by simp only [Path.depth] at hf; omega)
    simp only [rootAddr_node] at ih
    simp [stepsToRoot, hne, hx, ih, Path.depth]
  | .right c l p kp up, t, s, fuel, h, hf => by
    obtain ⟨fuel, rfl⟩ : ∃ f, fuel = f + 1 := ⟨fuel - 1, by omega⟩
    have hne := h.ne_root (by simp)
    have hx := h.2
    simp only [Path.parentAddr_right] at hx
    have ih := stepsToRoot_focus up (node c l p kp t) s fuel (FocusShape.of_node h.1)
      (by simp only [Path.depth] at hf; omega)
    simp only [rootAddr_node] at ih
    simp [stepsToRoot, hne, hx, ih, Path.depth]

/-- One pass through the body of the loop of `InsertFixup`, entered at the node in the hole of
`P`: the grandparent is a node of the tree, and the body ends at a node strictly closer to the
root with the same nodes in the tree. -/
theorem InsertFixupBody_step (P : Path K V) (t : Tree K V) :
    ∀ (s : RedBlackTree K V), Shape s (P.plug t) → t ≠ leaf → SentinelBlack s →
      (P.plug leaf).rootColor = Color.BLACK → InsertFixupCond s (t.rootAddr s.nil_) →
      (InsertFixupGrandparent s (t.rootAddr s.nil_) ≠ s.nil_
        ∧ InsertFixupGrandparent s (t.rootAddr s.nil_) ∈ (P.plug t).addrs)
      ∧ ∃ (S : RedBlackTree K V) (N : Nat) (P' : Path K V) (t' : Tree K V),
          InsertFixupBody s (t.rootAddr s.nil_) = (S, N)
          ∧ Shape S (P'.plug t') ∧ t' ≠ leaf ∧ t'.rootAddr s.nil_ = N
          ∧ P'.depth < P.depth ∧ Frame s S
          ∧ (P'.plug t').toList = (P.plug t).toList
          ∧ (InsertFixupCond S N → (P'.plug leaf).rootColor = Color.BLACK) := by
  induction P, t using insFix.induct with
  | case1 t =>
    intro s h ht hb _ hc
    exfalso
    obtain ⟨ct, tl, z, kz, tr, rfl⟩ : ∃ ct tl z kz tr, t = node ct tl z kz tr := by
      cases t <;> simp at ht ⊢
    have := (Shape.focus (P := .top) h).2
    have hb' : (s.heap s.nil_).color = Color.BLACK := hb
    unfold InsertFixupCond at hc
    simp [this, hb'] at hc
  | case2 p kp r up t =>
    intro s h ht hb _ hc
    exfalso
    obtain ⟨ct, tl, z, kz, tr, rfl⟩ : ∃ ct tl z kz tr, t = node ct tl z kz tr := by
      cases t <;> simp at ht ⊢
    have := (Shape.focus h).2
    have hp := (Shape.focus (P := up) h).2
    unfold InsertFixupCond at hc
    simp [this, hp] at hc
  | case3 l p kp up t =>
    intro s h ht hb _ hc
    exfalso
    obtain ⟨ct, tl, z, kz, tr, rfl⟩ : ∃ ct tl z kz tr, t = node ct tl z kz tr := by
      cases t <;> simp at ht ⊢
    have := (Shape.focus h).2
    have hp := (Shape.focus (P := up) h).2
    unfold InsertFixupCond at hc
    simp [this, hp] at hc
  | case4 p kp r t =>
    intro s h ht hb hroot hc
    simp at hroot
  | case5 l p kp t =>
    intro s h ht hb hroot hc
    simp at hroot
  | case6 p kp r c g kg u upg t hu ih =>
    intro s h ht hb hroot hc
    obtain ⟨ct, tl, z, kz, tr, rfl⟩ : ∃ ct tl z kz tr, t = node ct tl z kz tr := by
      cases t <;> simp at ht ⊢
    obtain ⟨ul, ua, ku, ur, rfl⟩ : ∃ ul ua ku ur, u = node Color.RED ul ua ku ur := by
      cases u <;> simp at hu ⊢; exact hu
    have hz := (Shape.focus h).2
    have hp := (Shape.focus (P := .left c g kg _ upg) h).2
    have hg := (Shape.focus (P := upg) h).2
    have hgn := (Shape.focus (P := upg) h).1
    have hua := (Shape.focus (P := .right c _ g kg upg) h).2
    simp only [Path.parentAddr_left, rootAddr_node] at hz hp hg
    have h1 := setColor_shape (P := .left c g kg _ upg) h Color.BLACK
    have h2 := setColor_shape (P := .right c _ g kg upg) h1.1 Color.BLACK
    have h3 := setColor_shape (P := upg) h2.1 Color.RED
    have hfr := (h1.2.trans h2.2).trans h3.2
    have hgp : InsertFixupGrandparent s z = g := by
      unfold InsertFixupGrandparent
      simp only [hz, hp]
    refine ⟨⟨?_, ?_⟩, _, g, upg, _, ?_, h3.1, by simp, rfl,
      by simp only [Path.depth]; omega, hfr, ?_,
      fun _ => rootColor_plug_up _ _ _ _ _ _ (rootColor_plug_up _ _ _ _ _ _ hroot)⟩
    · simp only [rootAddr_node, hgp]; exact hgn
    · simp only [rootAddr_node, hgp]
      show g ∈ (upg.plug (node c _ g kg _)).addrs
      rw [Path.mem_addrs_plug]
      simp
    · unfold InsertFixupBody
      simp only [rootAddr_node, hz, hp, hg, hua, if_true, setColor_nil_]
    · simp [Path.toList_plug]
  | case7 p kp r c g kg u upg t hu =>
    intro s h ht hb hroot hc
    obtain ⟨ct, tl, z, kz, tr, rfl⟩ : ∃ ct tl z kz tr, t = node ct tl z kz tr := by
      cases t <;> simp at ht ⊢
    have hz := (Shape.focus h).2
    have hp := (Shape.focus (P := .left c g kg _ upg) h).2
    have hg := (Shape.focus (P := upg) h).2
    have hgn := (Shape.focus (P := upg) h).1
    have hua := Shape.color_right (P := upg) h hb
    have hzr := Shape.sibling_right_ne h (x := z) (by simp)
    simp only [Path.parentAddr_left, rootAddr_node] at hz hp hg hzr
    have h1 := setColor_shape (P := .left c g kg _ upg) h Color.BLACK
    have h2 := setColor_shape (P := upg) h1.1 Color.RED
    have h3 := RightRotate_shape (P := upg) h2.1
    have hfr := (h1.2.trans h2.2).trans h3.2
    have hz3 := (Shape.focus (P := .left _ p kp _ upg) h3.1).2
    have hp3 := (Shape.focus (P := upg) h3.1).2
    simp only [Path.parentAddr_left] at hz3
    have hgp : InsertFixupGrandparent s z = g := by
      unfold InsertFixupGrandparent
      simp only [hz, hp]
    refine ⟨⟨?_, ?_⟩, _, z, .left _ p kp _ upg, _, ?_, h3.1, by simp, rfl,
      by simp only [Path.depth]; omega, hfr, ?_, fun hc' => ?_⟩
    · simp only [rootAddr_node, hgp]; exact hgn
    · simp only [rootAddr_node, hgp]
      show g ∈ (upg.plug (node c _ g kg _)).addrs
      rw [Path.mem_addrs_plug]
      simp
    · unfold InsertFixupBody
      simp only [rootAddr_node, hz, hp, hg, hua, hu, if_true, if_false, setColor_nil_,
        Ne.symm hzr, setColor_heap]
    · simp [Path.toList_plug]
    · exfalso
      unfold InsertFixupCond at hc'
      simp [hz3, hp3] at hc'
  | case8 l p kp c g kg u upg t hu ih =>
    intro s h ht hb hroot hc
    obtain ⟨ct, tl, z, kz, tr, rfl⟩ : ∃ ct tl z kz tr, t = node ct tl z kz tr := by
      cases t <;> simp at ht ⊢
    obtain ⟨ul, ua, ku, ur, rfl⟩ : ∃ ul ua ku ur, u = node Color.RED ul ua ku ur := by
      cases u <;> simp at hu ⊢; exact hu
    have hz := (Shape.focus h).2
    have hp := (Shape.focus (P := .left c g kg _ upg) h).2
    have hg := (Shape.focus (P := upg) h).2
    have hgn := (Shape.focus (P := upg) h).1
    have hua := (Shape.focus (P := .right c _ g kg upg) h).2
    simp only [Path.parentAddr_left, Path.parentAddr_right, rootAddr_node] at hz hp hg
    have h1 := setColor_shape (P := .left c g kg _ upg) h Color.BLACK
    have h2 := setColor_shape (P := .right c _ g kg upg) h1.1 Color.BLACK
    have h3 := setColor_shape (P := upg) h2.1 Color.RED
    have hfr := (h1.2.trans h2.2).trans h3.2
    have hgp : InsertFixupGrandparent s z = g := by
      unfold InsertFixupGrandparent
      simp only [hz, hp]
    refine ⟨⟨?_, ?_⟩, _, g, upg, _, ?_, h3.1, by simp, rfl,
      by simp only [Path.depth]; omega, hfr, ?_,
      fun _ => rootColor_plug_up _ _ _ _ _ _ (rootColor_plug_up _ _ _ _ _ _ hroot)⟩
    · simp only [rootAddr_node, hgp]; exact hgn
    · simp only [rootAddr_node, hgp]
      show g ∈ (upg.plug (node c _ g kg _)).addrs
      rw [Path.mem_addrs_plug]
      simp
    · unfold InsertFixupBody
      simp only [rootAddr_node, hz, hp, hg, hua, if_true, setColor_nil_]
    · simp [Path.toList_plug]
  | case9 l p kp c g kg u upg hu =>
    intro s h ht
    exact absurd rfl ht
  | case10 l p kp c g kg u upg hu ct tl z kz tr =>
    intro s h ht hb hroot hc
    have hz := (Shape.focus h).2
    have hp := (Shape.focus (P := .left c g kg _ upg) h).2
    have hg := (Shape.focus (P := upg) h).2
    have hgn := (Shape.focus (P := upg) h).1
    have hua := Shape.color_right (P := upg) h hb
    simp only [Path.parentAddr_left, Path.parentAddr_right, rootAddr_node] at hz hp hg
    have h0 := LeftRotate_shape (P := .left c g kg _ upg) h
    have hp0 := (Shape.focus (P := .left _ z kz _ (.left c g kg _ upg)) h0.1).2
    simp only [Path.parentAddr_left] at hp0
    have h1 := setColor_shape (P := .left c g kg _ upg) h0.1 Color.BLACK
    have h2 := setColor_shape (P := upg) h1.1 Color.RED
    have h3 := RightRotate_shape (P := upg) h2.1
    have hfr := ((h0.2.trans h1.2).trans h2.2).trans h3.2
    have hp3 := (Shape.focus (P := .left _ z kz _ upg) h3.1).2
    have hz3 := (Shape.focus (P := upg) h3.1).2
    simp only [Path.parentAddr_left] at hp3
    have hgp : InsertFixupGrandparent s z = g := by
      unfold InsertFixupGrandparent
      simp only [hz, hp]
    refine ⟨⟨?_, ?_⟩, _, p, .left _ z kz _ upg, _, ?_, h3.1, by simp, rfl,
      by simp only [Path.depth]; omega, hfr, ?_, fun hc' => ?_⟩
    · simp only [rootAddr_node, hgp]; exact hgn
    · simp only [rootAddr_node, hgp]
      show g ∈ (upg.plug (node c _ g kg _)).addrs
      rw [Path.mem_addrs_plug]
      simp
    · unfold InsertFixupBody
      simp only [rootAddr_node, hz, hp, hg, hua, hu, if_true, if_false, setColor_nil_, hp0]
    · simp [Path.toList_plug]
    · exfalso
      unfold InsertFixupCond at hc'
      simp [hz3, hp3] at hc'
  | case11 p kp r c u g kg upg t hu ih =>
    intro s h ht hb hroot hc
    obtain ⟨ct, tl, z, kz, tr, rfl⟩ : ∃ ct tl z kz tr, t = node ct tl z kz tr := by
      cases t <;> simp at ht ⊢
    obtain ⟨ul, ua, ku, ur, rfl⟩ : ∃ ul ua ku ur, u = node Color.RED ul ua ku ur := by
      cases u <;> simp at hu ⊢; exact hu
    have hz := (Shape.focus h).2
    have hp := (Shape.focus (P := .right c _ g kg upg) h).2
    have hg := (Shape.focus (P := upg) h).2
    have hgn := (Shape.focus (P := upg) h).1
    have hua := (Shape.focus (P := .left c g kg _ upg) h).2
    have hpu := @Shape.sibling_left_ne _ _ _ upg _ _ _ _ _ h p (by simp)
    simp only [Path.parentAddr_left, Path.parentAddr_right, rootAddr_node] at hz hp hg hpu
    have h1 := setColor_shape (P := .right c _ g kg upg) h Color.BLACK
    have h2 := setColor_shape (P := .left c g kg _ upg) h1.1 Color.BLACK
    have h3 := setColor_shape (P := upg) h2.1 Color.RED
    have hfr := (h1.2.trans h2.2).trans h3.2
    have hgp : InsertFixupGrandparent s z = g := by
      unfold InsertFixupGrandparent
      simp only [hz, hp]
    refine ⟨⟨?_, ?_⟩, _, g, upg, _, ?_, h3.1, by simp, rfl,
      by simp only [Path.depth]; omega, hfr, ?_,
      fun _ => rootColor_plug_up _ _ _ _ _ _ (rootColor_plug_up _ _ _ _ _ _ hroot)⟩
    · simp only [rootAddr_node, hgp]; exact hgn
    · simp only [rootAddr_node, hgp]
      show g ∈ (upg.plug (node c _ g kg _)).addrs
      rw [Path.mem_addrs_plug]
      simp
    · unfold InsertFixupBody
      simp only [rootAddr_node, hz, hp, hg, hua, if_true, if_false, setColor_nil_, Ne.symm hpu]
    · simp [Path.toList_plug]
  | case12 p kp r c u g kg upg hu =>
    intro s h ht
    exact absurd rfl ht
  | case13 p kp r c u g kg upg hu ct tl z kz tr =>
    intro s h ht hb hroot hc
    have hz := (Shape.focus h).2
    have hp := (Shape.focus (P := .right c _ g kg upg) h).2
    have hg := (Shape.focus (P := upg) h).2
    have hgn := (Shape.focus (P := upg) h).1
    have hua := Shape.color_left (P := upg) h hb
    have hpu := @Shape.sibling_left_ne _ _ _ upg _ _ _ _ _ h p (by simp)
    simp only [Path.parentAddr_left, Path.parentAddr_right, rootAddr_node] at hz hp hg hpu
    have h0 := RightRotate_shape (P := .right c _ g kg upg) h
    have hp0 := (Shape.focus (P := .right _ _ z kz (.right c _ g kg upg)) h0.1).2
    simp only [Path.parentAddr_right] at hp0
    have h1 := setColor_shape (P := .right c _ g kg upg) h0.1 Color.BLACK
    have h2 := setColor_shape (P := upg) h1.1 Color.RED
    have h3 := LeftRotate_shape (P := upg) h2.1
    have hfr := ((h0.2.trans h1.2).trans h2.2).trans h3.2
    have hp3 := (Shape.focus (P := .right _ _ z kz upg) h3.1).2
    have hz3 := (Shape.focus (P := upg) h3.1).2
    simp only [Path.parentAddr_right] at hp3
    have hgp : InsertFixupGrandparent s z = g := by
      unfold InsertFixupGrandparent
      simp only [hz, hp]
    refine ⟨⟨?_, ?_⟩, _, p, .right _ _ z kz upg, _, ?_, h3.1, by simp, rfl,
      by simp only [Path.depth]; omega, hfr, ?_, fun hc' => ?_⟩
    · simp only [rootAddr_node, hgp]; exact hgn
    · simp only [rootAddr_node, hgp]
      show g ∈ (upg.plug (node c _ g kg _)).addrs
      rw [Path.mem_addrs_plug]
      simp
    · unfold InsertFixupBody
      simp only [rootAddr_node, hz, hp, hg, hua, hu, if_true, if_false, setColor_nil_, hp0,
        Ne.symm hpu]
    · simp [Path.toList_plug]
    · exfalso
      unfold InsertFixupCond at hc'
      simp [hz3, hp3] at hc'
  | case14 l p kp c u g kg upg t hu ih =>
    intro s h ht hb hroot hc
    obtain ⟨ct, tl, z, kz, tr, rfl⟩ : ∃ ct tl z kz tr, t = node ct tl z kz tr := by
      cases t <;> simp at ht ⊢
    obtain ⟨ul, ua, ku, ur, rfl⟩ : ∃ ul ua ku ur, u = node Color.RED ul ua ku ur := by
      cases u <;> simp at hu ⊢; exact hu
    have hz := (Shape.focus h).2
    have hp := (Shape.focus (P := .right c _ g kg upg) h).2
    have hg := (Shape.focus (P := upg) h).2
    have hgn := (Shape.focus (P := upg) h).1
    have hua := (Shape.focus (P := .left c g kg _ upg) h).2
    have hpu := @Shape.sibling_left_ne _ _ _ upg _ _ _ _ _ h p (by simp)
    simp only [Path.parentAddr_left, Path.parentAddr_right, rootAddr_node] at hz hp hg hpu
    have h1 := setColor_shape (P := .right c _ g kg upg) h Color.BLACK
    have h2 := setColor_shape (P := .left c g kg _ upg) h1.1 Color.BLACK
    have h3 := setColor_shape (P := upg) h2.1 Color.RED
    have hfr := (h1.2.trans h2.2).trans h3.2
    have hgp : InsertFixupGrandparent s z = g := by
      unfold InsertFixupGrandparent
      simp only [hz, hp]
    refine ⟨⟨?_, ?_⟩, _, g, upg, _, ?_, h3.1, by simp, rfl,
      by simp only [Path.depth]; omega, hfr, ?_,
      fun _ => rootColor_plug_up _ _ _ _ _ _ (rootColor_plug_up _ _ _ _ _ _ hroot)⟩
    · simp only [rootAddr_node, hgp]; exact hgn
    · simp only [rootAddr_node, hgp]
      show g ∈ (upg.plug (node c _ g kg _)).addrs
      rw [Path.mem_addrs_plug]
      simp
    · unfold InsertFixupBody
      simp only [rootAddr_node, hz, hp, hg, hua, if_true, if_false, setColor_nil_, Ne.symm hpu]
    · simp [Path.toList_plug]
  | case15 l p kp c u g kg upg t hu =>
    intro s h ht hb hroot hc
    obtain ⟨ct, tl, z, kz, tr, rfl⟩ : ∃ ct tl z kz tr, t = node ct tl z kz tr := by
      cases t <;> simp at ht ⊢
    have hz := (Shape.focus h).2
    have hp := (Shape.focus (P := .right c _ g kg upg) h).2
    have hg := (Shape.focus (P := upg) h).2
    have hgn := (Shape.focus (P := upg) h).1
    have hua := Shape.color_left (P := upg) h hb
    have hpu := @Shape.sibling_left_ne _ _ _ upg _ _ _ _ _ h p (by simp)
    have hzl := Shape.sibling_left_ne h (x := z) (by simp)
    simp only [Path.parentAddr_left, Path.parentAddr_right, rootAddr_node] at hz hp hg hpu hzl
    have h1 := setColor_shape (P := .right c _ g kg upg) h Color.BLACK
    have h2 := setColor_shape (P := upg) h1.1 Color.RED
    have h3 := LeftRotate_shape (P := upg) h2.1
    have hfr := (h1.2.trans h2.2).trans h3.2
    have hz3 := (Shape.focus (P := .right _ _ p kp upg) h3.1).2
    have hp3 := (Shape.focus (P := upg) h3.1).2
    simp only [Path.parentAddr_right] at hz3
    have hgp : InsertFixupGrandparent s z = g := by
      unfold InsertFixupGrandparent
      simp only [hz, hp]
    refine ⟨⟨?_, ?_⟩, _, z, .right _ _ p kp upg, _, ?_, h3.1, by simp, rfl,
      by simp only [Path.depth]; omega, hfr, ?_, fun hc' => ?_⟩
    · simp only [rootAddr_node, hgp]; exact hgn
    · simp only [rootAddr_node, hgp]
      show g ∈ (upg.plug (node c _ g kg _)).addrs
      rw [Path.mem_addrs_plug]
      simp
    · unfold InsertFixupBody
      simp only [rootAddr_node, hz, hp, hg, hua, hu, if_true, if_false, setColor_nil_,
        Ne.symm hzl, Ne.symm hpu, setColor_heap]
    · simp [Path.toList_plug]
    · exfalso
      unfold InsertFixupCond at hc'
      simp [hz3, hp3] at hc'

end RBT

namespace RBT

variable {K V : Type}

open RedBlackTree Tree

theorem DeleteFixupRestL_bind (loop : RedBlackTree K V → Nat → Option (RedBlackTree K V × Nat))
    (s : RedBlackTree K V) (node sibling : Nat) :
    DeleteFixupRestL loop s node sibling
      = (DeleteFixupRestL (fun s node => some (s, node)) s node sibling).bind
          fun r => loop r.1 r.2 := by
  unfold DeleteFixupRestL
  split_ifs <;> rfl

theorem DeleteFixupRestR_bind (loop : RedBlackTree K V → Nat → Option (RedBlackTree K V × Nat))
    (s : RedBlackTree K V) (node sibling : Nat) :
    DeleteFixupRestR loop s node sibling
      = (DeleteFixupRestR (fun s node => some (s, node)) s node sibling).bind
          fun r => loop r.1 r.2 := by
  unfold DeleteFixupRestR
  split_ifs <;> rfl

/-- One round of the loop of `DeleteFixup`: while the test holds, the loop continues after one
pass through the body. -/
theorem DeleteFixupLoop_pass (fuel : Nat) (s : RedBlackTree K V) (node : Nat)
    (h : DeleteFixupCond s node) :
    DeleteFixupLoop (fuel + 1) s node
      = (DeleteFixupBody s node).bind fun r => DeleteFixupLoop fuel r.1 r.2 := by
  have h' : node ≠ s.root_ ∧ (s.heap node).color = Color.BLACK := h
  rw [DeleteFixupLoop_succ, if_pos h']
  unfold DeleteFixupBody
  split_ifs
  · exact DeleteFixupRestL_bind _ _ _ _
  · exact DeleteFixupRestR_bind _ _ _ _

/-- The root of a non-empty tree is a focus with the empty path. -/
theorem FocusShape.top_of_ne {s : RedBlackTree K V} {T : Tree K V} (h : Shape s T)
    (hT : T ≠ leaf) : FocusShape s .top T := by
  cases T with
  | leaf => exact absurd rfl hT
  | node c l a kv r => exact FocusShape.of_node (P := .top) h

/-- The variable `sibling` after the near-nephew-RED case is a node of the subtree of the
sibling. -/
theorem DeleteFixupSiblingL3_mem {s : RedBlackTree K V} {up : Path K V} {cp : Color}
    {t w : Tree K V} {p : Nat} {kp : K × V} {r : Tree K V ⊕ Tree K V}
    (h : FocusShape s (.left cp p kp w up) t) (hb : SentinelBlack s)
    (hd : delSibL up cp t p kp w = some r) :
    DeleteFixupSiblingL3 s (t.rootAddr s.nil_) (w.rootAddr s.nil_) ∈ w.addrs := by
  cases w with
  | leaf => simp [delSibL] at hd
  | node cw wl wa kw wr =>
    have hx := h.2
    have hp := (Shape.focus (P := up) h.1).2
    have hwa := (Shape.focus (P := .right cp t p kp up) h.1).2
    have hcl := Shape.color_left (P := .right cp t p kp up) h.1 hb
    have hcr := Shape.color_right (P := .right cp t p kp up) h.1 hb
    simp only [Path.parentAddr_left, rootAddr_node] at hx hp
    simp only [delSibL] at hd
    split_ifs at hd with hc hc2
    · unfold DeleteFixupSiblingL3
      simp only [rootAddr_node, hwa, hcl, hcr, hc, and_self, if_true]
      simp
    · cases wl with
      | leaf => simp at hd
      | node cwl wll wla kwl wlr =>
        have hwlc : ¬ cwl = Color.BLACK := fun e => hc ⟨e, hc2⟩
        simp only [rootAddr_node, rootColor_node] at hcl hcr hwa
        have h1 := setColor_shape (P := .left cw wa kw wr (.right cp t p kp up)) h.1
          Color.BLACK
        have h2 := setColor_shape (P := .right cp t p kp up) h1.1 Color.RED
        have h3 := RightRotate_shape (P := .right cp t p kp up) h2.1
        have hfr3 := (h1.2.trans h2.2).trans h3.2
        have hf3 : FocusShape _ (.left cp p kp _ up) t := h.of_frame h3.1 hfr3 rfl
        have hx3 := hf3.2
        have hp3 := (Shape.focus (P := up) h3.1).2
        simp only [Path.parentAddr_left, rootAddr_node, hfr3.nil_] at hx3 hp3
        unfold DeleteFixupSiblingL3
        simp only [rootAddr_node, hwa, hcl, hcr, hwlc, hc2, false_and, and_true, if_true,
          if_false, setColor_heap_parent, setColor_heap_right, setColor_heap_left, hx3, hp3]
        simp
    · have hc2' : ¬ wr.rootColor = Color.BLACK := hc2
      unfold DeleteFixupSiblingL3
      simp only [rootAddr_node, hwa, hcl, hcr, hc2', and_false, if_false]
      simp

/-- One pass through the body of the loop of `DeleteFixup` for a left child: the values of
`sibling` are nodes of the sibling subtree, and the body ends at a focus of the same tree
which, when the loop continues, is closer to the root and again one black node short. -/
theorem DeleteFixupBody_stepL {s : RedBlackTree K V} {up : Path K V} {cp : Color}
    {t w : Tree K V} {p : Nat} {kp : K × V}
    (h : FocusShape s (.left cp p kp w up) t) (hb : SentinelBlack s)
    (hpn : (Path.left cp p kp w up).NoRedRed) (hpb : (Path.left cp p kp w up).Bal (t.bh + 1))
    (h3 : t.Bal) (h4 : (t.paint Color.BLACK).NoRedRed)
    (hroot : ((Path.left cp p kp w up).plug leaf).rootColor = Color.BLACK)
    (hc : DeleteFixupCond s (t.rootAddr s.nil_)) :
    (∀ x ∈ DeleteFixupSiblings s (t.rootAddr s.nil_), x ∈ w.addrs)
      ∧ ∃ (S : RedBlackTree K V) (P' : Path K V) (t' : Tree K V),
          DeleteFixupBody s (t.rootAddr s.nil_) = some (S, t'.rootAddr s.nil_)
          ∧ FocusShape S P' t' ∧ Frame s S
          ∧ (P'.plug t').toList = ((Path.left cp p kp w up).plug t).toList
          ∧ P'.depth ≤ up.depth + 1
          ∧ (DeleteFixupCond S (t'.rootAddr s.nil_) →
              P'.depth < up.depth + 1 ∧ P'.NoRedRed ∧ P'.Bal (t'.bh + 1) ∧ t'.Bal
                ∧ (t'.paint Color.BLACK).NoRedRed
                ∧ (P'.plug leaf).rootColor = Color.BLACK) := by
  have hcol := h.color hb
  have hx := h.2
  have hp := (Shape.focus (P := up) h.1).2
  simp only [Path.parentAddr_left] at hx
  have hside : t.rootAddr s.nil_ = (s.heap (s.heap (t.rootAddr s.nil_)).parent).left := by
    simp [hx, hp]
  have htb : t.rootColor = Color.BLACK := by rw [← hcol]; exact hc.2
  rw [paint_black_of_black htb] at h4
  simp only [Path.noRedRed_left, Path.bal_left] at hpn hpb
  obtain ⟨hcp, hwn, hupn⟩ := hpn
  obtain ⟨hwb, hwbal, hupb⟩ := hpb
  have hs0 : (s.heap (s.heap (t.rootAddr s.nil_)).parent).right = w.rootAddr s.nil_ := by
    simp [hx, hp]
  have hwne : w ≠ leaf := bh_pos_ne_leaf hwb
  have hwmem : w.rootAddr s.nil_ ∈ w.addrs := (Tree.rootAddr_mem_or s.nil_ w).resolve_left hwne
  by_cases hw : w.rootColor = Color.RED
  · -- the sibling is RED
    have hcpb : cp = Color.BLACK := by
      rcases color_cases cp with h | h
      · exact h
      · rw [(hcp h).1] at hw; cases hw
    subst hcpb
    cases w with
    | leaf => simp at hw
    | node cw wl wa kw wr =>
      simp only [rootColor_node] at hw
      subst hw
      simp only [bal_node, bh_node, noRedRed_node, true_implies, if_false, if_true,
        reduceCtorEq, add_zero] at hwb hwbal hwn hupb
      obtain ⟨e1, hlb, hrb⟩ := hwbal
      obtain ⟨⟨c1, c2⟩, hln, hrn⟩ := hwn
      have hu1 : (Path.left Color.BLACK wa kw wr up).NoRedRed := by
        simp only [Path.noRedRed_left, reduceCtorEq, false_implies, true_and]
        exact ⟨hrn, hupn⟩
      have hu2 : (Path.left Color.BLACK wa kw wr up).Bal
          (t.bh + 1 + (if Color.RED = Color.BLACK then 1 else 0)) := by
        simp only [Path.bal_left, if_true, reduceCtorEq, if_false, add_zero]
        exact ⟨by omega, hrb, hupb⟩
      obtain ⟨r, hr⟩ : ∃ r, delSibL (.left Color.BLACK wa kw wr up) Color.RED t p kp wl
          = some r := delSibL_some hwb c1
      obtain ⟨s1, es1, hf1, hfr1⟩ := DeleteFixupSiblingL_red h rfl
      have hb1 := hfr1.sentinelBlack hb
      have hwlne : wl ≠ leaf := bh_pos_ne_leaf hwb
      have hwlmem : wl.rootAddr s.nil_ ∈ wl.addrs :=
        (Tree.rootAddr_mem_or s.nil_ wl).resolve_left hwlne
      have h3mem := DeleteFixupSiblingL3_mem hf1 hb1 hr
      rw [hfr1.nil_] at h3mem
      refine ⟨?_, ?_⟩
      · intro x hxm
        unfold DeleteFixupSiblings at hxm
        rw [if_pos hside, hs0, es1] at hxm
        simp only [List.mem_cons, List.mem_singleton, List.not_mem_nil, or_false] at hxm
        rcases hxm with rfl | rfl | rfl
        · exact hwmem
        · simp [hwlmem]
        · simp [h3mem]
      · have hbody : DeleteFixupBody s (t.rootAddr s.nil_)
            = DeleteFixupRestL (fun s node => some (s, node)) s1 (t.rootAddr s1.nil_)
                (wl.rootAddr s1.nil_) := by
          unfold DeleteFixupBody
          rw [if_pos hside, es1, hfr1.nil_]
        cases r with
        | inl t' =>
          obtain ⟨i1, i2, i3, -, i5⟩ := delSibL_inl_inv hr hwb c1 hlb hln h3 h4
          obtain ⟨s2, e2, h2, -, hfr2⟩ := DeleteFixupRestL_inl (fun s node => some (s, node))
            hf1 hb1 hr
          obtain ⟨w', rfl⟩ := delSibL_inl hr
          have hF2 : FocusShape s2 (.left Color.BLACK wa kw wr up) (node Color.RED t p kp w') :=
            FocusShape.of_node h2
          refine ⟨s2, .left Color.BLACK wa kw wr up, node Color.RED t p kp w', ?_, hF2,
            hfr1.trans hfr2, ?_, by simp [Path.depth], fun hc' => ?_⟩
          · rw [hbody, e2]; rfl
          · simp only [Path.plug_left, Path.toList_plug, toList_node] at i5 ⊢
            simp [i5]
          · exfalso
            have hcol2 := hF2.color (hfr2.sentinelBlack hb1)
            simp only [rootAddr_node, rootColor_node] at hcol2
            have := hc'.2
            simp only [rootAddr_node] at this
            rw [hcol2] at this
            cases this
        | inr T0 =>
          obtain ⟨i1, i2, i3, -⟩ := delSibL_inr_inv hr hwb c1 hlb hln h3 h4 hu1 hu2
            (fun _ => rfl)
          obtain ⟨s2, e2, h2, hfr2⟩ := DeleteFixupRestL_inr (fun s node => some (s, node))
            hf1 hb1 hr
          have hT0 : T0 ≠ leaf := by
            rintro rfl
            simp [Path.toList_plug] at i3
          have hnil : s2.nil_ = s.nil_ := (hfr1.trans hfr2).nil_
          refine ⟨s2, .top, T0, ?_, FocusShape.top_of_ne h2 hT0, hfr1.trans hfr2, ?_,
            by simp [Path.depth], fun hc' => ?_⟩
          · rw [hbody, e2, h2.root, hnil]
          · simp only [Path.plug_top, i3, Path.plug_left, Path.toList_plug, toList_node]
            simp
          · exfalso
            exact hc'.1 (by rw [h2.root, hnil])
  · -- the sibling is BLACK
    have hwc : w.rootColor = Color.BLACK := ne_red_iff.1 hw
    obtain ⟨r, hr⟩ : ∃ r, delSibL up cp t p kp w = some r := delSibL_some hwb hwc
    have es1 := DeleteFixupSiblingL_black h hb hw
    have h3mem := DeleteFixupSiblingL3_mem h hb hr
    refine ⟨?_, ?_⟩
    · intro x hxm
      unfold DeleteFixupSiblings at hxm
      rw [if_pos hside, hs0, es1] at hxm
      simp only [List.mem_cons, List.mem_singleton, List.not_mem_nil, or_false] at hxm
      rcases hxm with rfl | rfl | rfl
      · exact hwmem
      · exact hwmem
      · exact h3mem
    · have hbody : DeleteFixupBody s (t.rootAddr s.nil_)
          = DeleteFixupRestL (fun s node => some (s, node)) s (t.rootAddr s.nil_)
              (w.rootAddr s.nil_) := by
        unfold DeleteFixupBody
        rw [if_pos hside, es1]
      cases r with
      | inl t' =>
        obtain ⟨i1, i2, i3, -, i5⟩ := delSibL_inl_inv hr hwb hwc hwbal hwn h3 h4
        obtain ⟨s2, e2, h2, -, hfr2⟩ := DeleteFixupRestL_inl (fun s node => some (s, node))
          h hb hr
        obtain ⟨w', rfl⟩ := delSibL_inl hr
        have hb' : up.Bal ((node cp t p kp w').bh + 1) := by
          have : (node cp t p kp w').bh + 1
              = t.bh + 1 + (if cp = Color.BLACK then 1 else 0) := by omega
          rw [this]; exact hupb
        refine ⟨s2, up, node cp t p kp w', ?_, FocusShape.of_node h2, hfr2, ?_,
          by omega, fun _ => ⟨by omega, hupn, hb', i1, i3,
            rootColor_plug_up _ _ _ _ _ _ hroot⟩⟩
        · rw [hbody, e2]; rfl
        · simp only [Path.plug_left, Path.toList_plug, i5]
      | inr T0 =>
        obtain ⟨i1, i2, i3, -⟩ := delSibL_inr_inv hr hwb hwc hwbal hwn h3 h4 hupn hupb
          (fun h => (hcp h).2)
        obtain ⟨s2, e2, h2, hfr2⟩ := DeleteFixupRestL_inr (fun s node => some (s, node))
          h hb hr
        have hT0 : T0 ≠ leaf := by
          rintro rfl
          simp [Path.toList_plug] at i3
        refine ⟨s2, .top, T0, ?_, FocusShape.top_of_ne h2 hT0, hfr2, ?_,
          by simp [Path.depth], fun hc' => ?_⟩
        · rw [hbody, e2, h2.root, hfr2.nil_]
        · simp only [Path.plug_top, i3, Path.plug_left]
        · exfalso
          exact hc'.1 (by rw [h2.root, hfr2.nil_])

/-- The mirror image of `DeleteFixupSiblingL3_mem`. -/
theorem DeleteFixupSiblingR3_mem {s : RedBlackTree K V} {up : Path K V} {cp : Color}
    {t w : Tree K V} {p : Nat} {kp : K × V} {r : Tree K V ⊕ Tree K V}
    (h : FocusShape s (.right cp w p kp up) t) (hb : SentinelBlack s)
    (hd : delSibR up cp t p kp w = some r) :
    DeleteFixupSiblingR3 s (t.rootAddr s.nil_) (w.rootAddr s.nil_) ∈ w.addrs := by
  cases w with
  | leaf => simp [delSibR] at hd
  | node cw wl wa kw wr =>
    have hx := h.2
    have hp := (Shape.focus (P := up) h.1).2
    have hwa := (Shape.focus (P := .left cp p kp t up) h.1).2
    have hcl := Shape.color_left (P := .left cp p kp t up) h.1 hb
    have hcr := Shape.color_right (P := .left cp p kp t up) h.1 hb
    simp only [Path.parentAddr_right, rootAddr_node] at hx hp
    simp only [delSibR] at hd
    split_ifs at hd with hc hc2
    · unfold DeleteFixupSiblingR3
      simp only [rootAddr_node, hwa, hcl, hcr, hc, and_self, if_true]
      simp
    · cases wr with
      | leaf => simp at hd
      | node cwr wrl wra kwr wrr =>
        have hwrc : ¬ cwr = Color.BLACK := fun e => hc ⟨hc2, e⟩
        simp only [rootAddr_node, rootColor_node] at hcl hcr hwa
        have h1 := setColor_shape (P := .right cw wl wa kw (.left cp p kp t up)) h.1
          Color.BLACK
        have h2 := setColor_shape (P := .left cp p kp t up) h1.1 Color.RED
        have h3 := LeftRotate_shape (P := .left cp p kp t up) h2.1
        have hfr3 := (h1.2.trans h2.2).trans h3.2
        have hf3 : FocusShape _ (.right cp _ p kp up) t := h.of_frame h3.1 hfr3 rfl
        have hx3 := hf3.2
        have hp3 := (Shape.focus (P := up) h3.1).2
        simp only [Path.parentAddr_right, rootAddr_node, hfr3.nil_] at hx3 hp3
        unfold DeleteFixupSiblingR3
        simp only [rootAddr_node, hwa, hcl, hcr, hwrc, hc2, and_false, true_and, if_true,
          if_false, setColor_heap_parent, setColor_heap_right, setColor_heap_left, hx3, hp3]
        simp
    · have hc2' : ¬ wl.rootColor = Color.BLACK := hc2
      unfold DeleteFixupSiblingR3
      simp only [rootAddr_node, hwa, hcl, hcr, hc2', false_and, if_false]
      simp

/-- The mirror image of `DeleteFixupBody_stepL` for a right child. -/
theorem DeleteFixupBody_stepR {s : RedBlackTree K V} {up : Path K V} {cp : Color}
    {t w : Tree K V} {p : Nat} {kp : K × V}
    (h : FocusShape s (.right cp w p kp up) t) (hb : SentinelBlack s)
    (hpn : (Path.right cp w p kp up).NoRedRed) (hpb : (Path.right cp w p kp up).Bal (t.bh + 1))
    (h3 : t.Bal) (h4 : (t.paint Color.BLACK).NoRedRed)
    (hroot : ((Path.right cp w p kp up).plug leaf).rootColor = Color.BLACK)
    (hc : DeleteFixupCond s (t.rootAddr s.nil_)) :
    (∀ x ∈ DeleteFixupSiblings s (t.rootAddr s.nil_), x ∈ w.addrs)
      ∧ ∃ (S : RedBlackTree K V) (P' : Path K V) (t' : Tree K V),
          DeleteFixupBody s (t.rootAddr s.nil_) = some (S, t'.rootAddr s.nil_)
          ∧ FocusShape S P' t' ∧ Frame s S
          ∧ (P'.plug t').toList = ((Path.right cp w p kp up).plug t).toList
          ∧ P'.depth ≤ up.depth + 1
          ∧ (DeleteFixupCond S (t'.rootAddr s.nil_) →
              P'.depth < up.depth + 1 ∧ P'.NoRedRed ∧ P'.Bal (t'.bh + 1) ∧ t'.Bal
                ∧ (t'.paint Color.BLACK).NoRedRed
                ∧ (P'.plug leaf).rootColor = Color.BLACK) := by
  have hcol := h.color hb
  have hx := h.2
  have hp := (Shape.focus (P := up) h.1).2
  simp only [Path.parentAddr_right] at hx
  have htb : t.rootColor = Color.BLACK := by rw [← hcol]; exact hc.2
  rw [paint_black_of_black htb] at h4
  simp only [Path.noRedRed_right, Path.bal_right] at hpn hpb
  obtain ⟨hcp, hwn, hupn⟩ := hpn
  obtain ⟨hwb, hwbal, hupb⟩ := hpb
  have hs0 : (s.heap (s.heap (t.rootAddr s.nil_)).parent).left = w.rootAddr s.nil_ := by
    simp [hx, hp]
  have hwne : w ≠ leaf := bh_pos_ne_leaf hwb
  have hwmem : w.rootAddr s.nil_ ∈ w.addrs := (Tree.rootAddr_mem_or s.nil_ w).resolve_left hwne
  have hside : ¬ t.rootAddr s.nil_ = (s.heap (s.heap (t.rootAddr s.nil_)).parent).left := by
    rw [hs0]
    intro e
    refine h.rootAddr_not_mem ?_
    rw [e]
    simp [hwmem]
  by_cases hw : w.rootColor = Color.RED
  · -- the sibling is RED
    have hcpb : cp = Color.BLACK := by
      rcases color_cases cp with h | h
      · exact h
      · rw [(hcp h).1] at hw; cases hw
    subst hcpb
    cases w with
    | leaf => simp at hw
    | node cw wl wa kw wr =>
      simp only [rootColor_node] at hw
      subst hw
      simp only [bal_node, bh_node, noRedRed_node, true_implies, if_false, if_true,
        reduceCtorEq, add_zero] at hwb hwbal hwn hupb
      obtain ⟨e1, hlb, hrb⟩ := hwbal
      obtain ⟨⟨c1, c2⟩, hln, hrn⟩ := hwn
      have hwrb : wr.bh = t.bh + 1 := by omega
      have hu1 : (Path.right Color.BLACK wl wa kw up).NoRedRed := by
        simp only [Path.noRedRed_right, reduceCtorEq, false_implies, true_and]
        exact ⟨hln, hupn⟩
      have hu2 : (Path.right Color.BLACK wl wa kw up).Bal
          (t.bh + 1 + (if Color.RED = Color.BLACK then 1 else 0)) := by
        simp only [Path.bal_right, if_true, reduceCtorEq, if_false, add_zero]
        exact ⟨by omega, hlb, hupb⟩
      obtain ⟨r, hr⟩ : ∃ r, delSibR (.right Color.BLACK wl wa kw up) Color.RED t p kp wr
          = some r := delSibR_some hwrb c2
      obtain ⟨s1, es1, hf1, hfr1⟩ := DeleteFixupSiblingR_red h rfl
      have hb1 := hfr1.sentinelBlack hb
      have hwrne : wr ≠ leaf := bh_pos_ne_leaf hwrb
      have hwrmem : wr.rootAddr s.nil_ ∈ wr.addrs :=
        (Tree.rootAddr_mem_or s.nil_ wr).resolve_left hwrne
      have h3mem := DeleteFixupSiblingR3_mem hf1 hb1 hr
      rw [hfr1.nil_] at h3mem
      refine ⟨?_, ?_⟩
      · intro x hxm
        unfold DeleteFixupSiblings at hxm
        rw [if_neg hside, hs0, es1] at hxm
        simp only [List.mem_cons, List.mem_singleton, List.not_mem_nil, or_false] at hxm
        rcases hxm with rfl | rfl | rfl
        · exact hwmem
        · simp [hwrmem]
        · simp [h3mem]
      · have hbody : DeleteFixupBody s (t.rootAddr s.nil_)
            = DeleteFixupRestR (fun s node => some (s, node)) s1 (t.rootAddr s1.nil_)
                (wr.rootAddr s1.nil_) := by
          unfold DeleteFixupBody
          rw [if_neg hside, es1, hfr1.nil_]
        cases r with
        | inl t' =>
          obtain ⟨i1, i2, i3, -, i5⟩ := delSibR_inl_inv hr hwrb c2 hrb hrn h3 h4
          obtain ⟨s2, e2, h2, -, hfr2⟩ := DeleteFixupRestR_inl (fun s node => some (s, node))
            hf1 hb1 hr
          obtain ⟨w', rfl⟩ := delSibR_inl hr
          have hF2 : FocusShape s2 (.right Color.BLACK wl wa kw up)
              (node Color.RED w' p kp t) := FocusShape.of_node h2
          refine ⟨s2, .right Color.BLACK wl wa kw up, node Color.RED w' p kp t, ?_, hF2,
            hfr1.trans hfr2, ?_, by simp [Path.depth], fun hc' => ?_⟩
          · rw [hbody, e2]; rfl
          · simp only [Path.plug_right, Path.toList_plug, toList_node] at i5 ⊢
            simp [i5]
          · exfalso
            have hcol2 := hF2.color (hfr2.sentinelBlack hb1)
            simp only [rootAddr_node, rootColor_node] at hcol2
            have := hc'.2
            simp only [rootAddr_node] at this
            rw [hcol2] at this
            cases this
        | inr T0 =>
          obtain ⟨i1, i2, i3, -⟩ := delSibR_inr_inv hr hwrb c2 hrb hrn h3 h4 hu1 hu2
            (fun _ => rfl)
          obtain ⟨s2, e2, h2, hfr2⟩ := DeleteFixupRestR_inr (fun s node => some (s, node))
            hf1 hb1 hr
          have hT0 : T0 ≠ leaf := by
            rintro rfl
            simp [Path.toList_plug] at i3
          have hnil : s2.nil_ = s.nil_ := (hfr1.trans hfr2).nil_
          refine ⟨s2, .top, T0, ?_, FocusShape.top_of_ne h2 hT0, hfr1.trans hfr2, ?_,
            by simp [Path.depth], fun hc' => ?_⟩
          · rw [hbody, e2, h2.root, hnil]
          · simp only [Path.plug_top, i3, Path.plug_right, Path.toList_plug, toList_node]
            simp
          · exfalso
            exact hc'.1 (by rw [h2.root, hnil])
  · -- the sibling is BLACK
    have hwc : w.rootColor = Color.BLACK := ne_red_iff.1 hw
    obtain ⟨r, hr⟩ : ∃ r, delSibR up cp t p kp w = some r := delSibR_some hwb hwc
    have es1 := DeleteFixupSiblingR_black h hb hw
    have h3mem := DeleteFixupSiblingR3_mem h hb hr
    refine ⟨?_, ?_⟩
    · intro x hxm
      unfold DeleteFixupSiblings at hxm
      rw [if_neg hside, hs0, es1] at hxm
      simp only [List.mem_cons, List.mem_singleton, List.not_mem_nil, or_false] at hxm
      rcases hxm with rfl | rfl | rfl
      · exact hwmem
      · exact hwmem
      · exact h3mem
    · have hbody : DeleteFixupBody s (t.rootAddr s.nil_)
          = DeleteFixupRestR (fun s node => some (s, node)) s (t.rootAddr s.nil_)
              (w.rootAddr s.nil_) := by
        unfold DeleteFixupBody
        rw [if_neg hside, es1]
      cases r with
      | inl t' =>
        obtain ⟨i1, i2, i3, -, i5⟩ := delSibR_inl_inv hr hwb hwc hwbal hwn h3 h4
        obtain ⟨s2, e2, h2, -, hfr2⟩ := DeleteFixupRestR_inl (fun s node => some (s, node))
          h hb hr
        obtain ⟨w', rfl⟩ := delSibR_inl hr
        have hb' : up.Bal ((node cp w' p kp t).bh + 1) := by
          have : (node cp w' p kp t).bh + 1
              = t.bh + 1 + (if cp = Color.BLACK then 1 else 0) := by omega
          rw [this]; exact hupb
        refine ⟨s2, up, node cp w' p kp t, ?_, FocusShape.of_node h2, hfr2, ?_,
          by omega, fun _ => ⟨by omega, hupn, hb', i1, i3,
            rootColor_plug_up _ _ _ _ _ _ hroot⟩⟩
        · rw [hbody, e2]; rfl
        · simp only [Path.plug_right, Path.toList_plug, i5]
      | inr T0 =>
        have hupb' : up.Bal (t.bh + 1 + (if cp = Color.BLACK then 1 else 0)) := hupb
        obtain ⟨i1, i2, i3, -⟩ := delSibR_inr_inv hr hwb hwc hwbal hwn h3 h4 hupn hupb'
          (fun h => (hcp h).2)
        obtain ⟨s2, e2, h2, hfr2⟩ := DeleteFixupRestR_inr (fun s node => some (s, node))
          h hb hr
        have hT0 : T0 ≠ leaf := by
          rintro rfl
          simp [Path.toList_plug] at i3
        refine ⟨s2, .top, T0, ?_, FocusShape.top_of_ne h2 hT0, hfr2, ?_,
          by simp [Path.depth], fun hc' => ?_⟩
        · rw [hbody, e2, h2.root, hfr2.nil_]
        · simp only [Path.plug_top, i3, Path.plug_right]
        · exfalso
          exact hc'.1 (by rw [h2.root, hfr2.nil_])

end RBT

namespace RBT

variable {K V : Type}

open RedBlackTree Tree

/-- At every test of the loop of `InsertFixup` the variable `node` is a node of the tree, which
still has the nodes it started with, and while the loop continues the root is BLACK. -/
theorem InsertFixupIter_inv {s0 : RedBlackTree K V} {P0 : Path K V} {t0 : Tree K V}
    (h0 : Shape s0 (P0.plug t0)) (ht0 : t0 ≠ leaf) (hb0 : SentinelBlack s0)
    (hroot0 : (P0.plug leaf).rootColor = Color.BLACK) {s : RedBlackTree K V} {node : Nat}
    (hi : InsertFixupIter s0 (t0.rootAddr s0.nil_) s node) :
    ∃ (P : Path K V) (t : Tree K V), Shape s (P.plug t) ∧ t ≠ leaf
      ∧ t.rootAddr s.nil_ = node ∧ SentinelBlack s ∧ Frame s0 s
      ∧ (P.plug t).toList = (P0.plug t0).toList
      ∧ (InsertFixupCond s node → (P.plug leaf).rootColor = Color.BLACK) := by
  induction hi with
  | start => exact ⟨P0, t0, h0, ht0, rfl, hb0, Frame.refl _, rfl, fun _ => hroot0⟩
  | pass hi hc ih =>
    obtain ⟨P, t, hs, ht, rfl, hb, hfr, hl, hr⟩ := ih
    obtain ⟨-, S, N, P', t', e, hs', ht', hN, -, hfr', hl', hr'⟩ :=
      InsertFixupBody_step P t _ hs ht hb (hr hc) hc
    rw [e]
    refine ⟨P', t', hs', ht', ?_, hfr'.sentinelBlack hb, hfr.trans hfr', hl'.trans hl, hr'⟩
    rw [hfr'.nil_]; exact hN

/-- The loop of `InsertFixup` on a node of a tree with BLACK root and BLACK sentinel: it
returns, and in every pass through the body the grandparent is a live node, not the sentinel,
and the body ends strictly closer to the root. -/
theorem InsertFixup_run {s0 : RedBlackTree K V} {P0 : Path K V} {t0 : Tree K V}
    (h0 : Shape s0 (P0.plug t0)) (ht0 : t0 ≠ leaf) (hb0 : SentinelBlack s0)
    (hroot0 : (P0.plug leaf).rootColor = Color.BLACK) :
    (∃ s', InsertFixupLoop s0.brk s0 (t0.rootAddr s0.nil_) = some s')
      ∧ ∀ (s : RedBlackTree K V) (node : Nat),
          InsertFixupIter s0 (t0.rootAddr s0.nil_) s node → InsertFixupCond s node →
          InsertFixupGrandparent s node ≠ s.nil_
            ∧ Live s (InsertFixupGrandparent s node)
            ∧ (∀ fuel, InsertFixupLoop (fuel + 1) s node
                = InsertFixupLoop fuel (InsertFixupBody s node).1 (InsertFixupBody s node).2)
            ∧ ∃ d d', stepsToRoot s s.brk node = some d
                ∧ stepsToRoot (InsertFixupBody s node).1 (InsertFixupBody s node).1.brk
                    (InsertFixupBody s node).2 = some d'
                ∧ d' < d := by
  refine ⟨?_, fun s node hi hc => ?_⟩
  · obtain ⟨s', e, -, -⟩ := InsertFixupLoop_sim P0 t0 s0 s0.brk h0 ht0 hb0 hroot0
      (by have := h0.depth_lt; omega)
    exact ⟨s', e⟩
  · obtain ⟨P, t, hs, ht, rfl, hb, hfr, hl, hr⟩ := InsertFixupIter_inv h0 ht0 hb0 hroot0 hi
    obtain ⟨⟨hg1, hg2⟩, S, N, P', t', e, hs', ht', hN, hd, hfr', hl', hr'⟩ :=
      InsertFixupBody_step P t _ hs ht hb (hr hc) hc
    refine ⟨hg1, ⟨_, hs, hg2⟩, fun fuel => InsertFixupLoop_pass fuel _ _ hc, P.depth,
      P'.depth, ?_, ?_, hd⟩
    · obtain ⟨c, l, a, kv, r, rfl⟩ : ∃ c l a kv r, t = node c l a kv r := by
        cases t <;> simp at ht ⊢
      exact stepsToRoot_focus P _ s s.brk (FocusShape.of_node hs)
        (by have := hs.depth_lt; omega)
    · rw [e]
      obtain ⟨c, l, a, kv, r, rfl⟩ : ∃ c l a kv r, t' = node c l a kv r := by
        cases t' <;> simp at ht' ⊢
      have := stepsToRoot_focus P' _ S S.brk (FocusShape.of_node hs')
        (by have := hs'.depth_lt; omega)
      simp only [rootAddr_node] at this hN
      rw [← hN]; exact this

/-- One pass through the body of the loop of `DeleteFixup` on a tree that is one black node
short in the hole of the path: the values of `sibling` are nodes of the tree, not the sentinel,
and the body ends at a focus of the same tree. -/
theorem DeleteFixupBody_step {s : RedBlackTree K V} {P : Path K V} {t : Tree K V}
    (h : FocusShape s P t) (hb : SentinelBlack s)
    (hpn : P.NoRedRed) (hpb : P.Bal (t.bh + 1)) (h3 : t.Bal)
    (h4 : (t.paint Color.BLACK).NoRedRed) (hroot : (P.plug leaf).rootColor = Color.BLACK)
    (hc : DeleteFixupCond s (t.rootAddr s.nil_)) :
    (∀ x ∈ DeleteFixupSiblings s (t.rootAddr s.nil_), x ≠ s.nil_ ∧ x ∈ (P.plug t).addrs)
      ∧ ∃ (S : RedBlackTree K V) (P' : Path K V) (t' : Tree K V),
          DeleteFixupBody s (t.rootAddr s.nil_) = some (S, t'.rootAddr s.nil_)
          ∧ FocusShape S P' t' ∧ Frame s S
          ∧ (P'.plug t').toList = (P.plug t).toList
          ∧ P'.depth ≤ P.depth
          ∧ (DeleteFixupCond S (t'.rootAddr s.nil_) →
              P'.depth < P.depth ∧ P'.NoRedRed ∧ P'.Bal (t'.bh + 1) ∧ t'.Bal
                ∧ (t'.paint Color.BLACK).NoRedRed
                ∧ (P'.plug leaf).rootColor = Color.BLACK) := by
  have hnil : s.nil_ ∉ (P.plug t).addrs := h.1.rep.nil_not_mem
  cases P with
  | top =>
    exfalso
    exact hc.1 h.1.root.symm
  | left cp p kp w up =>
    obtain ⟨hs, S, P', t', e, rest⟩ := DeleteFixupBody_stepL h hb hpn hpb h3 h4 hroot hc
    refine ⟨fun x hx => ?_, S, P', t', e, rest⟩
    have hm : x ∈ ((Path.left cp p kp w up).plug t).addrs := by
      rw [Path.mem_addrs_plug]
      right
      simp [hs x hx]
    exact ⟨fun e => hnil (e ▸ hm), hm⟩
  | right cp w p kp up =>
    obtain ⟨hs, S, P', t', e, rest⟩ := DeleteFixupBody_stepR h hb hpn hpb h3 h4 hroot hc
    refine ⟨fun x hx => ?_, S, P', t', e, rest⟩
    have hm : x ∈ ((Path.right cp w p kp up).plug t).addrs := by
      rw [Path.mem_addrs_plug]
      right
      simp [hs x hx]
    exact ⟨fun e => hnil (e ▸ hm), hm⟩

/-- At every test of the loop of `DeleteFixup` the variable `node` designates a subtree of the
tree, which still has the nodes it started with, and while the loop continues the tree is one
black node short at `node`. -/
theorem DeleteFixupIter_inv {s0 : RedBlackTree K V} {P0 : Path K V} {t0 : Tree K V}
    (h0 : FocusShape s0 P0 t0) (hb0 : SentinelBlack s0)
    (hpn : P0.NoRedRed) (hpb : P0.Bal (t0.bh + 1)) (h3 : t0.Bal)
    (h4 : (t0.paint Color.BLACK).NoRedRed) (hroot : (P0.plug leaf).rootColor = Color.BLACK)
    {s : RedBlackTree K V} {node : Nat}
    (hi : DeleteFixupIter s0 (t0.rootAddr s0.nil_) s node) :
    ∃ (P : Path K V) (t : Tree K V), FocusShape s P t ∧ t.rootAddr s.nil_ = node
      ∧ SentinelBlack s ∧ Frame s0 s ∧ (P.plug t).toList = (P0.plug t0).toList
      ∧ (DeleteFixupCond s node →
          P.NoRedRed ∧ P.Bal (t.bh + 1) ∧ t.Bal ∧ (t.paint Color.BLACK).NoRedRed
            ∧ (P.plug leaf).rootColor = Color.BLACK) := by
  induction hi with
  | start =>
    exact ⟨P0, t0, h0, rfl, hb0, Frame.refl _, rfl, fun _ => ⟨hpn, hpb, h3, h4, hroot⟩⟩
  | pass hi hc hbody ih =>
    obtain ⟨P, t, hs, rfl, hb, hfr, hl, hr⟩ := ih
    obtain ⟨j1, j2, j3, j4, j5⟩ := hr hc
    obtain ⟨-, S, P', t', e, hs', hfr', hl', -, hr'⟩ :=
      DeleteFixupBody_step hs hb j1 j2 j3 j4 j5 hc
    rw [e] at hbody
    simp only [Option.some.injEq, Prod.mk.injEq] at hbody
    obtain ⟨rfl, rfl⟩ := hbody
    refine ⟨P', t', hs', by rw [hfr'.nil_], hfr'.sentinelBlack hb, hfr.trans hfr',
      hl'.trans hl, fun hc' => (hr' hc').2⟩

/-- The loop of `DeleteFixup` on a tree that is one black node short at `node`: it returns, and
in every pass through the body the values of `sibling` are live nodes, not the sentinel, the
body ends no farther from the root, and strictly closer when the loop continues. -/
theorem DeleteFixup_run {s0 : RedBlackTree K V} {P0 : Path K V} {t0 : Tree K V}
    (h0 : FocusShape s0 P0 t0) (hb0 : SentinelBlack s0)
    (hpn : P0.NoRedRed) (hpb : P0.Bal (t0.bh + 1)) (h3 : t0.Bal)
    (h4 : (t0.paint Color.BLACK).NoRedRed) (hroot : (P0.plug leaf).rootColor = Color.BLACK) :
    (∃ r, DeleteFixupLoop s0.brk s0 (t0.rootAddr s0.nil_) = some r)
      ∧ ∀ (s : RedBlackTree K V) (node : Nat),
          DeleteFixupIter s0 (t0.rootAddr s0.nil_) s node → DeleteFixupCond s node →
          (∀ x ∈ DeleteFixupSiblings s node, x ≠ s.nil_ ∧ Live s x)
            ∧ ∃ (s' : RedBlackTree K V) (node' : Nat),
                DeleteFixupBody s node = some (s', node')
                ∧ (∀ fuel, DeleteFixupLoop (fuel + 1) s node = DeleteFixupLoop fuel s' node')
                ∧ ∃ d d', stepsToRoot s s.brk node = some d
                    ∧ stepsToRoot s' s'.brk node' = some d'
                    ∧ d' ≤ d ∧ (DeleteFixupCond s' node' → d' < d) := by
  refine ⟨?_, fun s node hi hc => ?_⟩
  · obtain ⟨T, hT, -⟩ := delFix_inv P0 t0 hpn hpb h3 h4 hroot
    obtain ⟨s', e, -, -⟩ := DeleteFixup_sim P0 t0 s0 s0.brk T h0 hb0 hT
      (by have := h0.1.depth_lt; omega)
    cases hr : DeleteFixupLoop s0.brk s0 (t0.rootAddr s0.nil_) with
    | none => simp [hr] at e
    | some r => exact ⟨r, rfl⟩
  · obtain ⟨P, t, hs, rfl, hb, hfr, hl, hr⟩ :=
      DeleteFixupIter_inv h0 hb0 hpn hpb h3 h4 hroot hi
    obtain ⟨j1, j2, j3, j4, j5⟩ := hr hc
    obtain ⟨hsib, S, P', t', e, hs', hfr', hl', hd, hr'⟩ :=
      DeleteFixupBody_step hs hb j1 j2 j3 j4 j5 hc
    refine ⟨fun x hx => ⟨(hsib x hx).1, _, hs.1, (hsib x hx).2⟩, S, _, e, fun fuel => ?_,
      P.depth, P'.depth, ?_, ?_, hd, fun hc' => (hr' hc').1⟩
    · rw [DeleteFixupLoop_pass fuel _ _ hc, e]; rfl
    · exact stepsToRoot_focus P t s s.brk hs (by have := hs.1.depth_lt; omega)
    · have := stepsToRoot_focus P' t' S S.brk hs' (by have := hs'.1.depth_lt; omega)
      rw [hfr'.nil_] at this
      exact this

end RBT

namespace RBT

variable {K V : Type}

open RedBlackTree Tree

theorem state4_invariants : Invariants state4 tree4 := by
  refine ⟨⟨⟨rfl, ?_, by decide, by decide, by decide⟩, rfl, fun _ => rfl, ?_, ?_⟩, ?_⟩
  · exact ⟨by decide, rfl, ⟨by decide, rfl, trivial, trivial⟩,
      ⟨by decide, rfl, trivial, ⟨by decide, rfl, trivial, trivial⟩⟩⟩
  · simp [tree4]
  · rw [blackBalanced_iff_bal]; simp [tree4]
  · simp [tree4, Ordered]

/-- `Delete` is its statements up to the decision about `DeleteFixup`, followed by that
decision and the deallocation. -/
theorem Delete_eq_unlink (s : RedBlackTree K V) (pos : Nat) :
    Delete s pos = (DeleteUnlink s pos).bind fun r => finishDelete r.1 r.2.2 r.2.1 pos := by
  unfold Delete DeleteUnlink
  dsimp only
  split_ifs
  · rfl
  · rfl
  · cases TreeMinimum s s.brk (s.heap pos).right <;> rfl

/-- The tree is one black node short where a BLACK node with at most one child was replaced
by that child. -/
theorem deficit_of_removed {P : Path K V} {tl tr ch : Tree K V} {n : Nat} {kn : K × V}
    (hn : (P.plug (node Color.BLACK tl n kn tr)).NoRedRed)
    (hb : (P.plug (node Color.BLACK tl n kn tr)).Bal)
    (hroot : (P.plug (node Color.BLACK tl n kn tr)).rootColor = Color.BLACK)
    (hch : (tl = leaf ∧ ch = tr) ∨ (tr = leaf ∧ ch = tl)) :
    P.NoRedRed ∧ P.Bal (ch.bh + 1) ∧ ch.Bal ∧ (ch.paint Color.BLACK).NoRedRed
      ∧ (P.plug leaf).rootColor = Color.BLACK := by
  rw [Path.noRedRed_plug] at hn
  rw [Path.bal_plug] at hb
  obtain ⟨hPn, hnn, hpc⟩ := hn
  obtain ⟨hnb, hPb⟩ := hb
  simp only [noRedRed_node, bal_node, bh_node, rootColor_node, if_true] at hnn hnb hPb hpc
  have hchn : ch.NoRedRed := by
    rcases hch with ⟨-, rfl⟩ | ⟨-, rfl⟩
    exacts [hnn.2.2, hnn.2.1]
  have hchb : ch.Bal := by
    rcases hch with ⟨-, rfl⟩ | ⟨-, rfl⟩
    exacts [hnb.2.2, hnb.2.1]
  have hbh : ch.bh = tl.bh := by
    rcases hch with ⟨-, rfl⟩ | ⟨-, rfl⟩
    exacts [hnb.1.symm, rfl]
  exact ⟨hPn, by rw [hbh]; exact hPb, hchb, hchn.paint_black,
    rootColor_plug_up P _ _ _ _ _ hroot⟩

/-- The statements of `Delete` before the decision about `DeleteFixup` leave the child of the
unlinked node in its place. -/
theorem DeleteUnlink_spec {s : RedBlackTree K V} {P : Path K V} {c : Color} {l r : Tree K V}
    {x : Nat} {kv : K × V} (hsh : Shape s (P.plug (node c l x kv r)))
    (hsb : SentinelBlack s) (hn : (P.plug (node c l x kv r)).NoRedRed)
    (hb : (P.plug (node c l x kv r)).Bal)
    (hroot : (P.plug (node c l x kv r)).rootColor = Color.BLACK) :
    ∃ (s1 : RedBlackTree K V) (P1 : Path K V) (ch : Tree K V) (cn : Color) (tl tr : Tree K V)
        (n : Nat) (kn : K × V),
      DeleteUnlink s x = some (s1, ch.rootAddr s1.nil_, decide (cn = Color.BLACK))
        ∧ FocusShape s1 P1 ch ∧ SentinelBlack s1
        ∧ (P1.plug (node cn tl n kn tr)).NoRedRed ∧ (P1.plug (node cn tl n kn tr)).Bal
        ∧ (P1.plug (node cn tl n kn tr)).rootColor = Color.BLACK
        ∧ ((tl = leaf ∧ ch = tr) ∨ (tr = leaf ∧ ch = tl)) := by
  obtain ⟨hxn, hxrec⟩ := hsh.focus
  obtain ⟨hlrep, hrrep⟩ := hsh.focus_children
  by_cases hl : l = leaf
  · subst hl
    obtain ⟨hF, e1, e2, e3, e4, -⟩ := @Transplant_shape _ _ _ _ _ _ _ r _ _ hsh (Or.inr rfl)
    have hsb1 : SentinelBlack (Transplant s x (r.rootAddr s.nil_)) := by
      unfold SentinelBlack
      rw [e1, e4]; exact hsb
    refine ⟨_, P, r, c, leaf, r, x, kv, ?_, hF, hsb1, hn, hb, hroot, Or.inl ⟨rfl, rfl⟩⟩
    unfold DeleteUnlink
    simp only [hxrec, rootAddr_leaf, if_true, e1]
  by_cases hr : r = leaf
  · subst hr
    obtain ⟨hF, e1, e2, e3, e4, -⟩ := @Transplant_shape _ _ _ _ _ _ _ l _ _ hsh (Or.inl rfl)
    have hln : l.rootAddr s.nil_ ≠ s.nil_ := fun e => hl (hlrep.rootAddr_eq_nil.1 e)
    have hsb1 : SentinelBlack (Transplant s x (l.rootAddr s.nil_)) := by
      unfold SentinelBlack
      rw [e1, e4]; exact hsb
    refine ⟨_, P, l, c, l, leaf, x, kv, ?_, hF, hsb1, hn, hb, hroot, Or.inr ⟨rfl, rfl⟩⟩
    unfold DeleteUnlink
    simp only [hxrec, rootAddr_leaf, if_true, hln, if_false, e1]
  have hln : l.rootAddr s.nil_ ≠ s.nil_ := fun e => hl (hlrep.rootAddr_eq_nil.1 e)
  have hrn : r.rootAddr s.nil_ ≠ s.nil_ := fun e => hr (hrrep.rootAddr_eq_nil.1 e)
  obtain ⟨cy, y, ky, ry, hy⟩ := zoomMin_node r .top hr
  have hmin := TreeMinimum_sim r (.right c l x kv P) s s.brk hsh hr (by
    have h1 := hsh.size_lt
    have h2 := height_le_size r
    rw [Path.size_plug] at h1
    simp only [size] at h1
    omega)
  have happ := zoomMin_append r .top (.right c l x kv P)
  simp only [Path.append_top] at happ
  rw [happ, hy] at hmin
  simp only [rootAddr_node] at hmin
  obtain ⟨mp, hmp⟩ : ∃ mp : Path K V, r = mp.plug (node cy leaf y ky ry) := by
    refine ⟨(zoomMin r .top).1, ?_⟩
    rw [← hy]; exact (zoomMin_plug r .top).symm
  subst hmp
  obtain ⟨cl, ll, la, kl, lr, rfl⟩ : ∃ cl ll la kl lr, l = node cl ll la kl lr := by
    cases l with
    | leaf => exact absurd rfl hl
    | node cl ll la kl lr => exact ⟨cl, ll, la, kl, lr, rfl⟩
  have hP : Shape s ((mp.append (.right c (node cl ll la kl lr) x kv P)).plug
      (node cy leaf y ky ry)) := by
    rw [Path.plug_append]; exact hsh
  obtain ⟨-, hyrec⟩ := hP.focus
  have hyc : (s.heap y).color = cy := by rw [hyrec]
  have hyr : (s.heap y).right = ry.rootAddr s.nil_ := by rw [hyrec]
  obtain ⟨hF, e1, e2, e3, e4⟩ :
      FocusShape (relinkSuccessor s x y)
        (mp.append (.right c (node cl ll la kl lr) y ky P)) ry
      ∧ (relinkSuccessor s x y).nil_ = s.nil_ ∧ (relinkSuccessor s x y).brk = s.brk
      ∧ (relinkSuccessor s x y).freed = s.freed
      ∧ ((relinkSuccessor s x y).heap s.nil_).color = (s.heap s.nil_).color := by
    by_cases hmp : mp = .top
    · subst hmp
      exact relink_child_shape hsh
    · exact relink_deep_shape hsh hmp
  have hsb1 : SentinelBlack (relinkSuccessor s x y) := by
    unfold SentinelBlack
    rw [e1, e4]; exact hsb
  have hn' : ((mp.append (.right c (node cl ll la kl lr) y ky P)).plug
      (node cy leaf y ky ry)).NoRedRed := by
    rw [Path.plug_append]
    show (P.plug (node c (node cl ll la kl lr) y ky (mp.plug (node cy leaf y ky ry)))).NoRedRed
    rw [Path.noRedRed_plug P] at hn ⊢
    exact hn
  have hb' : ((mp.append (.right c (node cl ll la kl lr) y ky P)).plug
      (node cy leaf y ky ry)).Bal := by
    rw [Path.plug_append]
    show (P.plug (node c (node cl ll la kl lr) y ky (mp.plug (node cy leaf y ky ry)))).Bal
    rw [Path.bal_plug P] at hb ⊢
    exact hb
  have hroot' : ((mp.append (.right c (node cl ll la kl lr) y ky P)).plug
      (node cy leaf y ky ry)).rootColor = Color.BLACK := by
    rw [Path.plug_append, ← hroot]
    exact rootColor_plug_node ..
  refine ⟨_, _, ry, cy, leaf, ry, y, ky, ?_, hF, hsb1, hn', hb', hroot', Or.inl ⟨rfl, rfl⟩⟩
  have hxl : (s.heap x).left ≠ s.nil_ := by rw [hxrec]; exact hln
  have hxr : (s.heap x).right ≠ s.nil_ := by rw [hxrec]; exact hrn
  have hmin' : TreeMinimum s s.brk (s.heap x).right = some y := by rw [hxrec]; exact hmin
  unfold DeleteUnlink
  simp only [hxl, hxr, if_false, hmin', hyc, hyr, e1]

/-- Both loops are entered in `state4`: `Insert` of the key 10 links the node 6 under the RED
node 5, whose parent 4 is the grandparent, and `Delete` of the BLACK leaf 3 starts `DeleteFixup`
on the sentinel with the sibling 4. -/
theorem fixup_loops_entered_state4 :
    DescendLoop state4 10 state4.brk .root state4.nil_ = some (.inr (Slot.right 5, 5))
      ∧ InsertFixupCond (linkNode state4 (Slot.right 5) 5 (10, 100)) 6
      ∧ InsertFixupGrandparent (linkNode state4 (Slot.right 5) 5 (10, 100)) 6 = 4
      ∧ DeleteUnlink state4 3 = some (Transplant state4 3 1, 1, true)
      ∧ DeleteFixupCond (Transplant state4 3 1) 1
      ∧ DeleteFixupSiblings (Transplant state4 3 1) 1 = [4, 4, 4] :=
  ⟨rfl, rfl, rfl, rfl, ⟨by decide, rfl⟩, rfl⟩

end RBT

namespace RBT

variable {K V : Type}

open RedBlackTree Tree

/-- C20: the fixup loops terminate and never step outside the tree.  For every tree with
invariants 1 to 5:

* `Insert` of an absent key ends its descent at an empty slot, and in the state `s1` in which
  it calls `InsertFixup` on the freshly linked RED node `brk` the loop returns; at every test of
  the loop that holds, the grandparent read by the body is a live node and not the sentinel,
  and the pass through the body ends at a node with strictly fewer parent links up to the
  root.
* `Delete` at a live node reaches the decision about `DeleteFixup` in a state `s1` with the
  replacement node `x`; when a BLACK node was removed the loop of `DeleteFixup` returns, and in
  every pass through the body each value of the variable `sibling` is a live node and not the
  sentinel, and the pass ends no farther from the root, and strictly closer when the loop
  continues. -/
theorem fixup_loops_terminate_inside_tree [LinearOrder K] {s : RedBlackTree K V} {T : Tree K V}
    (h : Invariants s T) :
    (∀ (key : K) (v : V), key ∉ T.keys →
      ∃ (now_ptr : Slot) (parent : Nat),
        DescendLoop s key s.brk .root s.nil_ = some (.inr (now_ptr, parent))
        ∧ ∀ s1 : RedBlackTree K V, s1 = linkNode s now_ptr parent (key, v) →
          linkNew s now_ptr parent (key, v)
            = (InsertFixup s1 s.brk).map (fun s' => (s', s.brk))
          ∧ (∃ s', InsertFixupLoop s1.brk s1 s.brk = some s')
          ∧ ∀ (s2 : RedBlackTree K V) (node : Nat),
              InsertFixupIter s1 s.brk s2 node → InsertFixupCond s2 node →
              InsertFixupGrandparent s2 node ≠ s2.nil_
                ∧ Live s2 (InsertFixupGrandparent s2 node)
                ∧ (∀ fuel, InsertFixupLoop (fuel + 1) s2 node
                    = InsertFixupLoop fuel (InsertFixupBody s2 node).1
                        (InsertFixupBody s2 node).2)
                ∧ ∃ d d', stepsToRoot s2 s2.brk node = some d
                    ∧ stepsToRoot (InsertFixupBody s2 node).1 (InsertFixupBody s2 node).1.brk
                        (InsertFixupBody s2 node).2 = some d'
                    ∧ d' < d)
    ∧ (∀ pos ∈ T.addrs,
      ∃ (s1 : RedBlackTree K V) (x : Nat) (b : Bool),
        DeleteUnlink s pos = some (s1, x, b)
        ∧ Delete s pos = finishDelete s1 b x pos
        ∧ (b = true →
          (∃ r, DeleteFixupLoop s1.brk s1 x = some r)
          ∧ ∀ (s2 : RedBlackTree K V) (node : Nat),
              DeleteFixupIter s1 x s2 node → DeleteFixupCond s2 node →
              (∀ w ∈ DeleteFixupSiblings s2 node, w ≠ s2.nil_ ∧ Live s2 w)
                ∧ ∃ (s3 : RedBlackTree K V) (node' : Nat),
                    DeleteFixupBody s2 node = some (s3, node')
                    ∧ (∀ fuel, DeleteFixupLoop (fuel + 1) s2 node
                        = DeleteFixupLoop fuel s3 node')
                    ∧ ∃ d d', stepsToRoot s2 s2.brk node = some d
                        ∧ stepsToRoot s3 s3.brk node' = some d'
                        ∧ d' ≤ d ∧ (DeleteFixupCond s3 node' → d' < d))) := by
  have hbal := (blackBalanced_iff_bal T).1 h.balanced
  have hrootT := (h.shape.rootBlack_iff h.sentinel).1 h.rootBlack
  refine ⟨fun key v hk => ?_, fun pos hpos => ?_⟩
  · have hleaf := zoom_leaf_of_not_mem key T .top hk
    have hplug := zoom_plug key T .top
    rw [hleaf, Path.plug_top] at hplug
    have hsh : Shape s ((zoom key T .top).1.plug leaf) := by rw [hplug]; exact h.shape
    have hdesc := DescendLoop_sim key T .top s s.brk h.shape (by
      have := h.shape.size_lt; have := height_le_size T; omega)
    simp only [Path.slot, Path.parentAddr_top] at hdesc
    refine ⟨(zoom key T .top).1.slot, (zoom key T .top).1.parentAddr s.nil_, ?_, ?_⟩
    · rw [hdesc, show zoom key T Path.top = ((zoom key T Path.top).1, (zoom key T Path.top).2)
        from rfl, hleaf]
      rfl
    · rintro s1 rfl
      obtain ⟨h1, e_nil, e_brk, e_fr, e_sent⟩ := link_shape hsh (key, v)
        (linkNode s (zoom key T .top).1.slot ((zoom key T .top).1.parentAddr s.nil_) (key, v))
        (by
          unfold linkNode
          simp only [setColor_nil_, setRight_nil_, setLeft_nil_, setParent_nil_,
            writeSlot_nil_, show (s.allocNode (key, v)).nil_ = s.nil_ from rfl])
      have hb1 : SentinelBlack (linkNode s (zoom key T .top).1.slot
          ((zoom key T .top).1.parentAddr s.nil_) (key, v)) := by
        unfold SentinelBlack
        rw [e_nil, e_sent]; exact h.sentinel
      have hroot : ((zoom key T .top).1.plug leaf).rootColor = Color.BLACK := by
        rw [hplug]; exact hrootT
      have run := InsertFixup_run h1 (by simp) hb1 hroot
      simp only [rootAddr_node] at run
      exact ⟨rfl, run.1, run.2⟩
  · obtain ⟨P, c, l, kv, r, rfl⟩ := Tree.exists_focus_addr T hpos
    obtain ⟨s1, P1, ch, cn, tl, tr, n, kn, e, hF, hsb1, hn1, hb1, hr1, hch⟩ :=
      DeleteUnlink_spec h.shape h.sentinel h.noRedRed hbal hrootT
    refine ⟨s1, ch.rootAddr s1.nil_, decide (cn = Color.BLACK), e, ?_, fun hbt => ?_⟩
    · rw [Delete_eq_unlink, e]; rfl
    · have hcn : cn = Color.BLACK := of_decide_eq_true hbt
      subst hcn
      obtain ⟨j1, j2, j3, j4, j5⟩ := deficit_of_removed hn1 hb1 hr1 hch
      exact DeleteFixup_run hF hsb1 j1 j2 j3 j4 j5

theorem fixup_loops_terminate_inside_tree_witness :
    Invariants state4 tree4 ∧
      ((∀ (key : Nat) (v : Nat), key ∉ tree4.keys →
        ∃ (now_ptr : Slot) (parent : Nat),
          DescendLoop state4 key state4.brk .root state4.nil_ = some (.inr (now_ptr, parent))
          ∧ ∀ s1 : RedBlackTree Nat Nat, s1 = linkNode state4 now_ptr parent (key, v) →
            linkNew state4 now_ptr parent (key, v)
              = (InsertFixup s1 state4.brk).map (fun s' => (s', state4.brk))
            ∧ (∃ s', InsertFixupLoop s1.brk s1 state4.brk = some s')
            ∧ ∀ (s2 : RedBlackTree Nat Nat) (node : Nat),
                InsertFixupIter s1 state4.brk s2 node → InsertFixupCond s2 node →
                InsertFixupGrandparent s2 node ≠ s2.nil_
                  ∧ Live s2 (InsertFixupGrandparent s2 node)
                  ∧ (∀ fuel, InsertFixupLoop (fuel + 1) s2 node
                      = InsertFixupLoop fuel (InsertFixupBody s2 node).1
                          (InsertFixupBody s2 node).2)
                  ∧ ∃ d d', stepsToRoot s2 s2.brk node = some d
                      ∧ stepsToRoot (InsertFixupBody s2 node).1
                          (InsertFixupBody s2 node).1.brk (InsertFixupBody s2 node).2 = some d'
                      ∧ d' < d)
      ∧ (∀ pos ∈ tree4.addrs,
        ∃ (s1 : RedBlackTree Nat Nat) (x : Nat) (b : Bool),
          DeleteUnlink state4 pos = some (s1, x, b)
          ∧ Delete state4 pos = finishDelete s1 b x pos
          ∧ (b = true →
            (∃ r, DeleteFixupLoop s1.brk s1 x = some r)
            ∧ ∀ (s2 : RedBlackTree Nat Nat) (node : Nat),
                DeleteFixupIter s1 x s2 node → DeleteFixupCond s2 node →
                (∀ w ∈ DeleteFixupSiblings s2 node, w ≠ s2.nil_ ∧ Live s2 w)
                  ∧ ∃ (s3 : RedBlackTree Nat Nat) (node' : Nat),
                      DeleteFixupBody s2 node = some (s3, node')
                      ∧ (∀ fuel, DeleteFixupLoop (fuel + 1) s2 node
                          = DeleteFixupLoop fuel s3 node')
                      ∧ ∃ d d', stepsToRoot s2 s2.brk node = some d
                          ∧ stepsToRoot s3 s3.brk node' = some d'
                          ∧ d' ≤ d ∧ (DeleteFixupCond s3 node' → d' < d)))) :=
  ⟨state4_invariants, fixup_loops_terminate_inside_tree state4_invariants⟩

end RBT

namespace RBT

variable {K V : Type}

open RedBlackTree Tree

/-- What `Find` returns is a live node, unless it is `End()`. -/
theorem mem_addrs_of_Find [LinearOrder K] {s : RedBlackTree K V} {t : Tree K V}
    (h : Invariants s t) {k : K} {p : Nat} (hf : Find s k = some p) (hp : p ≠ End s) :
    p ∈ t.addrs := by
  by_cases hk : k ∈ t.keys
  · obtain ⟨a, v, hm⟩ := exists_mem_toList_of_mem_keys hk
    rw [Find_present h.shape h.ordered hm] at hf
    simp only [Option.some.injEq] at hf
    subst hf
    exact mem_addrs_of_mem_toList hm
  · rw [Find_absent h.shape hk] at hf
    simp only [Option.some.injEq] at hf
    exact absurd hf.symm hp

theorem afterErase_eq [LinearOrder K] {s s' : RedBlackTree K V} {k : K} {p : Nat}
    (hf : Find s k = some p) (hd : Delete s p = some s') : afterErase s k = s' := by
  simp [afterErase, erase, hf, hd]

theorem Reachable.afterErase [LinearOrder K] [Inhabited K] [Inhabited V]
    {s : RedBlackTree K V} (h : Reachable s) {k : K} {p : Nat} (hf : Find s k = some p)
    (hp : p ≠ End s) : Reachable (afterErase s k) := by
  obtain ⟨t, ht⟩ := h.invariants
  have hm := mem_addrs_of_Find ht hf hp
  obtain ⟨s', t', e, -⟩ := Delete_invariants ht hm
  rw [afterErase_eq hf e]
  exact Reachable.delete h ⟨t, ht.shape, hm⟩ e

theorem ReachableIdx.afterErase_idx [LinearOrder K] [Inhabited K] [Inhabited V]
    {s : RedBlackTree K V} (h : ReachableIdx s) {k : K} {p : Nat} (hf : Find s k = some p)
    (hp : p ≠ End s) : ReachableIdx (afterErase s k) := by
  obtain ⟨t, ht⟩ := h.invariants_idx
  have hm := mem_addrs_of_Find ht hf hp
  obtain ⟨s', t', e, -⟩ := Delete_invariants ht hm
  rw [afterErase_eq hf e]
  exact ReachableIdx.delete h ⟨t, ht.shape, hm⟩ e

theorem ReachableIdx.afterIndex_idx [LinearOrder K] [Inhabited K] [Inhabited V]
    {s : RedBlackTree K V} (h : ReachableIdx s) (key : K) : ReachableIdx (afterIndex s key) := by
  obtain ⟨t, ht⟩ := h.invariants_idx
  obtain ⟨s', p, b, t', e, -⟩ := Insert_invariants ht (key, default)
  have e' := index_eq_of_Insert e
  have hs : afterIndex s key = s' := by simp [afterIndex, e']
  rw [hs]
  exact ReachableIdx.index h e'

/-- The state `stateWalk` is reached by five calls of `Insert` and one of `Delete`. -/
theorem stateWalk_reachable : Reachable stateWalk :=
  ((((((Reachable.new mem0).afterInsert (5, 50)).afterInsert (3, 30)).afterInsert
    (8, 80)).afterInsert (9, 90)).afterInsert (10, 100)).afterErase
      (p := 3) (by decide!) (by decide!)

/-- The walk in `stateWalk`, evaluated: `Begin()` descends from the root 5 to the node 2, and
`operator++` visits the nodes 4, 5, 6 and then `End()`; the keys are 5, 8, 9, 10. -/
theorem stateWalk_walk :
    stateWalk.root_ = 5 ∧ stateWalk.nil_ = 1 ∧ Begin stateWalk = some 2
      ∧ TreeSuccessor stateWalk 2 = some 4 ∧ TreeSuccessor stateWalk 4 = some 5
      ∧ TreeSuccessor stateWalk 5 = some 6 ∧ TreeSuccessor stateWalk 6 = some 1
      ∧ inorder stateWalk = some [5, 8, 9, 10] := by
  decide!

theorem inorder_walk_sorted_witness :
    Reachable stateWalk ∧ stateWalk.root_ ≠ stateWalk.nil_ ∧
      ∃ t b, Shape stateWalk t ∧ Begin stateWalk = some b
        ∧ (∀ i, i ≤ t.size → advance stateWalk i b = (t.addrs ++ [End stateWalk])[i]?)
        ∧ t.addrs.length = t.size ∧ End stateWalk ∉ t.addrs
        ∧ (t.addrs.map fun a => (stateWalk.heap a).value.1) = t.keys
        ∧ t.keys.Pairwise (· < ·)
        ∧ ∀ p k v, (p, k, v) ∈ t.toList →
            ∃ q, TreeSuccessor stateWalk p = some q
              ∧ ((q = End stateWalk ∧ ∀ k' ∈ t.keys, k' ≤ k)
                ∨ ∃ k2 v2, (q, k2, v2) ∈ t.toList ∧ k < k2
                    ∧ ∀ k' ∈ t.keys, k < k' → k2 ≤ k') :=
  ⟨stateWalk_reachable, by decide!,
    inorder_walk_sorted stateWalk stateWalk_reachable (by decide!)⟩

/-- The state `stateIdx` is reached by calls of `Insert`, `operator[]` and `Delete`. -/
theorem stateIdx_reachable : ReachableIdx stateIdx :=
  ((((((ReachableIdx.new mem0).afterInsert_idx (5, 50)).afterInsert_idx (3, 30)).afterInsert_idx
    (8, 80)).afterIndex_idx 9).afterInsert_idx (10, 100)).afterErase_idx
      (p := 3) (by decide!) (by decide!)

/-- The links of `stateIdx`, evaluated: the root 5 (key 9) has the children 2 (key 5) and 6
(key 10), and the node 2 has the right child 4 (key 8); the longest path from the root to the
sentinel has three nodes. -/
theorem stateIdx_links :
    stateIdx.root_ = 5 ∧ stateIdx.nil_ = 1
      ∧ (stateIdx.heap 5).left = 2 ∧ (stateIdx.heap 5).right = 6
      ∧ (stateIdx.heap 2).left = 1 ∧ (stateIdx.heap 2).right = 4
      ∧ (stateIdx.heap 4).left = 1 ∧ (stateIdx.heap 4).right = 1
      ∧ (stateIdx.heap 6).left = 1 ∧ (stateIdx.heap 6).right = 1
      ∧ inorder stateIdx = some [5, 8, 9, 10] := by
  decide!

theorem height_logarithmic_witness :
    ReachableIdx stateIdx ∧
      ∃ t, Shape stateIdx t ∧ t.height ≤ 2 * Nat.log 2 (t.size + 1)
        ∧ 2 ^ t.height ≤ (t.size + 1) ^ 2 :=
  ⟨stateIdx_reachable, height_logarithmic stateIdx stateIdx_reachable⟩

/-- C11, at the failing input: the round trip of the keys 1, 2, 3 from the freshly constructed
tree in zeroed memory.  All calls of `Insert` and of `Delete(Find(k))` return, and in the final
state the root is the sentinel and `Find` of every key returns `End()`; but the left link of
the sentinel, which no call has written, is still the null pointer, and `Begin()`, which starts
`TreeMinimum` at the sentinel, follows it: `Begin()` does not return `End()`. -/
theorem round_trip_Begin_not_End :
    ∃ s1 s2 : RedBlackTree Nat Nat,
      insertAll (RedBlackTree.new mem0) [(1, 10), (2, 20), (3, 30)] = some s1
        ∧ eraseAll s1 [3, 1, 2] = some s2
        ∧ s2.root_ = s2.nil_ ∧ (∀ k, Find s2 k = some (End s2))
        ∧ (s2.heap s2.nil_).left = nullptr
        ∧ Begin s2 = none ∧ Begin s2 ≠ some (End s2) := by
  obtain ⟨s1, s2, e1, e2, hroot, -, hfind⟩ :=
    insert_all_delete_all mem0 [(1, 10), (2, 20), (3, 30)] [3, 1, 2] (by decide) (by decide)
  have hev : ((insertAll (RedBlackTree.new mem0) [(1, 10), (2, 20), (3, 30)]).bind
      fun s1 => eraseAll s1 [3, 1, 2]).map
        (fun s2 => ((s2.heap s2.nil_).left, Begin s2)) = some (0, none) := by
    decide!
  rw [e1] at hev
  simp only [Option.some_bind, e2, Option.map_some', Option.some.injEq, Prod.mk.injEq] at hev
  exact ⟨s1, s2, e1, e2, hroot, hfind, hev.1, hev.2, by rw [hev.2]; simp⟩

end RBT
